import Mathlib

/-!
# WDL FFT (split-radix, after D. J. Bernstein): a verification development

The definitions below are a shallow embedding of `wdlfft.h` (class `WDLFFT<T>`).

* The scalar type `T` of the template is an arbitrary commutative ring (a field where
  the table builder divides); the trigonometric primitives `M_PI`, `F_COS`, `F_SIN`,
  which the header uses but does not define, are parameters of the table builder.
* A `cmplxT<T> *` buffer is a map from element index to complex sample; a pointer
  `a + k` is a buffer together with the offset `k`.
* The static tables (`d16` .. `d32768`, `_idxperm`, `s_tab`, the `ffttabinit` flag) are the
  fields of `Globals`, passed explicitly.
* The statement macros `TRANSFORM` .. `UNTRANSFORMZERO` are functions from the four
  samples they update to their four new values; every C assignment is one `let`,
  and the field `a[k].re` is the local `ak_re`.
-/

namespace WDLFFT

/-- The sample type `cmplxT<T>`: an ordered pair `(re, im)`. -/
@[ext]
structure cmplxT (T : Type) where
  re : T
  im : T
deriving DecidableEq, Repr

/-- A `cmplxT<T> *` buffer, addressed by element index. -/
abbrev Buf (T : Type) := ℕ → cmplxT T

/-- The static data of `WDLFFT<T>`: twiddle tables, cycle tables (`s_tab`), permutation
table (`_idxperm`) and the `ffttabinit` flag of `WDL_fft_init`. The `int32_t` entries of
`s_tab` and `_idxperm` are only ever written with non-negative indices. -/
structure Globals (T : Type) where
  d16 : ℕ → cmplxT T
  d32 : ℕ → cmplxT T
  d64 : ℕ → cmplxT T
  d128 : ℕ → cmplxT T
  d256 : ℕ → cmplxT T
  d512 : ℕ → cmplxT T
  d1024 : ℕ → cmplxT T
  d2048 : ℕ → cmplxT T
  d4096 : ℕ → cmplxT T
  d8192 : ℕ → cmplxT T
  d16384 : ℕ → cmplxT T
  d32768 : ℕ → cmplxT T
  s_tab : ℕ → ℕ
  _idxperm : ℕ → ℕ
  ffttabinit : Bool

/-- A counted loop `for (i = lo; i < hi; ++i) s = body(s, i)`. -/
def forLoop {σ : Type} (lo hi : ℕ) (body : σ → ℕ → σ) (s : σ) : σ :=
  (List.range' lo (hi - lo)).foldl body s

section Kernels

variable {T : Type} [CommRing T]

/-- The macro `sqrthalf`, i.e. `d16[1].re`. -/
def sqrthalf (g : Globals T) : T := (g.d16 1).re

/-- Write four samples back to the cells they were read from. -/
def store4 (a : Buf T) (i0 i1 i2 i3 : ℕ) (r : cmplxT T × cmplxT T × cmplxT T × cmplxT T) :
    Buf T :=
  Function.update (Function.update (Function.update (Function.update a i0 r.1) i1 r.2.1)
    i2 r.2.2.1) i3 r.2.2.2

/-- Apply a four-sample statement macro to the cells `i0 i1 i2 i3` of a buffer. -/
def on4 (f : cmplxT T → cmplxT T → cmplxT T → cmplxT T →
    cmplxT T × cmplxT T × cmplxT T × cmplxT T) (a : Buf T) (i0 i1 i2 i3 : ℕ) : Buf T :=
  store4 a i0 i1 i2 i3 (f (a i0) (a i1) (a i2) (a i3))


/-- Macro `TRANSFORM(a0,a1,a2,a3,wre,wim)`: the general-rotation forward butterfly. -/
def TRANSFORM (a0 a1 a2 a3 : cmplxT T) (wre wim : T) :
    cmplxT T × cmplxT T × cmplxT T × cmplxT T :=
  let a0_re := a0.re
  let a0_im := a0.im
  let a1_re := a1.re
  let a1_im := a1.im
  let a2_re := a2.re
  let a2_im := a2.im
  let a3_re := a3.re
  let a3_im := a3.im
  let t6 := a2_re
  let t1 := a0_re - t6
  let t6 := t6 + a0_re
  let a0_re := t6
  let t3 := a3_im
  let t4 := a1_im - t3
  let t8 := t1 - t4
  let t1 := t1 + t4
  let t3 := t3 + a1_im
  let a1_im := t3
  let t5 := wre
  let t7 := t8 * t5
  let t4 := t1 * t5
  let t8 := t8 * wim
  let t2 := a3_re
  let t3 := a1_re - t2
  let t2 := t2 + a1_re
  let a1_re := t2
  let t1 := t1 * wim
  let t6 := a2_im
  let t2 := a0_im - t6
  let t6 := t6 + a0_im
  let a0_im := t6
  let t6 := t2 + t3
  let t2 := t2 - t3
  let t3 := t6 * wim
  let t7 := t7 - t3
  let a2_re := t7
  let t6 := t6 * t5
  let t6 := t6 + t8
  let a2_im := t6
  let t5 := t5 * t2
  let t5 := t5 - t1
  let a3_im := t5
  let t2 := t2 * wim
  let t4 := t4 + t2
  let a3_re := t4
  (⟨a0_re, a0_im⟩, ⟨a1_re, a1_im⟩, ⟨a2_re, a2_im⟩, ⟨a3_re, a3_im⟩)

/-- Macro `TRANSFORMHALF(a0,a1,a2,a3)`; the global it reads, `sqrthalf`, is an argument. -/
def TRANSFORMHALF (a0 a1 a2 a3 : cmplxT T) (sqrthalf : T) :
    cmplxT T × cmplxT T × cmplxT T × cmplxT T :=
  let a0_re := a0.re
  let a0_im := a0.im
  let a1_re := a1.re
  let a1_im := a1.im
  let a2_re := a2.re
  let a2_im := a2.im
  let a3_re := a3.re
  let a3_im := a3.im
  let t1 := a2_re
  let t5 := a0_re - t1
  let t1 := t1 + a0_re
  let a0_re := t1
  let t4 := a3_im
  let t8 := a1_im - t4
  let t1 := t5 - t8
  let t5 := t5 + t8
  let t4 := t4 + a1_im
  let a1_im := t4
  let t3 := a3_re
  let t7 := a1_re - t3
  let t3 := t3 + a1_re
  let a1_re := t3
  let t8 := a2_im
  let t6 := a0_im - t8
  let t2 := t6 + t7
  let t6 := t6 - t7
  let t8 := t8 + a0_im
  let a0_im := t8
  let t4 := t6 + t5
  let t3 := sqrthalf
  let t4 := t4 * t3
  let a3_re := t4
  let t6 := t6 - t5
  let t6 := t6 * t3
  let a3_im := t6
  let t7 := t1 - t2
  let t7 := t7 * t3
  let a2_re := t7
  let t2 := t2 + t1
  let t2 := t2 * t3
  let a2_im := t2
  (⟨a0_re, a0_im⟩, ⟨a1_re, a1_im⟩, ⟨a2_re, a2_im⟩, ⟨a3_re, a3_im⟩)

/-- Macro `TRANSFORMZERO(a0,a1,a2,a3)`: the zero-rotation forward butterfly. -/
def TRANSFORMZERO (a0 a1 a2 a3 : cmplxT T) :
    cmplxT T × cmplxT T × cmplxT T × cmplxT T :=
  let a0_re := a0.re
  let a0_im := a0.im
  let a1_re := a1.re
  let a1_im := a1.im
  let a2_re := a2.re
  let a2_im := a2.im
  let a3_re := a3.re
  let a3_im := a3.im
  let t5 := a2_re
  let t1 := a0_re - t5
  let t5 := t5 + a0_re
  let a0_re := t5
  let t8 := a3_im
  let t4 := a1_im - t8
  let t7 := a3_re
  let t6 := t1 - t4
  let a2_re := t6
  let t1 := t1 + t4
  let a3_re := t1
  let t8 := t8 + a1_im
  let a1_im := t8
  let t3 := a1_re - t7
  let t7 := t7 + a1_re
  let a1_re := t7
  let t6 := a2_im
  let t2 := a0_im - t6
  let t7 := t2 + t3
  let a2_im := t7
  let t2 := t2 - t3
  let a3_im := t2
  let t6 := t6 + a0_im
  let a0_im := t6
  (⟨a0_re, a0_im⟩, ⟨a1_re, a1_im⟩, ⟨a2_re, a2_im⟩, ⟨a3_re, a3_im⟩)

/-- Macro `UNTRANSFORM(a0,a1,a2,a3,wre,wim)`: the general-rotation inverse butterfly. -/
def UNTRANSFORM (a0 a1 a2 a3 : cmplxT T) (wre wim : T) :
    cmplxT T × cmplxT T × cmplxT T × cmplxT T :=
  let a0_re := a0.re
  let a0_im := a0.im
  let a1_re := a1.re
  let a1_im := a1.im
  let a2_re := a2.re
  let a2_im := a2.im
  let a3_re := a3.re
  let a3_im := a3.im
  let t6 := wre
  let t1 := a2_re
  let t1 := t1 * t6
  let t8 := wim
  let t3 := a2_im
  let t3 := t3 * t8
  let t2 := a2_im
  let t4 := a2_re
  let t5 := a3_re
  let t5 := t5 * t6
  let t7 := a3_im
  let t1 := t1 + t3
  let t7 := t7 * t8
  let t5 := t5 - t7
  let t3 := t5 + t1
  let t5 := t5 - t1
  let t2 := t2 * t6
  let t6 := t6 * a3_im
  let t4 := t4 * t8
  let t2 := t2 - t4
  let t8 := t8 * a3_re
  let t6 := t6 + t8
  let t1 := a0_re - t3
  let t3 := t3 + a0_re
  let a0_re := t3
  let t7 := a1_im - t5
  let t5 := t5 + a1_im
  let a1_im := t5
  let t4 := t2 - t6
  let t6 := t6 + t2
  let t8 := a1_re - t4
  let t4 := t4 + a1_re
  let a1_re := t4
  let t2 := a0_im - t6
  let t6 := t6 + a0_im
  let a0_im := t6
  let a2_re := t1
  let a3_im := t7
  let a3_re := t8
  let a2_im := t2
  (⟨a0_re, a0_im⟩, ⟨a1_re, a1_im⟩, ⟨a2_re, a2_im⟩, ⟨a3_re, a3_im⟩)

/-- Macro `UNTRANSFORMHALF(a0,a1,a2,a3)`; the global it reads, `sqrthalf`, is an argument. -/
def UNTRANSFORMHALF (a0 a1 a2 a3 : cmplxT T) (sqrthalf : T) :
    cmplxT T × cmplxT T × cmplxT T × cmplxT T :=
  let a0_re := a0.re
  let a0_im := a0.im
  let a1_re := a1.re
  let a1_im := a1.im
  let a2_re := a2.re
  let a2_im := a2.im
  let a3_re := a3.re
  let a3_im := a3.im
  let t6 := sqrthalf
  let t1 := a2_re
  let t2 := a2_im - t1
  let t2 := t2 * t6
  let t1 := t1 + a2_im
  let t1 := t1 * t6
  let t4 := a3_im
  let t3 := a3_re - t4
  let t3 := t3 * t6
  let t4 := t4 + a3_re
  let t4 := t4 * t6
  let t8 := t3 - t1
  let t7 := t2 - t4
  let t1 := t1 + t3
  let t2 := t2 + t4
  let t4 := a1_im - t8
  let a3_im := t4
  let t8 := t8 + a1_im
  let a1_im := t8
  let t3 := a1_re - t7
  let a3_re := t3
  let t7 := t7 + a1_re
  let a1_re := t7
  let t5 := a0_re - t1
  let a2_re := t5
  let t1 := t1 + a0_re
  let a0_re := t1
  let t6 := a0_im - t2
  let a2_im := t6
  let t2 := t2 + a0_im
  let a0_im := t2
  (⟨a0_re, a0_im⟩, ⟨a1_re, a1_im⟩, ⟨a2_re, a2_im⟩, ⟨a3_re, a3_im⟩)

/-- Macro `UNTRANSFORMZERO(a0,a1,a2,a3)`: the zero-rotation inverse butterfly. -/
def UNTRANSFORMZERO (a0 a1 a2 a3 : cmplxT T) :
    cmplxT T × cmplxT T × cmplxT T × cmplxT T :=
  let a0_re := a0.re
  let a0_im := a0.im
  let a1_re := a1.re
  let a1_im := a1.im
  let a2_re := a2.re
  let a2_im := a2.im
  let a3_re := a3.re
  let a3_im := a3.im
  let t2 := a3_im
  let t3 := a2_im - t2
  let t2 := t2 + a2_im
  let t1 := a2_re
  let t4 := a3_re - t1
  let t1 := t1 + a3_re
  let t5 := a0_re - t1
  let a2_re := t5
  let t6 := a0_im - t2
  let a2_im := t6
  let t7 := a1_re - t3
  let a3_re := t7
  let t8 := a1_im - t4
  let a3_im := t8
  let t1 := t1 + a0_re
  let a0_re := t1
  let t2 := t2 + a0_im
  let a0_im := t2
  let t3 := t3 + a1_re
  let a1_re := t3
  let t4 := t4 + a1_im
  let a1_im := t4
  (⟨a0_re, a0_im⟩, ⟨a1_re, a1_im⟩, ⟨a2_re, a2_im⟩, ⟨a3_re, a3_im⟩)

/-- Function `c2(a)`, with `a` the buffer at offset `o`. -/
@[nospecialize]
def c2 (a : Buf T) (o : ℕ) : Buf T :=
  let a0_re := (a (o)).re
  let a0_im := (a (o)).im
  let a1_re := (a (o + 1)).re
  let a1_im := (a (o + 1)).im
  let t1 := a1_re
  let a1_re := a0_re - t1
  let a0_re := a0_re + t1
  let t1 := a1_im
  let a1_im := a0_im - t1
  let a0_im := a0_im + t1
  Function.update (Function.update a o ⟨a0_re, a0_im⟩) (o + 1) ⟨a1_re, a1_im⟩

/-- Function `c4(a)`, with `a` the buffer at offset `o`. -/
@[nospecialize]
def c4 (a : Buf T) (o : ℕ) : Buf T :=
  let a0_re := (a (o)).re
  let a0_im := (a (o)).im
  let a1_re := (a (o + 1)).re
  let a1_im := (a (o + 1)).im
  let a2_re := (a (o + 2)).re
  let a2_im := (a (o + 2)).im
  let a3_re := (a (o + 3)).re
  let a3_im := (a (o + 3)).im
  let t5 := a2_re
  let t1 := a0_re - t5
  let t7 := a3_re
  let t5 := t5 + a0_re
  let t3 := a1_re - t7
  let t7 := t7 + a1_re
  let t8 := t5 + t7
  let a0_re := t8
  let t5 := t5 - t7
  let a1_re := t5
  let t6 := a2_im
  let t2 := a0_im - t6
  let t6 := t6 + a0_im
  let t5 := a3_im
  let a2_im := t2 + t3
  let t2 := t2 - t3
  let a3_im := t2
  let t4 := a1_im - t5
  let a3_re := t1 + t4
  let t1 := t1 - t4
  let a2_re := t1
  let t5 := t5 + a1_im
  let a0_im := t6 + t5
  let t6 := t6 - t5
  let a1_im := t6
  store4 a o (o + 1) (o + 2) (o + 3) (⟨a0_re, a0_im⟩, ⟨a1_re, a1_im⟩, ⟨a2_re, a2_im⟩, ⟨a3_re, a3_im⟩)

/-- Write eight consecutive samples back to the buffer at offset `o`. -/
def store8 (a : Buf T) (o : ℕ) (a0 a1 a2 a3 a4 a5 a6 a7 : cmplxT T) : Buf T :=
  store4 (store4 a o (o + 1) (o + 2) (o + 3) (a0, a1, a2, a3))
    (o + 4) (o + 5) (o + 6) (o + 7) (a4, a5, a6, a7)

/-- Function `c8(a)`, with `a` the buffer at offset `o`; its last statement is the call
`c4(a)`. -/
@[nospecialize]
def c8 (g : Globals T) (a : Buf T) (o : ℕ) : Buf T :=
  let sqrthalf := sqrthalf g
  let a0_re := (a (o)).re
  let a0_im := (a (o)).im
  let a1_re := (a (o + 1)).re
  let a1_im := (a (o + 1)).im
  let a2_re := (a (o + 2)).re
  let a2_im := (a (o + 2)).im
  let a3_re := (a (o + 3)).re
  let a3_im := (a (o + 3)).im
  let a4_re := (a (o + 4)).re
  let a4_im := (a (o + 4)).im
  let a5_re := (a (o + 5)).re
  let a5_im := (a (o + 5)).im
  let a6_re := (a (o + 6)).re
  let a6_im := (a (o + 6)).im
  let a7_re := (a (o + 7)).re
  let a7_im := (a (o + 7)).im
  let t7 := a4_im
  let t4 := a0_im - t7
  let t7 := t7 + a0_im
  let a0_im := t7
  let t8 := a6_re
  let t5 := a2_re - t8
  let t8 := t8 + a2_re
  let a2_re := t8
  let t7 := a6_im
  let a6_im := t4 - t5
  let t4 := t4 + t5
  let a4_im := t4
  let t6 := a2_im - t7
  let t7 := t7 + a2_im
  let a2_im := t7
  let t8 := a4_re
  let t3 := a0_re - t8
  let t8 := t8 + a0_re
  let a0_re := t8
  let a4_re := t3 - t6
  let t3 := t3 + t6
  let a6_re := t3
  let t7 := a5_re
  let t3 := a1_re - t7
  let t7 := t7 + a1_re
  let a1_re := t7
  let t8 := a7_im
  let t6 := a3_im - t8
  let t8 := t8 + a3_im
  let a3_im := t8
  let t1 := t3 - t6
  let t3 := t3 + t6
  let t7 := a5_im
  let t4 := a1_im - t7
  let t7 := t7 + a1_im
  let a1_im := t7
  let t8 := a7_re
  let t5 := a3_re - t8
  let t8 := t8 + a3_re
  let a3_re := t8
  let t2 := t4 - t5
  let t4 := t4 + t5
  let t6 := t1 - t4
  let t8 := sqrthalf
  let t6 := t6 * t8
  let a5_re := a4_re - t6
  let t1 := t1 + t4
  let t1 := t1 * t8
  let a5_im := a4_im - t1
  let t6 := t6 + a4_re
  let a4_re := t6
  let t1 := t1 + a4_im
  let a4_im := t1
  let t5 := t2 - t3
  let t5 := t5 * t8
  let a7_im := a6_im - t5
  let t2 := t2 + t3
  let t2 := t2 * t8
  let a7_re := a6_re - t2
  let t2 := t2 + a6_re
  let a6_re := t2
  let t5 := t5 + a6_im
  let a6_im := t5
  c4 (store8 a o ⟨a0_re, a0_im⟩ ⟨a1_re, a1_im⟩ ⟨a2_re, a2_im⟩ ⟨a3_re, a3_im⟩
    ⟨a4_re, a4_im⟩ ⟨a5_re, a5_im⟩ ⟨a6_re, a6_im⟩ ⟨a7_re, a7_im⟩) o

/-- Function `c16(a)`, with `a` the buffer at offset `o`. -/
@[nospecialize]
def c16 (g : Globals T) (a : Buf T) (o : ℕ) : Buf T :=
  let a := on4 TRANSFORMZERO a o (o + 4) (o + 8) (o + 12)
  let a := on4 (fun a0 a1 a2 a3 => TRANSFORM a0 a1 a2 a3 (g.d16 0).re (g.d16 0).im)
    a (o + 1) (o + 5) (o + 9) (o + 13)
  let a := on4 (fun a0 a1 a2 a3 => TRANSFORMHALF a0 a1 a2 a3 (sqrthalf g))
    a (o + 2) (o + 6) (o + 10) (o + 14)
  let a := on4 (fun a0 a1 a2 a3 => TRANSFORM a0 a1 a2 a3 (g.d16 0).im (g.d16 0).re)
    a (o + 3) (o + 7) (o + 11) (o + 15)
  let a := c4 a (o + 8)
  let a := c4 a (o + 12)
  c8 g a o

/-- The `for (;;)` loop of `cpass`, entered with the counter `n` (already decremented)
equal to the first argument; `p p1 p2 p3` are the moving pointers `a a1 a2 a3` and `wo`
the offset of the moving pointer `w` into the table. The source requires `n >= 2`, so the
loop is entered with a positive counter and leaves when it reaches zero. -/
@[nospecialize]
def cpass_loop (w : ℕ → cmplxT T) : ℕ → Buf T → ℕ → ℕ → ℕ → ℕ → ℕ → Buf T
  | 0, a, _, _, _, _, _ => a
  | k + 1, a, p, p1, p2, p3, wo =>
    let a := on4 (fun a0 a1 a2 a3 => TRANSFORM a0 a1 a2 a3 (w (wo + 1)).re (w (wo + 1)).im)
      a (p + 2) (p1 + 2) (p2 + 2) (p3 + 2)
    let a := on4 (fun a0 a1 a2 a3 => TRANSFORM a0 a1 a2 a3 (w (wo + 2)).re (w (wo + 2)).im)
      a (p + 3) (p1 + 3) (p2 + 3) (p3 + 3)
    cpass_loop w k a (p + 2) (p1 + 2) (p2 + 2) (p3 + 2) (wo + 2)

/-- Function `cpass(a,w,n)`: `a[0...8n-1]`, `w[0...2n-2]`, `n >= 2`; `a` is the buffer at
offset `o`. -/
@[nospecialize]
def cpass (a : Buf T) (o : ℕ) (w : ℕ → cmplxT T) (n : ℕ) : Buf T :=
  let a2 := o + 4 * n
  let a1 := o + 2 * n
  let a3 := a2 + 2 * n
  let n := n - 1
  let a := on4 TRANSFORMZERO a o a1 a2 a3
  let a := on4 (fun a0 a1 a2 a3 => TRANSFORM a0 a1 a2 a3 (w 0).re (w 0).im)
    a (o + 1) (a1 + 1) (a2 + 1) (a3 + 1)
  cpass_loop w n a o a1 a2 a3 0

/-- Function `c32(a)`. -/
@[nospecialize]
def c32 (g : Globals T) (a : Buf T) (o : ℕ) : Buf T :=
  let a := cpass a o g.d32 4
  let a := c8 g a (o + 16)
  let a := c8 g a (o + 24)
  c16 g a o

/-- Function `c64(a)`. -/
@[nospecialize]
def c64 (g : Globals T) (a : Buf T) (o : ℕ) : Buf T :=
  let a := cpass a o g.d64 8
  let a := c16 g a (o + 32)
  let a := c16 g a (o + 48)
  c32 g a o

/-- Function `c128(a)`. -/
@[nospecialize]
def c128 (g : Globals T) (a : Buf T) (o : ℕ) : Buf T :=
  let a := cpass a o g.d128 16
  let a := c32 g a (o + 64)
  let a := c32 g a (o + 96)
  c64 g a o

/-- Function `c256(a)`. -/
@[nospecialize]
def c256 (g : Globals T) (a : Buf T) (o : ℕ) : Buf T :=
  let a := cpass a o g.d256 32
  let a := c64 g a (o + 128)
  let a := c64 g a (o + 192)
  c128 g a o

/-- Function `c512(a)`: the source transforms the fourth quarter before the third. -/
@[nospecialize]
def c512 (g : Globals T) (a : Buf T) (o : ℕ) : Buf T :=
  let a := cpass a o g.d512 64
  let a := c128 g a (o + 384)
  let a := c128 g a (o + 256)
  c256 g a o

/-- The first `do ... while (k -= 2)` loop of `cpassbig`, run for the number of
iterations given by the first argument (`(n - 2) / 2` for even `n >= 4`). -/
@[nospecialize]
def cpassbig_loop1 (w : ℕ → cmplxT T) : ℕ → Buf T → ℕ → ℕ → ℕ → ℕ → ℕ → Buf T
  | 0, a, _, _, _, _, _ => a
  | m + 1, a, p, p1, p2, p3, wo =>
    let a := on4 (fun a0 a1 a2 a3 => TRANSFORM a0 a1 a2 a3 (w (wo + 1)).re (w (wo + 1)).im)
      a p p1 p2 p3
    let a := on4 (fun a0 a1 a2 a3 => TRANSFORM a0 a1 a2 a3 (w (wo + 2)).re (w (wo + 2)).im)
      a (p + 1) (p1 + 1) (p2 + 1) (p3 + 1)
    cpassbig_loop1 w m a (p + 2) (p1 + 2) (p2 + 2) (p3 + 2) (wo + 2)

/-- The second `do ... while (k -= 2)` loop of `cpassbig`: the pointer `w` moves down and
the entries are read with real and imaginary parts exchanged. -/
@[nospecialize]
def cpassbig_loop2 (w : ℕ → cmplxT T) : ℕ → Buf T → ℕ → ℕ → ℕ → ℕ → ℕ → Buf T
  | 0, a, _, _, _, _, _ => a
  | m + 1, a, p, p1, p2, p3, wo =>
    let a := on4 (fun a0 a1 a2 a3 => TRANSFORM a0 a1 a2 a3 (w (wo - 1)).im (w (wo - 1)).re)
      a p p1 p2 p3
    let a := on4 (fun a0 a1 a2 a3 => TRANSFORM a0 a1 a2 a3 (w (wo - 2)).im (w (wo - 2)).re)
      a (p + 1) (p1 + 1) (p2 + 1) (p3 + 1)
    cpassbig_loop2 w m a (p + 2) (p1 + 2) (p2 + 2) (p3 + 2) (wo - 2)

/-- Function `cpassbig(a,w,n)`: `a[0...8n-1]`, `w[0...n-2]`, `n` even, `n >= 4`; the global
`sqrthalf` it reads is an argument. Each `do ... while (k -= 2)` loop starts from
`k = n - 2` and so runs `(n - 2) / 2` times. -/
@[nospecialize]
def cpassbig (sqrthalf : T) (a : Buf T) (o : ℕ) (w : ℕ → cmplxT T) (n : ℕ) : Buf T :=
  let a2 := o + 4 * n
  let a1 := o + 2 * n
  let a3 := a2 + 2 * n
  let k := n - 2
  let a := on4 TRANSFORMZERO a o a1 a2 a3
  let a := on4 (fun a0 a1 a2 a3 => TRANSFORM a0 a1 a2 a3 (w 0).re (w 0).im)
    a (o + 1) (a1 + 1) (a2 + 1) (a3 + 1)
  let a := cpassbig_loop1 w (k / 2) a (o + 2) (a1 + 2) (a2 + 2) (a3 + 2) 0
  let p := o + 2 + 2 * (k / 2)
  let p1 := a1 + 2 + 2 * (k / 2)
  let p2 := a2 + 2 + 2 * (k / 2)
  let p3 := a3 + 2 + 2 * (k / 2)
  let wo := 2 * (k / 2)
  let a := on4 (fun a0 a1 a2 a3 => TRANSFORMHALF a0 a1 a2 a3 sqrthalf) a p p1 p2 p3
  let a := on4 (fun a0 a1 a2 a3 => TRANSFORM a0 a1 a2 a3 (w wo).im (w wo).re)
    a (p + 1) (p1 + 1) (p2 + 1) (p3 + 1)
  let k := n - 2
  cpassbig_loop2 w (k / 2) a (p + 2) (p1 + 2) (p2 + 2) (p3 + 2) wo

/-- Function `c1024(a)`. -/
@[nospecialize]
def c1024 (g : Globals T) (a : Buf T) (o : ℕ) : Buf T :=
  let a := cpassbig (sqrthalf g) a o g.d1024 128
  let a := c256 g a (o + 768)
  let a := c256 g a (o + 512)
  c512 g a o

/-- Function `c2048(a)`. -/
@[nospecialize]
def c2048 (g : Globals T) (a : Buf T) (o : ℕ) : Buf T :=
  let a := cpassbig (sqrthalf g) a o g.d2048 256
  let a := c512 g a (o + 1536)
  let a := c512 g a (o + 1024)
  c1024 g a o

/-- Function `c4096(a)`. -/
@[nospecialize]
def c4096 (g : Globals T) (a : Buf T) (o : ℕ) : Buf T :=
  let a := cpassbig (sqrthalf g) a o g.d4096 512
  let a := c1024 g a (o + 3072)
  let a := c1024 g a (o + 2048)
  c2048 g a o

/-- Function `c8192(a)`. -/
@[nospecialize]
def c8192 (g : Globals T) (a : Buf T) (o : ℕ) : Buf T :=
  let a := cpassbig (sqrthalf g) a o g.d8192 1024
  let a := c2048 g a (o + 6144)
  let a := c2048 g a (o + 4096)
  c4096 g a o

/-- Function `c16384(a)`. -/
@[nospecialize]
def c16384 (g : Globals T) (a : Buf T) (o : ℕ) : Buf T :=
  let a := cpassbig (sqrthalf g) a o g.d16384 2048
  let a := c4096 g a (o + 8192 + 4096)
  let a := c4096 g a (o + 8192)
  c8192 g a o

/-- Function `c32768(a)`. -/
@[nospecialize]
def c32768 (g : Globals T) (a : Buf T) (o : ℕ) : Buf T :=
  let a := cpassbig (sqrthalf g) a o g.d32768 4096
  let a := c8192 g a (o + 16384 + 8192)
  let a := c8192 g a (o + 16384)
  c16384 g a o


/-- Function `u4(a)`, with `a` the buffer at offset `o`. -/
@[nospecialize]
def u4 (a : Buf T) (o : ℕ) : Buf T :=
  let a0_re := (a (o)).re
  let a0_im := (a (o)).im
  let a1_re := (a (o + 1)).re
  let a1_im := (a (o + 1)).im
  let a2_re := (a (o + 2)).re
  let a2_im := (a (o + 2)).im
  let a3_re := (a (o + 3)).re
  let a3_im := (a (o + 3)).im
  let t1 := a1_re
  let t3 := a0_re - t1
  let t6 := a2_re
  let t1 := t1 + a0_re
  let t8 := a3_re - t6
  let t6 := t6 + a3_re
  let a0_re := t1 + t6
  let t1 := t1 - t6
  let a2_re := t1
  let t2 := a1_im
  let t4 := a0_im - t2
  let t2 := t2 + a0_im
  let t5 := a3_im
  let a1_im := t4 + t8
  let t4 := t4 - t8
  let a3_im := t4
  let t7 := a2_im - t5
  let t5 := t5 + a2_im
  let a1_re := t3 + t7
  let t3 := t3 - t7
  let a3_re := t3
  let a0_im := t2 + t5
  let t2 := t2 - t5
  let a2_im := t2
  store4 a o (o + 1) (o + 2) (o + 3)
    (⟨a0_re, a0_im⟩, ⟨a1_re, a1_im⟩, ⟨a2_re, a2_im⟩, ⟨a3_re, a3_im⟩)

/-- Function `u8(a)`, with `a` the buffer at offset `o`; its first statement is the call
`u4(a)`. -/
@[nospecialize]
def u8 (g : Globals T) (a : Buf T) (o : ℕ) : Buf T :=
  let sqrthalf := sqrthalf g
  let a := u4 a o
  let a0_re := (a (o)).re
  let a0_im := (a (o)).im
  let a1_re := (a (o + 1)).re
  let a1_im := (a (o + 1)).im
  let a2_re := (a (o + 2)).re
  let a2_im := (a (o + 2)).im
  let a3_re := (a (o + 3)).re
  let a3_im := (a (o + 3)).im
  let a4_re := (a (o + 4)).re
  let a4_im := (a (o + 4)).im
  let a5_re := (a (o + 5)).re
  let a5_im := (a (o + 5)).im
  let a6_re := (a (o + 6)).re
  let a6_im := (a (o + 6)).im
  let a7_re := (a (o + 7)).re
  let a7_im := (a (o + 7)).im
  let t1 := a5_re
  let a5_re := a4_re - t1
  let t1 := t1 + a4_re
  let t3 := a7_re
  let a7_re := a6_re - t3
  let t3 := t3 + a6_re
  let t8 := t3 - t1
  let t1 := t1 + t3
  let t6 := a2_im - t8
  let t8 := t8 + a2_im
  let a2_im := t8
  let t5 := a0_re - t1
  let a4_re := t5
  let t1 := t1 + a0_re
  let a0_re := t1
  let t2 := a5_im
  let a5_im := a4_im - t2
  let t2 := t2 + a4_im
  let t4 := a7_im
  let a7_im := a6_im - t4
  let t4 := t4 + a6_im
  let a6_im := t6
  let t7 := t2 - t4
  let t2 := t2 + t4
  let t3 := a2_re - t7
  let a6_re := t3
  let t7 := t7 + a2_re
  let a2_re := t7
  let t6 := a0_im - t2
  let a4_im := t6
  let t2 := t2 + a0_im
  let a0_im := t2
  let t6 := sqrthalf
  let t1 := a5_re
  let t2 := a5_im - t1
  let t2 := t2 * t6
  let t1 := t1 + a5_im
  let t1 := t1 * t6
  let t4 := a7_im
  let t3 := a7_re - t4
  let t3 := t3 * t6
  let t4 := t4 + a7_re
  let t4 := t4 * t6
  let t8 := t3 - t1
  let t1 := t1 + t3
  let t7 := t2 - t4
  let t2 := t2 + t4
  let t4 := a3_im - t8
  let a7_im := t4
  let t5 := a1_re - t1
  let a5_re := t5
  let t3 := a3_re - t7
  let a7_re := t3
  let t6 := a1_im - t2
  let a5_im := t6
  let t8 := t8 + a3_im
  let a3_im := t8
  let t1 := t1 + a1_re
  let a1_re := t1
  let t7 := t7 + a3_re
  let a3_re := t7
  let t2 := t2 + a1_im
  let a1_im := t2
  store8 a o ⟨a0_re, a0_im⟩ ⟨a1_re, a1_im⟩ ⟨a2_re, a2_im⟩ ⟨a3_re, a3_im⟩
    ⟨a4_re, a4_im⟩ ⟨a5_re, a5_im⟩ ⟨a6_re, a6_im⟩ ⟨a7_re, a7_im⟩

/-- Function `u16(a)`, with `a` the buffer at offset `o`. -/
@[nospecialize]
def u16 (g : Globals T) (a : Buf T) (o : ℕ) : Buf T :=
  let a := u8 g a o
  let a := u4 a (o + 8)
  let a := u4 a (o + 12)
  let a := on4 UNTRANSFORMZERO a o (o + 4) (o + 8) (o + 12)
  let a := on4 (fun a0 a1 a2 a3 => UNTRANSFORMHALF a0 a1 a2 a3 (sqrthalf g))
    a (o + 2) (o + 6) (o + 10) (o + 14)
  let a := on4 (fun a0 a1 a2 a3 => UNTRANSFORM a0 a1 a2 a3 (g.d16 0).re (g.d16 0).im)
    a (o + 1) (o + 5) (o + 9) (o + 13)
  on4 (fun a0 a1 a2 a3 => UNTRANSFORM a0 a1 a2 a3 (g.d16 0).im (g.d16 0).re)
    a (o + 3) (o + 7) (o + 11) (o + 15)

/-- The `for (;;)` loop of `upass`, entered with the counter `n` (already decremented)
equal to the first argument; see `cpass_loop`. -/
@[nospecialize]
def upass_loop (w : ℕ → cmplxT T) : ℕ → Buf T → ℕ → ℕ → ℕ → ℕ → ℕ → Buf T
  | 0, a, _, _, _, _, _ => a
  | k + 1, a, p, p1, p2, p3, wo =>
    let a := on4 (fun a0 a1 a2 a3 => UNTRANSFORM a0 a1 a2 a3 (w (wo + 1)).re (w (wo + 1)).im)
      a (p + 2) (p1 + 2) (p2 + 2) (p3 + 2)
    let a := on4 (fun a0 a1 a2 a3 => UNTRANSFORM a0 a1 a2 a3 (w (wo + 2)).re (w (wo + 2)).im)
      a (p + 3) (p1 + 3) (p2 + 3) (p3 + 3)
    upass_loop w k a (p + 2) (p1 + 2) (p2 + 2) (p3 + 2) (wo + 2)

/-- Function `upass(a,w,n)`: `a[0...8n-1]`, `w[0...2n-2]`; `a` is the buffer at offset
`o`. -/
@[nospecialize]
def upass (a : Buf T) (o : ℕ) (w : ℕ → cmplxT T) (n : ℕ) : Buf T :=
  let a2 := o + 4 * n
  let a1 := o + 2 * n
  let a3 := a2 + 2 * n
  let n := n - 1
  let a := on4 UNTRANSFORMZERO a o a1 a2 a3
  let a := on4 (fun a0 a1 a2 a3 => UNTRANSFORM a0 a1 a2 a3 (w 0).re (w 0).im)
    a (o + 1) (a1 + 1) (a2 + 1) (a3 + 1)
  upass_loop w n a o a1 a2 a3 0

/-- Function `u32(a)`. -/
@[nospecialize]
def u32 (g : Globals T) (a : Buf T) (o : ℕ) : Buf T :=
  let a := u16 g a o
  let a := u8 g a (o + 16)
  let a := u8 g a (o + 24)
  upass a o g.d32 4

/-- Function `u64(a)`. -/
@[nospecialize]
def u64 (g : Globals T) (a : Buf T) (o : ℕ) : Buf T :=
  let a := u32 g a o
  let a := u16 g a (o + 32)
  let a := u16 g a (o + 48)
  upass a o g.d64 8

/-- Function `u128(a)`. -/
@[nospecialize]
def u128 (g : Globals T) (a : Buf T) (o : ℕ) : Buf T :=
  let a := u64 g a o
  let a := u32 g a (o + 64)
  let a := u32 g a (o + 96)
  upass a o g.d128 16

/-- Function `u256(a)`. -/
@[nospecialize]
def u256 (g : Globals T) (a : Buf T) (o : ℕ) : Buf T :=
  let a := u128 g a o
  let a := u64 g a (o + 128)
  let a := u64 g a (o + 192)
  upass a o g.d256 32

/-- Function `u512(a)`. -/
@[nospecialize]
def u512 (g : Globals T) (a : Buf T) (o : ℕ) : Buf T :=
  let a := u256 g a o
  let a := u128 g a (o + 256)
  let a := u128 g a (o + 384)
  upass a o g.d512 64

/-- The first `do ... while (k -= 2)` loop of `upassbig`; see `cpassbig_loop1`. -/
@[nospecialize]
def upassbig_loop1 (w : ℕ → cmplxT T) : ℕ → Buf T → ℕ → ℕ → ℕ → ℕ → ℕ → Buf T
  | 0, a, _, _, _, _, _ => a
  | m + 1, a, p, p1, p2, p3, wo =>
    let a := on4 (fun a0 a1 a2 a3 => UNTRANSFORM a0 a1 a2 a3 (w (wo + 1)).re (w (wo + 1)).im)
      a p p1 p2 p3
    let a := on4 (fun a0 a1 a2 a3 => UNTRANSFORM a0 a1 a2 a3 (w (wo + 2)).re (w (wo + 2)).im)
      a (p + 1) (p1 + 1) (p2 + 1) (p3 + 1)
    upassbig_loop1 w m a (p + 2) (p1 + 2) (p2 + 2) (p3 + 2) (wo + 2)

/-- The second `do ... while (k -= 2)` loop of `upassbig`; see `cpassbig_loop2`. -/
@[nospecialize]
def upassbig_loop2 (w : ℕ → cmplxT T) : ℕ → Buf T → ℕ → ℕ → ℕ → ℕ → ℕ → Buf T
  | 0, a, _, _, _, _, _ => a
  | m + 1, a, p, p1, p2, p3, wo =>
    let a := on4 (fun a0 a1 a2 a3 => UNTRANSFORM a0 a1 a2 a3 (w (wo - 1)).im (w (wo - 1)).re)
      a p p1 p2 p3
    let a := on4 (fun a0 a1 a2 a3 => UNTRANSFORM a0 a1 a2 a3 (w (wo - 2)).im (w (wo - 2)).re)
      a (p + 1) (p1 + 1) (p2 + 1) (p3 + 1)
    upassbig_loop2 w m a (p + 2) (p1 + 2) (p2 + 2) (p3 + 2) (wo - 2)

/-- Function `upassbig(a,w,n)`: `a[0...8n-1]`, `w[0...n-2]`, `n` even, `n >= 4`; the global
`sqrthalf` it reads is an argument. Each `do ... while (k -= 2)` loop starts from
`k = n - 2` and so runs `(n - 2) / 2` times, moving every pointer by two per iteration. -/
@[nospecialize]
def upassbig (sqrthalf : T) (a : Buf T) (o : ℕ) (w : ℕ → cmplxT T) (n : ℕ) : Buf T :=
  let a2 := o + 4 * n
  let a1 := o + 2 * n
  let a3 := a2 + 2 * n
  let k := n - 2
  let a := on4 UNTRANSFORMZERO a o a1 a2 a3
  let a := on4 (fun a0 a1 a2 a3 => UNTRANSFORM a0 a1 a2 a3 (w 0).re (w 0).im)
    a (o + 1) (a1 + 1) (a2 + 1) (a3 + 1)
  let a := upassbig_loop1 w (k / 2) a (o + 2) (a1 + 2) (a2 + 2) (a3 + 2) 0
  let p := o + 2 + 2 * (k / 2)
  let p1 := a1 + 2 + 2 * (k / 2)
  let p2 := a2 + 2 + 2 * (k / 2)
  let p3 := a3 + 2 + 2 * (k / 2)
  let wo := 2 * (k / 2)
  let a := on4 (fun a0 a1 a2 a3 => UNTRANSFORMHALF a0 a1 a2 a3 sqrthalf) a p p1 p2 p3
  let a := on4 (fun a0 a1 a2 a3 => UNTRANSFORM a0 a1 a2 a3 (w wo).im (w wo).re)
    a (p + 1) (p1 + 1) (p2 + 1) (p3 + 1)
  let k := n - 2
  upassbig_loop2 w (k / 2) a (p + 2) (p1 + 2) (p2 + 2) (p3 + 2) wo

/-- Function `u1024(a)`. -/
@[nospecialize]
def u1024 (g : Globals T) (a : Buf T) (o : ℕ) : Buf T :=
  let a := u512 g a o
  let a := u256 g a (o + 512)
  let a := u256 g a (o + 768)
  upassbig (sqrthalf g) a o g.d1024 128

/-- Function `u2048(a)`. -/
@[nospecialize]
def u2048 (g : Globals T) (a : Buf T) (o : ℕ) : Buf T :=
  let a := u1024 g a o
  let a := u512 g a (o + 1024)
  let a := u512 g a (o + 1536)
  upassbig (sqrthalf g) a o g.d2048 256

/-- Function `u4096(a)`. -/
@[nospecialize]
def u4096 (g : Globals T) (a : Buf T) (o : ℕ) : Buf T :=
  let a := u2048 g a o
  let a := u1024 g a (o + 2048)
  let a := u1024 g a (o + 3072)
  upassbig (sqrthalf g) a o g.d4096 512

/-- Function `u8192(a)`. -/
@[nospecialize]
def u8192 (g : Globals T) (a : Buf T) (o : ℕ) : Buf T :=
  let a := u4096 g a o
  let a := u2048 g a (o + 4096)
  let a := u2048 g a (o + 6144)
  upassbig (sqrthalf g) a o g.d8192 1024

/-- Function `u16384(a)`. -/
@[nospecialize]
def u16384 (g : Globals T) (a : Buf T) (o : ℕ) : Buf T :=
  let a := u8192 g a o
  let a := u4096 g a (o + 8192)
  let a := u4096 g a (o + 8192 + 4096)
  upassbig (sqrthalf g) a o g.d16384 2048

/-- Function `u32768(a)`. -/
@[nospecialize]
def u32768 (g : Globals T) (a : Buf T) (o : ℕ) : Buf T :=
  let a := u16384 g a o
  let a := u8192 g a (o + 16384)
  let a := u8192 g a (o + 16384 + 8192)
  upassbig (sqrthalf g) a o g.d32768 4096

/-- Function `fft(buf,len,isInverse)`: the `switch` on `len`; any other `len` falls
through the `switch` and the buffer is returned as it was. -/
@[nospecialize]
def fft (g : Globals T) (buf : Buf T) (len isInverse : ℤ) : Buf T :=
  if len = 2 then c2 buf 0
  else if len = 4 then (if isInverse = 0 then c4 buf 0 else u4 buf 0)
  else if len = 8 then (if isInverse = 0 then c8 g buf 0 else u8 g buf 0)
  else if len = 16 then (if isInverse = 0 then c16 g buf 0 else u16 g buf 0)
  else if len = 32 then (if isInverse = 0 then c32 g buf 0 else u32 g buf 0)
  else if len = 64 then (if isInverse = 0 then c64 g buf 0 else u64 g buf 0)
  else if len = 128 then (if isInverse = 0 then c128 g buf 0 else u128 g buf 0)
  else if len = 256 then (if isInverse = 0 then c256 g buf 0 else u256 g buf 0)
  else if len = 512 then (if isInverse = 0 then c512 g buf 0 else u512 g buf 0)
  else if len = 1024 then (if isInverse = 0 then c1024 g buf 0 else u1024 g buf 0)
  else if len = 2048 then (if isInverse = 0 then c2048 g buf 0 else u2048 g buf 0)
  else if len = 4096 then (if isInverse = 0 then c4096 g buf 0 else u4096 g buf 0)
  else if len = 8192 then (if isInverse = 0 then c8192 g buf 0 else u8192 g buf 0)
  else if len = 16384 then (if isInverse = 0 then c16384 g buf 0 else u16384 g buf 0)
  else if len = 32768 then (if isInverse = 0 then c32768 g buf 0 else u32768 g buf 0)
  else buf

/-- The cast `(cmplxT<T>*)buf` of a `T *` buffer: sample `i` is `(buf[2i], buf[2i+1])`. -/
def asCmplx (buf : ℕ → T) : Buf T := fun i => ⟨buf (2 * i), buf (2 * i + 1)⟩

/-- The `T *` view of a `cmplxT<T> *` buffer (inverse of `asCmplx`). -/
def asReal (a : Buf T) : ℕ → T := fun j => if j % 2 = 0 then (a (j / 2)).re else (a (j / 2)).im

/-- Function `r2(a)` on a `T *` buffer. -/
def r2 (a : ℕ → T) : ℕ → T :=
  let t1 := a 0 + a 1
  let t2 := a 0 - a 1
  Function.update (Function.update a 0 (t1 * 2)) 1 (t2 * 2)

/-- Function `v2(a)` on a `T *` buffer. -/
def v2 (a : ℕ → T) : ℕ → T :=
  let t1 := a 0 + a 1
  let t2 := a 0 - a 1
  Function.update (Function.update a 0 t1) 1 t2

/-- Function `WDL_fft_permute(fftsize,idx)`, i.e. `_idxperm[fftsize + idx - 2]`. -/
def WDL_fft_permute (g : Globals T) (fftsize idx : ℕ) : ℕ := g._idxperm (fftsize + idx - 2)

/-- Function `WDL_fft_permute_tab(fftsize)`, the pointer `&_idxperm[fftsize - 2]` read at
index `i`. -/
def WDL_fft_permute_tab (g : Globals T) (fftsize : ℕ) : ℕ → ℕ :=
  fun i => g._idxperm (fftsize - 2 + i)

/-- One iteration of the `for (i = 1; i < quart; ++i)` loop of `two_for_one`, on the
`cmplxT<T> *` view of the buffer. -/
def two_for_one_step (g : Globals T) (d : ℕ → cmplxT T) (permute : ℕ → ℕ)
    (half quart eighth : ℕ) (isInverse : ℤ) (a : Buf T) (i : ℕ) : Buf T :=
  let p := permute i
  let q := permute (half - i)
  let tw : cmplxT T :=
    if i < eighth then d (i - 1)
    else if i > eighth then d (quart - i - 1)
    else ⟨sqrthalf g, sqrthalf g⟩
  let tw : cmplxT T := if isInverse = 0 then ⟨-tw.re, tw.im⟩ else tw
  let sum_re := (a p).re + (a q).re
  let sum_im := (a p).im + (a q).im
  let diff_re := (a p).re - (a q).re
  let diff_im := (a p).im - (a q).im
  let tw1 := tw.re * sum_im + tw.im * diff_re
  let tw2 := tw.im * sum_im - tw.re * diff_re
  Function.update (Function.update a p ⟨sum_re - tw1, diff_im - tw2⟩)
    q ⟨sum_re + tw1, -(diff_im + tw2)⟩

/-- Function `two_for_one(buf,d,len,isInverse)` on a `T *` buffer. `(uint32_t)len` is
`len` modulo `2^32`; after the loop `i` is `quart`, or `1` when the loop did not run. -/
@[nospecialize]
def two_for_one (g : Globals T) (buf : ℕ → T) (d : ℕ → cmplxT T) (len isInverse : ℤ) :
    ℕ → T :=
  let half := (len % 4294967296).toNat >>> 1
  let quart := half >>> 1
  let eighth := quart >>> 1
  let permute := WDL_fft_permute_tab g half
  let buf := if isInverse = 0 then r2 (asReal (fft g (asCmplx buf) half isInverse)) else v2 buf
  let a := forLoop 1 quart (two_for_one_step g d permute half quart eighth isInverse)
    (asCmplx buf)
  let i := max 1 quart
  let p := permute i
  let a := Function.update a p ⟨(a p).re * 2, (a p).im * (-2)⟩
  let a := if isInverse ≠ 0 then fft g a half isInverse else a
  asReal a

/-- Function `real_fft(buf,len,isInverse)`; for `len` 4 and 8 the table argument is the
null pointer, which `two_for_one` never reads at those lengths (modelled by the zero
table). -/
@[nospecialize]
def real_fft (g : Globals T) (buf : ℕ → T) (len isInverse : ℤ) : ℕ → T :=
  if len = 2 then (if isInverse = 0 then r2 buf else v2 buf)
  else if len = 4 ∨ len = 8 then two_for_one g buf (fun _ => ⟨0, 0⟩) len isInverse
  else if len = 16 then two_for_one g buf g.d16 len isInverse
  else if len = 32 then two_for_one g buf g.d32 len isInverse
  else if len = 64 then two_for_one g buf g.d64 len isInverse
  else if len = 128 then two_for_one g buf g.d128 len isInverse
  else if len = 256 then two_for_one g buf g.d256 len isInverse
  else if len = 512 then two_for_one g buf g.d512 len isInverse
  else if len = 1024 then two_for_one g buf g.d1024 len isInverse
  else if len = 2048 then two_for_one g buf g.d2048 len isInverse
  else if len = 4096 then two_for_one g buf g.d4096 len isInverse
  else if len = 8192 then two_for_one g buf g.d8192 len isInverse
  else if len = 16384 then two_for_one g buf g.d16384 len isInverse
  else if len = 32768 then two_for_one g buf g.d32768 len isInverse
  else buf

end Kernels

section Tables

/-- Function `fftfreq_c(i,n)` on `uint32_t`: shifts and additions are taken modulo `2^32`,
and `- 1` is the addition of `2^32 - 1`. -/
def fftfreq_c (i n : ℕ) : ℕ :=
  if h : n ≤ 2 then i
  else
    let m := n >>> 1
    if i < m then (fftfreq_c i m <<< 1) % 4294967296
    else
      let i := i - m
      let m := m >>> 1
      if i < m then ((fftfreq_c i m <<< 2) % 4294967296 + 1) % 4294967296
      else
        let i := i - m
        (((fftfreq_c i m <<< 2) % 4294967296 + 4294967295) % 4294967296) &&& (n - 1)
termination_by n
decreasing_by
  all_goals simp only [Nat.shiftRight_eq_div_pow]
  all_goals omega

/-- Function `idx_perm_calc(offs,n)`, acting on the array `_idxperm`. -/
def idx_perm_calc (idxperm : ℕ → ℕ) (offs n : ℕ) : ℕ → ℕ :=
  forLoop 1 n (fun t i =>
    let j := fftfreq_c i n
    Function.update t (offs + n - j) i) (Function.update idxperm offs 0)

/-- The loop `for (i = 2; i <= 32768; i *= 2)` of `WDL_fft_init`, with state `_idxperm`,
`offs` and `i`; the first argument bounds the number of iterations (16 are enough, the
loop leaves through its condition after 15). -/
def init_perm_loop : ℕ → (ℕ → ℕ) → ℕ → ℕ → (ℕ → ℕ)
  | 0, t, _, _ => t
  | fuel + 1, t, offs, i =>
    if i ≤ 32768 then init_perm_loop fuel (idx_perm_calc t offs i) (offs + i) (i * 2) else t

/-- The primitives `M_PI`, `F_COS` and `F_SIN` used by `__fft_gen`; the header does not
define them. -/
structure Trig (T : Type) where
  M_PI : T
  F_COS : T → T
  F_SIN : T → T

variable {T : Type} [Field T]

/-- Function `__fft_gen(buf,buf2,sz,isfull)`; a null `buf2` is `none`. -/
def __fft_gen (F : Trig T) (buf : ℕ → cmplxT T) (buf2 : Option (ℕ → cmplxT T)) (sz : ℕ)
    (isfull : ℤ) : ℕ → cmplxT T :=
  let div : T := F.M_PI * 0.25 / ((sz : T) + 1)
  let div : T := if isfull ≠ 0 then div * 2.0 else div
  forLoop 0 sz (fun buf x =>
    match buf2 with
    | none => Function.update buf x ⟨F.F_COS (((x : T) + 1) * div), F.F_SIN (((x : T) + 1) * div)⟩
    | some b2 =>
      if x &&& 1 = 0 then
        Function.update buf x ⟨F.F_COS (((x : T) + 1) * div), F.F_SIN (((x : T) + 1) * div)⟩
      else Function.update buf x ⟨(b2 (x >>> 1)).re, (b2 (x >>> 1)).im⟩) buf

/-- Function `WDL_fft_init()`: a no-op when `ffttabinit` is already set; otherwise sets it,
fills the twiddle tables in increasing size order (the macro `fft_gen(x,y,z)` passes the
declared length of `x`) and then the permutation table. -/
def WDL_fft_init (F : Trig T) (g : Globals T) : Globals T :=
  if g.ffttabinit then g
  else
    let d16 := __fft_gen F g.d16 none 3 1
    let d32 := __fft_gen F g.d32 (some d16) 7 1
    let d64 := __fft_gen F g.d64 (some d32) 15 1
    let d128 := __fft_gen F g.d128 (some d64) 31 1
    let d256 := __fft_gen F g.d256 (some d128) 63 1
    let d512 := __fft_gen F g.d512 (some d256) 127 1
    let d1024 := __fft_gen F g.d1024 (some d512) 127 0
    let d2048 := __fft_gen F g.d2048 (some d1024) 255 0
    let d4096 := __fft_gen F g.d4096 (some d2048) 511 0
    let d8192 := __fft_gen F g.d8192 (some d4096) 1023 0
    let d16384 := __fft_gen F g.d16384 (some d8192) 2047 0
    let d32768 := __fft_gen F g.d32768 (some d16384) 4095 0
    { d16 := d16, d32 := d32, d64 := d64, d128 := d128, d256 := d256, d512 := d512,
      d1024 := d1024, d2048 := d2048, d4096 := d4096, d8192 := d8192, d16384 := d16384,
      d32768 := d32768, s_tab := g.s_tab,
      _idxperm := init_perm_loop 16 g._idxperm 0 2,
      ffttabinit := true }

end Tables

section Reorder

/-- The constant `S_TAB_SIZE`,
`(2 << FFT_MAXBITLEN) + 24 * (FFT_MAXBITLEN - FFT_MINBITLEN_REORDER + 1)`. -/
def S_TAB_SIZE : ℕ := (2 <<< 15) + 24 * (15 - 3 + 1)

/-- The recursion of `floorlog2`, unfolded at most as many times as the first argument
says (`none` when that is not enough); `>>` on `int` is the arithmetic shift. -/
def floorlog2_rec : ℕ → ℤ → Option ℕ
  | 0, _ => none
  | fuel + 1, x => if x = 1 then some 0 else (floorlog2_rec fuel (x >>> 1)).map (fun r => 1 + r)

/-- Function `floorlog2(x)` on `int`: a positive 32-bit `x` reaches the base case within
31 halvings; for `x <= 0` the recursion never reaches `x == 1` and the result is
`none`. -/
def floorlog2 (x : ℤ) : Option ℕ := floorlog2_rec 32 x

/-- Function `fft_reorder_table_for_bitsize(bitsz)`: the offset of the returned pointer
into `s_tab`. -/
def fft_reorder_table_for_bitsize (bitsz : ℕ) : ℕ :=
  if bitsz ≤ 3 then 0 else (1 <<< bitsz) + (bitsz - 3) * 24

/-- The state of `fft_make_reorder_table`: the local array `flag`, the array the pointer
`tab` writes into, and the offset of `tab`. -/
structure ReorderBuild where
  flag : ℕ → Bool
  tab : ℕ → ℕ
  pos : ℕ

/-- The `do ... while (fx != x)` loop of `fft_make_reorder_table`. Every iteration writes
one entry through `tab`, so the first argument, which bounds the number of iterations, is
`none`-exhausted only by a loop that would leave the table. -/
def reorder_run (perm : ℕ → ℕ) (x : ℕ) : ℕ → ReorderBuild → ℕ → Option ReorderBuild
  | 0, _, _ => none
  | fuel + 1, s, fx =>
    let s : ReorderBuild :=
      { flag := Function.update s.flag fx true, tab := Function.update s.tab s.pos fx,
        pos := s.pos + 1 }
    let fx := perm fx
    if fx ≠ x then reorder_run perm x fuel s fx else some s

/-- The body of the loop `for (x = 0; x < fft_sz; x++)` of `fft_make_reorder_table`. -/
def reorder_build_step (perm : ℕ → ℕ) (st : Option ReorderBuild) (x : ℕ) :
    Option ReorderBuild :=
  match st with
  | none => none
  | some s =>
    if s.flag x = false ∧ perm x ≠ x then
      let fx := perm x
      let s : ReorderBuild :=
        { flag := Function.update s.flag x true, tab := Function.update s.tab s.pos x,
          pos := s.pos + 1 }
      match reorder_run perm x S_TAB_SIZE s fx with
      | none => none
      | some s => some { s with tab := Function.update s.tab s.pos 0, pos := s.pos + 1 }
    else some { s with flag := Function.update s.flag x true }

/-- Function `fft_make_reorder_table(bitsz,tab)`, with `tab` the offset of the pointer
into `s_tab`; the result is the new content of `s_tab`. -/
def fft_make_reorder_table {T : Type} (g : Globals T) (bitsz : ℕ) (tab : ℕ) :
    Option (ℕ → ℕ) :=
  let fft_sz := 1 <<< bitsz
  let s0 : ReorderBuild := { flag := fun _ => false, tab := g.s_tab, pos := tab }
  match forLoop 0 fft_sz (reorder_build_step (fun x => WDL_fft_permute g fft_sz x)) (some s0) with
  | none => none
  | some s => some (Function.update s.tab s.pos 0)

/-- The inner `for (;;)` loop of the forward branch of `reorder_buffer`: returns the
buffer, the offset of `tab` and `lidx` at the `break`. The first argument bounds the number
of entries read through `tab`. -/
def reorder_fwd_run {T : Type} (tab : ℕ → ℕ) :
    ℕ → Buf T → ℕ → ℕ → Option (Buf T × ℕ × ℕ)
  | 0, _, _, _ => none
  | fuel + 1, data, pos, lidx =>
    let idx := tab pos
    let pos := pos + 1
    if idx = 0 then some (data, pos, lidx)
    else reorder_fwd_run tab fuel (Function.update data lidx (data idx)) pos idx

/-- The outer `while (*tab)` loop of the forward branch of `reorder_buffer`. -/
def reorder_fwd {T : Type} (tab : ℕ → ℕ) : ℕ → Buf T → ℕ → Option (Buf T)
  | 0, _, _ => none
  | fuel + 1, data, pos =>
    if tab pos = 0 then some data
    else
      let sidx := tab pos
      let pos := pos + 1
      let sta := data sidx
      match reorder_fwd_run tab S_TAB_SIZE data pos sidx with
      | none => none
      | some (data, pos, lidx) => reorder_fwd tab fuel (Function.update data lidx sta) pos

/-- The inner `for (;;)` loop of the inverse branch of `reorder_buffer`: returns the
buffer, the offset of `tab` and the carried sample `a` at the `break`. -/
def reorder_inv_run {T : Type} (tab : ℕ → ℕ) :
    ℕ → Buf T → ℕ → cmplxT T → Option (Buf T × ℕ × cmplxT T)
  | 0, _, _, _ => none
  | fuel + 1, data, pos, a =>
    let idx := tab pos
    let pos := pos + 1
    if idx = 0 then some (data, pos, a)
    else
      let ta := data idx
      reorder_inv_run tab fuel (Function.update data idx a) pos ta

/-- The outer `while (*tab)` loop of the inverse branch of `reorder_buffer`. -/
def reorder_inv {T : Type} (tab : ℕ → ℕ) : ℕ → Buf T → ℕ → Option (Buf T)
  | 0, _, _ => none
  | fuel + 1, data, pos =>
    if tab pos = 0 then some data
    else
      let sidx := tab pos
      let pos := pos + 1
      let a := data sidx
      match reorder_inv_run tab S_TAB_SIZE data pos a with
      | none => none
      | some (data, pos, a) => reorder_inv tab fuel (Function.update data sidx a) pos

/-- Function `reorder_buffer(sz,buf,isInverse)` on a `T *` buffer. Every loop iteration
reads one entry through `tab`, so the loops are bounded by `S_TAB_SIZE` reads; the result
is `none` when `floorlog2` does not return or a loop would read past that bound. -/
def reorder_buffer {T : Type} (g : Globals T) (sz : ℤ) (buf : ℕ → T) (isInverse : ℤ) :
    Option (ℕ → T) :=
  let data : Buf T := fun i => ⟨buf (2 * i), buf (2 * i + 1)⟩
  match floorlog2 sz with
  | none => none
  | some bitsz =>
    let tab := fft_reorder_table_for_bitsize bitsz
    let r :=
      if isInverse ≠ 0 then reorder_inv g.s_tab S_TAB_SIZE data tab
      else reorder_fwd g.s_tab S_TAB_SIZE data tab
    r.map (fun a j => if j % 2 = 0 then (a (j / 2)).re else (a (j / 2)).im)

/-- Function `InitFFTData(fftsize)`; `none` when `floorlog2` or the table builder does
not return. -/
def InitFFTData {T : Type} [Field T] (F : Trig T) (g : Globals T) (fftsize : ℤ) :
    Option (Globals T) :=
  let g := WDL_fft_init F g
  match floorlog2 fftsize with
  | none => none
  | some n =>
    match fft_make_reorder_table g n (fft_reorder_table_for_bitsize n) with
    | none => none
    | some t => some { g with s_tab := t }

end Reorder

end WDLFFT

namespace WDLFFT

section Multiply

variable {T : Type} [CommRing T]

/-- The constant `IDXPERM_SIZE`, `2 << FFT_MAXBITLEN`: the length of `_idxperm`. -/
def IDXPERM_SIZE : ℕ := 2 <<< 15

/-- The products `t1 .. t8` of one iteration of the multiply loops, after the four
combining assignments: `(t1, t3)` is the product of `a[0]` and `b[0]`, `(t5, t7)` that of
`a[1]` and `b[1]`; `o` is the offset the pointers `a` and `b` have reached. -/
def complexmul_terms (a b : Buf T) (o : ℕ) : T × T × T × T :=
  let t1 := (a o).re * (b o).re
  let t2 := (a o).im * (b o).im
  let t3 := (a o).im * (b o).re
  let t4 := (a o).re * (b o).im
  let t5 := (a (o + 1)).re * (b (o + 1)).re
  let t6 := (a (o + 1)).im * (b (o + 1)).im
  let t7 := (a (o + 1)).im * (b (o + 1)).re
  let t8 := (a (o + 1)).re * (b (o + 1)).im
  let t1 := t1 - t2
  let t3 := t3 + t4
  let t5 := t5 - t6
  let t7 := t7 + t8
  (t1, t3, t5, t7)

/-- The four stores `a[0].re = t1; a[1].re = t5; a[0].im = t3; a[1].im = t7` that end an
iteration of `WDL_fft_complexmul`. -/
def complexmul_body (a b : Buf T) (o : ℕ) : Buf T :=
  let t := complexmul_terms a b o
  let a := Function.update a o { a o with re := t.1 }
  let a := Function.update a (o + 1) { a (o + 1) with re := t.2.2.1 }
  let a := Function.update a o { a o with im := t.2.1 }
  Function.update a (o + 1) { a (o + 1) with im := t.2.2.2 }

/-- The `do ... while (n -= 2)` loop of `WDL_fft_complexmul`; the pointers `a` and `b`
advance together, so one offset `o` stands for both. The first argument bounds the number
of iterations (`none` when it is used up before `n` reaches zero). -/
def complexmul_loop : ℕ → Buf T → Buf T → ℕ → ℤ → Option (Buf T)
  | 0, _, _, _, _ => none
  | fuel + 1, a, b, o, n =>
    let a := complexmul_body a b o
    let n := n - 2
    if n ≠ 0 then complexmul_loop fuel a b (o + 2) n else some a

/-- Function `WDL_fft_complexmul(a,b,n)`, returning the new content of `a`; `n & 1` on an
`int32_t` is the parity of `n`. Every iteration lowers `n` by two, so `n` iterations are
never used up on the guarded path. -/
def WDL_fft_complexmul (a b : Buf T) (n : ℤ) : Option (Buf T) :=
  if n < 2 ∨ n % 2 ≠ 0 then some a else complexmul_loop n.toNat a b 0 n

/-- The four stores `c[0].re = t1; c[1].re = t5; c[0].im = t3; c[1].im = t7` that end an
iteration of `WDL_fft_complexmul2`. -/
def complexmul2_body (c a b : Buf T) (o : ℕ) : Buf T :=
  let t := complexmul_terms a b o
  let c := Function.update c o { c o with re := t.1 }
  let c := Function.update c (o + 1) { c (o + 1) with re := t.2.2.1 }
  let c := Function.update c o { c o with im := t.2.1 }
  Function.update c (o + 1) { c (o + 1) with im := t.2.2.2 }

/-- The `do ... while (n -= 2)` loop of `WDL_fft_complexmul2`, with state `c`. -/
def complexmul2_loop : ℕ → Buf T → Buf T → Buf T → ℕ → ℤ → Option (Buf T)
  | 0, _, _, _, _, _ => none
  | fuel + 1, c, a, b, o, n =>
    let c := complexmul2_body c a b o
    let n := n - 2
    if n ≠ 0 then complexmul2_loop fuel c a b (o + 2) n else some c

/-- Function `WDL_fft_complexmul2(c,a,b,n)`, returning the new content of `c`. -/
def WDL_fft_complexmul2 (c a b : Buf T) (n : ℤ) : Option (Buf T) :=
  if n < 2 ∨ n % 2 ≠ 0 then some c else complexmul2_loop n.toNat c a b 0 n

/-- The four stores `c[0].re += t1; c[1].re += t5; c[0].im += t3; c[1].im += t7` that
end an iteration of `WDL_fft_complexmul3`. -/
def complexmul3_body (c a b : Buf T) (o : ℕ) : Buf T :=
  let t := complexmul_terms a b o
  let c := Function.update c o { c o with re := (c o).re + t.1 }
  let c := Function.update c (o + 1) { c (o + 1) with re := (c (o + 1)).re + t.2.2.1 }
  let c := Function.update c o { c o with im := (c o).im + t.2.1 }
  Function.update c (o + 1) { c (o + 1) with im := (c (o + 1)).im + t.2.2.2 }

/-- The `do ... while (n -= 2)` loop of `WDL_fft_complexmul3`, with state `c`. -/
def complexmul3_loop : ℕ → Buf T → Buf T → Buf T → ℕ → ℤ → Option (Buf T)
  | 0, _, _, _, _, _ => none
  | fuel + 1, c, a, b, o, n =>
    let c := complexmul3_body c a b o
    let n := n - 2
    if n ≠ 0 then complexmul3_loop fuel c a b (o + 2) n else some c

/-- Function `WDL_fft_complexmul3(c,a,b,n)`, returning the new content of `c`. -/
def WDL_fft_complexmul3 (c a b : Buf T) (n : ℤ) : Option (Buf T) :=
  if n < 2 ∨ n % 2 ≠ 0 then some c else complexmul3_loop n.toNat c a b 0 n

end Multiply

end WDLFFT

namespace WDLFFT

/-- The zero-initialised static data of `WDLFFT<T>`, before `WDL_fft_init` has run. -/
def zeroGlobals {T : Type} [Zero T] : Globals T where
  d16 := fun _ => ⟨0, 0⟩
  d32 := fun _ => ⟨0, 0⟩
  d64 := fun _ => ⟨0, 0⟩
  d128 := fun _ => ⟨0, 0⟩
  d256 := fun _ => ⟨0, 0⟩
  d512 := fun _ => ⟨0, 0⟩
  d1024 := fun _ => ⟨0, 0⟩
  d2048 := fun _ => ⟨0, 0⟩
  d4096 := fun _ => ⟨0, 0⟩
  d8192 := fun _ => ⟨0, 0⟩
  d16384 := fun _ => ⟨0, 0⟩
  d32768 := fun _ => ⟨0, 0⟩
  s_tab := fun _ => 0
  _idxperm := fun _ => 0
  ffttabinit := false

/-- The supported transform lengths, the `case` labels of the `switch` in `fft`. -/
def supportedSizes : List ℕ :=
  [2, 4, 8, 16, 32, 64, 128, 256, 512, 1024, 2048, 4096, 8192, 16384, 32768]

section
variable {T : Type} [CommRing T]

/-- Complex product of two samples. -/
def cmul (x y : cmplxT T) : cmplxT T := ⟨x.re * y.re - x.im * y.im, x.re * y.im + x.im * y.re⟩

/-- Componentwise sum of two samples. -/
def cadd (x y : cmplxT T) : cmplxT T := ⟨x.re + y.re, x.im + y.im⟩

/-- The buffer `α·X + β·Y` for complex scalars `α`, `β`. -/
def lincomb (α β : cmplxT T) (X Y : Buf T) : Buf T := fun i => cadd (cmul α (X i)) (cmul β (Y i))

/-- A buffer transformation commutes with complex linear combinations. -/
def IsLin (f : Buf T → Buf T) : Prop :=
  ∀ (α β : cmplxT T) (X Y : Buf T), f (lincomb α β X Y) = lincomb α β (f X) (f Y)

/-- A four-sample butterfly commutes with complex linear combinations. -/
def IsLin4 (f : cmplxT T → cmplxT T → cmplxT T → cmplxT T →
    cmplxT T × cmplxT T × cmplxT T × cmplxT T) : Prop :=
  ∀ (α β x0 x1 x2 x3 y0 y1 y2 y3 : cmplxT T),
    f (cadd (cmul α x0) (cmul β y0)) (cadd (cmul α x1) (cmul β y1))
      (cadd (cmul α x2) (cmul β y2)) (cadd (cmul α x3) (cmul β y3)) =
    (cadd (cmul α (f x0 x1 x2 x3).1) (cmul β (f y0 y1 y2 y3).1),
     cadd (cmul α (f x0 x1 x2 x3).2.1) (cmul β (f y0 y1 y2 y3).2.1),
     cadd (cmul α (f x0 x1 x2 x3).2.2.1) (cmul β (f y0 y1 y2 y3).2.2.1),
     cadd (cmul α (f x0 x1 x2 x3).2.2.2) (cmul β (f y0 y1 y2 y3).2.2.2))

end

section
variable {T : Type} [CommRing T]

/-- The first `K` butterflies of one pass over the four quarter-blocks of length `M` of the
buffer at offset `o`: butterfly `k` is `bf k` on the cells `o+k`, `o+M+k`, `o+2M+k`,
`o+3M+k`. -/
def passSeq (bf : ℕ → cmplxT T → cmplxT T → cmplxT T → cmplxT T →
    cmplxT T × cmplxT T × cmplxT T × cmplxT T) (o M : ℕ) : ℕ → Buf T → Buf T
  | 0, a => a
  | K + 1, a => on4 (bf K) (passSeq bf o M K a) (o + K) (o + M + K) (o + 2 * M + K) (o + 3 * M + K)

end

section
variable {T : Type} [CommRing T]

/-- The body of a forward routine of size `4M`: one pass with butterflies `bf`, then the
routine `cQ` on the third and on the fourth quarter and the routine `cH` on the first
half. -/
def splitC (cH cQ : Buf T → ℕ → Buf T) (bf : ℕ → cmplxT T → cmplxT T → cmplxT T → cmplxT T →
    cmplxT T × cmplxT T × cmplxT T × cmplxT T) (M : ℕ) : Buf T → ℕ → Buf T :=
  fun a o => cH (cQ (cQ (passSeq bf o M M a) (o + 2 * M)) (o + 3 * M)) o

/-- The body of a forward routine of size `4M` that transforms the fourth quarter before
the third (`c512` and larger). -/
def splitC2 (cH cQ : Buf T → ℕ → Buf T) (bf : ℕ → cmplxT T → cmplxT T → cmplxT T →
    cmplxT T → cmplxT T × cmplxT T × cmplxT T × cmplxT T) (M : ℕ) : Buf T → ℕ → Buf T :=
  fun a o => cH (cQ (cQ (passSeq bf o M M a) (o + 3 * M)) (o + 2 * M)) o

/-- The body of an inverse routine of size `4M`: the routine `uH` on the first half, `uQ`
on the third and on the fourth quarter, then one pass with butterflies `bf`. -/
def splitU (uH uQ : Buf T → ℕ → Buf T) (bf : ℕ → cmplxT T → cmplxT T → cmplxT T → cmplxT T →
    cmplxT T × cmplxT T × cmplxT T × cmplxT T) (M : ℕ) : Buf T → ℕ → Buf T :=
  fun a o => passSeq bf o M M (uQ (uQ (uH a o) (o + 2 * M)) (o + 3 * M))

/-- A routine of size `N` leaves the samples outside its block untouched and puts the sum
of the block in the first position. -/
def FrameDC (c : Buf T → ℕ → Buf T) (N : ℕ) : Prop :=
  (∀ a o i, (i < o ∨ o + N ≤ i) → c a o i = a i) ∧
  (∀ a o, (c a o o).re = ∑ j in Finset.range N, (a (o + j)).re ∧
    (c a o o).im = ∑ j in Finset.range N, (a (o + j)).im)

/-- The first two outputs of a forward butterfly are `a0 + a2` and `a1 + a3`. -/
def IsSum4 (f : cmplxT T → cmplxT T → cmplxT T → cmplxT T →
    cmplxT T × cmplxT T × cmplxT T × cmplxT T) : Prop :=
  ∀ x0 x1 x2 x3, (f x0 x1 x2 x3).1 = cadd x0 x2 ∧ (f x0 x1 x2 x3).2.1 = cadd x1 x3

/-- The butterflies of `cpass(a,w,n)`: `TRANSFORMZERO` at index 0, then `TRANSFORM` with the
table entry `w[k-1]` at index `k`. -/
def bfC (w : ℕ → cmplxT T) : ℕ → cmplxT T → cmplxT T → cmplxT T → cmplxT T →
    cmplxT T × cmplxT T × cmplxT T × cmplxT T
  | 0 => TRANSFORMZERO
  | k + 1 => fun a0 a1 a2 a3 => TRANSFORM a0 a1 a2 a3 (w k).re (w k).im

/-- The butterflies of `cpassbig(a,w,n)`: `TRANSFORMZERO` at index 0, `TRANSFORM` with `w[k-1]`
below `n`, `TRANSFORMHALF` at `n`, and `TRANSFORM` with the exchanged entry `w[2n-k-1]`
above `n`. -/
def bfCbig (s : T) (w : ℕ → cmplxT T) (n : ℕ) (k : ℕ) : cmplxT T → cmplxT T → cmplxT T →
    cmplxT T → cmplxT T × cmplxT T × cmplxT T × cmplxT T :=
  if k = 0 then TRANSFORMZERO
  else if k < n then fun a0 a1 a2 a3 => TRANSFORM a0 a1 a2 a3 (w (k - 1)).re (w (k - 1)).im
  else if k = n then fun a0 a1 a2 a3 => TRANSFORMHALF a0 a1 a2 a3 s
  else fun a0 a1 a2 a3 =>
    TRANSFORM a0 a1 a2 a3 (w (2 * n - k - 1)).im (w (2 * n - k - 1)).re

/-- The butterflies of `upass(a,w,n)`: `UNTRANSFORMZERO` at index 0, then `UNTRANSFORM` with the
table entry `w[k-1]` at index `k`. -/
def bfU (w : ℕ → cmplxT T) : ℕ → cmplxT T → cmplxT T → cmplxT T → cmplxT T →
    cmplxT T × cmplxT T × cmplxT T × cmplxT T
  | 0 => UNTRANSFORMZERO
  | k + 1 => fun a0 a1 a2 a3 => UNTRANSFORM a0 a1 a2 a3 (w k).re (w k).im

/-- The butterflies of `upassbig(a,w,n)`: `UNTRANSFORMZERO` at index 0, `UNTRANSFORM` with `w[k-1]`
below `n`, `UNTRANSFORMHALF` at `n`, and `UNTRANSFORM` with the exchanged entry `w[2n-k-1]`
above `n`. -/
def bfUbig (s : T) (w : ℕ → cmplxT T) (n : ℕ) (k : ℕ) : cmplxT T → cmplxT T → cmplxT T →
    cmplxT T → cmplxT T × cmplxT T × cmplxT T × cmplxT T :=
  if k = 0 then UNTRANSFORMZERO
  else if k < n then fun a0 a1 a2 a3 => UNTRANSFORM a0 a1 a2 a3 (w (k - 1)).re (w (k - 1)).im
  else if k = n then fun a0 a1 a2 a3 => UNTRANSFORMHALF a0 a1 a2 a3 s
  else fun a0 a1 a2 a3 =>
    UNTRANSFORM a0 a1 a2 a3 (w (2 * n - k - 1)).im (w (2 * n - k - 1)).re

end

section
open Complex

/-- The algebraic properties of the family `w N k = exp(2·π·i·k/N)` used by the transform:
`w N` is a character of the integers of period `N`, compatible with halving the size,
with `w (4M) M = i`, and primitive. -/
structure IsTwiddle (w : ℕ → ℤ → ℂ) : Prop where
  zero : ∀ N, w N 0 = 1
  add : ∀ N a b, w N (a + b) = w N a * w N b
  period : ∀ N, 1 ≤ N → w N N = 1
  half : ∀ N a, 1 ≤ N → w (2 * N) (2 * a) = w N a
  quarter : ∀ M, 1 ≤ M → w (4 * M) M = I
  conj : ∀ N a, (starRingEnd ℂ) (w N a) = w N (-a)
  prim : ∀ N a, 1 ≤ N → w N a = 1 → (N : ℤ) ∣ a

/-- The transform computed by the forward routines on a block of `N` samples at offset
`o`: position `o + i` receives `∑ j, A (o + j) · w N (j · fftfreq_c i N)`. -/
def dftBlock {R : Type} [CommRing R] (w : ℕ → ℤ → R) (N o : ℕ) (A : ℕ → R) : ℕ → R := fun i =>
  if o ≤ i ∧ i < o + N then
    ∑ j in Finset.range N, A (o + j) * w N ((j : ℤ) * (fftfreq_c (i - o) N : ℤ))
  else A i

/-- The transform computed by the inverse routines on a block of `N` samples at offset
`o`: position `o + j` receives `∑ i, A (o + i) · w N (-(j · fftfreq_c i N))`. -/
def idftBlock {R : Type} [CommRing R] (w : ℕ → ℤ → R) (N o : ℕ) (A : ℕ → R) : ℕ → R := fun j =>
  if o ≤ j ∧ j < o + N then
    ∑ i in Finset.range N, A (o + i) * w N (-(((j - o : ℕ) : ℤ) * (fftfreq_c i N : ℤ)))
  else A j

/-- One forward pass over four quarter-blocks of length `M` with twiddles `tw k`; `ι` is the
imaginary unit and `cj` the conjugation of the coefficient ring. -/
def passC {R : Type} [CommRing R] (ι : R) (cj : R → R) (tw : ℕ → R) (o M : ℕ) (A : ℕ → R) :
    ℕ → R := fun i =>
  if o ≤ i ∧ i < o + M then A i + A (i + 2 * M)
  else if o + M ≤ i ∧ i < o + M + M then A i + A (i + 2 * M)
  else if o + 2 * M ≤ i ∧ i < o + 2 * M + M then
    (A (i - 2 * M) - A i + ι * (A (i - M) - A (i + M))) * tw (i - o - 2 * M)
  else if o + 3 * M ≤ i ∧ i < o + 3 * M + M then
    (A (i - 3 * M) - A (i - M) - ι * (A (i - 2 * M) - A i)) *
      cj (tw (i - o - 3 * M))
  else A i

/-- One inverse pass over four quarter-blocks of length `M` with twiddles `tw k`. -/
def upassC {R : Type} [CommRing R] (ι : R) (cj : R → R) (tw : ℕ → R) (o M : ℕ) (A : ℕ → R) :
    ℕ → R := fun i =>
  if o ≤ i ∧ i < o + M then
    A i + (cj (tw (i - o)) * A (i + 2 * M) + tw (i - o) * A (i + 3 * M))
  else if o + M ≤ i ∧ i < o + M + M then
    A i - ι * (cj (tw (i - o - M)) * A (i + M) - tw (i - o - M) * A (i + 2 * M))
  else if o + 2 * M ≤ i ∧ i < o + 2 * M + M then
    A (i - 2 * M) - (cj (tw (i - o - 2 * M)) * A i +
      tw (i - o - 2 * M) * A (i + M))
  else if o + 3 * M ≤ i ∧ i < o + 3 * M + M then
    A (i - 2 * M) + ι * (cj (tw (i - o - 3 * M)) * A (i - M) -
      tw (i - o - 3 * M) * A i)
  else A i

end

section
open Complex

/-- A sample over the reals as a complex number. -/
def toC (z : cmplxT ℝ) : ℂ := ⟨z.re, z.im⟩

/-- A forward butterfly computes, in complex arithmetic, `a0 + a2`, `a1 + a3`,
`(a0 - a2 + i(a1 - a3))·t` and `(a0 - a2 - i(a1 - a3))·conj t`. -/
def IsBF (f : cmplxT ℝ → cmplxT ℝ → cmplxT ℝ → cmplxT ℝ →
    cmplxT ℝ × cmplxT ℝ × cmplxT ℝ × cmplxT ℝ) (t : ℂ) : Prop :=
  ∀ x0 x1 x2 x3,
    toC (f x0 x1 x2 x3).1 = toC x0 + toC x2 ∧
    toC (f x0 x1 x2 x3).2.1 = toC x1 + toC x3 ∧
    toC (f x0 x1 x2 x3).2.2.1 = (toC x0 - toC x2 + I * (toC x1 - toC x3)) * t ∧
    toC (f x0 x1 x2 x3).2.2.2 =
      (toC x0 - toC x2 - I * (toC x1 - toC x3)) * (starRingEnd ℂ) t

/-- An inverse butterfly computes, in complex arithmetic, `a0 ± (conj t·a2 + t·a3)` and
`a1 ∓ i(conj t·a2 - t·a3)`. -/
def IsUBF (f : cmplxT ℝ → cmplxT ℝ → cmplxT ℝ → cmplxT ℝ →
    cmplxT ℝ × cmplxT ℝ × cmplxT ℝ × cmplxT ℝ) (t : ℂ) : Prop :=
  ∀ x0 x1 x2 x3,
    toC (f x0 x1 x2 x3).1 = toC x0 + ((starRingEnd ℂ) t * toC x2 + t * toC x3) ∧
    toC (f x0 x1 x2 x3).2.1 = toC x1 - I * ((starRingEnd ℂ) t * toC x2 - t * toC x3) ∧
    toC (f x0 x1 x2 x3).2.2.1 = toC x0 - ((starRingEnd ℂ) t * toC x2 + t * toC x3) ∧
    toC (f x0 x1 x2 x3).2.2.2 = toC x1 + I * ((starRingEnd ℂ) t * toC x2 - t * toC x3)

/-- A forward routine of size `N` computes `dftBlock` on every block. -/
def FwdSpec (w : ℕ → ℤ → ℂ) (c : Buf ℝ → ℕ → Buf ℝ) (N : ℕ) : Prop :=
  ∀ a o, (fun i => toC (c a o i)) = dftBlock w N o (fun i => toC (a i))

/-- An inverse routine of size `N` computes `idftBlock` on every block. -/
def InvSpec (w : ℕ → ℤ → ℂ) (u : Buf ℝ → ℕ → Buf ℝ) (N : ℕ) : Prop :=
  ∀ a o, (fun i => toC (u a o i)) = idftBlock w N o (fun i => toC (a i))

/-- The twiddle tables hold the roots of unity the routines expect: entry `x` of the table
of size `N` is `w N (x+1)`, and `(sqrthalf, sqrthalf)` is `w 8 1`. -/
structure TablesOK (w : ℕ → ℤ → ℂ) (g : Globals ℝ) : Prop where
  d16 : ∀ x : ℕ, x < 3 → toC (g.d16 x) = w 16 ((x : ℤ) + 1)
  d32 : ∀ x : ℕ, x < 7 → toC (g.d32 x) = w 32 ((x : ℤ) + 1)
  d64 : ∀ x : ℕ, x < 15 → toC (g.d64 x) = w 64 ((x : ℤ) + 1)
  d128 : ∀ x : ℕ, x < 31 → toC (g.d128 x) = w 128 ((x : ℤ) + 1)
  d256 : ∀ x : ℕ, x < 63 → toC (g.d256 x) = w 256 ((x : ℤ) + 1)
  d512 : ∀ x : ℕ, x < 127 → toC (g.d512 x) = w 512 ((x : ℤ) + 1)
  d1024 : ∀ x : ℕ, x < 127 → toC (g.d1024 x) = w 1024 ((x : ℤ) + 1)
  d2048 : ∀ x : ℕ, x < 255 → toC (g.d2048 x) = w 2048 ((x : ℤ) + 1)
  d4096 : ∀ x : ℕ, x < 511 → toC (g.d4096 x) = w 4096 ((x : ℤ) + 1)
  d8192 : ∀ x : ℕ, x < 1023 → toC (g.d8192 x) = w 8192 ((x : ℤ) + 1)
  d16384 : ∀ x : ℕ, x < 2047 → toC (g.d16384 x) = w 16384 ((x : ℤ) + 1)
  d32768 : ∀ x : ℕ, x < 4095 → toC (g.d32768 x) = w 32768 ((x : ℤ) + 1)
  half : toC ⟨sqrthalf g, sqrthalf g⟩ = w 8 1

end

end WDLFFT

namespace WDLFFT

/-- Entry `x` of a twiddle table of length `L` by the cosine/sine formula of `__fft_gen`,
with the angle step `(π/4)/(L+1)`, doubled or not. -/
def tierEntry {T : Type} [Field T] (F : Trig T) (L : ℕ) (doubled : Bool) (x : ℕ) : cmplxT T :=
  let div : T := F.M_PI * 0.25 / ((L : T) + 1)
  let div : T := if doubled then div * 2.0 else div
  ⟨F.F_COS (((x : T) + 1) * div), F.F_SIN (((x : T) + 1) * div)⟩

/-- The map `σ` permutes `[0, N)` and fixes `0`. -/
structure PermOn (σ : ℕ → ℕ) (N : ℕ) : Prop where
  maps : ∀ x, x < N → σ x < N
  inj : ∀ x y, x < N → y < N → σ x = σ y → x = y
  zero : σ 0 = 0

/-- The entries of a cycle table with the runs `R`: every run followed by one `0`. -/
def flatRuns : List (List ℕ) → List ℕ
  | [] => []
  | r :: R => r ++ 0 :: flatRuns R

/-- The indices that occur in the runs `R`, in table order. -/
def runMembers : List (List ℕ) → List ℕ
  | [] => []
  | r :: R => r ++ runMembers R

/-- The array `tab` holds the list `L` from the offset `pos` on. -/
def TabHolds (tab : ℕ → ℕ) : ℕ → List ℕ → Prop
  | _, [] => True
  | pos, a :: L => tab pos = a ∧ TabHolds tab (pos + 1) L

/-- The orbit of `x` under `σ`, written from `x` on: `x, σ x, ..., σ^(k-1) x`, with
`σ^k x = x` and `k ≥ 2`. -/
def IsOrbitRun (σ : ℕ → ℕ) (r : List ℕ) : Prop :=
  ∃ x k, r = List.iterate σ x k ∧ 2 ≤ k ∧ σ^[k] x = x ∧ r.Nodup

/-- The invariant of the loop `for (x = 0; x < fft_sz; x++)` of `fft_make_reorder_table`
once the indices below `k` are done: the flagged indices are the orbits of the indices
below `k`, and the table holds, from `t0` on, the runs `R`, which are the orbits of length
at least two met so far. -/
structure BuildInv (σ : ℕ → ℕ) (tab0 : ℕ → ℕ) (t0 k : ℕ) (s : ReorderBuild)
    (R : List (List ℕ)) : Prop where
  flag : ∀ y, s.flag y = true ↔ ∃ z, z < k ∧ ∃ j, σ^[j] z = y
  holds : TabHolds s.tab t0 (flatRuns R)
  pos : s.pos = t0 + (flatRuns R).length
  frame : ∀ p, (p < t0 ∨ s.pos ≤ p) → s.tab p = tab0 p
  runs : ∀ r ∈ R, IsOrbitRun σ r
  nodup : (runMembers R).Nodup
  mem : ∀ y, y ∈ runMembers R ↔ (s.flag y = true ∧ σ y ≠ y)

/-- The array `t` is the cycle table of `σ` on `[0, N)` written at the offset `t0` into
the array `tab0`: from `t0` on it holds the runs `R`, each followed by one `0`, and one final
`0`; it is `tab0` elsewhere; every run is an orbit of `σ` of length at least two; and the
indices that `σ` moves occur in the runs, once each. -/
structure IsCycleTable (σ : ℕ → ℕ) (N : ℕ) (tab0 t : ℕ → ℕ) (t0 : ℕ)
    (R : List (List ℕ)) : Prop where
  holds : TabHolds t t0 (flatRuns R ++ [0])
  frame : ∀ p, (p < t0 ∨ t0 + (flatRuns R).length + 1 ≤ p) → t p = tab0 p
  runs : ∀ r ∈ R, IsOrbitRun σ r
  nodup : (runMembers R).Nodup
  mem : ∀ y, y ∈ runMembers R ↔ (y < N ∧ σ y ≠ y)

/-- The twiddle table that `real_fft` passes to `two_for_one` for the length `N` (the null
pointer of the lengths 4 and 8 is the zero table). -/
def realTable {T : Type} [Zero T] (g : Globals T) (N : ℕ) : ℕ → cmplxT T :=
  if N = 16 then g.d16 else if N = 32 then g.d32 else if N = 64 then g.d64
  else if N = 128 then g.d128 else if N = 256 then g.d256 else if N = 512 then g.d512
  else if N = 1024 then g.d1024 else if N = 2048 then g.d2048 else if N = 4096 then g.d4096
  else if N = 8192 then g.d8192 else if N = 16384 then g.d16384
  else if N = 32768 then g.d32768 else fun _ => ⟨0, 0⟩

section RealPhases
variable {T : Type} [CommRing T]

/-- First phase of `two_for_one` at `half = M`: the complex view of the buffer after
`fft` and `r2` (forward) or after `v2` (inverse). -/
def tfoStart (g : Globals T) (buf : ℕ → T) (M : ℕ) (isInverse : ℤ) : Buf T :=
  asCmplx (if isInverse = 0 then r2 (asReal (fft g (asCmplx buf) (M : ℤ) isInverse))
    else v2 buf)

/-- Second phase of `two_for_one` at `half = M`: the loop over `i = 1 .. quart - 1`. -/
def tfoLoop (g : Globals T) (d : ℕ → cmplxT T) (M : ℕ) (isInverse : ℤ) (a : Buf T) : Buf T :=
  forLoop 1 (M >>> 1)
    (two_for_one_step g d (WDL_fft_permute_tab g M) M (M >>> 1) (M >>> 1 >>> 1) isInverse) a

/-- Third phase of `two_for_one` at `half = M`: the update of the sample at
`permute[i]` after the loop. -/
def tfoMid (g : Globals T) (M : ℕ) (a : Buf T) : Buf T :=
  Function.update a (WDL_fft_permute_tab g M (max 1 (M >>> 1)))
    ⟨(a (WDL_fft_permute_tab g M (max 1 (M >>> 1)))).re * 2,
      (a (WDL_fft_permute_tab g M (max 1 (M >>> 1)))).im * (-2)⟩

/-- The twiddle `tw` that an iteration of the loop of `two_for_one` uses, after the
negation of `tw.re` in the forward direction. -/
def tfoTw (g : Globals T) (d : ℕ → cmplxT T) (quart eighth : ℕ) (isInverse : ℤ) (i : ℕ) :
    cmplxT T :=
  let tw : cmplxT T :=
    if i < eighth then d (i - 1)
    else if i > eighth then d (quart - i - 1)
    else ⟨sqrthalf g, sqrthalf g⟩
  if isInverse = 0 then ⟨-tw.re, tw.im⟩ else tw

/-- The new value of `*p` in an iteration of the loop of `two_for_one`. -/
def tfoP (tw ap aq : cmplxT T) : cmplxT T :=
  ⟨(ap.re + aq.re) - (tw.re * (ap.im + aq.im) + tw.im * (ap.re - aq.re)),
    (ap.im - aq.im) - (tw.im * (ap.im + aq.im) - tw.re * (ap.re - aq.re))⟩

/-- The new value of `*q` in an iteration of the loop of `two_for_one`. -/
def tfoQ (tw ap aq : cmplxT T) : cmplxT T :=
  ⟨(ap.re + aq.re) + (tw.re * (ap.im + aq.im) + tw.im * (ap.re - aq.re)),
    -((ap.im - aq.im) + (tw.im * (ap.im + aq.im) - tw.re * (ap.re - aq.re)))⟩

end RealPhases

end WDLFFT

namespace WDLFFT

/-- The declared length of the twiddle array `dN` (`d16[3]`, `d32[7]`, ..., `d32768[4095]`);
`0` for an `N` without a table. -/
def twiddleLen (N : ℕ) : ℕ :=
  if N = 16 then 3 else if N = 32 then 7 else if N = 64 then 15
  else if N = 128 then 31 else if N = 256 then 63 else if N = 512 then 127
  else if N = 1024 then 127 else if N = 2048 then 255 else if N = 4096 then 511
  else if N = 8192 then 1023 else if N = 16384 then 2047
  else if N = 32768 then 4095 else 0

/-- The counter of a loop `do { ... } while (k -= 2)` on `uint32_t k`, entered with the
counter `k`: the number of times the body runs, when the counter reaches zero within as
many iterations as the first argument says (`none` otherwise). -/
def doWhileCount : ℕ → ℕ → Option ℕ
  | 0, _ => none
  | fuel + 1, k =>
    let k := (k + 2 ^ 32 - 2) % 2 ^ 32
    if k ≠ 0 then (doWhileCount fuel k).map (fun r => r + 1) else some 1

/-- The counter of the loop `for (;;) { ...; if (!--n) break; ... }` of `cpass` and `upass`
on `uint32_t n`, entered with the counter `n`: the number of times the two butterflies at
its head run, when the counter reaches zero within as many iterations as the first
argument says (`none` otherwise). -/
def forBreakCount : ℕ → ℕ → Option ℕ
  | 0, _ => none
  | fuel + 1, n =>
    let n := (n + 2 ^ 32 - 1) % 2 ^ 32
    if n = 0 then some 1 else (forBreakCount fuel n).map (fun r => r + 1)

section CycleCount

/-- The function `fftfreq_c(i, 1)`, the base case `n <= 2` of the recursion. -/
def freqAt0 (i : ℕ) : ℕ := i

/-- The function `fftfreq_c(i, 2)`, the base case `n <= 2` of the recursion. -/
def freqAt1 (i : ℕ) : ℕ := i

/-- The function `fftfreq_c(i, 4)`: the body of `fftfreq_c` at `n = 4`, with the
recursive calls at the sizes 2 and 1. -/
def freqAt2 (i : ℕ) : ℕ :=
  cond (Nat.blt i 2) (Nat.mod (Nat.mul (freqAt1 i) 2) 4294967296)
    (cond (Nat.blt (Nat.sub i 2) 1)
      (Nat.mod (Nat.add (Nat.mod (Nat.mul (freqAt0 (Nat.sub i 2)) 4) 4294967296) 1)
        4294967296)
      (Nat.land
        (Nat.mod (Nat.add (Nat.mod (Nat.mul (freqAt0 (Nat.sub (Nat.sub i 2) 1)) 4)
          4294967296) 4294967295) 4294967296)
        3))

/-- The function `fftfreq_c(i, 8)`: the body of `fftfreq_c` at `n = 8`, with the
recursive calls at the sizes 4 and 2. -/
def freqAt3 (i : ℕ) : ℕ :=
  cond (Nat.blt i 4) (Nat.mod (Nat.mul (freqAt2 i) 2) 4294967296)
    (cond (Nat.blt (Nat.sub i 4) 2)
      (Nat.mod (Nat.add (Nat.mod (Nat.mul (freqAt1 (Nat.sub i 4)) 4) 4294967296) 1)
        4294967296)
      (Nat.land
        (Nat.mod (Nat.add (Nat.mod (Nat.mul (freqAt1 (Nat.sub (Nat.sub i 4) 2)) 4)
          4294967296) 4294967295) 4294967296)
        7))

/-- The function `fftfreq_c(i, 16)`: the body of `fftfreq_c` at `n = 16`, with the
recursive calls at the sizes 8 and 4. -/
def freqAt4 (i : ℕ) : ℕ :=
  cond (Nat.blt i 8) (Nat.mod (Nat.mul (freqAt3 i) 2) 4294967296)
    (cond (Nat.blt (Nat.sub i 8) 4)
      (Nat.mod (Nat.add (Nat.mod (Nat.mul (freqAt2 (Nat.sub i 8)) 4) 4294967296) 1)
        4294967296)
      (Nat.land
        (Nat.mod (Nat.add (Nat.mod (Nat.mul (freqAt2 (Nat.sub (Nat.sub i 8) 4)) 4)
          4294967296) 4294967295) 4294967296)
        15))

/-- The function `fftfreq_c(i, 32)`: the body of `fftfreq_c` at `n = 32`, with the
recursive calls at the sizes 16 and 8. -/
def freqAt5 (i : ℕ) : ℕ :=
  cond (Nat.blt i 16) (Nat.mod (Nat.mul (freqAt4 i) 2) 4294967296)
    (cond (Nat.blt (Nat.sub i 16) 8)
      (Nat.mod (Nat.add (Nat.mod (Nat.mul (freqAt3 (Nat.sub i 16)) 4) 4294967296) 1)
        4294967296)
      (Nat.land
        (Nat.mod (Nat.add (Nat.mod (Nat.mul (freqAt3 (Nat.sub (Nat.sub i 16) 8)) 4)
          4294967296) 4294967295) 4294967296)
        31))

/-- The function `fftfreq_c(i, 64)`: the body of `fftfreq_c` at `n = 64`, with the
recursive calls at the sizes 32 and 16. -/
def freqAt6 (i : ℕ) : ℕ :=
  cond (Nat.blt i 32) (Nat.mod (Nat.mul (freqAt5 i) 2) 4294967296)
    (cond (Nat.blt (Nat.sub i 32) 16)
      (Nat.mod (Nat.add (Nat.mod (Nat.mul (freqAt4 (Nat.sub i 32)) 4) 4294967296) 1)
        4294967296)
      (Nat.land
        (Nat.mod (Nat.add (Nat.mod (Nat.mul (freqAt4 (Nat.sub (Nat.sub i 32) 16)) 4)
          4294967296) 4294967295) 4294967296)
        63))

/-- The function `fftfreq_c(i, 128)`: the body of `fftfreq_c` at `n = 128`, with the
recursive calls at the sizes 64 and 32. -/
def freqAt7 (i : ℕ) : ℕ :=
  cond (Nat.blt i 64) (Nat.mod (Nat.mul (freqAt6 i) 2) 4294967296)
    (cond (Nat.blt (Nat.sub i 64) 32)
      (Nat.mod (Nat.add (Nat.mod (Nat.mul (freqAt5 (Nat.sub i 64)) 4) 4294967296) 1)
        4294967296)
      (Nat.land
        (Nat.mod (Nat.add (Nat.mod (Nat.mul (freqAt5 (Nat.sub (Nat.sub i 64) 32)) 4)
          4294967296) 4294967295) 4294967296)
        127))

/-- The function `fftfreq_c(i, 256)`: the body of `fftfreq_c` at `n = 256`, with the
recursive calls at the sizes 128 and 64. -/
def freqAt8 (i : ℕ) : ℕ :=
  cond (Nat.blt i 128) (Nat.mod (Nat.mul (freqAt7 i) 2) 4294967296)
    (cond (Nat.blt (Nat.sub i 128) 64)
      (Nat.mod (Nat.add (Nat.mod (Nat.mul (freqAt6 (Nat.sub i 128)) 4) 4294967296) 1)
        4294967296)
      (Nat.land
        (Nat.mod (Nat.add (Nat.mod (Nat.mul (freqAt6 (Nat.sub (Nat.sub i 128) 64)) 4)
          4294967296) 4294967295) 4294967296)
        255))

/-- The function `fftfreq_c(i, 512)`: the body of `fftfreq_c` at `n = 512`, with the
recursive calls at the sizes 256 and 128. -/
def freqAt9 (i : ℕ) : ℕ :=
  cond (Nat.blt i 256) (Nat.mod (Nat.mul (freqAt8 i) 2) 4294967296)
    (cond (Nat.blt (Nat.sub i 256) 128)
      (Nat.mod (Nat.add (Nat.mod (Nat.mul (freqAt7 (Nat.sub i 256)) 4) 4294967296) 1)
        4294967296)
      (Nat.land
        (Nat.mod (Nat.add (Nat.mod (Nat.mul (freqAt7 (Nat.sub (Nat.sub i 256) 128)) 4)
          4294967296) 4294967295) 4294967296)
        511))

/-- The function `fftfreq_c(i, 1024)`: the body of `fftfreq_c` at `n = 1024`, with the
recursive calls at the sizes 512 and 256. -/
def freqAt10 (i : ℕ) : ℕ :=
  cond (Nat.blt i 512) (Nat.mod (Nat.mul (freqAt9 i) 2) 4294967296)
    (cond (Nat.blt (Nat.sub i 512) 256)
      (Nat.mod (Nat.add (Nat.mod (Nat.mul (freqAt8 (Nat.sub i 512)) 4) 4294967296) 1)
        4294967296)
      (Nat.land
        (Nat.mod (Nat.add (Nat.mod (Nat.mul (freqAt8 (Nat.sub (Nat.sub i 512) 256)) 4)
          4294967296) 4294967295) 4294967296)
        1023))

/-- The function `fftfreq_c(i, 2048)`: the body of `fftfreq_c` at `n = 2048`, with the
recursive calls at the sizes 1024 and 512. -/
def freqAt11 (i : ℕ) : ℕ :=
  cond (Nat.blt i 1024) (Nat.mod (Nat.mul (freqAt10 i) 2) 4294967296)
    (cond (Nat.blt (Nat.sub i 1024) 512)
      (Nat.mod (Nat.add (Nat.mod (Nat.mul (freqAt9 (Nat.sub i 1024)) 4) 4294967296) 1)
        4294967296)
      (Nat.land
        (Nat.mod (Nat.add (Nat.mod (Nat.mul (freqAt9 (Nat.sub (Nat.sub i 1024) 512)) 4)
          4294967296) 4294967295) 4294967296)
        2047))

/-- The function `fftfreq_c(i, 4096)`: the body of `fftfreq_c` at `n = 4096`, with the
recursive calls at the sizes 2048 and 1024. -/
def freqAt12 (i : ℕ) : ℕ :=
  cond (Nat.blt i 2048) (Nat.mod (Nat.mul (freqAt11 i) 2) 4294967296)
    (cond (Nat.blt (Nat.sub i 2048) 1024)
      (Nat.mod (Nat.add (Nat.mod (Nat.mul (freqAt10 (Nat.sub i 2048)) 4) 4294967296) 1)
        4294967296)
      (Nat.land
        (Nat.mod (Nat.add (Nat.mod (Nat.mul (freqAt10 (Nat.sub (Nat.sub i 2048) 1024)) 4)
          4294967296) 4294967295) 4294967296)
        4095))

/-- The function `fftfreq_c(i, 8192)`: the body of `fftfreq_c` at `n = 8192`, with the
recursive calls at the sizes 4096 and 2048. -/
def freqAt13 (i : ℕ) : ℕ :=
  cond (Nat.blt i 4096) (Nat.mod (Nat.mul (freqAt12 i) 2) 4294967296)
    (cond (Nat.blt (Nat.sub i 4096) 2048)
      (Nat.mod (Nat.add (Nat.mod (Nat.mul (freqAt11 (Nat.sub i 4096)) 4) 4294967296) 1)
        4294967296)
      (Nat.land
        (Nat.mod (Nat.add (Nat.mod (Nat.mul (freqAt11 (Nat.sub (Nat.sub i 4096) 2048)) 4)
          4294967296) 4294967295) 4294967296)
        8191))

/-- The function `fftfreq_c(i, 16384)`: the body of `fftfreq_c` at `n = 16384`, with the
recursive calls at the sizes 8192 and 4096. -/
def freqAt14 (i : ℕ) : ℕ :=
  cond (Nat.blt i 8192) (Nat.mod (Nat.mul (freqAt13 i) 2) 4294967296)
    (cond (Nat.blt (Nat.sub i 8192) 4096)
      (Nat.mod (Nat.add (Nat.mod (Nat.mul (freqAt12 (Nat.sub i 8192)) 4) 4294967296) 1)
        4294967296)
      (Nat.land
        (Nat.mod (Nat.add (Nat.mod (Nat.mul (freqAt12 (Nat.sub (Nat.sub i 8192) 4096)) 4)
          4294967296) 4294967295) 4294967296)
        16383))

/-- The function `fftfreq_c(i, 32768)`: the body of `fftfreq_c` at `n = 32768`, with the
recursive calls at the sizes 16384 and 8192. -/
def freqAt15 (i : ℕ) : ℕ :=
  cond (Nat.blt i 16384) (Nat.mod (Nat.mul (freqAt14 i) 2) 4294967296)
    (cond (Nat.blt (Nat.sub i 16384) 8192)
      (Nat.mod (Nat.add (Nat.mod (Nat.mul (freqAt13 (Nat.sub i 16384)) 4) 4294967296) 1)
        4294967296)
      (Nat.land
        (Nat.mod (Nat.add (Nat.mod (Nat.mul (freqAt13 (Nat.sub (Nat.sub i 16384) 8192)) 4)
          4294967296) 4294967295) 4294967296)
        32767))

/-- The index `(N - f(i)) % N` at which `idx_perm_calc` stores `i`, `f` being `fftfreq_c` at
the size `N`: the inverse of the permutation `WDL_fft_permute(N, ·)`. -/
def tauOf (f : ℕ → ℕ) (N i : ℕ) : ℕ := Nat.mod (Nat.sub N (f i)) N

/-- Check that `n` steps of `τ` from `x` pass only through indices above `s` and end at
`s`. -/
def walkOK (τ : ℕ → ℕ) (s : ℕ) : ℕ → ℕ → Bool
  | 0, x => Nat.beq x s
  | n + 1, x => and (Nat.blt s x) (walkOK τ s n (τ x))

/-- Check of a list of cycles of `τ` on `[0, N)`, each given by its least index `s` and its
length `l ≥ 2`: `l` steps of `τ` from `s` return to `s` and pass only through indices above
`s`. -/
def orbitsOK (τ : ℕ → ℕ) (N : ℕ) : List (ℕ × ℕ) → Bool
  | [] => true
  | p :: rest =>
    and (and (Nat.blt p.1 N) (and (Nat.ble 2 p.2) (walkOK τ p.1 (Nat.sub p.2 1) (τ p.1))))
      (orbitsOK τ N rest)

/-- Check of a list of fixed points of `τ` on `[0, N)`. -/
def fixedOK (τ : ℕ → ℕ) (N : ℕ) : List ℕ → Bool
  | [] => true
  | f :: rest => and (and (Nat.blt f N) (Nat.beq (τ f) f)) (fixedOK τ N rest)

/-- Check of a cycle certificate of `τ` on `[0, N)`: fixed points and cycles. -/
def certOK (τ : ℕ → ℕ) (N : ℕ) (fixed : List ℕ) (orbs : List (ℕ × ℕ)) : Bool :=
  and (fixedOK τ N fixed) (orbitsOK τ N orbs)

/-- The index `s` below `N` lies on a cycle of `σ` of length `l ≥ 2` and is the least index
of that cycle. -/
def IsLeastOfCycle (σ : ℕ → ℕ) (N s l : ℕ) : Prop :=
  s < N ∧ 2 ≤ l ∧ σ^[l] s = s ∧ ∀ j, 1 ≤ j → j < l → s < σ^[j] s

end CycleCount

end WDLFFT

namespace WDLFFT

section Linear

variable {T : Type} [CommRing T]

theorem IsLin.comp {f h : Buf T → Buf T} (hf : IsLin f) (hh : IsLin h) :
    IsLin (fun a => h (f a)) := by
  intro α β X Y
  show h (f (lincomb α β X Y)) = _
  rw [hf, hh]

theorem isLin_id : IsLin (fun a : Buf T => a) := fun _ _ _ _ => rfl

theorem on4_isLin {f : cmplxT T → cmplxT T → cmplxT T → cmplxT T →
    cmplxT T × cmplxT T × cmplxT T × cmplxT T} (hf : IsLin4 f) (i0 i1 i2 i3 : ℕ) :
    IsLin (fun a => on4 f a i0 i1 i2 i3) := by
  intro α β X Y
  funext i
  have h := hf α β (X i0) (X i1) (X i2) (X i3) (Y i0) (Y i1) (Y i2) (Y i3)
  simp only [on4, store4, lincomb, Function.update_apply]
  rw [h]
  split_ifs <;> rfl

theorem TRANSFORM_isLin4 (wre wim : T) :
    IsLin4 (fun a0 a1 a2 a3 => TRANSFORM a0 a1 a2 a3 wre wim) := by
  intro α β x0 x1 x2 x3 y0 y1 y2 y3
  simp only [TRANSFORM, cadd, cmul, Prod.mk.injEq, cmplxT.mk.injEq]
  refine ⟨⟨?_, ?_⟩, ⟨?_, ?_⟩, ⟨?_, ?_⟩, ?_, ?_⟩ <;> ring

theorem TRANSFORMHALF_isLin4 (s : T) :
    IsLin4 (fun a0 a1 a2 a3 => TRANSFORMHALF a0 a1 a2 a3 s) := by
  intro α β x0 x1 x2 x3 y0 y1 y2 y3
  simp only [TRANSFORMHALF, cadd, cmul, Prod.mk.injEq, cmplxT.mk.injEq]
  refine ⟨⟨?_, ?_⟩, ⟨?_, ?_⟩, ⟨?_, ?_⟩, ?_, ?_⟩ <;> ring

theorem TRANSFORMZERO_isLin4 : IsLin4 (TRANSFORMZERO (T := T)) := by
  intro α β x0 x1 x2 x3 y0 y1 y2 y3
  simp only [TRANSFORMZERO, cadd, cmul, Prod.mk.injEq, cmplxT.mk.injEq]
  refine ⟨⟨?_, ?_⟩, ⟨?_, ?_⟩, ⟨?_, ?_⟩, ?_, ?_⟩ <;> ring

theorem UNTRANSFORM_isLin4 (wre wim : T) :
    IsLin4 (fun a0 a1 a2 a3 => UNTRANSFORM a0 a1 a2 a3 wre wim) := by
  intro α β x0 x1 x2 x3 y0 y1 y2 y3
  simp only [UNTRANSFORM, cadd, cmul, Prod.mk.injEq, cmplxT.mk.injEq]
  refine ⟨⟨?_, ?_⟩, ⟨?_, ?_⟩, ⟨?_, ?_⟩, ?_, ?_⟩ <;> ring

theorem UNTRANSFORMHALF_isLin4 (s : T) :
    IsLin4 (fun a0 a1 a2 a3 => UNTRANSFORMHALF a0 a1 a2 a3 s) := by
  intro α β x0 x1 x2 x3 y0 y1 y2 y3
  simp only [UNTRANSFORMHALF, cadd, cmul, Prod.mk.injEq, cmplxT.mk.injEq]
  refine ⟨⟨?_, ?_⟩, ⟨?_, ?_⟩, ⟨?_, ?_⟩, ?_, ?_⟩ <;> ring

theorem UNTRANSFORMZERO_isLin4 : IsLin4 (UNTRANSFORMZERO (T := T)) := by
  intro α β x0 x1 x2 x3 y0 y1 y2 y3
  simp only [UNTRANSFORMZERO, cadd, cmul, Prod.mk.injEq, cmplxT.mk.injEq]
  refine ⟨⟨?_, ?_⟩, ⟨?_, ?_⟩, ⟨?_, ?_⟩, ?_, ?_⟩ <;> ring

theorem c2_isLin (o : ℕ) : IsLin (fun a : Buf T => c2 a o) := by
  intro α β X Y
  funext i
  simp only [c2, lincomb, Function.update_apply, cadd, cmul]
  split_ifs <;> first | rfl | (ext <;> simp only [] <;> ring)

theorem c4_isLin (o : ℕ) : IsLin (fun a : Buf T => c4 a o) := by
  intro α β X Y
  funext i
  simp only [c4, store4, lincomb, Function.update_apply, cadd, cmul]
  split_ifs <;> first | rfl | (ext <;> simp only [] <;> ring)

theorem u4_isLin (o : ℕ) : IsLin (fun a : Buf T => u4 a o) := by
  intro α β X Y
  funext i
  simp only [u4, store4, lincomb, Function.update_apply, cadd, cmul]
  split_ifs <;> first | rfl | (ext <;> simp only [] <;> ring)

end Linear
end WDLFFT

namespace WDLFFT
section Pass
variable {T : Type} [CommRing T]

omit [CommRing T] in
theorem on4_apply (f : cmplxT T → cmplxT T → cmplxT T → cmplxT T →
    cmplxT T × cmplxT T × cmplxT T × cmplxT T) (a : Buf T) (i0 i1 i2 i3 i : ℕ) :
    on4 f a i0 i1 i2 i3 i =
      if i = i3 then (f (a i0) (a i1) (a i2) (a i3)).2.2.2
      else if i = i2 then (f (a i0) (a i1) (a i2) (a i3)).2.2.1
      else if i = i1 then (f (a i0) (a i1) (a i2) (a i3)).2.1
      else if i = i0 then (f (a i0) (a i1) (a i2) (a i3)).1
      else a i := by
  simp only [on4, store4, Function.update_apply]

omit [CommRing T] in
theorem passSeq_apply (bf : ℕ → cmplxT T → cmplxT T → cmplxT T → cmplxT T →
    cmplxT T × cmplxT T × cmplxT T × cmplxT T) (o M : ℕ) (a : Buf T) :
    ∀ K, K ≤ M → ∀ i, passSeq bf o M K a i =
      if o ≤ i ∧ i < o + K then
        (bf (i - o) (a i) (a (i + M)) (a (i + 2 * M)) (a (i + 3 * M))).1
      else if o + M ≤ i ∧ i < o + M + K then
        (bf (i - o - M) (a (i - M)) (a i) (a (i + M)) (a (i + 2 * M))).2.1
      else if o + 2 * M ≤ i ∧ i < o + 2 * M + K then
        (bf (i - o - 2 * M) (a (i - 2 * M)) (a (i - M)) (a i) (a (i + M))).2.2.1
      else if o + 3 * M ≤ i ∧ i < o + 3 * M + K then
        (bf (i - o - 3 * M) (a (i - 3 * M)) (a (i - 2 * M)) (a (i - M)) (a i)).2.2.2
      else a i := by
  intro K
  induction K with
  | zero =>
    intro _ i
    have h1 : ¬ (o ≤ i ∧ i < o + 0) := by omega
    have h2 : ¬ (o + M ≤ i ∧ i < o + M + 0) := by omega
    have h3 : ¬ (o + 2 * M ≤ i ∧ i < o + 2 * M + 0) := by omega
    have h4 : ¬ (o + 3 * M ≤ i ∧ i < o + 3 * M + 0) := by omega
    simp only [passSeq, h1, h2, h3, h4, if_false]
  | succ K ih =>
    intro hK i
    have ih := ih (by omega)
    have e0 : passSeq bf o M K a (o + K) = a (o + K) := by
      rw [ih]
      have h1 : ¬ (o ≤ o + K ∧ o + K < o + K) := by omega
      have h2 : ¬ (o + M ≤ o + K ∧ o + K < o + M + K) := by omega
      have h3 : ¬ (o + 2 * M ≤ o + K ∧ o + K < o + 2 * M + K) := by omega
      have h4 : ¬ (o + 3 * M ≤ o + K ∧ o + K < o + 3 * M + K) := by omega
      simp only [h1, h2, h3, h4, if_false]
    have e1 : passSeq bf o M K a (o + M + K) = a (o + M + K) := by
      rw [ih]
      have h1 : ¬ (o ≤ o + M + K ∧ o + M + K < o + K) := by omega
      have h2 : ¬ (o + M ≤ o + M + K ∧ o + M + K < o + M + K) := by omega
      have h3 : ¬ (o + 2 * M ≤ o + M + K ∧ o + M + K < o + 2 * M + K) := by omega
      have h4 : ¬ (o + 3 * M ≤ o + M + K ∧ o + M + K < o + 3 * M + K) := by omega
      simp only [h1, h2, h3, h4, if_false]
    have e2 : passSeq bf o M K a (o + 2 * M + K) = a (o + 2 * M + K) := by
      rw [ih]
      have h1 : ¬ (o ≤ o + 2 * M + K ∧ o + 2 * M + K < o + K) := by omega
      have h2 : ¬ (o + M ≤ o + 2 * M + K ∧ o + 2 * M + K < o + M + K) := by omega
      have h3 : ¬ (o + 2 * M ≤ o + 2 * M + K ∧ o + 2 * M + K < o + 2 * M + K) := by omega
      have h4 : ¬ (o + 3 * M ≤ o + 2 * M + K ∧ o + 2 * M + K < o + 3 * M + K) := by omega
      simp only [h1, h2, h3, h4, if_false]
    have e3 : passSeq bf o M K a (o + 3 * M + K) = a (o + 3 * M + K) := by
      rw [ih]
      have h1 : ¬ (o ≤ o + 3 * M + K ∧ o + 3 * M + K < o + K) := by omega
      have h2 : ¬ (o + M ≤ o + 3 * M + K ∧ o + 3 * M + K < o + M + K) := by omega
      have h3 : ¬ (o + 2 * M ≤ o + 3 * M + K ∧ o + 3 * M + K < o + 2 * M + K) := by omega
      have h4 : ¬ (o + 3 * M ≤ o + 3 * M + K ∧ o + 3 * M + K < o + 3 * M + K) := by omega
      simp only [h1, h2, h3, h4, if_false]
    rw [passSeq, on4_apply, e0, e1, e2, e3, ih]
    by_cases c3 : i = o + 3 * M + K
    · subst c3
      have h1 : ¬ (o ≤ o + 3 * M + K ∧ o + 3 * M + K < o + (K + 1)) := by omega
      have h2 : ¬ (o + M ≤ o + 3 * M + K ∧ o + 3 * M + K < o + M + (K + 1)) := by omega
      have h3 : ¬ (o + 2 * M ≤ o + 3 * M + K ∧ o + 3 * M + K < o + 2 * M + (K + 1)) := by omega
      have h4 : (o + 3 * M ≤ o + 3 * M + K ∧ o + 3 * M + K < o + 3 * M + (K + 1)) := by omega
      have a1 : o + 3 * M + K - o - 3 * M = K := by omega
      have a2 : o + 3 * M + K - 3 * M = o + K := by omega
      have a3 : o + 3 * M + K - 2 * M = o + M + K := by omega
      have a4 : o + 3 * M + K - M = o + 2 * M + K := by omega
      rw [if_pos rfl, if_neg h1, if_neg h2, if_neg h3, if_pos h4, a1, a2, a3, a4]
    by_cases c2 : i = o + 2 * M + K
    · subst c2
      have h1 : ¬ (o ≤ o + 2 * M + K ∧ o + 2 * M + K < o + (K + 1)) := by omega
      have h2 : ¬ (o + M ≤ o + 2 * M + K ∧ o + 2 * M + K < o + M + (K + 1)) := by omega
      have h3 : (o + 2 * M ≤ o + 2 * M + K ∧ o + 2 * M + K < o + 2 * M + (K + 1)) := by omega
      have a1 : o + 2 * M + K - o - 2 * M = K := by omega
      have a2 : o + 2 * M + K - 2 * M = o + K := by omega
      have a3 : o + 2 * M + K - M = o + M + K := by omega
      have a4 : o + 2 * M + K + M = o + 3 * M + K := by omega
      rw [if_neg c3, if_pos rfl, if_neg h1, if_neg h2, if_pos h3, a1, a2, a3, a4]
    by_cases c1 : i = o + M + K
    · subst c1
      have h1 : ¬ (o ≤ o + M + K ∧ o + M + K < o + (K + 1)) := by omega
      have h2 : (o + M ≤ o + M + K ∧ o + M + K < o + M + (K + 1)) := by omega
      have a1 : o + M + K - o - M = K := by omega
      have a2 : o + M + K - M = o + K := by omega
      have a3 : o + M + K + M = o + 2 * M + K := by omega
      have a4 : o + M + K + 2 * M = o + 3 * M + K := by omega
      rw [if_neg c3, if_neg c2, if_pos rfl, if_neg h1, if_pos h2, a1, a2, a3, a4]
    by_cases c0 : i = o + K
    · subst c0
      have h1 : (o ≤ o + K ∧ o + K < o + (K + 1)) := by omega
      have a1 : o + K - o = K := by omega
      have a2 : o + K + M = o + M + K := by omega
      have a3 : o + K + 2 * M = o + 2 * M + K := by omega
      have a4 : o + K + 3 * M = o + 3 * M + K := by omega
      rw [if_neg c3, if_neg c2, if_neg c1, if_pos rfl, if_pos h1, a1, a2, a3, a4]
    rw [if_neg c3, if_neg c2, if_neg c1, if_neg c0]
    have q1 : (o ≤ i ∧ i < o + (K + 1)) ↔ (o ≤ i ∧ i < o + K) := by omega
    have q2 : (o + M ≤ i ∧ i < o + M + (K + 1)) ↔ (o + M ≤ i ∧ i < o + M + K) := by omega
    have q3 : (o + 2 * M ≤ i ∧ i < o + 2 * M + (K + 1)) ↔
        (o + 2 * M ≤ i ∧ i < o + 2 * M + K) := by omega
    have q4 : (o + 3 * M ≤ i ∧ i < o + 3 * M + (K + 1)) ↔
        (o + 3 * M ≤ i ∧ i < o + 3 * M + K) := by omega
    simp only [q1, q2, q3, q4]

theorem passSeq_isLin (bf : ℕ → cmplxT T → cmplxT T → cmplxT T → cmplxT T →
    cmplxT T × cmplxT T × cmplxT T × cmplxT T) (hbf : ∀ k, IsLin4 (bf k)) (o M K : ℕ) :
    IsLin (passSeq bf o M K) := by
  induction K with
  | zero => exact isLin_id
  | succ K ih =>
    exact IsLin.comp (f := passSeq bf o M K)
      (h := fun a => on4 (bf K) a (o + K) (o + M + K) (o + 2 * M + K) (o + 3 * M + K)) ih
      (on4_isLin (hbf K) _ _ _ _)

end Pass
end WDLFFT

namespace WDLFFT
section PassEq
variable {T : Type} [CommRing T]

theorem cpass_loop_eq (w : ℕ → cmplxT T) (o M : ℕ) (a0 : Buf T) :
    ∀ k wo, cpass_loop w k (passSeq (bfC w) o M (wo + 2) a0)
        (o + wo) (o + M + wo) (o + 2 * M + wo) (o + 3 * M + wo) wo =
      passSeq (bfC w) o M (wo + 2 + 2 * k) a0 := by
  intro k
  induction k with
  | zero => intro wo; rfl
  | succ k ih =>
    intro wo
    have e : wo + 2 + 2 * (k + 1) = (wo + 2) + 2 + 2 * k := by omega
    rw [e, ← ih (wo + 2)]
    rfl

theorem cpass_eq (a : Buf T) (o : ℕ) (w : ℕ → cmplxT T) (n : ℕ) (hn : 1 ≤ n) :
    cpass a o w n = passSeq (bfC w) o (2 * n) (2 * n) a := by
  have e : 2 * n = 0 + 2 + 2 * (n - 1) := by omega
  have h := cpass_loop_eq w o (2 * n) a (n - 1) 0
  rw [← e] at h
  rw [← h]
  have e1 : o + 4 * n = o + 2 * (2 * n) := by omega
  have e2 : o + 2 * (2 * n) + 2 * n = o + 3 * (2 * n) := by omega
  simp only [cpass, e1, e2]
  rfl

theorem cpassbig_loop1_eq (s : T) (w : ℕ → cmplxT T) (n o M : ℕ) (a0 : Buf T) :
    ∀ m wo, wo + 2 + 2 * m ≤ n →
      cpassbig_loop1 w m (passSeq (bfCbig s w n) o M (wo + 2) a0)
        (o + (wo + 2)) (o + M + (wo + 2)) (o + 2 * M + (wo + 2)) (o + 3 * M + (wo + 2)) wo =
      passSeq (bfCbig s w n) o M (wo + 2 + 2 * m) a0 := by
  intro m
  induction m with
  | zero => intro wo _; rfl
  | succ m ih =>
    intro wo h
    have e : wo + 2 + 2 * (m + 1) = (wo + 2) + 2 + 2 * m := by omega
    rw [e, ← ih (wo + 2) (by omega)]
    have b1 : bfCbig s w n (wo + 2) =
        fun a0 a1 a2 a3 => TRANSFORM a0 a1 a2 a3 (w (wo + 1)).re (w (wo + 1)).im := by
      have c1 : ¬ (wo + 2 = 0) := by omega
      have c2 : wo + 2 < n := by omega
      simp only [bfCbig, c1, c2, if_false, if_true]
      rfl
    have b2 : bfCbig s w n (wo + 2 + 1) =
        fun a0 a1 a2 a3 => TRANSFORM a0 a1 a2 a3 (w (wo + 2)).re (w (wo + 2)).im := by
      have c1 : ¬ (wo + 2 + 1 = 0) := by omega
      have c2 : wo + 2 + 1 < n := by omega
      simp only [bfCbig, c1, c2, if_false, if_true]
      rfl
    show _ = cpassbig_loop1 w m
      (on4 (bfCbig s w n (wo + 2 + 1))
        (on4 (bfCbig s w n (wo + 2)) (passSeq (bfCbig s w n) o M (wo + 2) a0)
          (o + (wo + 2)) (o + M + (wo + 2)) (o + 2 * M + (wo + 2)) (o + 3 * M + (wo + 2)))
        (o + (wo + 2 + 1)) (o + M + (wo + 2 + 1)) (o + 2 * M + (wo + 2 + 1))
        (o + 3 * M + (wo + 2 + 1))) _ _ _ _ _
    rw [b1, b2]
    rfl

theorem cpassbig_loop2_eq (s : T) (w : ℕ → cmplxT T) (n o M : ℕ) (a0 : Buf T) :
    ∀ m K wo, n < K → K + 2 * m ≤ 2 * n → K + wo = 2 * n →
      cpassbig_loop2 w m (passSeq (bfCbig s w n) o M K a0)
        (o + K) (o + M + K) (o + 2 * M + K) (o + 3 * M + K) wo =
      passSeq (bfCbig s w n) o M (K + 2 * m) a0 := by
  intro m
  induction m with
  | zero => intro K wo _ _ _; rfl
  | succ m ih =>
    intro K wo h1 h2 h3
    have e : K + 2 * (m + 1) = (K + 2) + 2 * m := by omega
    rw [e, ← ih (K + 2) (wo - 2) (by omega) (by omega) (by omega)]
    have b1 : bfCbig s w n K =
        fun a0 a1 a2 a3 => TRANSFORM a0 a1 a2 a3 (w (wo - 1)).im (w (wo - 1)).re := by
      have c1 : ¬ (K = 0) := by omega
      have c2 : ¬ (K < n) := by omega
      have c3 : ¬ (K = n) := by omega
      have c4 : 2 * n - K - 1 = wo - 1 := by omega
      simp only [bfCbig, c1, c2, c3, c4, if_false]
    have b2 : bfCbig s w n (K + 1) =
        fun a0 a1 a2 a3 => TRANSFORM a0 a1 a2 a3 (w (wo - 2)).im (w (wo - 2)).re := by
      have c1 : ¬ (K + 1 = 0) := by omega
      have c2 : ¬ (K + 1 < n) := by omega
      have c3 : ¬ (K + 1 = n) := by omega
      have c4 : 2 * n - (K + 1) - 1 = wo - 2 := by omega
      simp only [bfCbig, c1, c2, c3, c4, if_false]
    show _ = cpassbig_loop2 w m
      (on4 (bfCbig s w n (K + 1))
        (on4 (bfCbig s w n K) (passSeq (bfCbig s w n) o M K a0)
          (o + K) (o + M + K) (o + 2 * M + K) (o + 3 * M + K))
        (o + (K + 1)) (o + M + (K + 1)) (o + 2 * M + (K + 1)) (o + 3 * M + (K + 1))) _ _ _ _ _
    rw [b1, b2]
    rfl

theorem cpassbig_eq (s : T) (a : Buf T) (o : ℕ) (w : ℕ → cmplxT T) (n : ℕ) (hn : 4 ≤ n)
    (he : n % 2 = 0) :
    cpassbig s a o w n = passSeq (bfCbig s w n) o (2 * n) (2 * n) a := by
  have hk : 2 * ((n - 2) / 2) = n - 2 := by omega
  have e : 2 * n = (n + 2) + 2 * ((n - 2) / 2) := by omega
  have h2 := cpassbig_loop2_eq s w n o (2 * n) a ((n - 2) / 2) (n + 2) (n - 2)
    (by omega) (by omega) (by omega)
  rw [← e] at h2
  rw [← h2]
  have h1 := cpassbig_loop1_eq s w n o (2 * n) a ((n - 2) / 2) 0 (by omega)
  have e' : 0 + 2 + 2 * ((n - 2) / 2) = n := by omega
  rw [e'] at h1
  have bH : bfCbig s w n n = fun a0 a1 a2 a3 => TRANSFORMHALF a0 a1 a2 a3 s := by
    have c1 : ¬ (n = 0) := by omega
    simp only [bfCbig, c1, lt_irrefl, if_false, if_true]
  have bN : bfCbig s w n (n + 1) =
      fun a0 a1 a2 a3 => TRANSFORM a0 a1 a2 a3 (w (n - 2)).im (w (n - 2)).re := by
    have c1 : ¬ (n + 1 = 0) := by omega
    have c2 : ¬ (n + 1 < n) := by omega
    have c3 : ¬ (n + 1 = n) := by omega
    have c4 : 2 * n - (n + 1) - 1 = n - 2 := by omega
    simp only [bfCbig, c1, c2, c3, c4, if_false]
  have s2 : passSeq (bfCbig s w n) o (2 * n) (n + 2) a =
      on4 (fun a0 a1 a2 a3 => TRANSFORM a0 a1 a2 a3 (w (n - 2)).im (w (n - 2)).re)
        (on4 (fun a0 a1 a2 a3 => TRANSFORMHALF a0 a1 a2 a3 s)
          (passSeq (bfCbig s w n) o (2 * n) n a)
          (o + n) (o + 2 * n + n) (o + 2 * (2 * n) + n) (o + 3 * (2 * n) + n))
        (o + (n + 1)) (o + 2 * n + (n + 1)) (o + 2 * (2 * n) + (n + 1))
        (o + 3 * (2 * n) + (n + 1)) := by
    rw [← bH, ← bN]
    rfl
  rw [s2, ← h1]
  have b0 : bfCbig s w n 0 = TRANSFORMZERO := by simp only [bfCbig, if_true]
  have b1 : bfCbig s w n 1 =
      fun a0 a1 a2 a3 => TRANSFORM a0 a1 a2 a3 (w 0).re (w 0).im := by
    have c2 : 1 < n := by omega
    simp only [bfCbig, one_ne_zero, c2, if_false, if_true, Nat.sub_self]
  have s0 : passSeq (bfCbig s w n) o (2 * n) (0 + 2) a =
      on4 (fun a0 a1 a2 a3 => TRANSFORM a0 a1 a2 a3 (w 0).re (w 0).im)
        (on4 TRANSFORMZERO a (o + 0) (o + 2 * n + 0) (o + 2 * (2 * n) + 0) (o + 3 * (2 * n) + 0))
        (o + 1) (o + 2 * n + 1) (o + 2 * (2 * n) + 1) (o + 3 * (2 * n) + 1) := by
    rw [← b0, ← b1]
    rfl
  rw [s0]
  have e1 : o + 4 * n = o + 2 * (2 * n) := by omega
  have e2 : o + 2 * (2 * n) + 2 * n = o + 3 * (2 * n) := by omega
  simp only [cpassbig, e1, e2, hk]
  have i1 : o + 2 + (n - 2) = o + n := by omega
  have i2 : o + 2 * n + 2 + (n - 2) = o + 2 * n + n := by omega
  have i3 : o + 2 * (2 * n) + 2 + (n - 2) = o + 2 * (2 * n) + n := by omega
  have i4 : o + 3 * (2 * n) + 2 + (n - 2) = o + 3 * (2 * n) + n := by omega
  simp only [i1, i2, i3, i4, Nat.add_zero]
  rfl

theorem upass_loop_eq (w : ℕ → cmplxT T) (o M : ℕ) (a0 : Buf T) :
    ∀ k wo, upass_loop w k (passSeq (bfU w) o M (wo + 2) a0)
        (o + wo) (o + M + wo) (o + 2 * M + wo) (o + 3 * M + wo) wo =
      passSeq (bfU w) o M (wo + 2 + 2 * k) a0 := by
  intro k
  induction k with
  | zero => intro wo; rfl
  | succ k ih =>
    intro wo
    have e : wo + 2 + 2 * (k + 1) = (wo + 2) + 2 + 2 * k := by omega
    rw [e, ← ih (wo + 2)]
    rfl

theorem upass_eq (a : Buf T) (o : ℕ) (w : ℕ → cmplxT T) (n : ℕ) (hn : 1 ≤ n) :
    upass a o w n = passSeq (bfU w) o (2 * n) (2 * n) a := by
  have e : 2 * n = 0 + 2 + 2 * (n - 1) := by omega
  have h := upass_loop_eq w o (2 * n) a (n - 1) 0
  rw [← e] at h
  rw [← h]
  have e1 : o + 4 * n = o + 2 * (2 * n) := by omega
  have e2 : o + 2 * (2 * n) + 2 * n = o + 3 * (2 * n) := by omega
  simp only [upass, e1, e2]
  rfl

theorem upassbig_loop1_eq (s : T) (w : ℕ → cmplxT T) (n o M : ℕ) (a0 : Buf T) :
    ∀ m wo, wo + 2 + 2 * m ≤ n →
      upassbig_loop1 w m (passSeq (bfUbig s w n) o M (wo + 2) a0)
        (o + (wo + 2)) (o + M + (wo + 2)) (o + 2 * M + (wo + 2)) (o + 3 * M + (wo + 2)) wo =
      passSeq (bfUbig s w n) o M (wo + 2 + 2 * m) a0 := by
  intro m
  induction m with
  | zero => intro wo _; rfl
  | succ m ih =>
    intro wo h
    have e : wo + 2 + 2 * (m + 1) = (wo + 2) + 2 + 2 * m := by omega
    rw [e, ← ih (wo + 2) (by omega)]
    have b1 : bfUbig s w n (wo + 2) =
        fun a0 a1 a2 a3 => UNTRANSFORM a0 a1 a2 a3 (w (wo + 1)).re (w (wo + 1)).im := by
      have c1 : ¬ (wo + 2 = 0) := by omega
      have c2 : wo + 2 < n := by omega
      simp only [bfUbig, c1, c2, if_false, if_true]
      rfl
    have b2 : bfUbig s w n (wo + 2 + 1) =
        fun a0 a1 a2 a3 => UNTRANSFORM a0 a1 a2 a3 (w (wo + 2)).re (w (wo + 2)).im := by
      have c1 : ¬ (wo + 2 + 1 = 0) := by omega
      have c2 : wo + 2 + 1 < n := by omega
      simp only [bfUbig, c1, c2, if_false, if_true]
      rfl
    show _ = upassbig_loop1 w m
      (on4 (bfUbig s w n (wo + 2 + 1))
        (on4 (bfUbig s w n (wo + 2)) (passSeq (bfUbig s w n) o M (wo + 2) a0)
          (o + (wo + 2)) (o + M + (wo + 2)) (o + 2 * M + (wo + 2)) (o + 3 * M + (wo + 2)))
        (o + (wo + 2 + 1)) (o + M + (wo + 2 + 1)) (o + 2 * M + (wo + 2 + 1))
        (o + 3 * M + (wo + 2 + 1))) _ _ _ _ _
    rw [b1, b2]
    rfl

theorem upassbig_loop2_eq (s : T) (w : ℕ → cmplxT T) (n o M : ℕ) (a0 : Buf T) :
    ∀ m K wo, n < K → K + 2 * m ≤ 2 * n → K + wo = 2 * n →
      upassbig_loop2 w m (passSeq (bfUbig s w n) o M K a0)
        (o + K) (o + M + K) (o + 2 * M + K) (o + 3 * M + K) wo =
      passSeq (bfUbig s w n) o M (K + 2 * m) a0 := by
  intro m
  induction m with
  | zero => intro K wo _ _ _; rfl
  | succ m ih =>
    intro K wo h1 h2 h3
    have e : K + 2 * (m + 1) = (K + 2) + 2 * m := by omega
    rw [e, ← ih (K + 2) (wo - 2) (by omega) (by omega) (by omega)]
    have b1 : bfUbig s w n K =
        fun a0 a1 a2 a3 => UNTRANSFORM a0 a1 a2 a3 (w (wo - 1)).im (w (wo - 1)).re := by
      have c1 : ¬ (K = 0) := by omega
      have c2 : ¬ (K < n) := by omega
      have c3 : ¬ (K = n) := by omega
      have c4 : 2 * n - K - 1 = wo - 1 := by omega
      simp only [bfUbig, c1, c2, c3, c4, if_false]
    have b2 : bfUbig s w n (K + 1) =
        fun a0 a1 a2 a3 => UNTRANSFORM a0 a1 a2 a3 (w (wo - 2)).im (w (wo - 2)).re := by
      have c1 : ¬ (K + 1 = 0) := by omega
      have c2 : ¬ (K + 1 < n) := by omega
      have c3 : ¬ (K + 1 = n) := by omega
      have c4 : 2 * n - (K + 1) - 1 = wo - 2 := by omega
      simp only [bfUbig, c1, c2, c3, c4, if_false]
    show _ = upassbig_loop2 w m
      (on4 (bfUbig s w n (K + 1))
        (on4 (bfUbig s w n K) (passSeq (bfUbig s w n) o M K a0)
          (o + K) (o + M + K) (o + 2 * M + K) (o + 3 * M + K))
        (o + (K + 1)) (o + M + (K + 1)) (o + 2 * M + (K + 1)) (o + 3 * M + (K + 1))) _ _ _ _ _
    rw [b1, b2]
    rfl

theorem upassbig_eq (s : T) (a : Buf T) (o : ℕ) (w : ℕ → cmplxT T) (n : ℕ) (hn : 4 ≤ n)
    (he : n % 2 = 0) :
    upassbig s a o w n = passSeq (bfUbig s w n) o (2 * n) (2 * n) a := by
  have hk : 2 * ((n - 2) / 2) = n - 2 := by omega
  have e : 2 * n = (n + 2) + 2 * ((n - 2) / 2) := by omega
  have h2 := upassbig_loop2_eq s w n o (2 * n) a ((n - 2) / 2) (n + 2) (n - 2)
    (by omega) (by omega) (by omega)
  rw [← e] at h2
  rw [← h2]
  have h1 := upassbig_loop1_eq s w n o (2 * n) a ((n - 2) / 2) 0 (by omega)
  have e' : 0 + 2 + 2 * ((n - 2) / 2) = n := by omega
  rw [e'] at h1
  have bH : bfUbig s w n n = fun a0 a1 a2 a3 => UNTRANSFORMHALF a0 a1 a2 a3 s := by
    have c1 : ¬ (n = 0) := by omega
    simp only [bfUbig, c1, lt_irrefl, if_false, if_true]
  have bN : bfUbig s w n (n + 1) =
      fun a0 a1 a2 a3 => UNTRANSFORM a0 a1 a2 a3 (w (n - 2)).im (w (n - 2)).re := by
    have c1 : ¬ (n + 1 = 0) := by omega
    have c2 : ¬ (n + 1 < n) := by omega
    have c3 : ¬ (n + 1 = n) := by omega
    have c4 : 2 * n - (n + 1) - 1 = n - 2 := by omega
    simp only [bfUbig, c1, c2, c3, c4, if_false]
  have s2 : passSeq (bfUbig s w n) o (2 * n) (n + 2) a =
      on4 (fun a0 a1 a2 a3 => UNTRANSFORM a0 a1 a2 a3 (w (n - 2)).im (w (n - 2)).re)
        (on4 (fun a0 a1 a2 a3 => UNTRANSFORMHALF a0 a1 a2 a3 s)
          (passSeq (bfUbig s w n) o (2 * n) n a)
          (o + n) (o + 2 * n + n) (o + 2 * (2 * n) + n) (o + 3 * (2 * n) + n))
        (o + (n + 1)) (o + 2 * n + (n + 1)) (o + 2 * (2 * n) + (n + 1))
        (o + 3 * (2 * n) + (n + 1)) := by
    rw [← bH, ← bN]
    rfl
  rw [s2, ← h1]
  have b0 : bfUbig s w n 0 = UNTRANSFORMZERO := by simp only [bfUbig, if_true]
  have b1 : bfUbig s w n 1 =
      fun a0 a1 a2 a3 => UNTRANSFORM a0 a1 a2 a3 (w 0).re (w 0).im := by
    have c2 : 1 < n := by omega
    simp only [bfUbig, one_ne_zero, c2, if_false, if_true, Nat.sub_self]
  have s0 : passSeq (bfUbig s w n) o (2 * n) (0 + 2) a =
      on4 (fun a0 a1 a2 a3 => UNTRANSFORM a0 a1 a2 a3 (w 0).re (w 0).im)
        (on4 UNTRANSFORMZERO a (o + 0) (o + 2 * n + 0) (o + 2 * (2 * n) + 0) (o + 3 * (2 * n) + 0))
        (o + 1) (o + 2 * n + 1) (o + 2 * (2 * n) + 1) (o + 3 * (2 * n) + 1) := by
    rw [← b0, ← b1]
    rfl
  rw [s0]
  have e1 : o + 4 * n = o + 2 * (2 * n) := by omega
  have e2 : o + 2 * (2 * n) + 2 * n = o + 3 * (2 * n) := by omega
  simp only [upassbig, e1, e2, hk]
  have i1 : o + 2 + (n - 2) = o + n := by omega
  have i2 : o + 2 * n + 2 + (n - 2) = o + 2 * n + n := by omega
  have i3 : o + 2 * (2 * n) + 2 + (n - 2) = o + 2 * (2 * n) + n := by omega
  have i4 : o + 3 * (2 * n) + 2 + (n - 2) = o + 3 * (2 * n) + n := by omega
  simp only [i1, i2, i3, i4, Nat.add_zero]
  rfl

end PassEq
end WDLFFT

namespace WDLFFT
section Small
variable {T : Type} [CommRing T]

theorem c4_eq (a : Buf T) (o : ℕ) :
    c4 a o = c2 (on4 TRANSFORMZERO a o (o + 1) (o + 2) (o + 3)) o := by
  funext i
  by_cases h3 : i = o + 3
  · subst h3; ext <;> simp [c4, c2, on4, store4, TRANSFORMZERO, Function.update_apply] <;> ring
  by_cases h2 : i = o + 2
  · subst h2; ext <;> simp [c4, c2, on4, store4, TRANSFORMZERO, Function.update_apply] <;> ring
  by_cases h1 : i = o + 1
  · subst h1; ext <;> simp [c4, c2, on4, store4, TRANSFORMZERO, Function.update_apply] <;> ring
  by_cases h0 : i = o
  · subst h0; ext <;> simp [c4, c2, on4, store4, TRANSFORMZERO, Function.update_apply] <;> ring
  simp [c4, c2, on4, store4, TRANSFORMZERO, Function.update_apply, h0, h1, h2, h3]

theorem u4_eq (a : Buf T) (o : ℕ) :
    u4 a o = on4 UNTRANSFORMZERO (c2 a o) o (o + 1) (o + 2) (o + 3) := by
  funext i
  by_cases h3 : i = o + 3
  · subst h3; ext <;> simp [u4, c2, on4, store4, UNTRANSFORMZERO, Function.update_apply] <;> ring
  by_cases h2 : i = o + 2
  · subst h2; ext <;> simp [u4, c2, on4, store4, UNTRANSFORMZERO, Function.update_apply] <;> ring
  by_cases h1 : i = o + 1
  · subst h1; ext <;> simp [u4, c2, on4, store4, UNTRANSFORMZERO, Function.update_apply] <;> ring
  by_cases h0 : i = o
  · subst h0; ext <;> simp [u4, c2, on4, store4, UNTRANSFORMZERO, Function.update_apply] <;> ring
  simp [u4, c2, on4, store4, UNTRANSFORMZERO, Function.update_apply, h0, h1, h2, h3]

end Small
end WDLFFT

namespace WDLFFT
section Small
variable {T : Type} [CommRing T]

theorem c8_eq (g : Globals T) (a : Buf T) (o : ℕ) :
    c8 g a o = c4 (c2 (c2 (on4 (fun a0 a1 a2 a3 => TRANSFORMHALF a0 a1 a2 a3 (sqrthalf g))
      (on4 TRANSFORMZERO a o (o + 2) (o + 4) (o + 6)) (o + 1) (o + 3) (o + 5) (o + 7))
      (o + 4)) (o + 6)) o := by
  simp only [c8]
  refine congrArg (fun b => c4 b o) ?_
  funext i
  by_cases h7 : i = o + 7
  · subst h7; ext <;> simp [c2, on4, store4, store8, TRANSFORMZERO, TRANSFORMHALF, Function.update_apply, self_eq_add_right, add_right_eq_self] <;> ring
  by_cases h6 : i = o + 6
  · subst h6; ext <;> simp [c2, on4, store4, store8, TRANSFORMZERO, TRANSFORMHALF, Function.update_apply, self_eq_add_right, add_right_eq_self] <;> ring
  by_cases h5 : i = o + 5
  · subst h5; ext <;> simp [c2, on4, store4, store8, TRANSFORMZERO, TRANSFORMHALF, Function.update_apply, self_eq_add_right, add_right_eq_self] <;> ring
  by_cases h4 : i = o + 4
  · subst h4; ext <;> simp [c2, on4, store4, store8, TRANSFORMZERO, TRANSFORMHALF, Function.update_apply, self_eq_add_right, add_right_eq_self] <;> ring
  by_cases h3 : i = o + 3
  · subst h3; ext <;> simp [c2, on4, store4, store8, TRANSFORMZERO, TRANSFORMHALF, Function.update_apply, self_eq_add_right, add_right_eq_self] <;> ring
  by_cases h2 : i = o + 2
  · subst h2; ext <;> simp [c2, on4, store4, store8, TRANSFORMZERO, TRANSFORMHALF, Function.update_apply, self_eq_add_right, add_right_eq_self] <;> ring
  by_cases h1 : i = o + 1
  · subst h1; ext <;> simp [c2, on4, store4, store8, TRANSFORMZERO, TRANSFORMHALF, Function.update_apply, self_eq_add_right, add_right_eq_self] <;> ring
  by_cases h0 : i = o
  · subst h0; ext <;> simp [c2, on4, store4, store8, TRANSFORMZERO, TRANSFORMHALF, Function.update_apply, h1, h2, h3, h4, h5, h6, h7] <;> ring
  simp [c2, on4, store4, store8, TRANSFORMZERO, TRANSFORMHALF, Function.update_apply, self_eq_add_right, add_right_eq_self, h0, h1, h2, h3, h4, h5, h6, h7]

set_option maxHeartbeats 1000000 in
theorem u8_eq (g : Globals T) (a : Buf T) (o : ℕ) :
    u8 g a o = on4 (fun a0 a1 a2 a3 => UNTRANSFORMHALF a0 a1 a2 a3 (sqrthalf g))
      (on4 UNTRANSFORMZERO (c2 (c2 (u4 a o) (o + 4)) (o + 6)) o (o + 2) (o + 4) (o + 6))
      (o + 1) (o + 3) (o + 5) (o + 7) := by
  simp only [u8]
  generalize u4 a o = b
  have n1 : ¬ o = o + 1 := by omega
  have n2 : ¬ o = o + 2 := by omega
  have n3 : ¬ o = o + 3 := by omega
  have n4 : ¬ o = o + 4 := by omega
  have n5 : ¬ o = o + 5 := by omega
  have n6 : ¬ o = o + 6 := by omega
  have n7 : ¬ o = o + 7 := by omega
  funext i
  by_cases h7 : i = o + 7
  · subst h7; ext <;> simp [c2, on4, store4, store8, UNTRANSFORMZERO, UNTRANSFORMHALF, Function.update_apply, n1, n2, n3, n4, n5, n6, n7] <;> ring
  by_cases h6 : i = o + 6
  · subst h6; ext <;> simp [c2, on4, store4, store8, UNTRANSFORMZERO, UNTRANSFORMHALF, Function.update_apply, n1, n2, n3, n4, n5, n6, n7] <;> ring
  by_cases h5 : i = o + 5
  · subst h5; ext <;> simp [c2, on4, store4, store8, UNTRANSFORMZERO, UNTRANSFORMHALF, Function.update_apply, n1, n2, n3, n4, n5, n6, n7] <;> ring
  by_cases h4 : i = o + 4
  · subst h4; ext <;> simp [c2, on4, store4, store8, UNTRANSFORMZERO, UNTRANSFORMHALF, Function.update_apply, n1, n2, n3, n4, n5, n6, n7] <;> ring
  by_cases h3 : i = o + 3
  · subst h3; ext <;> simp [c2, on4, store4, store8, UNTRANSFORMZERO, UNTRANSFORMHALF, Function.update_apply, n1, n2, n3, n4, n5, n6, n7] <;> ring
  by_cases h2 : i = o + 2
  · subst h2; ext <;> simp [c2, on4, store4, store8, UNTRANSFORMZERO, UNTRANSFORMHALF, Function.update_apply, n1, n2, n3, n4, n5, n6, n7] <;> ring
  by_cases h1 : i = o + 1
  · subst h1; ext <;> simp [c2, on4, store4, store8, UNTRANSFORMZERO, UNTRANSFORMHALF, Function.update_apply, n1, n2, n3, n4, n5, n6, n7] <;> ring
  by_cases h0 : i = o
  · rw [h0]; ext <;> simp [c2, on4, store4, store8, UNTRANSFORMZERO, UNTRANSFORMHALF, Function.update_apply, n1, n2, n3, n4, n5, n6, n7] <;> ring
  simp [c2, on4, store4, store8, UNTRANSFORMZERO, UNTRANSFORMHALF, Function.update_apply, h0, h1, h2, h3, h4, h5, h6, h7]

end Small
end WDLFFT

namespace WDLFFT
section Freq

theorem fftfreq_c_small (i n : ℕ) (h : n ≤ 2) : fftfreq_c i n = i := by
  rw [fftfreq_c]; simp [h]

/-- One unfolding of `fftfreq_c` at a size `4M > 2`, with shifts written as arithmetic. -/
theorem fftfreq_c_unfold (k M : ℕ) (hM : 1 ≤ M) :
    fftfreq_c k (4 * M) =
      if k < 2 * M then (fftfreq_c k (2 * M) * 2) % 4294967296
      else if k - 2 * M < M then
        ((fftfreq_c (k - 2 * M) M * 4) % 4294967296 + 1) % 4294967296
      else (((fftfreq_c (k - 2 * M - M) M * 4) % 4294967296 + 4294967295) % 4294967296) &&&
        (4 * M - 1) := by
  rw [fftfreq_c]
  have h1 : ¬ (4 * M ≤ 2) := by omega
  have h2 : (4 * M) >>> 1 = 2 * M := by
    rw [Nat.shiftRight_eq_div_pow]; omega
  have h3 : (2 * M) >>> 1 = M := by
    rw [Nat.shiftRight_eq_div_pow]; omega
  simp only [h1, dite_false, h2, h3, Nat.shiftLeft_eq]

theorem and_pow_two_sub_one (x c : ℕ) : x &&& (4 * 2 ^ c - 1) = x % (4 * 2 ^ c) := by
  have : 4 * 2 ^ c = 2 ^ (c + 2) := by ring
  rw [this, Nat.and_pow_two_sub_one_eq_mod]

/-- Range and clean recursion of `fftfreq_c` at the sizes `2^c`. -/
theorem fftfreq_c_lt : ∀ c, c ≤ 31 → ∀ k, k < 2 ^ c → fftfreq_c k (2 ^ c) < 2 ^ c := by
  intro c
  induction c using Nat.strong_induction_on with
  | _ c ih =>
    intro hc k hk
    rcases Nat.lt_or_ge c 2 with h | h
    · have : (2:ℕ) ^ c ≤ 2 := by
        interval_cases c <;> norm_num
      rw [fftfreq_c_small _ _ this]; exact hk
    · obtain ⟨d, rfl⟩ : ∃ d, c = d + 2 := ⟨c - 2, by omega⟩
      have e4 : (2:ℕ) ^ (d + 2) = 4 * 2 ^ d := by ring
      have e2 : (2:ℕ) ^ (d + 1) = 2 * 2 ^ d := by ring
      have hpos : 1 ≤ 2 ^ d := Nat.one_le_two_pow
      have hM : 4 * 2 ^ d ≤ 2147483648 := by
        have : (2:ℕ) ^ (d + 2) ≤ 2 ^ 31 := Nat.pow_le_pow_right (by norm_num) hc
        rw [e4] at this; norm_num at this; exact this
      rw [e4] at hk ⊢
      rw [fftfreq_c_unfold k _ hpos]
      split_ifs with c1 c2
      · have := ih (d + 1) (by omega) (by omega) k (by rw [e2]; exact c1)
        rw [e2] at this
        rw [Nat.mod_eq_of_lt (by omega)]; omega
      · have := ih d (by omega) (by omega) (k - 2 * 2 ^ d) c2
        rw [Nat.mod_eq_of_lt (by omega), Nat.mod_eq_of_lt (by omega)]; omega
      · rw [and_pow_two_sub_one]
        exact Nat.mod_lt _ (by omega)

theorem fftfreq_c_rec1 (c k : ℕ) (hc : c ≤ 29) (hk : k < 2 * 2 ^ c) :
    fftfreq_c k (4 * 2 ^ c) = 2 * fftfreq_c k (2 * 2 ^ c) := by
  have hpos : 1 ≤ 2 ^ c := Nat.one_le_two_pow
  have e2 : (2:ℕ) ^ (c + 1) = 2 * 2 ^ c := by ring
  have hM : 4 * 2 ^ c ≤ 2147483648 := by
    have : (2:ℕ) ^ (c + 2) ≤ 2 ^ 31 := Nat.pow_le_pow_right (by norm_num) (by omega)
    have e4 : (2:ℕ) ^ (c + 2) = 4 * 2 ^ c := by ring
    rw [e4] at this; norm_num at this; exact this
  have := fftfreq_c_lt (c + 1) (by omega) k (by rw [e2]; exact hk)
  rw [e2] at this
  rw [fftfreq_c_unfold k _ hpos, if_pos hk, Nat.mod_eq_of_lt (by omega)]; omega

theorem fftfreq_c_rec2 (c k : ℕ) (hc : c ≤ 29) (hk : k < 2 ^ c) :
    fftfreq_c (2 * 2 ^ c + k) (4 * 2 ^ c) = 4 * fftfreq_c k (2 ^ c) + 1 := by
  have hpos : 1 ≤ 2 ^ c := Nat.one_le_two_pow
  have hM : 4 * 2 ^ c ≤ 2147483648 := by
    have : (2:ℕ) ^ (c + 2) ≤ 2 ^ 31 := Nat.pow_le_pow_right (by norm_num) (by omega)
    have e4 : (2:ℕ) ^ (c + 2) = 4 * 2 ^ c := by ring
    rw [e4] at this; norm_num at this; exact this
  have := fftfreq_c_lt c (by omega) k hk
  have e : 2 * 2 ^ c + k - 2 * 2 ^ c = k := by omega
  rw [fftfreq_c_unfold _ _ hpos, if_neg (by omega), e, if_pos hk,
    Nat.mod_eq_of_lt (by omega), Nat.mod_eq_of_lt (by omega)]; omega

theorem fftfreq_c_rec3 (c k : ℕ) (hc : c ≤ 29) (hk : k < 2 ^ c) :
    fftfreq_c (3 * 2 ^ c + k) (4 * 2 ^ c) =
      (4 * fftfreq_c k (2 ^ c) + (4 * 2 ^ c - 1)) % (4 * 2 ^ c) := by
  have hpos : 1 ≤ 2 ^ c := Nat.one_le_two_pow
  have hM : 4 * 2 ^ c ≤ 2147483648 := by
    have : (2:ℕ) ^ (c + 2) ≤ 2 ^ 31 := Nat.pow_le_pow_right (by norm_num) (by omega)
    have e4 : (2:ℕ) ^ (c + 2) = 4 * 2 ^ c := by ring
    rw [e4] at this; norm_num at this; exact this
  have hf := fftfreq_c_lt c (by omega) k hk
  have e : 3 * 2 ^ c + k - 2 * 2 ^ c - 2 ^ c = k := by omega
  have hdvd : 4 * 2 ^ c ∣ 4294967296 := by
    have : (4294967296 : ℕ) = 2 ^ 32 := by norm_num
    rw [this]
    have e4 : 4 * 2 ^ c = (2:ℕ) ^ (c + 2) := by ring
    rw [e4]
    exact Nat.pow_dvd_pow 2 (by omega)
  rw [fftfreq_c_unfold _ _ hpos, if_neg (by omega), if_neg (by omega), e,
    and_pow_two_sub_one, Nat.mod_eq_of_lt (a := fftfreq_c k (2 ^ c) * 4) (by omega),
    Nat.mod_mod_of_dvd _ hdvd]
  obtain ⟨q, hq⟩ := hdvd
  have hq1 : 1 ≤ q := by
    rcases Nat.eq_zero_or_pos q with h | h
    · rw [h] at hq; norm_num at hq
    · exact h
  have : fftfreq_c k (2 ^ c) * 4 + 4294967295 =
      (4 * fftfreq_c k (2 ^ c) + (4 * 2 ^ c - 1)) + 4 * 2 ^ c * (q - 1) := by
    have : 4 * 2 ^ c * (q - 1) = 4 * 2 ^ c * q - 4 * 2 ^ c := by
      rw [Nat.mul_sub, Nat.mul_one]
    omega
  rw [this, Nat.add_mul_mod_self_left]

end Freq
end WDLFFT

namespace WDLFFT
section Freq

theorem fftfreq_c_zero : ∀ c, c ≤ 31 → fftfreq_c 0 (2 ^ c) = 0 := by
  intro c
  induction c using Nat.strong_induction_on with
  | _ c ih =>
    intro hc
    rcases Nat.lt_or_ge c 2 with h | h
    · have : (2:ℕ) ^ c ≤ 2 := by
        interval_cases c <;> norm_num
      rw [fftfreq_c_small _ _ this]
    · obtain ⟨d, rfl⟩ : ∃ d, c = d + 2 := ⟨c - 2, by omega⟩
      have e4 : (2:ℕ) ^ (d + 2) = 4 * 2 ^ d := by ring
      have e2 : (2:ℕ) ^ (d + 1) = 2 * 2 ^ d := by ring
      have hpos : 1 ≤ 2 ^ d := Nat.one_le_two_pow
      rw [e4, fftfreq_c_rec1 d 0 (by omega) (by omega), ← e2, ih (d + 1) (by omega) (by omega)]

theorem fftfreq_c_inj : ∀ c, c ≤ 31 → ∀ i j, i < 2 ^ c → j < 2 ^ c →
    fftfreq_c i (2 ^ c) = fftfreq_c j (2 ^ c) → i = j := by
  intro c
  induction c using Nat.strong_induction_on with
  | _ c ih =>
    intro hc i j hi hj hij
    rcases Nat.lt_or_ge c 2 with h | h
    · have : (2:ℕ) ^ c ≤ 2 := by
        interval_cases c <;> norm_num
      rw [fftfreq_c_small _ _ this, fftfreq_c_small _ _ this] at hij; exact hij
    · obtain ⟨d, rfl⟩ : ∃ d, c = d + 2 := ⟨c - 2, by omega⟩
      have e4 : (2:ℕ) ^ (d + 2) = 4 * 2 ^ d := by ring
      have e2 : (2:ℕ) ^ (d + 1) = 2 * 2 ^ d := by ring
      have hpos : 1 ≤ 2 ^ d := Nat.one_le_two_pow
      have hd : d ≤ 29 := by omega
      rw [e4] at hi hj hij
      have hdvd : 4 ∣ 4 * 2 ^ d := Dvd.intro _ rfl
      -- every index falls in one of the three branches
      have key : ∀ k, k < 4 * 2 ^ d →
          (k < 2 * 2 ^ d ∧ fftfreq_c k (4 * 2 ^ d) = 2 * fftfreq_c k (2 * 2 ^ d)) ∨
          (2 * 2 ^ d ≤ k ∧ k < 3 * 2 ^ d ∧
            fftfreq_c k (4 * 2 ^ d) = 4 * fftfreq_c (k - 2 * 2 ^ d) (2 ^ d) + 1) ∨
          (3 * 2 ^ d ≤ k ∧ fftfreq_c k (4 * 2 ^ d) % 4 = 3 ∧
            (fftfreq_c k (4 * 2 ^ d) + 1) % (4 * 2 ^ d) =
              4 * fftfreq_c (k - 3 * 2 ^ d) (2 ^ d)) := by
        intro k hk
        rcases Nat.lt_or_ge k (2 * 2 ^ d) with h1 | h1
        · exact Or.inl ⟨h1, fftfreq_c_rec1 d k hd h1⟩
        rcases Nat.lt_or_ge k (3 * 2 ^ d) with h2 | h2
        · refine Or.inr (Or.inl ⟨h1, h2, ?_⟩)
          have := fftfreq_c_rec2 d (k - 2 * 2 ^ d) hd (by omega)
          have e : 2 * 2 ^ d + (k - 2 * 2 ^ d) = k := by omega
          rw [e] at this; exact this
        · refine Or.inr (Or.inr ⟨h2, ?_, ?_⟩)
          · have := fftfreq_c_rec3 d (k - 3 * 2 ^ d) hd (by omega)
            have e : 3 * 2 ^ d + (k - 3 * 2 ^ d) = k := by omega
            rw [e] at this
            rw [this, Nat.mod_mod_of_dvd _ hdvd]
            omega
          · have := fftfreq_c_rec3 d (k - 3 * 2 ^ d) hd (by omega)
            have e : 3 * 2 ^ d + (k - 3 * 2 ^ d) = k := by omega
            rw [e] at this
            have hf := fftfreq_c_lt d (by omega) (k - 3 * 2 ^ d) (by omega)
            rw [this, Nat.mod_add_mod]
            have e' : 4 * fftfreq_c (k - 3 * 2 ^ d) (2 ^ d) + (4 * 2 ^ d - 1) + 1 =
                4 * fftfreq_c (k - 3 * 2 ^ d) (2 ^ d) + 4 * 2 ^ d := by omega
            rw [e', Nat.add_mod_right, Nat.mod_eq_of_lt (by omega)]
      rcases key i hi with ⟨a1, a2⟩ | ⟨a1, a2, a3⟩ | ⟨a1, a2, a3⟩ <;>
      rcases key j hj with ⟨b1, b2⟩ | ⟨b1, b2, b3⟩ | ⟨b1, b2, b3⟩
      · rw [← e2] at a1 b1 a2 b2
        exact ih (d + 1) (by omega) (by omega) i j a1 b1 (by omega)
      · omega
      · omega
      · omega
      · have := ih d (by omega) (by omega) (i - 2 * 2 ^ d) (j - 2 * 2 ^ d) (by omega) (by omega)
          (by omega)
        omega
      · omega
      · omega
      · omega
      · have := ih d (by omega) (by omega) (i - 3 * 2 ^ d) (j - 3 * 2 ^ d) (by omega) (by omega)
          (by rw [hij] at a3; omega)
        omega

/-- On `[0, 2^c)` the map `fftfreq_c(., 2^c)` is onto. -/
theorem fftfreq_c_surj (c : ℕ) (hc : c ≤ 31) (v : ℕ) (hv : v < 2 ^ c) :
    ∃ i, i < 2 ^ c ∧ fftfreq_c i (2 ^ c) = v := by
  have hmaps : ∀ i ∈ Finset.range (2 ^ c), fftfreq_c i (2 ^ c) ∈ Finset.range (2 ^ c) := by
    intro i hi
    rw [Finset.mem_range] at hi ⊢
    exact fftfreq_c_lt c hc i hi
  have hinj : Set.InjOn (fun i => fftfreq_c i (2 ^ c)) (Finset.range (2 ^ c) : Set ℕ) := by
    intro i hi j hj hij
    rw [Finset.mem_coe, Finset.mem_range] at hi hj
    exact fftfreq_c_inj c hc i j hi hj hij
  have himg : (Finset.range (2 ^ c)).image (fun i => fftfreq_c i (2 ^ c)) =
      Finset.range (2 ^ c) := by
    apply Finset.eq_of_subset_of_card_le
    · intro x hx
      rw [Finset.mem_image] at hx
      obtain ⟨i, hi, rfl⟩ := hx
      exact hmaps i hi
    · rw [Finset.card_image_of_injOn hinj]
  have : v ∈ (Finset.range (2 ^ c)).image (fun i => fftfreq_c i (2 ^ c)) := by
    rw [himg, Finset.mem_range]; exact hv
  rw [Finset.mem_image] at this
  obtain ⟨i, hi, h⟩ := this
  exact ⟨i, Finset.mem_range.mp hi, h⟩

end Freq
end WDLFFT

namespace WDLFFT
section Perm

theorem forLoop_succ {σ : Type} (lo hi : ℕ) (h : lo ≤ hi) (body : σ → ℕ → σ) (s : σ) :
    forLoop lo (hi + 1) body s = body (forLoop lo hi body s) hi := by
  unfold forLoop
  have e : hi + 1 - lo = (hi - lo) + 1 := by omega
  rw [e, List.range'_concat, List.foldl_append]
  have e2 : lo + (hi - lo) = hi := by omega
  simp [e2]

theorem forLoop_self {σ : Type} (lo : ℕ) (body : σ → ℕ → σ) (s : σ) :
    forLoop lo lo body s = s := by
  simp [forLoop]

theorem forLoop_update_spec {β : Type} (key : ℕ → ℕ) (val : ℕ → β) (t0 : ℕ → β) (lo : ℕ) :
    ∀ h, lo ≤ h →
      (∀ i j, lo ≤ i → i < h → lo ≤ j → j < h → key i = key j → i = j) →
      (∀ i, lo ≤ i → i < h →
        forLoop lo h (fun t i => Function.update t (key i) (val i)) t0 (key i) = val i) ∧
      (∀ p, (∀ i, lo ≤ i → i < h → key i ≠ p) →
        forLoop lo h (fun t i => Function.update t (key i) (val i)) t0 p = t0 p) := by
  intro h hh
  induction h, hh using Nat.le_induction with
  | base =>
    intro _
    refine ⟨fun i h1 h2 => ?_, fun p _ => ?_⟩
    · omega
    · rw [forLoop_self]
  | succ h hh ih =>
    intro hinj
    obtain ⟨ih1, ih2⟩ := ih (fun i j a b c d e => hinj i j a (by omega) c (by omega) e)
    refine ⟨fun i h1 h2 => ?_, fun p hp => ?_⟩
    · rw [forLoop_succ lo h hh]
      by_cases c : i = h
      · subst c; simp
      · have hne : key i ≠ key h := fun e => c (hinj i h h1 h2 hh (by omega) e)
        simp only [Function.update_apply, hne, if_false]
        exact ih1 i h1 (by omega)
    · rw [forLoop_succ lo h hh]
      have hne : p ≠ key h := fun e => hp h hh (by omega) e.symm
      simp only [Function.update_apply, hne, if_false]
      exact ih2 p (fun i a b => hp i a (by omega))

theorem fftfreq_c_pos (c : ℕ) (hc : c ≤ 31) (i : ℕ) (hi : i < 2 ^ c) (h0 : 1 ≤ i) :
    1 ≤ fftfreq_c i (2 ^ c) := by
  rcases Nat.eq_zero_or_pos (fftfreq_c i (2 ^ c)) with h | h
  · have h00 := fftfreq_c_zero c hc
    have := fftfreq_c_inj c hc i 0 hi (by positivity) (by rw [h, h00])
    omega
  · exact h

/-- Content of the table written by `idx_perm_calc(offs, 2^c)`. -/
theorem idx_perm_calc_spec (t : ℕ → ℕ) (offs c : ℕ) (hc : c ≤ 31) :
    (∀ i, i < 2 ^ c →
      idx_perm_calc t offs (2 ^ c) (offs + (2 ^ c - fftfreq_c i (2 ^ c)) % 2 ^ c) = i) ∧
    (∀ p, (p < offs ∨ offs + 2 ^ c ≤ p) → idx_perm_calc t offs (2 ^ c) p = t p) := by
  have hpos : 1 ≤ 2 ^ c := Nat.one_le_two_pow
  have hrange : ∀ i, 1 ≤ i → i < 2 ^ c →
      1 ≤ fftfreq_c i (2 ^ c) ∧ fftfreq_c i (2 ^ c) < 2 ^ c :=
    fun i h1 h2 => ⟨fftfreq_c_pos c hc i h2 h1, fftfreq_c_lt c hc i h2⟩
  obtain ⟨s1, s2⟩ := forLoop_update_spec (fun i => offs + 2 ^ c - fftfreq_c i (2 ^ c))
    (fun i => i) (Function.update t offs 0) 1 (2 ^ c) hpos (by
      intro i j a b c' d e
      have hi := hrange i a b
      have hj := hrange j c' d
      exact fftfreq_c_inj c hc i j b d (by simp only at e; omega))
  refine ⟨fun i hi => ?_, fun p hp => ?_⟩
  · rcases Nat.eq_zero_or_pos i with h | h
    · subst h
      rw [fftfreq_c_zero c hc, Nat.sub_zero, Nat.mod_self, Nat.add_zero]
      have := s2 offs (by
        intro i a b
        have hi := hrange i a b
        omega)
      unfold idx_perm_calc
      rw [this]; simp
    · have hi' := hrange i h hi
      have e : offs + (2 ^ c - fftfreq_c i (2 ^ c)) % 2 ^ c =
          offs + 2 ^ c - fftfreq_c i (2 ^ c) := by
        rw [Nat.mod_eq_of_lt (by omega)]; omega
      rw [e]
      exact s1 i h hi
  · have := s2 p (by
      intro i a b
      have hi := hrange i a b
      omega)
    unfold idx_perm_calc
    rw [this]
    have : p ≠ offs := by omega
    simp [Function.update_apply, this]

/-- The permutation loop of `WDL_fft_init`, entered at size `2^b` with enough iterations
left, fills the tables of all sizes `2^c`, `b <= c <= 15`, and leaves the entries below
its start offset as they were. -/
theorem init_perm_loop_spec : ∀ fuel b (t : ℕ → ℕ), 1 ≤ b → b ≤ 16 → 16 ≤ fuel + b →
    (∀ c, b ≤ c → c ≤ 15 → ∀ i, i < 2 ^ c →
      init_perm_loop fuel t (2 ^ b - 2) (2 ^ b)
        (2 ^ c - 2 + (2 ^ c - fftfreq_c i (2 ^ c)) % 2 ^ c) = i) ∧
    (∀ p, p < 2 ^ b - 2 → init_perm_loop fuel t (2 ^ b - 2) (2 ^ b) p = t p) := by
  intro fuel
  induction fuel with
  | zero =>
    intro b t h1 h2 h3
    have hb : b = 16 := by omega
    subst hb
    exact ⟨fun c hc1 hc2 => by omega, fun p _ => rfl⟩
  | succ fuel ih =>
    intro b t h1 h2 h3
    rcases Nat.lt_or_ge b 16 with hb | hb
    · have hle : 2 ^ b ≤ 32768 := by
        have : (2:ℕ) ^ b ≤ 2 ^ 15 := Nat.pow_le_pow_right (by norm_num) (by omega)
        norm_num at this; exact this
      have h2b : 2 ≤ 2 ^ b := by
        have : (2:ℕ) ^ 1 ≤ 2 ^ b := Nat.pow_le_pow_right (by norm_num) h1
        simpa using this
      have eo : 2 ^ b - 2 + 2 ^ b = 2 ^ (b + 1) - 2 := by
        rw [pow_succ]; omega
      have ei : 2 ^ b * 2 = 2 ^ (b + 1) := by rw [pow_succ]
      have step : init_perm_loop (fuel + 1) t (2 ^ b - 2) (2 ^ b) =
          init_perm_loop fuel (idx_perm_calc t (2 ^ b - 2) (2 ^ b)) (2 ^ (b + 1) - 2)
            (2 ^ (b + 1)) := by
        rw [init_perm_loop, if_pos hle, eo, ei]
      obtain ⟨i1, i2⟩ := ih (b + 1) (idx_perm_calc t (2 ^ b - 2) (2 ^ b)) (by omega) (by omega)
        (by omega)
      obtain ⟨c1, c2⟩ := idx_perm_calc_spec t (2 ^ b - 2) b (by omega)
      rw [step]
      refine ⟨fun c hc1 hc2 i hi => ?_, fun p hp => ?_⟩
      · rcases Nat.eq_or_lt_of_le hc1 with e | e
        · subst e
          rw [i2 _ (by
            have := Nat.mod_lt (2 ^ b - fftfreq_c i (2 ^ b)) (show 2 ^ b > 0 by omega)
            rw [pow_succ]; omega)]
          exact c1 i hi
        · exact i1 c (by omega) hc2 i hi
      · rw [i2 p (by rw [pow_succ]; omega)]
        exact c2 p (Or.inl hp)
    · have hb' : b = 16 := by omega
      subst hb'
      refine ⟨fun c hc1 hc2 => by omega, fun p _ => ?_⟩
      rw [init_perm_loop, if_neg (by norm_num)]

end Perm
end WDLFFT

namespace WDLFFT
section Twiddle
open Complex

variable {w : ℕ → ℤ → ℂ}

theorem IsTwiddle.nat_mul (hw : IsTwiddle w) (N : ℕ) (q : ℕ) (a : ℤ) :
    w N (q * a) = (w N a) ^ q := by
  induction q with
  | zero => simp [hw.zero]
  | succ q ih =>
    have : ((q + 1 : ℕ) : ℤ) * a = (q : ℤ) * a + a := by push_cast; ring
    rw [this, hw.add, ih, pow_succ]

theorem IsTwiddle.neg (hw : IsTwiddle w) (N : ℕ) (a : ℤ) : w N (-a) = (w N a)⁻¹ := by
  have h : w N (-a) * w N a = 1 := by
    rw [← hw.add, neg_add_cancel, hw.zero]
  exact eq_inv_of_mul_eq_one_left h

theorem IsTwiddle.mul_period (hw : IsTwiddle w) (N : ℕ) (hN : 1 ≤ N) (m : ℤ) :
    w N ((N : ℤ) * m) = 1 := by
  have hnat : ∀ q : ℕ, w N ((N : ℤ) * q) = 1 := by
    intro q
    rw [mul_comm, hw.nat_mul, hw.period N hN, one_pow]
  rcases Int.eq_nat_or_neg m with ⟨q, rfl | rfl⟩
  · exact hnat q
  · rw [mul_neg, hw.neg, hnat q, inv_one]

theorem IsTwiddle.add_period (hw : IsTwiddle w) (N : ℕ) (hN : 1 ≤ N) (a m : ℤ) :
    w N (a + (N : ℤ) * m) = w N a := by
  rw [hw.add, hw.mul_period N hN, mul_one]

theorem IsTwiddle.emod (hw : IsTwiddle w) (N : ℕ) (hN : 1 ≤ N) (a : ℤ) :
    w N (a % (N : ℤ)) = w N a := by
  conv_rhs => rw [← Int.emod_add_ediv a N]
  rw [hw.add_period N hN]

theorem IsTwiddle.quarter_mul (hw : IsTwiddle w) (M : ℕ) (hM : 1 ≤ M) (q : ℕ) :
    w (4 * M) ((q : ℤ) * (M : ℤ)) = I ^ q := by
  rw [hw.nat_mul, hw.quarter M hM]

theorem IsTwiddle.fourth (hw : IsTwiddle w) (M : ℕ) (hM : 1 ≤ M) (a : ℤ) :
    w (4 * M) (4 * a) = w M a := by
  have e : 4 * M = 2 * (2 * M) := by ring
  have e' : 4 * a = 2 * (2 * a) := by ring
  rw [e, e', hw.half (2 * M) _ (by omega), hw.half M _ hM]

theorem IsTwiddle.two_one (hw : IsTwiddle w) : w 2 1 = -1 := by
  have h1 : w 4 2 = w 2 1 := by
    have := hw.half 2 1 (by norm_num)
    simpa using this
  have h2 : w 4 2 = I ^ 2 := by
    have := hw.quarter_mul 1 (by norm_num) 2
    simpa using this
  rw [← h1, h2, I_sq]

theorem dftBlock_out (w : ℕ → ℤ → ℂ) (N o : ℕ) (A : ℕ → ℂ) (i : ℕ)
    (h : i < o ∨ o + N ≤ i) : dftBlock w N o A i = A i := by
  have : ¬ (o ≤ i ∧ i < o + N) := by omega
  simp only [dftBlock, this, if_false]

theorem dftBlock_in (w : ℕ → ℤ → ℂ) (N o : ℕ) (A : ℕ → ℂ) (k : ℕ) (h : k < N) :
    dftBlock w N o A (o + k) =
      ∑ j in Finset.range N, A (o + j) * w N ((j : ℤ) * (fftfreq_c k N : ℤ)) := by
  have : (o ≤ o + k ∧ o + k < o + N) := by omega
  have e : o + k - o = k := by omega
  simp only [dftBlock, this, if_true, e, and_self]

theorem idftBlock_out (w : ℕ → ℤ → ℂ) (N o : ℕ) (A : ℕ → ℂ) (i : ℕ)
    (h : i < o ∨ o + N ≤ i) : idftBlock w N o A i = A i := by
  have : ¬ (o ≤ i ∧ i < o + N) := by omega
  simp only [idftBlock, this, if_false]

theorem idftBlock_in (w : ℕ → ℤ → ℂ) (N o : ℕ) (A : ℕ → ℂ) (k : ℕ) (h : k < N) :
    idftBlock w N o A (o + k) =
      ∑ i in Finset.range N, A (o + i) * w N (-((k : ℤ) * (fftfreq_c i N : ℤ))) := by
  have : (o ≤ o + k ∧ o + k < o + N) := by omega
  have e : o + k - o = k := by omega
  simp only [idftBlock, this, if_true, e, and_self]

theorem sum_range_two_mul {R : Type} [AddCommMonoid R] (F : ℕ → R) (M : ℕ) :
    ∑ j in Finset.range (2 * M), F j = ∑ j in Finset.range M, (F j + F (M + j)) := by
  rw [two_mul, Finset.sum_range_add, Finset.sum_add_distrib]

theorem sum_range_four_mul (F : ℕ → ℂ) (M : ℕ) :
    ∑ j in Finset.range (4 * M), F j =
      ∑ j in Finset.range M, (F j + F (M + j) + F (2 * M + j) + F (3 * M + j)) := by
  have e : 4 * M = 2 * (2 * M) := by ring
  rw [e, sum_range_two_mul, sum_range_two_mul]
  apply Finset.sum_congr rfl
  intro j _
  have e1 : 2 * M + (M + j) = 3 * M + j := by ring
  rw [e1]; ring

end Twiddle
end WDLFFT

namespace WDLFFT
section Step
open Complex

variable {w : ℕ → ℤ → ℂ}

theorem IsTwiddle.even_exp (hw : IsTwiddle w) (M : ℕ) (hM : 1 ≤ M) (q j f : ℤ) :
    w (4 * M) ((q * (2 * (M : ℤ)) + j) * (2 * f)) = w (2 * M) (j * f) := by
  have e : (q * (2 * (M : ℤ)) + j) * (2 * f) = 2 * (j * f) + ((4 * M : ℕ) : ℤ) * (q * f) := by
    push_cast; ring
  have e4 : 4 * M = 2 * (2 * M) := by ring
  rw [e, hw.add_period (4 * M) (by omega), e4, hw.half (2 * M) _ (by omega)]

theorem IsTwiddle.odd1_exp (hw : IsTwiddle w) (M : ℕ) (hM : 1 ≤ M) (q : ℕ) (j f : ℤ) :
    w (4 * M) (((q : ℤ) * (M : ℤ) + j) * (4 * f + 1)) = w M (j * f) * w (4 * M) j * I ^ q := by
  have e : ((q : ℤ) * (M : ℤ) + j) * (4 * f + 1) =
      (4 * (j * f) + j + (q : ℤ) * (M : ℤ)) + ((4 * M : ℕ) : ℤ) * (q * f) := by
    push_cast; ring
  rw [e, hw.add_period (4 * M) (by omega), hw.add, hw.add, hw.fourth M hM,
    hw.quarter_mul M hM]

theorem IsTwiddle.odd3_exp (hw : IsTwiddle w) (M : ℕ) (hM : 1 ≤ M) (q : ℕ) (j f : ℤ) :
    w (4 * M) (((q : ℤ) * (M : ℤ) + j) * (4 * f - 1)) =
      w M (j * f) * (starRingEnd ℂ) (w (4 * M) j) * (-I) ^ q := by
  have e : ((q : ℤ) * (M : ℤ) + j) * (4 * f - 1) =
      (4 * (j * f) + (-j) + (-((q : ℤ) * (M : ℤ)))) + ((4 * M : ℕ) : ℤ) * (q * f) := by
    push_cast; ring
  rw [e, hw.add_period (4 * M) (by omega), hw.add, hw.add, hw.fourth M hM,
    hw.neg (4 * M) ((q : ℤ) * (M : ℤ)), hw.quarter_mul M hM, hw.conj, ← inv_pow, inv_I]

/-- In the exponent a value may be replaced by its residue modulo the size. -/
theorem IsTwiddle.mul_mod (hw : IsTwiddle w) (N : ℕ) (hN : 1 ≤ N) (j : ℤ) (x : ℕ) :
    w N (j * ((x % N : ℕ) : ℤ)) = w N (j * (x : ℤ)) := by
  have e : j * (x : ℤ) = j * ((x % N : ℕ) : ℤ) + (N : ℤ) * (j * ((x / N : ℕ) : ℤ)) := by
    have := Nat.mod_add_div x N
    have h2 : (x : ℤ) = ((x % N : ℕ) : ℤ) + (N : ℤ) * ((x / N : ℕ) : ℤ) := by
      exact_mod_cast this.symm
    rw [h2]; push_cast; ring
  rw [e, hw.add_period N hN]

section PassC
variable {R : Type} [CommRing R] (ι : R) (cj : R → R) (tw : ℕ → R) (o M : ℕ) (A : ℕ → R)

theorem passC_out (i : ℕ) (h : i < o ∨ o + 4 * M ≤ i) : passC ι cj tw o M A i = A i := by
  have h1 : ¬ (o ≤ i ∧ i < o + M) := by omega
  have h2 : ¬ (o + M ≤ i ∧ i < o + M + M) := by omega
  have h3 : ¬ (o + 2 * M ≤ i ∧ i < o + 2 * M + M) := by omega
  have h4 : ¬ (o + 3 * M ≤ i ∧ i < o + 3 * M + M) := by omega
  simp only [passC, h1, h2, h3, h4, if_false]

theorem passC_lo (j : ℕ) (h : j < 2 * M) :
    passC ι cj tw o M A (o + j) = A (o + j) + A (o + (2 * M + j)) := by
  have e : o + j + 2 * M = o + (2 * M + j) := by omega
  by_cases h1 : (o ≤ o + j ∧ o + j < o + M)
  · simp only [passC, h1, if_true, e, and_self]
  · have h2 : (o + M ≤ o + j ∧ o + j < o + M + M) := by omega
    simp only [passC, h1, h2, if_false, if_true, e, and_self]

theorem passC_q2 (j : ℕ) (h : j < M) :
    passC ι cj tw o M A (o + 2 * M + j) =
      (A (o + j) - A (o + (2 * M + j)) + ι * (A (o + (M + j)) - A (o + (3 * M + j)))) * tw j := by
  have h1 : ¬ (o ≤ o + 2 * M + j ∧ o + 2 * M + j < o + M) := by omega
  have h2 : ¬ (o + M ≤ o + 2 * M + j ∧ o + 2 * M + j < o + M + M) := by omega
  have h3 : (o + 2 * M ≤ o + 2 * M + j ∧ o + 2 * M + j < o + 2 * M + M) := by omega
  have e1 : o + 2 * M + j - 2 * M = o + j := by omega
  have e2 : o + 2 * M + j - M = o + (M + j) := by omega
  have e3 : o + 2 * M + j + M = o + (3 * M + j) := by omega
  have e4 : o + 2 * M + j - o - 2 * M = j := by omega
  have e5 : o + 2 * M + j = o + (2 * M + j) := by omega
  simp only [passC, h1, h2, h3, if_false, if_true, e1, e2, e3, e4]
  simp only [e5, and_self, if_true]

theorem passC_q3 (j : ℕ) (h : j < M) :
    passC ι cj tw o M A (o + 3 * M + j) =
      (A (o + j) - A (o + (2 * M + j)) - ι * (A (o + (M + j)) - A (o + (3 * M + j)))) *
        cj (tw j) := by
  have h1 : ¬ (o ≤ o + 3 * M + j ∧ o + 3 * M + j < o + M) := by omega
  have h2 : ¬ (o + M ≤ o + 3 * M + j ∧ o + 3 * M + j < o + M + M) := by omega
  have h3 : ¬ (o + 2 * M ≤ o + 3 * M + j ∧ o + 3 * M + j < o + 2 * M + M) := by omega
  have h4 : (o + 3 * M ≤ o + 3 * M + j ∧ o + 3 * M + j < o + 3 * M + M) := by omega
  have e1 : o + 3 * M + j - 3 * M = o + j := by omega
  have e2 : o + 3 * M + j - M = o + (2 * M + j) := by omega
  have e3 : o + 3 * M + j - 2 * M = o + (M + j) := by omega
  have e4 : o + 3 * M + j - o - 3 * M = j := by omega
  have e5 : o + 3 * M + j = o + (3 * M + j) := by omega
  simp only [passC, h1, h2, h3, h4, if_false, if_true, e1, e2, e3, e4]
  simp only [e5, and_self, if_true]

end PassC

/-- The split-radix recursion: a forward pass followed by the transforms of the third and
fourth quarters and of the first half is the transform of the whole block. -/
theorem dft_step (hw : IsTwiddle w) (c M : ℕ) (hM : M = 2 ^ c) (hc : c ≤ 29) (o : ℕ)
    (A : ℕ → ℂ) (tw : ℕ → ℂ) (htw : ∀ k, k < M → tw k = w (4 * M) k) :
    dftBlock w (2 * M) o (dftBlock w M (o + 3 * M) (dftBlock w M (o + 2 * M)
      (passC I (starRingEnd ℂ) tw o M A))) = dftBlock w (4 * M) o A := by
  have hpos : 1 ≤ M := by rw [hM]; exact Nat.one_le_two_pow
  funext i
  rcases Nat.lt_or_ge i o with h0 | h0
  · rw [dftBlock_out _ _ _ _ _ (Or.inl h0), dftBlock_out _ _ _ _ _ (by omega),
      dftBlock_out _ _ _ _ _ (by omega), passC_out _ _ _ _ _ _ _ (by omega),
      dftBlock_out _ _ _ _ _ (Or.inl h0)]
  obtain ⟨k, rfl⟩ : ∃ k, i = o + k := ⟨i - o, by omega⟩
  rcases Nat.lt_or_ge k (2 * M) with h1 | h1
  · -- first half
    rw [dftBlock_in _ _ _ _ _ h1, dftBlock_in _ _ _ _ _ (by omega), hM,
      fftfreq_c_rec1 c k hc (by rw [← hM]; exact h1), ← hM]
    have e4 : 4 * M = 2 * (2 * M) := by ring
    conv_rhs => rw [e4, sum_range_two_mul]
    rw [← e4]
    apply Finset.sum_congr rfl
    intro j hj
    rw [Finset.mem_range] at hj
    rw [dftBlock_out _ _ _ _ _ (by omega), dftBlock_out _ _ _ _ _ (by omega),
      passC_lo _ _ _ _ _ _ _ hj]
    have a1 := hw.even_exp M hpos 0 j (fftfreq_c k (2 * M))
    have a2 := hw.even_exp M hpos 1 j (fftfreq_c k (2 * M))
    have c1 : ((j : ℕ) : ℤ) * ((2 * fftfreq_c k (2 * M) : ℕ) : ℤ) =
        (0 * (2 * (M : ℤ)) + j) * (2 * (fftfreq_c k (2 * M) : ℤ)) := by push_cast; ring
    have c2 : ((2 * M + j : ℕ) : ℤ) * ((2 * fftfreq_c k (2 * M) : ℕ) : ℤ) =
        (1 * (2 * (M : ℤ)) + j) * (2 * (fftfreq_c k (2 * M) : ℤ)) := by push_cast; ring
    rw [c1, c2, a1, a2]; ring
  rcases Nat.lt_or_ge k (3 * M) with h2 | h2
  · -- third quarter
    obtain ⟨k', rfl⟩ : ∃ k', k = 2 * M + k' := ⟨k - 2 * M, by omega⟩
    have hk' : k' < M := by omega
    rw [dftBlock_out _ _ _ _ _ (by omega), dftBlock_out _ _ _ _ _ (by omega),
      dftBlock_in _ _ _ _ _ (by omega)]
    have e1 : o + (2 * M + k') = o + 2 * M + k' := by omega
    rw [e1, dftBlock_in _ _ _ _ _ hk', hM,
      fftfreq_c_rec2 c k' hc (by rw [← hM]; exact hk'), ← hM, sum_range_four_mul]
    apply Finset.sum_congr rfl
    intro j hj
    rw [Finset.mem_range] at hj
    rw [passC_q2 _ _ _ _ _ _ _ hj, htw j hj]
    have a0 := hw.odd1_exp M hpos 0 j (fftfreq_c k' M)
    have a1 := hw.odd1_exp M hpos 1 j (fftfreq_c k' M)
    have a2 := hw.odd1_exp M hpos 2 j (fftfreq_c k' M)
    have a3 := hw.odd1_exp M hpos 3 j (fftfreq_c k' M)
    have c0 : ((j : ℕ) : ℤ) * ((4 * fftfreq_c k' M + 1 : ℕ) : ℤ) =
        (((0 : ℕ) : ℤ) * (M : ℤ) + j) * (4 * (fftfreq_c k' M : ℤ) + 1) := by push_cast; ring
    have c1 : ((M + j : ℕ) : ℤ) * ((4 * fftfreq_c k' M + 1 : ℕ) : ℤ) =
        (((1 : ℕ) : ℤ) * (M : ℤ) + j) * (4 * (fftfreq_c k' M : ℤ) + 1) := by push_cast; ring
    have c2 : ((2 * M + j : ℕ) : ℤ) * ((4 * fftfreq_c k' M + 1 : ℕ) : ℤ) =
        (((2 : ℕ) : ℤ) * (M : ℤ) + j) * (4 * (fftfreq_c k' M : ℤ) + 1) := by push_cast; ring
    have c3 : ((3 * M + j : ℕ) : ℤ) * ((4 * fftfreq_c k' M + 1 : ℕ) : ℤ) =
        (((3 : ℕ) : ℤ) * (M : ℤ) + j) * (4 * (fftfreq_c k' M : ℤ) + 1) := by push_cast; ring
    have i2 : (I : ℂ) ^ 2 = -1 := I_sq
    have i3 : (I : ℂ) ^ 3 = -I := by rw [pow_succ, I_sq]; ring
    rw [c0, c1, c2, c3, a0, a1, a2, a3, i2, i3]
    ring
  rcases Nat.lt_or_ge k (4 * M) with h3 | h3
  · -- fourth quarter
    obtain ⟨k', rfl⟩ : ∃ k', k = 3 * M + k' := ⟨k - 3 * M, by omega⟩
    have hk' : k' < M := by omega
    rw [dftBlock_out _ _ _ _ _ (by omega)]
    have e1 : o + (3 * M + k') = o + 3 * M + k' := by omega
    rw [e1, dftBlock_in _ _ _ _ _ hk', ← e1, dftBlock_in _ _ _ _ _ (by omega), hM,
      fftfreq_c_rec3 c k' hc (by rw [← hM]; exact hk'), ← hM, sum_range_four_mul]
    apply Finset.sum_congr rfl
    intro j hj
    rw [Finset.mem_range] at hj
    rw [dftBlock_out _ _ _ _ _ (by omega), passC_q3 _ _ _ _ _ _ _ hj, htw j hj]
    have hf := fftfreq_c_lt c (by omega) k' (by rw [← hM]; exact hk')
    rw [← hM] at hf
    have key : ∀ x : ℕ, w (4 * M) ((x : ℤ) *
        (((4 * fftfreq_c k' M + (4 * M - 1)) % (4 * M) : ℕ) : ℤ)) =
        w (4 * M) ((x : ℤ) * (4 * (fftfreq_c k' M : ℤ) - 1)) := by
      intro x
      rw [hw.mul_mod (4 * M) (by omega)]
      have e : (x : ℤ) * ((4 * fftfreq_c k' M + (4 * M - 1) : ℕ) : ℤ) =
          (x : ℤ) * (4 * (fftfreq_c k' M : ℤ) - 1) + ((4 * M : ℕ) : ℤ) * x := by
        have h4 : ((4 * M - 1 : ℕ) : ℤ) = 4 * (M : ℤ) - 1 := by
          rw [Nat.cast_sub (by omega)]; push_cast; ring
        rw [Nat.cast_add, h4]; push_cast; ring
      rw [e, hw.add_period (4 * M) (by omega)]
    rw [key, key, key, key]
    have a0 := hw.odd3_exp M hpos 0 j (fftfreq_c k' M)
    have a1 := hw.odd3_exp M hpos 1 j (fftfreq_c k' M)
    have a2 := hw.odd3_exp M hpos 2 j (fftfreq_c k' M)
    have a3 := hw.odd3_exp M hpos 3 j (fftfreq_c k' M)
    have c0 : ((j : ℕ) : ℤ) * (4 * (fftfreq_c k' M : ℤ) - 1) =
        (((0 : ℕ) : ℤ) * (M : ℤ) + j) * (4 * (fftfreq_c k' M : ℤ) - 1) := by push_cast; ring
    have c1 : ((M + j : ℕ) : ℤ) * (4 * (fftfreq_c k' M : ℤ) - 1) =
        (((1 : ℕ) : ℤ) * (M : ℤ) + j) * (4 * (fftfreq_c k' M : ℤ) - 1) := by push_cast; ring
    have c2 : ((2 * M + j : ℕ) : ℤ) * (4 * (fftfreq_c k' M : ℤ) - 1) =
        (((2 : ℕ) : ℤ) * (M : ℤ) + j) * (4 * (fftfreq_c k' M : ℤ) - 1) := by push_cast; ring
    have c3 : ((3 * M + j : ℕ) : ℤ) * (4 * (fftfreq_c k' M : ℤ) - 1) =
        (((3 : ℕ) : ℤ) * (M : ℤ) + j) * (4 * (fftfreq_c k' M : ℤ) - 1) := by push_cast; ring
    have i2 : (-I : ℂ) ^ 2 = -1 := by rw [neg_sq, I_sq]
    have i3 : (-I : ℂ) ^ 3 = I := by rw [pow_succ, neg_sq, I_sq]; ring
    rw [c0, c1, c2, c3, a0, a1, a2, a3, i2, i3]
    ring
  · rw [dftBlock_out _ _ _ _ _ (by omega), dftBlock_out _ _ _ _ _ (by omega),
      dftBlock_out _ _ _ _ _ (by omega), passC_out _ _ _ _ _ _ _ (by omega),
      dftBlock_out _ _ _ _ _ (by omega)]

end Step
end WDLFFT

namespace WDLFFT
section StepInv
open Complex

variable {w : ℕ → ℤ → ℂ}

section UPassC
variable {R : Type} [CommRing R] (ι : R) (cj : R → R) (tw : ℕ → R) (o M : ℕ) (A : ℕ → R)

theorem upassC_out (i : ℕ) (h : i < o ∨ o + 4 * M ≤ i) : upassC ι cj tw o M A i = A i := by
  have h1 : ¬ (o ≤ i ∧ i < o + M) := by omega
  have h2 : ¬ (o + M ≤ i ∧ i < o + M + M) := by omega
  have h3 : ¬ (o + 2 * M ≤ i ∧ i < o + 2 * M + M) := by omega
  have h4 : ¬ (o + 3 * M ≤ i ∧ i < o + 3 * M + M) := by omega
  simp only [upassC, h1, h2, h3, h4, if_false]

theorem upassC_q0 (k : ℕ) (h : k < M) :
    upassC ι cj tw o M A (o + k) =
      A (o + k) + (cj (tw k) * A (o + 2 * M + k) + tw k * A (o + 3 * M + k)) := by
  have h1 : (o ≤ o + k ∧ o + k < o + M) := by omega
  have e1 : o + k - o = k := by omega
  have e2 : o + k + 2 * M = o + 2 * M + k := by omega
  have e3 : o + k + 3 * M = o + 3 * M + k := by omega
  simp only [upassC, h1, if_true, e1, e2, e3, and_self]

theorem upassC_q1 (k : ℕ) (h : k < M) :
    upassC ι cj tw o M A (o + M + k) =
      A (o + (M + k)) - ι * (cj (tw k) * A (o + 2 * M + k) - tw k * A (o + 3 * M + k)) := by
  have h1 : ¬ (o ≤ o + M + k ∧ o + M + k < o + M) := by omega
  have h2 : (o + M ≤ o + M + k ∧ o + M + k < o + M + M) := by omega
  have e1 : o + M + k - o - M = k := by omega
  have e2 : o + M + k + M = o + 2 * M + k := by omega
  have e3 : o + M + k + 2 * M = o + 3 * M + k := by omega
  have e5 : o + M + k = o + (M + k) := by omega
  simp only [upassC, h1, h2, if_false, if_true, e1, e2, e3]
  simp only [e5, and_self, if_true]

theorem upassC_q2 (k : ℕ) (h : k < M) :
    upassC ι cj tw o M A (o + 2 * M + k) =
      A (o + k) - (cj (tw k) * A (o + 2 * M + k) + tw k * A (o + 3 * M + k)) := by
  have h1 : ¬ (o ≤ o + 2 * M + k ∧ o + 2 * M + k < o + M) := by omega
  have h2 : ¬ (o + M ≤ o + 2 * M + k ∧ o + 2 * M + k < o + M + M) := by omega
  have h3 : (o + 2 * M ≤ o + 2 * M + k ∧ o + 2 * M + k < o + 2 * M + M) := by omega
  have e1 : o + 2 * M + k - o - 2 * M = k := by omega
  have e2 : o + 2 * M + k - 2 * M = o + k := by omega
  have e3 : o + 2 * M + k + M = o + 3 * M + k := by omega
  simp only [upassC, h1, h2, h3, if_false, if_true, e1, e2, e3]
  simp only [and_self, if_true]

theorem upassC_q3 (k : ℕ) (h : k < M) :
    upassC ι cj tw o M A (o + 3 * M + k) =
      A (o + (M + k)) + ι * (cj (tw k) * A (o + 2 * M + k) - tw k * A (o + 3 * M + k)) := by
  have h1 : ¬ (o ≤ o + 3 * M + k ∧ o + 3 * M + k < o + M) := by omega
  have h2 : ¬ (o + M ≤ o + 3 * M + k ∧ o + 3 * M + k < o + M + M) := by omega
  have h3 : ¬ (o + 2 * M ≤ o + 3 * M + k ∧ o + 3 * M + k < o + 2 * M + M) := by omega
  have h4 : (o + 3 * M ≤ o + 3 * M + k ∧ o + 3 * M + k < o + 3 * M + M) := by omega
  have e1 : o + 3 * M + k - o - 3 * M = k := by omega
  have e2 : o + 3 * M + k - 2 * M = o + (M + k) := by omega
  have e3 : o + 3 * M + k - M = o + 2 * M + k := by omega
  simp only [upassC, h1, h2, h3, h4, if_false, if_true, e1, e2, e3]
  simp only [and_self, if_true]

end UPassC

/-- The sum computed by the inverse transform of size `4M` at output index `q·M + k`,
split along the three branches of `fftfreq_c`. -/
theorem idft_sum_split (hw : IsTwiddle w) (c M : ℕ) (hM : M = 2 ^ c) (hc : c ≤ 29) (o : ℕ)
    (A : ℕ → ℂ) (q k : ℕ) :
    ∑ i in Finset.range (4 * M), A (o + i) *
        w (4 * M) (-(((q * M + k : ℕ) : ℤ) * (fftfreq_c i (4 * M) : ℤ))) =
      ∑ i in Finset.range (2 * M), A (o + i) *
        w (2 * M) (-(((q * M + k : ℕ) : ℤ) * (fftfreq_c i (2 * M) : ℤ)))
      + (-I) ^ q * (starRingEnd ℂ) (w (4 * M) k) *
        ∑ i in Finset.range M, A (o + 2 * M + i) * w M (-((k : ℤ) * (fftfreq_c i M : ℤ)))
      + I ^ q * w (4 * M) k *
        ∑ i in Finset.range M, A (o + 3 * M + i) * w M (-((k : ℤ) * (fftfreq_c i M : ℤ))) := by
  have hpos : 1 ≤ M := by rw [hM]; exact Nat.one_le_two_pow
  have e4 : 4 * M = 2 * M + 2 * M := by ring
  have e2 : 2 * M = M + M := by ring
  conv_lhs => rw [e4, Finset.sum_range_add]
  conv_lhs =>
    enter [2]
    rw [e2, Finset.sum_range_add]
  rw [← e2, ← e4, Finset.mul_sum, Finset.mul_sum, ← add_assoc]
  congr 1
  congr 1
  · apply Finset.sum_congr rfl
    intro i hi
    rw [Finset.mem_range] at hi
    rw [hM, fftfreq_c_rec1 c i hc (by rw [← hM]; exact hi), ← hM]
    have a := hw.even_exp M hpos 0 (-((q * M + k : ℕ) : ℤ)) (fftfreq_c i (2 * M))
    have e : -(((q * M + k : ℕ) : ℤ) * ((2 * fftfreq_c i (2 * M) : ℕ) : ℤ)) =
        (0 * (2 * (M : ℤ)) + -((q * M + k : ℕ) : ℤ)) * (2 * (fftfreq_c i (2 * M) : ℤ)) := by
      push_cast; ring
    have e' : -((q * M + k : ℕ) : ℤ) * (fftfreq_c i (2 * M) : ℤ) =
        -(((q * M + k : ℕ) : ℤ) * (fftfreq_c i (2 * M) : ℤ)) := by ring
    rw [e, a, e']
  · apply Finset.sum_congr rfl
    intro i hi
    rw [Finset.mem_range] at hi
    rw [hM, fftfreq_c_rec2 c i hc (by rw [← hM]; exact hi), ← hM]
    have a := hw.odd1_exp M hpos q k (fftfreq_c i M)
    have e : -(((q * M + k : ℕ) : ℤ) * ((4 * fftfreq_c i M + 1 : ℕ) : ℤ)) =
        -(((q : ℤ) * (M : ℤ) + k) * (4 * (fftfreq_c i M : ℤ) + 1)) := by
      push_cast; ring
    have e0 : o + (2 * M + i) = o + 2 * M + i := by omega
    rw [e0, e, ← hw.conj, a, map_mul, map_mul, map_pow, conj_I, hw.conj M]
    ring
  · apply Finset.sum_congr rfl
    intro i hi
    rw [Finset.mem_range] at hi
    have e0 : 2 * M + (M + i) = 3 * M + i := by ring
    have e0' : o + (2 * M + (M + i)) = o + 3 * M + i := by omega
    rw [e0', e0, hM, fftfreq_c_rec3 c i hc (by rw [← hM]; exact hi), ← hM]
    have hmod : w (4 * M) (-(((q * M + k : ℕ) : ℤ) *
        (((4 * fftfreq_c i M + (4 * M - 1)) % (4 * M) : ℕ) : ℤ))) =
        w (4 * M) (-(((q : ℤ) * (M : ℤ) + k) * (4 * (fftfreq_c i M : ℤ) - 1))) := by
      rw [← neg_mul, hw.mul_mod (4 * M) (by omega)]
      have e : -((q * M + k : ℕ) : ℤ) * ((4 * fftfreq_c i M + (4 * M - 1) : ℕ) : ℤ) =
          -(((q : ℤ) * (M : ℤ) + k) * (4 * (fftfreq_c i M : ℤ) - 1)) +
            ((4 * M : ℕ) : ℤ) * (-((q * M + k : ℕ) : ℤ)) := by
        have h4 : ((4 * M - 1 : ℕ) : ℤ) = 4 * (M : ℤ) - 1 := by
          rw [Nat.cast_sub (by omega)]; push_cast; ring
        have h5 : ((4 * fftfreq_c i M + (4 * M - 1) : ℕ) : ℤ) =
            4 * (fftfreq_c i M : ℤ) + (4 * (M : ℤ) - 1) := by
          rw [Nat.cast_add, h4]; push_cast; rfl
        rw [h5]; push_cast; ring
      rw [e, hw.add_period (4 * M) (by omega)]
    have a := hw.odd3_exp M hpos q k (fftfreq_c i M)
    rw [hmod, ← hw.conj, a, map_mul, map_mul, map_pow, map_neg, conj_I, Complex.conj_conj,
      hw.conj M, neg_neg]
    ring

end StepInv
end WDLFFT

namespace WDLFFT
section StepInv
open Complex

variable {w : ℕ → ℤ → ℂ}

theorem idft_half_shift (hw : IsTwiddle w) (M : ℕ) (hpos : 1 ≤ M) (o : ℕ) (A : ℕ → ℂ)
    (x : ℕ) :
    ∑ i in Finset.range (2 * M), A (o + i) *
        w (2 * M) (-(((2 * M + x : ℕ) : ℤ) * (fftfreq_c i (2 * M) : ℤ))) =
    ∑ i in Finset.range (2 * M), A (o + i) *
        w (2 * M) (-((x : ℤ) * (fftfreq_c i (2 * M) : ℤ))) := by
  apply Finset.sum_congr rfl
  intro i _
  have e : -(((2 * M + x : ℕ) : ℤ) * (fftfreq_c i (2 * M) : ℤ)) =
      -((x : ℤ) * (fftfreq_c i (2 * M) : ℤ)) + ((2 * M : ℕ) : ℤ) * (-(fftfreq_c i (2 * M) : ℤ)) := by
    push_cast; ring
  rw [e, hw.add_period (2 * M) (by omega)]

/-- The inverse split-radix recursion: the inverse transforms of the first half and of
the third and fourth quarters followed by an inverse pass are the inverse transform of
the whole block. -/
theorem idft_step (hw : IsTwiddle w) (c M : ℕ) (hM : M = 2 ^ c) (hc : c ≤ 29) (o : ℕ)
    (A : ℕ → ℂ) (tw : ℕ → ℂ) (htw : ∀ k, k < M → tw k = w (4 * M) k) :
    upassC I (starRingEnd ℂ) tw o M (idftBlock w M (o + 3 * M) (idftBlock w M (o + 2 * M)
      (idftBlock w (2 * M) o A))) = idftBlock w (4 * M) o A := by
  have hpos : 1 ≤ M := by rw [hM]; exact Nat.one_le_two_pow
  have hH : ∀ x, x < 2 * M →
      idftBlock w M (o + 3 * M) (idftBlock w M (o + 2 * M) (idftBlock w (2 * M) o A)) (o + x) =
      ∑ i in Finset.range (2 * M), A (o + i) *
        w (2 * M) (-((x : ℤ) * (fftfreq_c i (2 * M) : ℤ))) := by
    intro x hx
    rw [idftBlock_out _ _ _ _ _ (by omega), idftBlock_out _ _ _ _ _ (by omega),
      idftBlock_in _ _ _ _ _ hx]
  have h2 : ∀ x, x < M →
      idftBlock w M (o + 3 * M) (idftBlock w M (o + 2 * M) (idftBlock w (2 * M) o A))
        (o + 2 * M + x) =
      ∑ i in Finset.range M, A (o + 2 * M + i) * w M (-((x : ℤ) * (fftfreq_c i M : ℤ))) := by
    intro x hx
    rw [idftBlock_out _ _ _ _ _ (by omega), idftBlock_in _ _ _ _ _ hx]
    apply Finset.sum_congr rfl
    intro i hi
    rw [Finset.mem_range] at hi
    rw [idftBlock_out _ _ _ _ _ (by omega)]
  have h3 : ∀ x, x < M →
      idftBlock w M (o + 3 * M) (idftBlock w M (o + 2 * M) (idftBlock w (2 * M) o A))
        (o + 3 * M + x) =
      ∑ i in Finset.range M, A (o + 3 * M + i) * w M (-((x : ℤ) * (fftfreq_c i M : ℤ))) := by
    intro x hx
    rw [idftBlock_in _ _ _ _ _ hx]
    apply Finset.sum_congr rfl
    intro i hi
    rw [Finset.mem_range] at hi
    rw [idftBlock_out _ _ _ _ _ (by omega), idftBlock_out _ _ _ _ _ (by omega)]
  funext i
  rcases Nat.lt_or_ge i o with h0 | h0
  · rw [upassC_out _ _ _ _ _ _ _ (by omega), idftBlock_out _ _ _ _ _ (by omega),
      idftBlock_out _ _ _ _ _ (by omega), idftBlock_out _ _ _ _ _ (by omega),
      idftBlock_out _ _ _ _ _ (by omega)]
  obtain ⟨j, rfl⟩ : ∃ j, i = o + j := ⟨i - o, by omega⟩
  have i2 : (I : ℂ) ^ 2 = -1 := I_sq
  have i3 : (I : ℂ) ^ 3 = -I := by rw [pow_succ, I_sq]; ring
  have n2 : (-I : ℂ) ^ 2 = -1 := by rw [neg_sq, I_sq]
  have n3 : (-I : ℂ) ^ 3 = I := by rw [pow_succ, neg_sq, I_sq]; ring
  rcases Nat.lt_or_ge j M with c0 | c0
  · -- first quarter
    have s := idft_sum_split hw c M hM hc o A 0 j
    have e : 0 * M + j = j := by omega
    rw [e] at s
    rw [idftBlock_in _ _ _ _ _ (by omega), s, upassC_q0 _ _ _ _ _ _ _ c0, hH j (by omega),
      h2 j c0, h3 j c0, htw j c0]
    ring
  rcases Nat.lt_or_ge j (2 * M) with c1 | c1
  · obtain ⟨k, rfl⟩ : ∃ k, j = M + k := ⟨j - M, by omega⟩
    have hk : k < M := by omega
    have s := idft_sum_split hw c M hM hc o A 1 k
    have e : 1 * M + k = M + k := by omega
    rw [e] at s
    have e' : o + (M + k) = o + M + k := by omega
    rw [idftBlock_in _ _ _ _ _ (by omega), s, e', upassC_q1 _ _ _ _ _ _ _ hk, hH (M + k) c1,
      h2 k hk, h3 k hk, htw k hk]
    ring
  rcases Nat.lt_or_ge j (3 * M) with c2 | c2
  · obtain ⟨k, rfl⟩ : ∃ k, j = 2 * M + k := ⟨j - 2 * M, by omega⟩
    have hk : k < M := by omega
    have s := idft_sum_split hw c M hM hc o A 2 k
    have e' : o + (2 * M + k) = o + 2 * M + k := by omega
    rw [idftBlock_in _ _ _ _ _ (by omega), s, e', upassC_q2 _ _ _ _ _ _ _ hk, hH k (by omega),
      h2 k hk, h3 k hk, htw k hk, idft_half_shift hw M hpos, i2, n2]
    ring
  rcases Nat.lt_or_ge j (4 * M) with c3 | c3
  · obtain ⟨k, rfl⟩ : ∃ k, j = 3 * M + k := ⟨j - 3 * M, by omega⟩
    have hk : k < M := by omega
    have s := idft_sum_split hw c M hM hc o A 3 k
    have e' : o + (3 * M + k) = o + 3 * M + k := by omega
    have e3 : 3 * M + k = 2 * M + (M + k) := by omega
    rw [idftBlock_in _ _ _ _ _ (by omega), s, e', upassC_q3 _ _ _ _ _ _ _ hk,
      hH (M + k) (by omega), h2 k hk, h3 k hk, htw k hk, e3, idft_half_shift hw M hpos, i3, n3]
    ring
  · rw [upassC_out _ _ _ _ _ _ _ (by omega), idftBlock_out _ _ _ _ _ (by omega),
      idftBlock_out _ _ _ _ _ (by omega), idftBlock_out _ _ _ _ _ (by omega),
      idftBlock_out _ _ _ _ _ (by omega)]

end StepInv
end WDLFFT

namespace WDLFFT
section Struct
variable {T : Type} [CommRing T]

omit [CommRing T] in
theorem on4_comm (f h : cmplxT T → cmplxT T → cmplxT T → cmplxT T →
    cmplxT T × cmplxT T × cmplxT T × cmplxT T) (a : Buf T) (i0 i1 i2 i3 j0 j1 j2 j3 : ℕ)
    (h00 : i0 ≠ j0) (h01 : i0 ≠ j1) (h02 : i0 ≠ j2) (h03 : i0 ≠ j3)
    (h10 : i1 ≠ j0) (h11 : i1 ≠ j1) (h12 : i1 ≠ j2) (h13 : i1 ≠ j3)
    (h20 : i2 ≠ j0) (h21 : i2 ≠ j1) (h22 : i2 ≠ j2) (h23 : i2 ≠ j3)
    (h30 : i3 ≠ j0) (h31 : i3 ≠ j1) (h32 : i3 ≠ j2) (h33 : i3 ≠ j3) :
    on4 f (on4 h a j0 j1 j2 j3) i0 i1 i2 i3 = on4 h (on4 f a i0 i1 i2 i3) j0 j1 j2 j3 := by
  funext x
  have r0 : on4 h a j0 j1 j2 j3 i0 = a i0 := by
    rw [on4_apply, if_neg h03, if_neg h02, if_neg h01, if_neg h00]
  have r1 : on4 h a j0 j1 j2 j3 i1 = a i1 := by
    rw [on4_apply, if_neg h13, if_neg h12, if_neg h11, if_neg h10]
  have r2 : on4 h a j0 j1 j2 j3 i2 = a i2 := by
    rw [on4_apply, if_neg h23, if_neg h22, if_neg h21, if_neg h20]
  have r3 : on4 h a j0 j1 j2 j3 i3 = a i3 := by
    rw [on4_apply, if_neg h33, if_neg h32, if_neg h31, if_neg h30]
  have s0 : on4 f a i0 i1 i2 i3 j0 = a j0 := by
    rw [on4_apply, if_neg h30.symm, if_neg h20.symm, if_neg h10.symm, if_neg h00.symm]
  have s1 : on4 f a i0 i1 i2 i3 j1 = a j1 := by
    rw [on4_apply, if_neg h31.symm, if_neg h21.symm, if_neg h11.symm, if_neg h01.symm]
  have s2 : on4 f a i0 i1 i2 i3 j2 = a j2 := by
    rw [on4_apply, if_neg h32.symm, if_neg h22.symm, if_neg h12.symm, if_neg h02.symm]
  have s3 : on4 f a i0 i1 i2 i3 j3 = a j3 := by
    rw [on4_apply, if_neg h33.symm, if_neg h23.symm, if_neg h13.symm, if_neg h03.symm]
  rw [on4_apply f, on4_apply h (on4 f a i0 i1 i2 i3), r0, r1, r2, r3, s0, s1, s2, s3,
    on4_apply h a, on4_apply f a]
  by_cases c3 : x = i3
  · subst c3; simp only [if_true, if_neg h33, if_neg h32, if_neg h31, if_neg h30]
  by_cases c2 : x = i2
  · subst c2; simp only [if_true, if_neg c3, if_neg h23, if_neg h22, if_neg h21, if_neg h20]
  by_cases c1 : x = i1
  · subst c1
    simp only [if_true, if_neg c3, if_neg c2, if_neg h13, if_neg h12, if_neg h11, if_neg h10]
  by_cases c0 : x = i0
  · subst c0
    simp only [if_true, if_neg c3, if_neg c2, if_neg c1, if_neg h03, if_neg h02, if_neg h01,
      if_neg h00]
  simp only [if_neg c3, if_neg c2, if_neg c1, if_neg c0]

theorem c4_split : (c4 : Buf T → ℕ → Buf T) =
    splitC c2 (fun a _ => a) (bfC (fun _ => ⟨0, 0⟩)) 1 := by
  funext a o
  rw [c4_eq]
  rfl

theorem c8_split (g : Globals T) :
    c8 g = splitC c4 c2 (bfCbig (sqrthalf g) (fun _ => ⟨0, 0⟩) 1) 2 := by
  funext a o
  rw [c8_eq]
  have b0 : bfCbig (sqrthalf g) (fun _ => (⟨0, 0⟩ : cmplxT T)) 1 0 = TRANSFORMZERO := by
    simp only [bfCbig, if_true]
  have b1 : bfCbig (sqrthalf g) (fun _ => (⟨0, 0⟩ : cmplxT T)) 1 1 =
      fun a0 a1 a2 a3 => TRANSFORMHALF a0 a1 a2 a3 (sqrthalf g) := by
    simp only [bfCbig, one_ne_zero, lt_irrefl, if_false, if_true]
  simp only [splitC, passSeq, b0, b1]
  rfl

theorem c16_split (g : Globals T) :
    c16 g = splitC (c8 g) c4 (bfCbig (sqrthalf g) g.d16 2) 4 := by
  funext a o
  have b0 : bfCbig (sqrthalf g) g.d16 2 0 = TRANSFORMZERO := by
    simp only [bfCbig, if_true]
  have b1 : bfCbig (sqrthalf g) g.d16 2 1 =
      fun a0 a1 a2 a3 => TRANSFORM a0 a1 a2 a3 (g.d16 0).re (g.d16 0).im := by
    simp [bfCbig]
  have b2 : bfCbig (sqrthalf g) g.d16 2 2 =
      fun a0 a1 a2 a3 => TRANSFORMHALF a0 a1 a2 a3 (sqrthalf g) := by
    simp [bfCbig]
  have b3 : bfCbig (sqrthalf g) g.d16 2 3 =
      fun a0 a1 a2 a3 => TRANSFORM a0 a1 a2 a3 (g.d16 0).im (g.d16 0).re := by
    simp [bfCbig]
  simp only [splitC, passSeq, b0, b1, b2, b3, c16]
  rfl

theorem u4_split : (u4 : Buf T → ℕ → Buf T) =
    splitU c2 (fun a _ => a) (bfU (fun _ => ⟨0, 0⟩)) 1 := by
  funext a o
  rw [u4_eq]
  rfl

theorem u8_split (g : Globals T) :
    u8 g = splitU u4 c2 (bfUbig (sqrthalf g) (fun _ => ⟨0, 0⟩) 1) 2 := by
  funext a o
  rw [u8_eq]
  have b0 : bfUbig (sqrthalf g) (fun _ => (⟨0, 0⟩ : cmplxT T)) 1 0 = UNTRANSFORMZERO := by
    simp only [bfUbig, if_true]
  have b1 : bfUbig (sqrthalf g) (fun _ => (⟨0, 0⟩ : cmplxT T)) 1 1 =
      fun a0 a1 a2 a3 => UNTRANSFORMHALF a0 a1 a2 a3 (sqrthalf g) := by
    simp only [bfUbig, one_ne_zero, lt_irrefl, if_false, if_true]
  simp only [splitU, passSeq, b0, b1]
  rfl

theorem u16_split (g : Globals T) :
    u16 g = splitU (u8 g) u4 (bfUbig (sqrthalf g) g.d16 2) 4 := by
  funext a o
  have b0 : bfUbig (sqrthalf g) g.d16 2 0 = UNTRANSFORMZERO := by
    simp only [bfUbig, if_true]
  have b1 : bfUbig (sqrthalf g) g.d16 2 1 =
      fun a0 a1 a2 a3 => UNTRANSFORM a0 a1 a2 a3 (g.d16 0).re (g.d16 0).im := by
    simp [bfUbig]
  have b2 : bfUbig (sqrthalf g) g.d16 2 2 =
      fun a0 a1 a2 a3 => UNTRANSFORMHALF a0 a1 a2 a3 (sqrthalf g) := by
    simp [bfUbig]
  have b3 : bfUbig (sqrthalf g) g.d16 2 3 =
      fun a0 a1 a2 a3 => UNTRANSFORM a0 a1 a2 a3 (g.d16 0).im (g.d16 0).re := by
    simp [bfUbig]
  simp only [splitU, passSeq, b0, b1, b2, b3, u16]
  rw [on4_comm (fun a0 a1 a2 a3 => UNTRANSFORM a0 a1 a2 a3 (g.d16 0).re (g.d16 0).im)
    (fun a0 a1 a2 a3 => UNTRANSFORMHALF a0 a1 a2 a3 (sqrthalf g)) _
    (o + 1) (o + 5) (o + 9) (o + 13) (o + 2) (o + 6) (o + 10) (o + 14)
    (by omega) (by omega) (by omega) (by omega) (by omega) (by omega) (by omega) (by omega)
    (by omega) (by omega) (by omega) (by omega) (by omega) (by omega) (by omega) (by omega)]
  rfl

end Struct
end WDLFFT

namespace WDLFFT
section Struct
variable {T : Type} [CommRing T]

theorem c32_split (g : Globals T) :
    c32 g = splitC (c16 g) (c8 g) (bfC g.d32) 8 := by
  funext a o
  have e1 : (2 * 4 : ℕ) = 8 := by norm_num
  have e2 : o + 2 * 8 = o + 16 := by omega
  have e3 : o + 3 * 8 = o + 24 := by omega
  simp only [c32, splitC, cpass_eq _ o g.d32 4 (by norm_num), e1, e2, e3]

theorem u32_split (g : Globals T) :
    u32 g = splitU (u16 g) (u8 g) (bfU g.d32) 8 := by
  funext a o
  have e1 : (2 * 4 : ℕ) = 8 := by norm_num
  have e2 : o + 2 * 8 = o + 16 := by omega
  have e3 : o + 3 * 8 = o + 24 := by omega
  simp only [u32, splitU, upass_eq _ o g.d32 4 (by norm_num), e1, e2, e3]

theorem c64_split (g : Globals T) :
    c64 g = splitC (c32 g) (c16 g) (bfC g.d64) 16 := by
  funext a o
  have e1 : (2 * 8 : ℕ) = 16 := by norm_num
  have e2 : o + 2 * 16 = o + 32 := by omega
  have e3 : o + 3 * 16 = o + 48 := by omega
  simp only [c64, splitC, cpass_eq _ o g.d64 8 (by norm_num), e1, e2, e3]

theorem u64_split (g : Globals T) :
    u64 g = splitU (u32 g) (u16 g) (bfU g.d64) 16 := by
  funext a o
  have e1 : (2 * 8 : ℕ) = 16 := by norm_num
  have e2 : o + 2 * 16 = o + 32 := by omega
  have e3 : o + 3 * 16 = o + 48 := by omega
  simp only [u64, splitU, upass_eq _ o g.d64 8 (by norm_num), e1, e2, e3]

theorem c128_split (g : Globals T) :
    c128 g = splitC (c64 g) (c32 g) (bfC g.d128) 32 := by
  funext a o
  have e1 : (2 * 16 : ℕ) = 32 := by norm_num
  have e2 : o + 2 * 32 = o + 64 := by omega
  have e3 : o + 3 * 32 = o + 96 := by omega
  simp only [c128, splitC, cpass_eq _ o g.d128 16 (by norm_num), e1, e2, e3]

theorem u128_split (g : Globals T) :
    u128 g = splitU (u64 g) (u32 g) (bfU g.d128) 32 := by
  funext a o
  have e1 : (2 * 16 : ℕ) = 32 := by norm_num
  have e2 : o + 2 * 32 = o + 64 := by omega
  have e3 : o + 3 * 32 = o + 96 := by omega
  simp only [u128, splitU, upass_eq _ o g.d128 16 (by norm_num), e1, e2, e3]

theorem c256_split (g : Globals T) :
    c256 g = splitC (c128 g) (c64 g) (bfC g.d256) 64 := by
  funext a o
  have e1 : (2 * 32 : ℕ) = 64 := by norm_num
  have e2 : o + 2 * 64 = o + 128 := by omega
  have e3 : o + 3 * 64 = o + 192 := by omega
  simp only [c256, splitC, cpass_eq _ o g.d256 32 (by norm_num), e1, e2, e3]

theorem u256_split (g : Globals T) :
    u256 g = splitU (u128 g) (u64 g) (bfU g.d256) 64 := by
  funext a o
  have e1 : (2 * 32 : ℕ) = 64 := by norm_num
  have e2 : o + 2 * 64 = o + 128 := by omega
  have e3 : o + 3 * 64 = o + 192 := by omega
  simp only [u256, splitU, upass_eq _ o g.d256 32 (by norm_num), e1, e2, e3]

theorem c512_split (g : Globals T) :
    c512 g = splitC2 (c256 g) (c128 g) (bfC g.d512) 128 := by
  funext a o
  have e1 : (2 * 64 : ℕ) = 128 := by norm_num
  have e2 : o + 2 * 128 = o + 256 := by omega
  have e3 : o + 3 * 128 = o + 384 := by omega
  simp only [c512, splitC2, cpass_eq _ o g.d512 64 (by norm_num), e1, e2, e3]

theorem u512_split (g : Globals T) :
    u512 g = splitU (u256 g) (u128 g) (bfU g.d512) 128 := by
  funext a o
  have e1 : (2 * 64 : ℕ) = 128 := by norm_num
  have e2 : o + 2 * 128 = o + 256 := by omega
  have e3 : o + 3 * 128 = o + 384 := by omega
  simp only [u512, splitU, upass_eq _ o g.d512 64 (by norm_num), e1, e2, e3]

theorem c1024_split (g : Globals T) :
    c1024 g = splitC2 (c512 g) (c256 g) (bfCbig (sqrthalf g) g.d1024 128) 256 := by
  funext a o
  have e1 : (2 * 128 : ℕ) = 256 := by norm_num
  have e2 : o + 2 * 256 = o + 512 := by omega
  have e3 : o + 3 * 256 = o + 768 := by omega
  simp only [c1024, splitC2, cpassbig_eq (sqrthalf g) _ o g.d1024 128 (by norm_num) (by norm_num), e1, e2, e3]

theorem u1024_split (g : Globals T) :
    u1024 g = splitU (u512 g) (u256 g) (bfUbig (sqrthalf g) g.d1024 128) 256 := by
  funext a o
  have e1 : (2 * 128 : ℕ) = 256 := by norm_num
  have e2 : o + 2 * 256 = o + 512 := by omega
  have e3 : o + 3 * 256 = o + 768 := by omega
  simp only [u1024, splitU, upassbig_eq (sqrthalf g) _ o g.d1024 128 (by norm_num) (by norm_num), e1, e2, e3]

theorem c2048_split (g : Globals T) :
    c2048 g = splitC2 (c1024 g) (c512 g) (bfCbig (sqrthalf g) g.d2048 256) 512 := by
  funext a o
  have e1 : (2 * 256 : ℕ) = 512 := by norm_num
  have e2 : o + 2 * 512 = o + 1024 := by omega
  have e3 : o + 3 * 512 = o + 1536 := by omega
  simp only [c2048, splitC2, cpassbig_eq (sqrthalf g) _ o g.d2048 256 (by norm_num) (by norm_num), e1, e2, e3]

theorem u2048_split (g : Globals T) :
    u2048 g = splitU (u1024 g) (u512 g) (bfUbig (sqrthalf g) g.d2048 256) 512 := by
  funext a o
  have e1 : (2 * 256 : ℕ) = 512 := by norm_num
  have e2 : o + 2 * 512 = o + 1024 := by omega
  have e3 : o + 3 * 512 = o + 1536 := by omega
  simp only [u2048, splitU, upassbig_eq (sqrthalf g) _ o g.d2048 256 (by norm_num) (by norm_num), e1, e2, e3]

theorem c4096_split (g : Globals T) :
    c4096 g = splitC2 (c2048 g) (c1024 g) (bfCbig (sqrthalf g) g.d4096 512) 1024 := by
  funext a o
  have e1 : (2 * 512 : ℕ) = 1024 := by norm_num
  have e2 : o + 2 * 1024 = o + 2048 := by omega
  have e3 : o + 3 * 1024 = o + 3072 := by omega
  simp only [c4096, splitC2, cpassbig_eq (sqrthalf g) _ o g.d4096 512 (by norm_num) (by norm_num), e1, e2, e3]

theorem u4096_split (g : Globals T) :
    u4096 g = splitU (u2048 g) (u1024 g) (bfUbig (sqrthalf g) g.d4096 512) 1024 := by
  funext a o
  have e1 : (2 * 512 : ℕ) = 1024 := by norm_num
  have e2 : o + 2 * 1024 = o + 2048 := by omega
  have e3 : o + 3 * 1024 = o + 3072 := by omega
  simp only [u4096, splitU, upassbig_eq (sqrthalf g) _ o g.d4096 512 (by norm_num) (by norm_num), e1, e2, e3]

theorem c8192_split (g : Globals T) :
    c8192 g = splitC2 (c4096 g) (c2048 g) (bfCbig (sqrthalf g) g.d8192 1024) 2048 := by
  funext a o
  have e1 : (2 * 1024 : ℕ) = 2048 := by norm_num
  have e2 : o + 2 * 2048 = o + 4096 := by omega
  have e3 : o + 3 * 2048 = o + 6144 := by omega
  simp only [c8192, splitC2, cpassbig_eq (sqrthalf g) _ o g.d8192 1024 (by norm_num) (by norm_num), e1, e2, e3]

theorem u8192_split (g : Globals T) :
    u8192 g = splitU (u4096 g) (u2048 g) (bfUbig (sqrthalf g) g.d8192 1024) 2048 := by
  funext a o
  have e1 : (2 * 1024 : ℕ) = 2048 := by norm_num
  have e2 : o + 2 * 2048 = o + 4096 := by omega
  have e3 : o + 3 * 2048 = o + 6144 := by omega
  simp only [u8192, splitU, upassbig_eq (sqrthalf g) _ o g.d8192 1024 (by norm_num) (by norm_num), e1, e2, e3]

theorem c16384_split (g : Globals T) :
    c16384 g = splitC2 (c8192 g) (c4096 g) (bfCbig (sqrthalf g) g.d16384 2048) 4096 := by
  funext a o
  have e1 : (2 * 2048 : ℕ) = 4096 := by norm_num
  have e2 : o + 2 * 4096 = o + 8192 := by omega
  have e3 : o + 3 * 4096 = o + 8192 + 4096 := by omega
  simp only [c16384, splitC2, cpassbig_eq (sqrthalf g) _ o g.d16384 2048 (by norm_num) (by norm_num), e1, e2, e3]

theorem u16384_split (g : Globals T) :
    u16384 g = splitU (u8192 g) (u4096 g) (bfUbig (sqrthalf g) g.d16384 2048) 4096 := by
  funext a o
  have e1 : (2 * 2048 : ℕ) = 4096 := by norm_num
  have e2 : o + 2 * 4096 = o + 8192 := by omega
  have e3 : o + 3 * 4096 = o + 8192 + 4096 := by omega
  simp only [u16384, splitU, upassbig_eq (sqrthalf g) _ o g.d16384 2048 (by norm_num) (by norm_num), e1, e2, e3]

theorem c32768_split (g : Globals T) :
    c32768 g = splitC2 (c16384 g) (c8192 g) (bfCbig (sqrthalf g) g.d32768 4096) 8192 := by
  funext a o
  have e1 : (2 * 4096 : ℕ) = 8192 := by norm_num
  have e2 : o + 2 * 8192 = o + 16384 := by omega
  have e3 : o + 3 * 8192 = o + 16384 + 8192 := by omega
  simp only [c32768, splitC2, cpassbig_eq (sqrthalf g) _ o g.d32768 4096 (by norm_num) (by norm_num), e1, e2, e3]

theorem u32768_split (g : Globals T) :
    u32768 g = splitU (u16384 g) (u8192 g) (bfUbig (sqrthalf g) g.d32768 4096) 8192 := by
  funext a o
  have e1 : (2 * 4096 : ℕ) = 8192 := by norm_num
  have e2 : o + 2 * 8192 = o + 16384 := by omega
  have e3 : o + 3 * 8192 = o + 16384 + 8192 := by omega
  simp only [u32768, splitU, upassbig_eq (sqrthalf g) _ o g.d32768 4096 (by norm_num) (by norm_num), e1, e2, e3]

end Struct
end WDLFFT

namespace WDLFFT
section Lin
variable {T : Type} [CommRing T]

theorem bfC_isLin4 (w : ℕ → cmplxT T) (k : ℕ) : IsLin4 (bfC w k) := by
  cases k with
  | zero => exact TRANSFORMZERO_isLin4
  | succ k => exact TRANSFORM_isLin4 _ _

theorem bfU_isLin4 (w : ℕ → cmplxT T) (k : ℕ) : IsLin4 (bfU w k) := by
  cases k with
  | zero => exact UNTRANSFORMZERO_isLin4
  | succ k => exact UNTRANSFORM_isLin4 _ _

theorem bfCbig_isLin4 (s : T) (w : ℕ → cmplxT T) (n k : ℕ) : IsLin4 (bfCbig s w n k) := by
  unfold bfCbig
  split_ifs
  · exact TRANSFORMZERO_isLin4
  · exact TRANSFORM_isLin4 _ _
  · exact TRANSFORMHALF_isLin4 _
  · exact TRANSFORM_isLin4 _ _

theorem bfUbig_isLin4 (s : T) (w : ℕ → cmplxT T) (n k : ℕ) : IsLin4 (bfUbig s w n k) := by
  unfold bfUbig
  split_ifs
  · exact UNTRANSFORMZERO_isLin4
  · exact UNTRANSFORM_isLin4 _ _
  · exact UNTRANSFORMHALF_isLin4 _
  · exact UNTRANSFORM_isLin4 _ _

theorem splitC_isLin (cH cQ : Buf T → ℕ → Buf T) (bf : ℕ → cmplxT T → cmplxT T → cmplxT T →
    cmplxT T → cmplxT T × cmplxT T × cmplxT T × cmplxT T) (M : ℕ)
    (hH : ∀ o, IsLin (fun a => cH a o)) (hQ : ∀ o, IsLin (fun a => cQ a o))
    (hbf : ∀ k, IsLin4 (bf k)) (o : ℕ) : IsLin (fun a => splitC cH cQ bf M a o) :=
  IsLin.comp (IsLin.comp (IsLin.comp (passSeq_isLin bf hbf o M M) (hQ (o + 2 * M)))
    (hQ (o + 3 * M))) (hH o)

theorem splitC2_isLin (cH cQ : Buf T → ℕ → Buf T) (bf : ℕ → cmplxT T → cmplxT T →
    cmplxT T → cmplxT T → cmplxT T × cmplxT T × cmplxT T × cmplxT T) (M : ℕ)
    (hH : ∀ o, IsLin (fun a => cH a o)) (hQ : ∀ o, IsLin (fun a => cQ a o))
    (hbf : ∀ k, IsLin4 (bf k)) (o : ℕ) : IsLin (fun a => splitC2 cH cQ bf M a o) :=
  IsLin.comp (IsLin.comp (IsLin.comp (passSeq_isLin bf hbf o M M) (hQ (o + 3 * M)))
    (hQ (o + 2 * M))) (hH o)

theorem splitU_isLin (uH uQ : Buf T → ℕ → Buf T) (bf : ℕ → cmplxT T → cmplxT T → cmplxT T →
    cmplxT T → cmplxT T × cmplxT T × cmplxT T × cmplxT T) (M : ℕ)
    (hH : ∀ o, IsLin (fun a => uH a o)) (hQ : ∀ o, IsLin (fun a => uQ a o))
    (hbf : ∀ k, IsLin4 (bf k)) (o : ℕ) : IsLin (fun a => splitU uH uQ bf M a o) :=
  IsLin.comp (IsLin.comp (IsLin.comp (hH o) (hQ (o + 2 * M))) (hQ (o + 3 * M)))
    (passSeq_isLin bf hbf o M M)

theorem c8_isLin (g : Globals T) (o : ℕ) : IsLin (fun a => c8 g a o) := by
  rw [c8_split]
  exact splitC_isLin _ _ _ _ c4_isLin c2_isLin (bfCbig_isLin4 _ _ _) o

theorem u8_isLin (g : Globals T) (o : ℕ) : IsLin (fun a => u8 g a o) := by
  rw [u8_split]
  exact splitU_isLin _ _ _ _ u4_isLin c2_isLin (bfUbig_isLin4 _ _ _) o

theorem c16_isLin (g : Globals T) (o : ℕ) : IsLin (fun a => c16 g a o) := by
  rw [c16_split]
  exact splitC_isLin _ _ _ _ (c8_isLin g) c4_isLin (bfCbig_isLin4 _ _ _) o

theorem u16_isLin (g : Globals T) (o : ℕ) : IsLin (fun a => u16 g a o) := by
  rw [u16_split]
  exact splitU_isLin _ _ _ _ (u8_isLin g) u4_isLin (bfUbig_isLin4 _ _ _) o

theorem c32_isLin (g : Globals T) (o : ℕ) : IsLin (fun a => c32 g a o) := by
  rw [c32_split]
  exact splitC_isLin _ _ _ _ (c16_isLin g) (c8_isLin g) (bfC_isLin4 _) o

theorem u32_isLin (g : Globals T) (o : ℕ) : IsLin (fun a => u32 g a o) := by
  rw [u32_split]
  exact splitU_isLin _ _ _ _ (u16_isLin g) (u8_isLin g) (bfU_isLin4 _) o

theorem c64_isLin (g : Globals T) (o : ℕ) : IsLin (fun a => c64 g a o) := by
  rw [c64_split]
  exact splitC_isLin _ _ _ _ (c32_isLin g) (c16_isLin g) (bfC_isLin4 _) o

theorem u64_isLin (g : Globals T) (o : ℕ) : IsLin (fun a => u64 g a o) := by
  rw [u64_split]
  exact splitU_isLin _ _ _ _ (u32_isLin g) (u16_isLin g) (bfU_isLin4 _) o

theorem c128_isLin (g : Globals T) (o : ℕ) : IsLin (fun a => c128 g a o) := by
  rw [c128_split]
  exact splitC_isLin _ _ _ _ (c64_isLin g) (c32_isLin g) (bfC_isLin4 _) o

theorem u128_isLin (g : Globals T) (o : ℕ) : IsLin (fun a => u128 g a o) := by
  rw [u128_split]
  exact splitU_isLin _ _ _ _ (u64_isLin g) (u32_isLin g) (bfU_isLin4 _) o

theorem c256_isLin (g : Globals T) (o : ℕ) : IsLin (fun a => c256 g a o) := by
  rw [c256_split]
  exact splitC_isLin _ _ _ _ (c128_isLin g) (c64_isLin g) (bfC_isLin4 _) o

theorem u256_isLin (g : Globals T) (o : ℕ) : IsLin (fun a => u256 g a o) := by
  rw [u256_split]
  exact splitU_isLin _ _ _ _ (u128_isLin g) (u64_isLin g) (bfU_isLin4 _) o

theorem c512_isLin (g : Globals T) (o : ℕ) : IsLin (fun a => c512 g a o) := by
  rw [c512_split]
  exact splitC2_isLin _ _ _ _ (c256_isLin g) (c128_isLin g) (bfC_isLin4 _) o

theorem u512_isLin (g : Globals T) (o : ℕ) : IsLin (fun a => u512 g a o) := by
  rw [u512_split]
  exact splitU_isLin _ _ _ _ (u256_isLin g) (u128_isLin g) (bfU_isLin4 _) o

theorem c1024_isLin (g : Globals T) (o : ℕ) : IsLin (fun a => c1024 g a o) := by
  rw [c1024_split]
  exact splitC2_isLin _ _ _ _ (c512_isLin g) (c256_isLin g) (bfCbig_isLin4 _ _ _) o

theorem u1024_isLin (g : Globals T) (o : ℕ) : IsLin (fun a => u1024 g a o) := by
  rw [u1024_split]
  exact splitU_isLin _ _ _ _ (u512_isLin g) (u256_isLin g) (bfUbig_isLin4 _ _ _) o

theorem c2048_isLin (g : Globals T) (o : ℕ) : IsLin (fun a => c2048 g a o) := by
  rw [c2048_split]
  exact splitC2_isLin _ _ _ _ (c1024_isLin g) (c512_isLin g) (bfCbig_isLin4 _ _ _) o

theorem u2048_isLin (g : Globals T) (o : ℕ) : IsLin (fun a => u2048 g a o) := by
  rw [u2048_split]
  exact splitU_isLin _ _ _ _ (u1024_isLin g) (u512_isLin g) (bfUbig_isLin4 _ _ _) o

theorem c4096_isLin (g : Globals T) (o : ℕ) : IsLin (fun a => c4096 g a o) := by
  rw [c4096_split]
  exact splitC2_isLin _ _ _ _ (c2048_isLin g) (c1024_isLin g) (bfCbig_isLin4 _ _ _) o

theorem u4096_isLin (g : Globals T) (o : ℕ) : IsLin (fun a => u4096 g a o) := by
  rw [u4096_split]
  exact splitU_isLin _ _ _ _ (u2048_isLin g) (u1024_isLin g) (bfUbig_isLin4 _ _ _) o

theorem c8192_isLin (g : Globals T) (o : ℕ) : IsLin (fun a => c8192 g a o) := by
  rw [c8192_split]
  exact splitC2_isLin _ _ _ _ (c4096_isLin g) (c2048_isLin g) (bfCbig_isLin4 _ _ _) o

theorem u8192_isLin (g : Globals T) (o : ℕ) : IsLin (fun a => u8192 g a o) := by
  rw [u8192_split]
  exact splitU_isLin _ _ _ _ (u4096_isLin g) (u2048_isLin g) (bfUbig_isLin4 _ _ _) o

theorem c16384_isLin (g : Globals T) (o : ℕ) : IsLin (fun a => c16384 g a o) := by
  rw [c16384_split]
  exact splitC2_isLin _ _ _ _ (c8192_isLin g) (c4096_isLin g) (bfCbig_isLin4 _ _ _) o

theorem u16384_isLin (g : Globals T) (o : ℕ) : IsLin (fun a => u16384 g a o) := by
  rw [u16384_split]
  exact splitU_isLin _ _ _ _ (u8192_isLin g) (u4096_isLin g) (bfUbig_isLin4 _ _ _) o

theorem c32768_isLin (g : Globals T) (o : ℕ) : IsLin (fun a => c32768 g a o) := by
  rw [c32768_split]
  exact splitC2_isLin _ _ _ _ (c16384_isLin g) (c8192_isLin g) (bfCbig_isLin4 _ _ _) o

theorem u32768_isLin (g : Globals T) (o : ℕ) : IsLin (fun a => u32768 g a o) := by
  rw [u32768_split]
  exact splitU_isLin _ _ _ _ (u16384_isLin g) (u8192_isLin g) (bfUbig_isLin4 _ _ _) o

theorem fft_isLin (g : Globals T) (len isInverse : ℤ) :
    IsLin (fun a => fft g a len isInverse) := by
  unfold fft
  by_cases h2 : len = 2
  · simp only [h2, if_true]; exact c2_isLin 0
  simp only [h2, if_false]
  by_cases h4 : len = 4
  · by_cases hi : isInverse = 0
    · simp only [h4, hi, if_true]; exact c4_isLin 0
    · simp only [h4, hi, if_true, if_false]; exact u4_isLin 0
  simp only [h4, if_false]
  by_cases h8 : len = 8
  · by_cases hi : isInverse = 0
    · simp only [h8, hi, if_true]; exact c8_isLin g 0
    · simp only [h8, hi, if_true, if_false]; exact u8_isLin g 0
  simp only [h8, if_false]
  by_cases h16 : len = 16
  · by_cases hi : isInverse = 0
    · simp only [h16, hi, if_true]; exact c16_isLin g 0
    · simp only [h16, hi, if_true, if_false]; exact u16_isLin g 0
  simp only [h16, if_false]
  by_cases h32 : len = 32
  · by_cases hi : isInverse = 0
    · simp only [h32, hi, if_true]; exact c32_isLin g 0
    · simp only [h32, hi, if_true, if_false]; exact u32_isLin g 0
  simp only [h32, if_false]
  by_cases h64 : len = 64
  · by_cases hi : isInverse = 0
    · simp only [h64, hi, if_true]; exact c64_isLin g 0
    · simp only [h64, hi, if_true, if_false]; exact u64_isLin g 0
  simp only [h64, if_false]
  by_cases h128 : len = 128
  · by_cases hi : isInverse = 0
    · simp only [h128, hi, if_true]; exact c128_isLin g 0
    · simp only [h128, hi, if_true, if_false]; exact u128_isLin g 0
  simp only [h128, if_false]
  by_cases h256 : len = 256
  · by_cases hi : isInverse = 0
    · simp only [h256, hi, if_true]; exact c256_isLin g 0
    · simp only [h256, hi, if_true, if_false]; exact u256_isLin g 0
  simp only [h256, if_false]
  by_cases h512 : len = 512
  · by_cases hi : isInverse = 0
    · simp only [h512, hi, if_true]; exact c512_isLin g 0
    · simp only [h512, hi, if_true, if_false]; exact u512_isLin g 0
  simp only [h512, if_false]
  by_cases h1024 : len = 1024
  · by_cases hi : isInverse = 0
    · simp only [h1024, hi, if_true]; exact c1024_isLin g 0
    · simp only [h1024, hi, if_true, if_false]; exact u1024_isLin g 0
  simp only [h1024, if_false]
  by_cases h2048 : len = 2048
  · by_cases hi : isInverse = 0
    · simp only [h2048, hi, if_true]; exact c2048_isLin g 0
    · simp only [h2048, hi, if_true, if_false]; exact u2048_isLin g 0
  simp only [h2048, if_false]
  by_cases h4096 : len = 4096
  · by_cases hi : isInverse = 0
    · simp only [h4096, hi, if_true]; exact c4096_isLin g 0
    · simp only [h4096, hi, if_true, if_false]; exact u4096_isLin g 0
  simp only [h4096, if_false]
  by_cases h8192 : len = 8192
  · by_cases hi : isInverse = 0
    · simp only [h8192, hi, if_true]; exact c8192_isLin g 0
    · simp only [h8192, hi, if_true, if_false]; exact u8192_isLin g 0
  simp only [h8192, if_false]
  by_cases h16384 : len = 16384
  · by_cases hi : isInverse = 0
    · simp only [h16384, hi, if_true]; exact c16384_isLin g 0
    · simp only [h16384, hi, if_true, if_false]; exact u16384_isLin g 0
  simp only [h16384, if_false]
  by_cases h32768 : len = 32768
  · by_cases hi : isInverse = 0
    · simp only [h32768, hi, if_true]; exact c32768_isLin g 0
    · simp only [h32768, hi, if_true, if_false]; exact u32768_isLin g 0
  simp only [h32768, if_false]
  exact isLin_id

end Lin
end WDLFFT

namespace WDLFFT
section DC
variable {T : Type} [CommRing T]

theorem TRANSFORM_isSum4 (wre wim : T) :
    IsSum4 (fun a0 a1 a2 a3 => TRANSFORM a0 a1 a2 a3 wre wim) := by
  intro x0 x1 x2 x3
  constructor <;> (ext <;> simp [TRANSFORM, cadd] <;> ring)

theorem TRANSFORMHALF_isSum4 (s : T) :
    IsSum4 (fun a0 a1 a2 a3 => TRANSFORMHALF a0 a1 a2 a3 s) := by
  intro x0 x1 x2 x3
  constructor <;> (ext <;> simp [TRANSFORMHALF, cadd] <;> ring)

theorem TRANSFORMZERO_isSum4 : IsSum4 (TRANSFORMZERO (T := T)) := by
  intro x0 x1 x2 x3
  constructor <;> (ext <;> simp [TRANSFORMZERO, cadd] <;> ring)

theorem bfC_isSum4 (w : ℕ → cmplxT T) (k : ℕ) : IsSum4 (bfC w k) := by
  cases k with
  | zero => exact TRANSFORMZERO_isSum4
  | succ k => exact TRANSFORM_isSum4 _ _

theorem bfCbig_isSum4 (s : T) (w : ℕ → cmplxT T) (n k : ℕ) : IsSum4 (bfCbig s w n k) := by
  unfold bfCbig
  split_ifs
  · exact TRANSFORMZERO_isSum4
  · exact TRANSFORM_isSum4 _ _
  · exact TRANSFORMHALF_isSum4 _
  · exact TRANSFORM_isSum4 _ _

omit [CommRing T] in
theorem passSeq_out (bf : ℕ → cmplxT T → cmplxT T → cmplxT T → cmplxT T →
    cmplxT T × cmplxT T × cmplxT T × cmplxT T) (o M : ℕ) (a : Buf T) (i : ℕ)
    (h : i < o ∨ o + 4 * M ≤ i) : passSeq bf o M M a i = a i := by
  rw [passSeq_apply bf o M a M (le_refl _)]
  have h1 : ¬ (o ≤ i ∧ i < o + M) := by omega
  have h2 : ¬ (o + M ≤ i ∧ i < o + M + M) := by omega
  have h3 : ¬ (o + 2 * M ≤ i ∧ i < o + 2 * M + M) := by omega
  have h4 : ¬ (o + 3 * M ≤ i ∧ i < o + 3 * M + M) := by omega
  rw [if_neg h1, if_neg h2, if_neg h3, if_neg h4]

theorem passSeq_lo (bf : ℕ → cmplxT T → cmplxT T → cmplxT T → cmplxT T →
    cmplxT T × cmplxT T × cmplxT T × cmplxT T) (hbf : ∀ k, IsSum4 (bf k)) (o M : ℕ)
    (a : Buf T) (j : ℕ) (h : j < 2 * M) :
    passSeq bf o M M a (o + j) = cadd (a (o + j)) (a (o + (2 * M + j))) := by
  rw [passSeq_apply bf o M a M (le_refl _)]
  have e : o + j + 2 * M = o + (2 * M + j) := by omega
  by_cases h1 : (o ≤ o + j ∧ o + j < o + M)
  · rw [if_pos h1, (hbf _ _ _ _ _).1, e]
  · have h2 : (o + M ≤ o + j ∧ o + j < o + M + M) := by omega
    rw [if_neg h1, if_pos h2, (hbf _ _ _ _ _).2, e]

theorem frameDC_c2 : FrameDC (c2 : Buf T → ℕ → Buf T) 2 := by
  refine ⟨fun a o i h => ?_, fun a o => ?_⟩
  · have h1 : i ≠ o + 1 := by omega
    have h2 : i ≠ o := by omega
    simp [c2, Function.update_apply, h1, h2]
  · simp [c2, Function.update_apply, Finset.sum_range_succ]

theorem frameDC_id : FrameDC (fun (a : Buf T) (_ : ℕ) => a) 1 := by
  refine ⟨fun a o i _ => rfl, fun a o => ?_⟩
  simp

theorem splitC_frameDC (cH cQ : Buf T → ℕ → Buf T) (bf : ℕ → cmplxT T → cmplxT T →
    cmplxT T → cmplxT T → cmplxT T × cmplxT T × cmplxT T × cmplxT T) (M : ℕ)
    (hH : FrameDC cH (2 * M)) (hQ : FrameDC cQ M) (hbf : ∀ k, IsSum4 (bf k)) :
    FrameDC (splitC cH cQ bf M) (4 * M) := by
  refine ⟨fun a o i h => ?_, fun a o => ?_⟩
  · simp only [splitC]
    rw [hH.1 _ _ _ (by omega), hQ.1 _ _ _ (by omega), hQ.1 _ _ _ (by omega),
      passSeq_out _ _ _ _ _ h]
  · simp only [splitC]
    have e4 : 4 * M = 2 * (2 * M) := by ring
    have key : ∀ j, j < 2 * M →
        cQ (cQ (passSeq bf o M M a) (o + 2 * M)) (o + 3 * M) (o + j) =
          cadd (a (o + j)) (a (o + (2 * M + j))) := by
      intro j hj
      rw [hQ.1 _ _ _ (by omega), hQ.1 _ _ _ (by omega), passSeq_lo bf hbf o M a j hj]
    obtain ⟨d1, d2⟩ := hH.2 (cQ (cQ (passSeq bf o M M a) (o + 2 * M)) (o + 3 * M)) o
    rw [d1, d2]
    constructor
    · conv_rhs => rw [e4, sum_range_two_mul]
      apply Finset.sum_congr rfl
      intro j hj
      rw [Finset.mem_range] at hj
      rw [key j hj]
      rfl
    · conv_rhs => rw [e4, sum_range_two_mul]
      apply Finset.sum_congr rfl
      intro j hj
      rw [Finset.mem_range] at hj
      rw [key j hj]
      rfl

theorem splitC2_frameDC (cH cQ : Buf T → ℕ → Buf T) (bf : ℕ → cmplxT T → cmplxT T →
    cmplxT T → cmplxT T → cmplxT T × cmplxT T × cmplxT T × cmplxT T) (M : ℕ)
    (hH : FrameDC cH (2 * M)) (hQ : FrameDC cQ M) (hbf : ∀ k, IsSum4 (bf k)) :
    FrameDC (splitC2 cH cQ bf M) (4 * M) := by
  refine ⟨fun a o i h => ?_, fun a o => ?_⟩
  · simp only [splitC2]
    rw [hH.1 _ _ _ (by omega), hQ.1 _ _ _ (by omega), hQ.1 _ _ _ (by omega),
      passSeq_out _ _ _ _ _ h]
  · simp only [splitC2]
    have e4 : 4 * M = 2 * (2 * M) := by ring
    have key : ∀ j, j < 2 * M →
        cQ (cQ (passSeq bf o M M a) (o + 3 * M)) (o + 2 * M) (o + j) =
          cadd (a (o + j)) (a (o + (2 * M + j))) := by
      intro j hj
      rw [hQ.1 _ _ _ (by omega), hQ.1 _ _ _ (by omega), passSeq_lo bf hbf o M a j hj]
    obtain ⟨d1, d2⟩ := hH.2 (cQ (cQ (passSeq bf o M M a) (o + 3 * M)) (o + 2 * M)) o
    rw [d1, d2]
    constructor
    · conv_rhs => rw [e4, sum_range_two_mul]
      apply Finset.sum_congr rfl
      intro j hj
      rw [Finset.mem_range] at hj
      rw [key j hj]
      rfl
    · conv_rhs => rw [e4, sum_range_two_mul]
      apply Finset.sum_congr rfl
      intro j hj
      rw [Finset.mem_range] at hj
      rw [key j hj]
      rfl

theorem frameDC_c4 : FrameDC (c4 : Buf T → ℕ → Buf T) 4 := by
  rw [c4_split]
  exact splitC_frameDC _ _ _ 1 frameDC_c2 frameDC_id (bfC_isSum4 _)

theorem frameDC_c8 (g : Globals T) : FrameDC (c8 g) 8 := by
  rw [c8_split]
  exact splitC_frameDC _ _ _ 2 frameDC_c4 frameDC_c2 (bfCbig_isSum4 _ _ _)

theorem frameDC_c16 (g : Globals T) : FrameDC (c16 g) 16 := by
  rw [c16_split]
  exact splitC_frameDC _ _ _ 4 (frameDC_c8 g) frameDC_c4 (bfCbig_isSum4 _ _ _)

theorem frameDC_c32 (g : Globals T) : FrameDC (c32 g) 32 := by
  rw [c32_split]
  exact splitC_frameDC _ _ _ 8 (frameDC_c16 g) (frameDC_c8 g) (bfC_isSum4 _)

theorem frameDC_c64 (g : Globals T) : FrameDC (c64 g) 64 := by
  rw [c64_split]
  exact splitC_frameDC _ _ _ 16 (frameDC_c32 g) (frameDC_c16 g) (bfC_isSum4 _)

theorem frameDC_c128 (g : Globals T) : FrameDC (c128 g) 128 := by
  rw [c128_split]
  exact splitC_frameDC _ _ _ 32 (frameDC_c64 g) (frameDC_c32 g) (bfC_isSum4 _)

theorem frameDC_c256 (g : Globals T) : FrameDC (c256 g) 256 := by
  rw [c256_split]
  exact splitC_frameDC _ _ _ 64 (frameDC_c128 g) (frameDC_c64 g) (bfC_isSum4 _)

theorem frameDC_c512 (g : Globals T) : FrameDC (c512 g) 512 := by
  rw [c512_split]
  exact splitC2_frameDC _ _ _ 128 (frameDC_c256 g) (frameDC_c128 g) (bfC_isSum4 _)

theorem frameDC_c1024 (g : Globals T) : FrameDC (c1024 g) 1024 := by
  rw [c1024_split]
  exact splitC2_frameDC _ _ _ 256 (frameDC_c512 g) (frameDC_c256 g) (bfCbig_isSum4 _ _ _)

theorem frameDC_c2048 (g : Globals T) : FrameDC (c2048 g) 2048 := by
  rw [c2048_split]
  exact splitC2_frameDC _ _ _ 512 (frameDC_c1024 g) (frameDC_c512 g) (bfCbig_isSum4 _ _ _)

theorem frameDC_c4096 (g : Globals T) : FrameDC (c4096 g) 4096 := by
  rw [c4096_split]
  exact splitC2_frameDC _ _ _ 1024 (frameDC_c2048 g) (frameDC_c1024 g) (bfCbig_isSum4 _ _ _)

theorem frameDC_c8192 (g : Globals T) : FrameDC (c8192 g) 8192 := by
  rw [c8192_split]
  exact splitC2_frameDC _ _ _ 2048 (frameDC_c4096 g) (frameDC_c2048 g) (bfCbig_isSum4 _ _ _)

theorem frameDC_c16384 (g : Globals T) : FrameDC (c16384 g) 16384 := by
  rw [c16384_split]
  exact splitC2_frameDC _ _ _ 4096 (frameDC_c8192 g) (frameDC_c4096 g) (bfCbig_isSum4 _ _ _)

theorem frameDC_c32768 (g : Globals T) : FrameDC (c32768 g) 32768 := by
  rw [c32768_split]
  exact splitC2_frameDC _ _ _ 8192 (frameDC_c16384 g) (frameDC_c8192 g) (bfCbig_isSum4 _ _ _)

end DC
end WDLFFT

namespace WDLFFT
section Link
open Complex

variable {w : ℕ → ℤ → ℂ}

theorem toC_inj {x y : cmplxT ℝ} (h : toC x = toC y) : x = y := by
  have h1 := congrArg Complex.re h
  have h2 := congrArg Complex.im h
  simp only [toC] at h1 h2
  exact cmplxT.ext h1 h2

theorem TRANSFORM_isBF (wre wim : ℝ) :
    IsBF (fun a0 a1 a2 a3 => TRANSFORM a0 a1 a2 a3 wre wim) (toC ⟨wre, wim⟩) := by
  intro x0 x1 x2 x3
  refine ⟨?_, ?_, ?_, ?_⟩ <;> apply Complex.ext <;>
    simp only [TRANSFORM, toC, Complex.add_re, Complex.add_im, Complex.sub_re, Complex.sub_im,
      Complex.mul_re, Complex.mul_im, Complex.I_re, Complex.I_im, Complex.conj_re,
      Complex.conj_im, Complex.one_re, Complex.one_im, map_one] <;> ring

theorem TRANSFORMZERO_isBF : IsBF TRANSFORMZERO 1 := by
  intro x0 x1 x2 x3
  refine ⟨?_, ?_, ?_, ?_⟩ <;> apply Complex.ext <;>
    simp only [TRANSFORMZERO, toC, Complex.add_re, Complex.add_im, Complex.sub_re, Complex.sub_im,
      Complex.mul_re, Complex.mul_im, Complex.I_re, Complex.I_im, Complex.conj_re,
      Complex.conj_im, Complex.one_re, Complex.one_im, map_one] <;> ring

theorem TRANSFORMHALF_isBF (s : ℝ) :
    IsBF (fun a0 a1 a2 a3 => TRANSFORMHALF a0 a1 a2 a3 s) (toC ⟨s, s⟩) := by
  intro x0 x1 x2 x3
  refine ⟨?_, ?_, ?_, ?_⟩ <;> apply Complex.ext <;>
    simp only [TRANSFORMHALF, toC, Complex.add_re, Complex.add_im, Complex.sub_re, Complex.sub_im,
      Complex.mul_re, Complex.mul_im, Complex.I_re, Complex.I_im, Complex.conj_re,
      Complex.conj_im, Complex.one_re, Complex.one_im, map_one] <;> ring

theorem UNTRANSFORM_isUBF (wre wim : ℝ) :
    IsUBF (fun a0 a1 a2 a3 => UNTRANSFORM a0 a1 a2 a3 wre wim) (toC ⟨wre, wim⟩) := by
  intro x0 x1 x2 x3
  refine ⟨?_, ?_, ?_, ?_⟩ <;> apply Complex.ext <;>
    simp only [UNTRANSFORM, toC, Complex.add_re, Complex.add_im, Complex.sub_re, Complex.sub_im,
      Complex.mul_re, Complex.mul_im, Complex.I_re, Complex.I_im, Complex.conj_re,
      Complex.conj_im, Complex.one_re, Complex.one_im, map_one] <;> ring

theorem UNTRANSFORMZERO_isUBF : IsUBF UNTRANSFORMZERO 1 := by
  intro x0 x1 x2 x3
  refine ⟨?_, ?_, ?_, ?_⟩ <;> apply Complex.ext <;>
    simp only [UNTRANSFORMZERO, toC, Complex.add_re, Complex.add_im, Complex.sub_re, Complex.sub_im,
      Complex.mul_re, Complex.mul_im, Complex.I_re, Complex.I_im, Complex.conj_re,
      Complex.conj_im, Complex.one_re, Complex.one_im, map_one] <;> ring

theorem UNTRANSFORMHALF_isUBF (s : ℝ) :
    IsUBF (fun a0 a1 a2 a3 => UNTRANSFORMHALF a0 a1 a2 a3 s) (toC ⟨s, s⟩) := by
  intro x0 x1 x2 x3
  refine ⟨?_, ?_, ?_, ?_⟩ <;> apply Complex.ext <;>
    simp only [UNTRANSFORMHALF, toC, Complex.add_re, Complex.add_im, Complex.sub_re, Complex.sub_im,
      Complex.mul_re, Complex.mul_im, Complex.I_re, Complex.I_im, Complex.conj_re,
      Complex.conj_im, Complex.one_re, Complex.one_im, map_one] <;> ring

theorem toC_passSeq_fwd (bf : ℕ → cmplxT ℝ → cmplxT ℝ → cmplxT ℝ → cmplxT ℝ →
    cmplxT ℝ × cmplxT ℝ × cmplxT ℝ × cmplxT ℝ) (tw : ℕ → ℂ) (o M : ℕ) (a : Buf ℝ)
    (hbf : ∀ k, k < M → IsBF (bf k) (tw k)) :
    (fun i => toC (passSeq bf o M M a i)) =
      passC I (starRingEnd ℂ) tw o M (fun i => toC (a i)) := by
  funext i
  simp only [passSeq_apply bf o M a M (le_refl _), passC]
  split_ifs with h1 h2 h3 h4
  · exact (hbf (i - o) (by omega) _ _ _ _).1
  · exact (hbf (i - o - M) (by omega) _ _ _ _).2.1
  · exact (hbf (i - o - 2 * M) (by omega) _ _ _ _).2.2.1
  · exact (hbf (i - o - 3 * M) (by omega) _ _ _ _).2.2.2
  · rfl

theorem toC_passSeq_inv (bf : ℕ → cmplxT ℝ → cmplxT ℝ → cmplxT ℝ → cmplxT ℝ →
    cmplxT ℝ × cmplxT ℝ × cmplxT ℝ × cmplxT ℝ) (tw : ℕ → ℂ) (o M : ℕ) (a : Buf ℝ)
    (hbf : ∀ k, k < M → IsUBF (bf k) (tw k)) :
    (fun i => toC (passSeq bf o M M a i)) =
      upassC I (starRingEnd ℂ) tw o M (fun i => toC (a i)) := by
  funext i
  simp only [passSeq_apply bf o M a M (le_refl _), upassC]
  split_ifs with h1 h2 h3 h4
  · exact (hbf (i - o) (by omega) _ _ _ _).1
  · have e : i - M + 3 * M = i + 2 * M := by omega
    have := (hbf (i - o - M) (by omega) (a (i - M)) (a i) (a (i + M)) (a (i + 2 * M))).2.1
    exact this
  · exact (hbf (i - o - 2 * M) (by omega) _ _ _ _).2.2.1
  · exact (hbf (i - o - 3 * M) (by omega) _ _ _ _).2.2.2
  · rfl

theorem dftBlock_comm (w : ℕ → ℤ → ℂ) (M p q : ℕ) (A : ℕ → ℂ) (h : p + M ≤ q) :
    dftBlock w M p (dftBlock w M q A) = dftBlock w M q (dftBlock w M p A) := by
  funext i
  by_cases hp : p ≤ i ∧ i < p + M
  · obtain ⟨k, rfl⟩ : ∃ k, i = p + k := ⟨i - p, by omega⟩
    rw [dftBlock_in _ _ _ _ _ (by omega), dftBlock_out _ _ _ _ _ (by omega),
      dftBlock_in _ _ _ _ _ (by omega)]
    apply Finset.sum_congr rfl
    intro j hj
    rw [Finset.mem_range] at hj
    rw [dftBlock_out _ _ _ _ _ (by omega)]
  · by_cases hq : q ≤ i ∧ i < q + M
    · obtain ⟨k, rfl⟩ : ∃ k, i = q + k := ⟨i - q, by omega⟩
      rw [dftBlock_out _ _ _ _ _ (by omega), dftBlock_in _ _ _ _ _ (by omega),
        dftBlock_in _ _ _ _ _ (by omega)]
      apply Finset.sum_congr rfl
      intro j hj
      rw [Finset.mem_range] at hj
      rw [dftBlock_out _ _ _ _ _ (by omega)]
    · rw [dftBlock_out _ _ _ _ _ (by omega), dftBlock_out _ _ _ _ _ (by omega),
        dftBlock_out _ _ _ _ _ (by omega), dftBlock_out _ _ _ _ _ (by omega)]

theorem fwd_splitC (hw : IsTwiddle w) (c M : ℕ) (hM : M = 2 ^ c) (hc : c ≤ 29)
    (cH cQ : Buf ℝ → ℕ → Buf ℝ) (bf : ℕ → cmplxT ℝ → cmplxT ℝ → cmplxT ℝ → cmplxT ℝ →
    cmplxT ℝ × cmplxT ℝ × cmplxT ℝ × cmplxT ℝ)
    (hH : FwdSpec w cH (2 * M)) (hQ : FwdSpec w cQ M)
    (hbf : ∀ k, k < M → IsBF (bf k) (w (4 * M) k)) :
    FwdSpec w (splitC cH cQ bf M) (4 * M) := by
  intro a o
  simp only [splitC]
  rw [hH, hQ, hQ, toC_passSeq_fwd bf (fun k => w (4 * M) k) o M a hbf,
    dft_step hw c M hM hc o _ _ (fun k _ => rfl)]

theorem fwd_splitC2 (hw : IsTwiddle w) (c M : ℕ) (hM : M = 2 ^ c) (hc : c ≤ 29)
    (cH cQ : Buf ℝ → ℕ → Buf ℝ) (bf : ℕ → cmplxT ℝ → cmplxT ℝ → cmplxT ℝ → cmplxT ℝ →
    cmplxT ℝ × cmplxT ℝ × cmplxT ℝ × cmplxT ℝ)
    (hH : FwdSpec w cH (2 * M)) (hQ : FwdSpec w cQ M)
    (hbf : ∀ k, k < M → IsBF (bf k) (w (4 * M) k)) :
    FwdSpec w (splitC2 cH cQ bf M) (4 * M) := by
  intro a o
  simp only [splitC2]
  rw [hH, hQ, hQ, toC_passSeq_fwd bf (fun k => w (4 * M) k) o M a hbf,
    dftBlock_comm w M (o + 2 * M) (o + 3 * M) _ (by omega),
    dft_step hw c M hM hc o _ _ (fun k _ => rfl)]

theorem inv_splitU (hw : IsTwiddle w) (c M : ℕ) (hM : M = 2 ^ c) (hc : c ≤ 29)
    (uH uQ : Buf ℝ → ℕ → Buf ℝ) (bf : ℕ → cmplxT ℝ → cmplxT ℝ → cmplxT ℝ → cmplxT ℝ →
    cmplxT ℝ × cmplxT ℝ × cmplxT ℝ × cmplxT ℝ)
    (hH : InvSpec w uH (2 * M)) (hQ : InvSpec w uQ M)
    (hbf : ∀ k, k < M → IsUBF (bf k) (w (4 * M) k)) :
    InvSpec w (splitU uH uQ bf M) (4 * M) := by
  intro a o
  simp only [splitU]
  rw [toC_passSeq_inv bf (fun k => w (4 * M) k) o M _ hbf, hQ, hQ, hH,
    idft_step hw c M hM hc o _ _ (fun k _ => rfl)]

theorem fwd_id (hw : IsTwiddle w) : FwdSpec w (fun a _ => a) 1 := by
  intro a o
  funext i
  by_cases h : o ≤ i ∧ i < o + 1
  · have : i = o := by omega
    subst this
    have := dftBlock_in w 1 i (fun i => toC (a i)) 0 (by norm_num)
    rw [Nat.add_zero] at this
    rw [this]
    simp [hw.zero]
  · rw [dftBlock_out _ _ _ _ _ (by omega)]

theorem inv_id (hw : IsTwiddle w) : InvSpec w (fun a _ => a) 1 := by
  intro a o
  funext i
  by_cases h : o ≤ i ∧ i < o + 1
  · have : i = o := by omega
    subst this
    have := idftBlock_in w 1 i (fun i => toC (a i)) 0 (by norm_num)
    rw [Nat.add_zero] at this
    rw [this]
    simp [hw.zero]
  · rw [idftBlock_out _ _ _ _ _ (by omega)]

theorem toC_c2 (a : Buf ℝ) (o : ℕ) :
    toC (c2 a o o) = toC (a o) + toC (a (o + 1)) ∧
    toC (c2 a o (o + 1)) = toC (a o) - toC (a (o + 1)) ∧
    ∀ i, (i < o ∨ o + 2 ≤ i) → c2 a o i = a i := by
  refine ⟨?_, ?_, fun i h => ?_⟩
  · apply Complex.ext <;> simp [c2, toC, Function.update_apply]
  · apply Complex.ext <;> simp [c2, toC, Function.update_apply]
  · have h1 : i ≠ o + 1 := by omega
    have h2 : i ≠ o := by omega
    simp [c2, Function.update_apply, h1, h2]

theorem fwd_c2 (hw : IsTwiddle w) : FwdSpec w c2 2 := by
  intro a o
  obtain ⟨e0, e1, e2⟩ := toC_c2 a o
  funext i
  by_cases h : o ≤ i ∧ i < o + 2
  · obtain ⟨k, rfl⟩ : ∃ k, i = o + k := ⟨i - o, by omega⟩
    rw [dftBlock_in _ _ _ _ _ (by omega), Finset.sum_range_succ, Finset.sum_range_one,
      fftfreq_c_small _ _ (le_refl 2)]
    have hk : k = 0 ∨ k = 1 := by omega
    rcases hk with rfl | rfl
    · simp [e0, hw.zero]
    · simp [e1, hw.zero, hw.two_one]; ring
  · rw [dftBlock_out _ _ _ _ _ (by omega), e2 i (by omega)]

theorem inv_c2 (hw : IsTwiddle w) : InvSpec w c2 2 := by
  intro a o
  obtain ⟨e0, e1, e2⟩ := toC_c2 a o
  funext i
  by_cases h : o ≤ i ∧ i < o + 2
  · obtain ⟨k, rfl⟩ : ∃ k, i = o + k := ⟨i - o, by omega⟩
    rw [idftBlock_in _ _ _ _ _ (by omega), Finset.sum_range_succ, Finset.sum_range_one,
      fftfreq_c_small _ _ (le_refl 2), fftfreq_c_small _ _ (le_refl 2)]
    have hk : k = 0 ∨ k = 1 := by omega
    rcases hk with rfl | rfl
    · simp [e0, hw.zero]
    · have : w 2 (-1) = -1 := by rw [hw.neg, hw.two_one]; norm_num
      simp [e1, hw.zero, this]; ring
  · rw [idftBlock_out _ _ _ _ _ (by omega), e2 i (by omega)]

end Link
end WDLFFT

namespace WDLFFT
section Sizes
open Complex

variable {w : ℕ → ℤ → ℂ}

theorem IsTwiddle.scale (hw : IsTwiddle w) (e N : ℕ) (hN : 1 ≤ N) (a : ℤ) :
    w (2 ^ e * N) (((2 ^ e : ℕ) : ℤ) * a) = w N a := by
  induction e with
  | zero => simp
  | succ e ih =>
    have e1 : 2 ^ (e + 1) * N = 2 * (2 ^ e * N) := by ring
    have e2 : (((2 ^ (e + 1) : ℕ)) : ℤ) * a = 2 * (((2 ^ e : ℕ) : ℤ) * a) := by
      push_cast; ring
    have hpos : 1 ≤ 2 ^ e * N := Nat.one_le_iff_ne_zero.mpr (by positivity)
    rw [e1, e2, hw.half _ _ hpos, ih]

theorem toC_swap (z : cmplxT ℝ) : toC ⟨z.im, z.re⟩ = I * (starRingEnd ℂ) (toC z) := by
  apply Complex.ext <;> simp [toC]

theorem bfC_isBF (hw : IsTwiddle w) (d : ℕ → cmplxT ℝ) (N M : ℕ)
    (hd : ∀ x : ℕ, x + 1 < M → toC (d x) = w N ((x : ℤ) + 1)) :
    ∀ k, k < M → IsBF (bfC d k) (w N k) := by
  intro k hk
  cases k with
  | zero =>
    have : w N ((0 : ℕ) : ℤ) = 1 := by rw [Nat.cast_zero, hw.zero]
    rw [this]; exact TRANSFORMZERO_isBF
  | succ k =>
    have : w N ((k + 1 : ℕ) : ℤ) = toC ⟨(d k).re, (d k).im⟩ := by
      rw [Nat.cast_succ, ← hd k hk]
    rw [this]; exact TRANSFORM_isBF _ _

theorem bfU_isUBF (hw : IsTwiddle w) (d : ℕ → cmplxT ℝ) (N M : ℕ)
    (hd : ∀ x : ℕ, x + 1 < M → toC (d x) = w N ((x : ℤ) + 1)) :
    ∀ k, k < M → IsUBF (bfU d k) (w N k) := by
  intro k hk
  cases k with
  | zero =>
    have : w N ((0 : ℕ) : ℤ) = 1 := by rw [Nat.cast_zero, hw.zero]
    rw [this]; exact UNTRANSFORMZERO_isUBF
  | succ k =>
    have : w N ((k + 1 : ℕ) : ℤ) = toC ⟨(d k).re, (d k).im⟩ := by
      rw [Nat.cast_succ, ← hd k hk]
    rw [this]; exact UNTRANSFORM_isUBF _ _

/-- The twiddle used at index `k` of a split pass, for each of its four ranges. -/
theorem big_twiddle (hw : IsTwiddle w) (s : ℝ) (d : ℕ → cmplxT ℝ) (n : ℕ) (hn : 1 ≤ n)
    (hd : ∀ x : ℕ, x + 1 < n → toC (d x) = w (4 * (2 * n)) ((x : ℤ) + 1))
    (hs : toC ⟨s, s⟩ = w (4 * (2 * n)) n) (k : ℕ) (hk : k < 2 * n) :
    (k = 0 → w (4 * (2 * n)) k = 1) ∧
    (k ≠ 0 → k < n → w (4 * (2 * n)) k = toC ⟨(d (k - 1)).re, (d (k - 1)).im⟩) ∧
    (k = n → w (4 * (2 * n)) k = toC ⟨s, s⟩) ∧
    (n < k → w (4 * (2 * n)) k =
      toC ⟨(d (2 * n - k - 1)).im, (d (2 * n - k - 1)).re⟩) := by
  refine ⟨fun h => ?_, fun h0 h1 => ?_, fun h => ?_, fun h => ?_⟩
  · rw [h, Nat.cast_zero, hw.zero]
  · have := hd (k - 1) (by omega)
    have e : ((k - 1 : ℕ) : ℤ) + 1 = (k : ℤ) := by
      rw [Nat.cast_sub (by omega)]; push_cast; ring
    rw [e] at this
    rw [← this]
  · rw [h, hs]
  · have := hd (2 * n - k - 1) (by omega)
    rw [toC_swap, this, hw.conj, ← hw.quarter (2 * n) (by omega), ← hw.add]
    congr 1
    have e : ((2 * n - k - 1 : ℕ) : ℤ) = 2 * (n : ℤ) - k - 1 := by
      rw [Nat.cast_sub (by omega), Nat.cast_sub (by omega)]; push_cast; ring
    rw [e]; push_cast; ring

theorem bfCbig_isBF (hw : IsTwiddle w) (s : ℝ) (d : ℕ → cmplxT ℝ) (n : ℕ) (hn : 1 ≤ n)
    (hd : ∀ x : ℕ, x + 1 < n → toC (d x) = w (4 * (2 * n)) ((x : ℤ) + 1))
    (hs : toC ⟨s, s⟩ = w (4 * (2 * n)) n) :
    ∀ k, k < 2 * n → IsBF (bfCbig s d n k) (w (4 * (2 * n)) k) := by
  intro k hk
  obtain ⟨t0, t1, t2, t3⟩ := big_twiddle hw s d n hn hd hs k hk
  unfold bfCbig
  split_ifs with c0 c1 c2
  · rw [t0 c0]; exact TRANSFORMZERO_isBF
  · rw [t1 c0 c1]; exact TRANSFORM_isBF _ _
  · rw [t2 c2]; exact TRANSFORMHALF_isBF _
  · rw [t3 (by omega)]; exact TRANSFORM_isBF _ _

theorem bfUbig_isUBF (hw : IsTwiddle w) (s : ℝ) (d : ℕ → cmplxT ℝ) (n : ℕ) (hn : 1 ≤ n)
    (hd : ∀ x : ℕ, x + 1 < n → toC (d x) = w (4 * (2 * n)) ((x : ℤ) + 1))
    (hs : toC ⟨s, s⟩ = w (4 * (2 * n)) n) :
    ∀ k, k < 2 * n → IsUBF (bfUbig s d n k) (w (4 * (2 * n)) k) := by
  intro k hk
  obtain ⟨t0, t1, t2, t3⟩ := big_twiddle hw s d n hn hd hs k hk
  unfold bfUbig
  split_ifs with c0 c1 c2
  · rw [t0 c0]; exact UNTRANSFORMZERO_isUBF
  · rw [t1 c0 c1]; exact UNTRANSFORM_isUBF _ _
  · rw [t2 c2]; exact UNTRANSFORMHALF_isUBF _
  · rw [t3 (by omega)]; exact UNTRANSFORM_isUBF _ _

theorem TablesOK.half_at (hw : IsTwiddle w) {g : Globals ℝ} (ht : TablesOK w g) (e : ℕ) :
    toC ⟨sqrthalf g, sqrthalf g⟩ = w (4 * (2 * 2 ^ e)) ((2 ^ e : ℕ) : ℤ) := by
  have h := hw.scale e 8 (by norm_num) 1
  have e1 : 4 * (2 * 2 ^ e) = 2 ^ e * 8 := by ring
  rw [ht.half, e1, ← h, mul_one]

theorem fwd_c4 (hw : IsTwiddle w) : FwdSpec w c4 4 := by
  rw [c4_split]
  exact fwd_splitC hw 0 1 (by norm_num) (by norm_num) _ _ _ (fwd_c2 hw) (fwd_id hw)
    (bfC_isBF hw _ 4 1 (fun x hx => by omega))

theorem inv_u4 (hw : IsTwiddle w) : InvSpec w u4 4 := by
  rw [u4_split]
  exact inv_splitU hw 0 1 (by norm_num) (by norm_num) _ _ _ (inv_c2 hw) (inv_id hw)
    (bfU_isUBF hw _ 4 1 (fun x hx => by omega))

theorem fwd_c8 (hw : IsTwiddle w) (g : Globals ℝ) (ht : TablesOK w g) : FwdSpec w (c8 g) 8 := by
  rw [c8_split]
  exact fwd_splitC hw 1 2 (by norm_num) (by norm_num) _ _ _ (fwd_c4 hw) (fwd_c2 hw)
    (bfCbig_isBF hw _ _ 1 (by norm_num) (fun x hx => by omega) (ht.half_at hw 0))

theorem inv_u8 (hw : IsTwiddle w) (g : Globals ℝ) (ht : TablesOK w g) : InvSpec w (u8 g) 8 := by
  rw [u8_split]
  exact inv_splitU hw 1 2 (by norm_num) (by norm_num) _ _ _ (inv_u4 hw) (inv_c2 hw)
    (bfUbig_isUBF hw _ _ 1 (by norm_num) (fun x hx => by omega) (ht.half_at hw 0))

theorem fwd_c16 (hw : IsTwiddle w) (g : Globals ℝ) (ht : TablesOK w g) :
    FwdSpec w (c16 g) 16 := by
  rw [c16_split]
  exact fwd_splitC hw 2 4 (by norm_num) (by norm_num) _ _ _ (fwd_c8 hw g ht) (fwd_c4 hw)
    (bfCbig_isBF hw _ _ 2 (by norm_num) (fun x hx => ht.d16 x (by omega)) (ht.half_at hw 1))

theorem inv_u16 (hw : IsTwiddle w) (g : Globals ℝ) (ht : TablesOK w g) :
    InvSpec w (u16 g) 16 := by
  rw [u16_split]
  exact inv_splitU hw 2 4 (by norm_num) (by norm_num) _ _ _ (inv_u8 hw g ht) (inv_u4 hw)
    (bfUbig_isUBF hw _ _ 2 (by norm_num) (fun x hx => ht.d16 x (by omega)) (ht.half_at hw 1))

theorem fwd_c32 (hw : IsTwiddle w) (g : Globals ℝ) (ht : TablesOK w g) :
    FwdSpec w (c32 g) 32 := by
  rw [c32_split]
  exact fwd_splitC hw 3 8 (by norm_num) (by norm_num) _ _ _ (fwd_c16 hw g ht)
    (fwd_c8 hw g ht) (bfC_isBF hw _ 32 8 (fun x hx => ht.d32 x (by omega)))

theorem inv_u32 (hw : IsTwiddle w) (g : Globals ℝ) (ht : TablesOK w g) :
    InvSpec w (u32 g) 32 := by
  rw [u32_split]
  exact inv_splitU hw 3 8 (by norm_num) (by norm_num) _ _ _ (inv_u16 hw g ht)
    (inv_u8 hw g ht) (bfU_isUBF hw _ 32 8 (fun x hx => ht.d32 x (by omega)))

theorem fwd_c64 (hw : IsTwiddle w) (g : Globals ℝ) (ht : TablesOK w g) :
    FwdSpec w (c64 g) 64 := by
  rw [c64_split]
  exact fwd_splitC hw 4 16 (by norm_num) (by norm_num) _ _ _ (fwd_c32 hw g ht)
    (fwd_c16 hw g ht) (bfC_isBF hw _ 64 16 (fun x hx => ht.d64 x (by omega)))

theorem inv_u64 (hw : IsTwiddle w) (g : Globals ℝ) (ht : TablesOK w g) :
    InvSpec w (u64 g) 64 := by
  rw [u64_split]
  exact inv_splitU hw 4 16 (by norm_num) (by norm_num) _ _ _ (inv_u32 hw g ht)
    (inv_u16 hw g ht) (bfU_isUBF hw _ 64 16 (fun x hx => ht.d64 x (by omega)))

theorem fwd_c128 (hw : IsTwiddle w) (g : Globals ℝ) (ht : TablesOK w g) :
    FwdSpec w (c128 g) 128 := by
  rw [c128_split]
  exact fwd_splitC hw 5 32 (by norm_num) (by norm_num) _ _ _ (fwd_c64 hw g ht)
    (fwd_c32 hw g ht) (bfC_isBF hw _ 128 32 (fun x hx => ht.d128 x (by omega)))

theorem inv_u128 (hw : IsTwiddle w) (g : Globals ℝ) (ht : TablesOK w g) :
    InvSpec w (u128 g) 128 := by
  rw [u128_split]
  exact inv_splitU hw 5 32 (by norm_num) (by norm_num) _ _ _ (inv_u64 hw g ht)
    (inv_u32 hw g ht) (bfU_isUBF hw _ 128 32 (fun x hx => ht.d128 x (by omega)))

theorem fwd_c256 (hw : IsTwiddle w) (g : Globals ℝ) (ht : TablesOK w g) :
    FwdSpec w (c256 g) 256 := by
  rw [c256_split]
  exact fwd_splitC hw 6 64 (by norm_num) (by norm_num) _ _ _ (fwd_c128 hw g ht)
    (fwd_c64 hw g ht) (bfC_isBF hw _ 256 64 (fun x hx => ht.d256 x (by omega)))

theorem inv_u256 (hw : IsTwiddle w) (g : Globals ℝ) (ht : TablesOK w g) :
    InvSpec w (u256 g) 256 := by
  rw [u256_split]
  exact inv_splitU hw 6 64 (by norm_num) (by norm_num) _ _ _ (inv_u128 hw g ht)
    (inv_u64 hw g ht) (bfU_isUBF hw _ 256 64 (fun x hx => ht.d256 x (by omega)))

theorem fwd_c512 (hw : IsTwiddle w) (g : Globals ℝ) (ht : TablesOK w g) :
    FwdSpec w (c512 g) 512 := by
  rw [c512_split]
  exact fwd_splitC2 hw 7 128 (by norm_num) (by norm_num) _ _ _ (fwd_c256 hw g ht)
    (fwd_c128 hw g ht) (bfC_isBF hw _ 512 128 (fun x hx => ht.d512 x (by omega)))

theorem inv_u512 (hw : IsTwiddle w) (g : Globals ℝ) (ht : TablesOK w g) :
    InvSpec w (u512 g) 512 := by
  rw [u512_split]
  exact inv_splitU hw 7 128 (by norm_num) (by norm_num) _ _ _ (inv_u256 hw g ht)
    (inv_u128 hw g ht) (bfU_isUBF hw _ 512 128 (fun x hx => ht.d512 x (by omega)))

theorem fwd_c1024 (hw : IsTwiddle w) (g : Globals ℝ) (ht : TablesOK w g) :
    FwdSpec w (c1024 g) 1024 := by
  rw [c1024_split]
  exact fwd_splitC2 hw 8 256 (by norm_num) (by norm_num) _ _ _ (fwd_c512 hw g ht)
    (fwd_c256 hw g ht) (bfCbig_isBF hw _ _ 128 (by norm_num) (fun x hx => ht.d1024 x (by omega)) (ht.half_at hw 7))

theorem inv_u1024 (hw : IsTwiddle w) (g : Globals ℝ) (ht : TablesOK w g) :
    InvSpec w (u1024 g) 1024 := by
  rw [u1024_split]
  exact inv_splitU hw 8 256 (by norm_num) (by norm_num) _ _ _ (inv_u512 hw g ht)
    (inv_u256 hw g ht) (bfUbig_isUBF hw _ _ 128 (by norm_num) (fun x hx => ht.d1024 x (by omega)) (ht.half_at hw 7))

theorem fwd_c2048 (hw : IsTwiddle w) (g : Globals ℝ) (ht : TablesOK w g) :
    FwdSpec w (c2048 g) 2048 := by
  rw [c2048_split]
  exact fwd_splitC2 hw 9 512 (by norm_num) (by norm_num) _ _ _ (fwd_c1024 hw g ht)
    (fwd_c512 hw g ht) (bfCbig_isBF hw _ _ 256 (by norm_num) (fun x hx => ht.d2048 x (by omega)) (ht.half_at hw 8))

theorem inv_u2048 (hw : IsTwiddle w) (g : Globals ℝ) (ht : TablesOK w g) :
    InvSpec w (u2048 g) 2048 := by
  rw [u2048_split]
  exact inv_splitU hw 9 512 (by norm_num) (by norm_num) _ _ _ (inv_u1024 hw g ht)
    (inv_u512 hw g ht) (bfUbig_isUBF hw _ _ 256 (by norm_num) (fun x hx => ht.d2048 x (by omega)) (ht.half_at hw 8))

theorem fwd_c4096 (hw : IsTwiddle w) (g : Globals ℝ) (ht : TablesOK w g) :
    FwdSpec w (c4096 g) 4096 := by
  rw [c4096_split]
  exact fwd_splitC2 hw 10 1024 (by norm_num) (by norm_num) _ _ _ (fwd_c2048 hw g ht)
    (fwd_c1024 hw g ht) (bfCbig_isBF hw _ _ 512 (by norm_num) (fun x hx => ht.d4096 x (by omega)) (ht.half_at hw 9))

theorem inv_u4096 (hw : IsTwiddle w) (g : Globals ℝ) (ht : TablesOK w g) :
    InvSpec w (u4096 g) 4096 := by
  rw [u4096_split]
  exact inv_splitU hw 10 1024 (by norm_num) (by norm_num) _ _ _ (inv_u2048 hw g ht)
    (inv_u1024 hw g ht) (bfUbig_isUBF hw _ _ 512 (by norm_num) (fun x hx => ht.d4096 x (by omega)) (ht.half_at hw 9))

theorem fwd_c8192 (hw : IsTwiddle w) (g : Globals ℝ) (ht : TablesOK w g) :
    FwdSpec w (c8192 g) 8192 := by
  rw [c8192_split]
  exact fwd_splitC2 hw 11 2048 (by norm_num) (by norm_num) _ _ _ (fwd_c4096 hw g ht)
    (fwd_c2048 hw g ht) (bfCbig_isBF hw _ _ 1024 (by norm_num) (fun x hx => ht.d8192 x (by omega)) (ht.half_at hw 10))

theorem inv_u8192 (hw : IsTwiddle w) (g : Globals ℝ) (ht : TablesOK w g) :
    InvSpec w (u8192 g) 8192 := by
  rw [u8192_split]
  exact inv_splitU hw 11 2048 (by norm_num) (by norm_num) _ _ _ (inv_u4096 hw g ht)
    (inv_u2048 hw g ht) (bfUbig_isUBF hw _ _ 1024 (by norm_num) (fun x hx => ht.d8192 x (by omega)) (ht.half_at hw 10))

theorem fwd_c16384 (hw : IsTwiddle w) (g : Globals ℝ) (ht : TablesOK w g) :
    FwdSpec w (c16384 g) 16384 := by
  rw [c16384_split]
  exact fwd_splitC2 hw 12 4096 (by norm_num) (by norm_num) _ _ _ (fwd_c8192 hw g ht)
    (fwd_c4096 hw g ht) (bfCbig_isBF hw _ _ 2048 (by norm_num) (fun x hx => ht.d16384 x (by omega)) (ht.half_at hw 11))

theorem inv_u16384 (hw : IsTwiddle w) (g : Globals ℝ) (ht : TablesOK w g) :
    InvSpec w (u16384 g) 16384 := by
  rw [u16384_split]
  exact inv_splitU hw 12 4096 (by norm_num) (by norm_num) _ _ _ (inv_u8192 hw g ht)
    (inv_u4096 hw g ht) (bfUbig_isUBF hw _ _ 2048 (by norm_num) (fun x hx => ht.d16384 x (by omega)) (ht.half_at hw 11))

theorem fwd_c32768 (hw : IsTwiddle w) (g : Globals ℝ) (ht : TablesOK w g) :
    FwdSpec w (c32768 g) 32768 := by
  rw [c32768_split]
  exact fwd_splitC2 hw 13 8192 (by norm_num) (by norm_num) _ _ _ (fwd_c16384 hw g ht)
    (fwd_c8192 hw g ht) (bfCbig_isBF hw _ _ 4096 (by norm_num) (fun x hx => ht.d32768 x (by omega)) (ht.half_at hw 12))

theorem inv_u32768 (hw : IsTwiddle w) (g : Globals ℝ) (ht : TablesOK w g) :
    InvSpec w (u32768 g) 32768 := by
  rw [u32768_split]
  exact inv_splitU hw 13 8192 (by norm_num) (by norm_num) _ _ _ (inv_u16384 hw g ht)
    (inv_u8192 hw g ht) (bfUbig_isUBF hw _ _ 4096 (by norm_num) (fun x hx => ht.d32768 x (by omega)) (ht.half_at hw 12))

end Sizes
end WDLFFT

namespace WDLFFT
section Exp
open Complex

/-- The family `exp(2·π·i·k/N)` has the properties required of the twiddles. -/
theorem isTwiddle_exp :
    IsTwiddle (fun (N : ℕ) (k : ℤ) => Complex.exp (2 * Real.pi * I * k / N)) where
  zero := by intro N; simp
  add := by
    intro N a b
    rw [← Complex.exp_add]
    congr 1
    push_cast
    ring
  period := by
    intro N hN
    have h : (N : ℂ) ≠ 0 := by exact_mod_cast (by omega : N ≠ 0)
    have e : 2 * (Real.pi : ℂ) * I * ((N : ℤ) : ℂ) / (N : ℂ) = 2 * Real.pi * I := by
      push_cast; field_simp
    rw [e, Complex.exp_two_pi_mul_I]
  half := by
    intro N a hN
    have h : (N : ℂ) ≠ 0 := by exact_mod_cast (by omega : N ≠ 0)
    congr 1
    push_cast
    field_simp
    ring
  quarter := by
    intro M hM
    have h : (M : ℂ) ≠ 0 := by exact_mod_cast (by omega : M ≠ 0)
    have e : 2 * (Real.pi : ℂ) * I * ((M : ℤ) : ℂ) / ((4 * M : ℕ) : ℂ) =
        ((Real.pi / 2 : ℝ) : ℂ) * I := by
      push_cast; field_simp; ring
    rw [e, Complex.exp_mul_I, ← Complex.ofReal_cos, ← Complex.ofReal_sin, Real.cos_pi_div_two,
      Real.sin_pi_div_two]
    simp
  conj := by
    intro N a
    rw [← Complex.exp_conj]
    congr 1
    simp only [map_div₀, map_mul, Complex.conj_I, Complex.conj_ofReal, map_ofNat,
      map_natCast, map_intCast]
    push_cast
    ring
  prim := by
    intro N a hN h
    rw [Complex.exp_eq_one_iff] at h
    obtain ⟨n, hn⟩ := h
    have hN0 : (N : ℂ) ≠ 0 := by exact_mod_cast (by omega : N ≠ 0)
    have hpi : (2 * (Real.pi : ℂ) * I) ≠ 0 := by
      simp [Real.pi_ne_zero, Complex.I_ne_zero]
    have e : ((a : ℤ) : ℂ) = (n : ℂ) * (N : ℂ) := by
      field_simp at hn
      have h2 : (2 * (Real.pi : ℂ) * I) * (a : ℂ) = (2 * (Real.pi : ℂ) * I) * ((n : ℂ) * (N : ℂ)) := by
        linear_combination hn
      exact mul_left_cancel₀ hpi h2
    have e' : a = n * (N : ℤ) := by exact_mod_cast e
    exact ⟨n, by rw [e']; ring⟩

theorem toC_cos_sin (θ : ℝ) : toC ⟨Real.cos θ, Real.sin θ⟩ = Complex.exp (θ * I) := by
  apply Complex.ext
  · simp [toC, Complex.exp_ofReal_mul_I_re]
  · simp [toC, Complex.exp_ofReal_mul_I_im]

end Exp
end WDLFFT

namespace WDLFFT
section Gen
open Complex

theorem forLoop_fill {β : Type} (val : ℕ → β) (t0 : ℕ → β) (sz x : ℕ) :
    forLoop 0 sz (fun t i => Function.update t i (val i)) t0 x =
      if x < sz then val x else t0 x := by
  obtain ⟨s1, s2⟩ := forLoop_update_spec (fun i => i) val t0 0 sz (Nat.zero_le _)
    (fun i j _ _ _ _ e => e)
  by_cases h : x < sz
  · rw [if_pos h]; exact s1 x (Nat.zero_le _) h
  · rw [if_neg h]; exact s2 x (fun i _ hi e => h (by omega))

/-- The entry `__fft_gen` writes at index `x`. -/
theorem fft_gen_apply {T : Type} [Field T] (F : Trig T) (buf : ℕ → cmplxT T)
    (buf2 : Option (ℕ → cmplxT T)) (sz : ℕ) (isfull : ℤ) (x : ℕ) (hx : x < sz) :
    __fft_gen F buf buf2 sz isfull x =
      (match buf2 with
      | none =>
        ⟨F.F_COS (((x : T) + 1) *
            (if isfull ≠ 0 then F.M_PI * 0.25 / ((sz : T) + 1) * 2.0
              else F.M_PI * 0.25 / ((sz : T) + 1))),
          F.F_SIN (((x : T) + 1) *
            (if isfull ≠ 0 then F.M_PI * 0.25 / ((sz : T) + 1) * 2.0
              else F.M_PI * 0.25 / ((sz : T) + 1)))⟩
      | some b2 =>
        if x &&& 1 = 0 then
          ⟨F.F_COS (((x : T) + 1) *
              (if isfull ≠ 0 then F.M_PI * 0.25 / ((sz : T) + 1) * 2.0
                else F.M_PI * 0.25 / ((sz : T) + 1))),
            F.F_SIN (((x : T) + 1) *
              (if isfull ≠ 0 then F.M_PI * 0.25 / ((sz : T) + 1) * 2.0
                else F.M_PI * 0.25 / ((sz : T) + 1)))⟩
        else b2 (x >>> 1)) := by
  unfold __fft_gen
  cases buf2 with
  | none =>
    simp only
    rw [forLoop_fill, if_pos hx]
  | some b2 =>
    simp only
    have hb : (fun (buf : ℕ → cmplxT T) (x : ℕ) =>
        if x &&& 1 = 0 then
          Function.update buf x
            ⟨F.F_COS (((x : T) + 1) *
                (if isfull ≠ 0 then F.M_PI * 0.25 / ((sz : T) + 1) * 2.0
                  else F.M_PI * 0.25 / ((sz : T) + 1))),
              F.F_SIN (((x : T) + 1) *
                (if isfull ≠ 0 then F.M_PI * 0.25 / ((sz : T) + 1) * 2.0
                  else F.M_PI * 0.25 / ((sz : T) + 1)))⟩
        else Function.update buf x ⟨(b2 (x >>> 1)).re, (b2 (x >>> 1)).im⟩) =
        (fun (buf : ℕ → cmplxT T) (x : ℕ) => Function.update buf x
          (if x &&& 1 = 0 then
            ⟨F.F_COS (((x : T) + 1) *
                (if isfull ≠ 0 then F.M_PI * 0.25 / ((sz : T) + 1) * 2.0
                  else F.M_PI * 0.25 / ((sz : T) + 1))),
              F.F_SIN (((x : T) + 1) *
                (if isfull ≠ 0 then F.M_PI * 0.25 / ((sz : T) + 1) * 2.0
                  else F.M_PI * 0.25 / ((sz : T) + 1)))⟩
          else b2 (x >>> 1))) := by
      funext buf x
      split_ifs <;> rfl
    rw [hb, forLoop_fill, if_pos hx]

variable {w : ℕ → ℤ → ℂ}

/-- A table generated by `__fft_gen` with angle step `2π/N`, from a parent table that holds
the roots of unity of order `N/2`, holds the roots of unity of order `N`. -/
theorem table_gen (hw : IsTwiddle w)
    (hwd : ∀ (N : ℕ) (k : ℤ), w N k = Complex.exp (2 * Real.pi * I * k / N))
    (N2 sz : ℕ) (hN2 : 1 ≤ N2) (buf : ℕ → cmplxT ℝ) (buf2 : Option (ℕ → cmplxT ℝ))
    (isfull : ℤ)
    (hdiv : (if isfull ≠ 0 then Real.pi * 0.25 / ((sz : ℝ) + 1) * 2.0
      else Real.pi * 0.25 / ((sz : ℝ) + 1)) = 2 * Real.pi / ((2 * N2 : ℕ) : ℝ))
    (hpar : ∀ b2, buf2 = some b2 → ∀ y : ℕ, 2 * y + 1 < sz → toC (b2 y) = w N2 ((y : ℤ) + 1))
    (x : ℕ) (hx : x < sz) :
    toC (__fft_gen ⟨Real.pi, Real.cos, Real.sin⟩ buf buf2 sz isfull x) =
      w (2 * N2) ((x : ℤ) + 1) := by
  rw [fft_gen_apply _ _ _ _ _ _ hx]
  have trig : toC ⟨Real.cos (((x : ℝ) + 1) *
      (if isfull ≠ 0 then Real.pi * 0.25 / ((sz : ℝ) + 1) * 2.0
        else Real.pi * 0.25 / ((sz : ℝ) + 1))),
      Real.sin (((x : ℝ) + 1) *
      (if isfull ≠ 0 then Real.pi * 0.25 / ((sz : ℝ) + 1) * 2.0
        else Real.pi * 0.25 / ((sz : ℝ) + 1)))⟩ = w (2 * N2) ((x : ℤ) + 1) := by
    rw [hdiv, toC_cos_sin, hwd]
    congr 1
    push_cast
    ring
  cases buf2 with
  | none => exact trig
  | some b2 =>
    simp only
    by_cases h : x &&& 1 = 0
    · rw [if_pos h]; exact trig
    · rw [if_neg h]
      have hodd : x % 2 = 1 := by
        rw [Nat.and_one_is_mod] at h; omega
      have e1 : x >>> 1 = x / 2 := by rw [Nat.shiftRight_eq_div_pow, pow_one]
      rw [e1, hpar b2 rfl (x / 2) (by omega), ← hw.half N2 _ hN2]
      congr 1
      have : (x : ℤ) = 2 * ((x / 2 : ℕ) : ℤ) + 1 := by
        have := Nat.div_add_mod x 2
        omega
      omega

end Gen
end WDLFFT

namespace WDLFFT
section Init
open Complex

variable {w : ℕ → ℤ → ℂ}

theorem half_entry (hwd : ∀ (N : ℕ) (k : ℤ), w N k = Complex.exp (2 * Real.pi * I * k / N))
    (buf : ℕ → cmplxT ℝ) :
    toC ⟨(__fft_gen ⟨Real.pi, Real.cos, Real.sin⟩ buf none 3 1 1).re,
      (__fft_gen ⟨Real.pi, Real.cos, Real.sin⟩ buf none 3 1 1).re⟩ = w 8 1 := by
  rw [fft_gen_apply _ _ _ _ _ _ (by norm_num : 1 < 3)]
  simp only
  have e : (((1 : ℕ) : ℝ) + 1) * (if (1 : ℤ) ≠ 0 then Real.pi * 0.25 / (((3 : ℕ) : ℝ) + 1) * 2.0
      else Real.pi * 0.25 / (((3 : ℕ) : ℝ) + 1)) = Real.pi / 4 := by
    norm_num
    ring
  rw [e]
  have e2 : (⟨Real.cos (Real.pi / 4), Real.cos (Real.pi / 4)⟩ : cmplxT ℝ) =
      ⟨Real.cos (Real.pi / 4), Real.sin (Real.pi / 4)⟩ := by
    rw [Real.cos_pi_div_four, Real.sin_pi_div_four]
  rw [e2, toC_cos_sin, hwd]
  congr 1
  push_cast
  ring

/-- After `WDL_fft_init` over the reals, with the real `pi`, `cos` and `sin`, every
twiddle table holds the roots of unity its routine expects. -/
theorem tablesOK_init (hw : IsTwiddle w)
    (hwd : ∀ (N : ℕ) (k : ℤ), w N k = Complex.exp (2 * Real.pi * I * k / N))
    (g0 : Globals ℝ) (h0 : g0.ffttabinit = false) :
    TablesOK w (WDL_fft_init ⟨Real.pi, Real.cos, Real.sin⟩ g0) := by
  have t16 : ∀ x : ℕ, x < 3 →
      toC (__fft_gen ⟨Real.pi, Real.cos, Real.sin⟩ g0.d16 none 3 1 x) = w 16 ((x : ℤ) + 1) :=
    fun x hx => table_gen hw hwd 8 3 (by norm_num) g0.d16 none 1
      (by norm_num; ring) (fun b2 hb => by cases hb) x hx
  have t32 : ∀ x : ℕ, x < 7 →
      toC (__fft_gen ⟨Real.pi, Real.cos, Real.sin⟩ g0.d32
        (some (WDL_fft_init ⟨Real.pi, Real.cos, Real.sin⟩ g0).d16) 7 1 x) =
        w 32 ((x : ℤ) + 1) :=
    fun x hx => table_gen hw hwd 16 7 (by norm_num) g0.d32 _ 1
      (by norm_num; ring) (fun b2 hb y hy => by
        cases hb
        have := t16 y (by omega)
        simpa [WDL_fft_init, h0] using this) x hx
  have t64 : ∀ x : ℕ, x < 15 →
      toC (__fft_gen ⟨Real.pi, Real.cos, Real.sin⟩ g0.d64
        (some (WDL_fft_init ⟨Real.pi, Real.cos, Real.sin⟩ g0).d32) 15 1 x) =
        w 64 ((x : ℤ) + 1) :=
    fun x hx => table_gen hw hwd 32 15 (by norm_num) g0.d64 _ 1
      (by norm_num; ring) (fun b2 hb y hy => by
        cases hb
        have := t32 y (by omega)
        simpa [WDL_fft_init, h0] using this) x hx
  have t128 : ∀ x : ℕ, x < 31 →
      toC (__fft_gen ⟨Real.pi, Real.cos, Real.sin⟩ g0.d128
        (some (WDL_fft_init ⟨Real.pi, Real.cos, Real.sin⟩ g0).d64) 31 1 x) =
        w 128 ((x : ℤ) + 1) :=
    fun x hx => table_gen hw hwd 64 31 (by norm_num) g0.d128 _ 1
      (by norm_num; ring) (fun b2 hb y hy => by
        cases hb
        have := t64 y (by omega)
        simpa [WDL_fft_init, h0] using this) x hx
  have t256 : ∀ x : ℕ, x < 63 →
      toC (__fft_gen ⟨Real.pi, Real.cos, Real.sin⟩ g0.d256
        (some (WDL_fft_init ⟨Real.pi, Real.cos, Real.sin⟩ g0).d128) 63 1 x) =
        w 256 ((x : ℤ) + 1) :=
    fun x hx => table_gen hw hwd 128 63 (by norm_num) g0.d256 _ 1
      (by norm_num; ring) (fun b2 hb y hy => by
        cases hb
        have := t128 y (by omega)
        simpa [WDL_fft_init, h0] using this) x hx
  have t512 : ∀ x : ℕ, x < 127 →
      toC (__fft_gen ⟨Real.pi, Real.cos, Real.sin⟩ g0.d512
        (some (WDL_fft_init ⟨Real.pi, Real.cos, Real.sin⟩ g0).d256) 127 1 x) =
        w 512 ((x : ℤ) + 1) :=
    fun x hx => table_gen hw hwd 256 127 (by norm_num) g0.d512 _ 1
      (by norm_num; ring) (fun b2 hb y hy => by
        cases hb
        have := t256 y (by omega)
        simpa [WDL_fft_init, h0] using this) x hx
  have t1024 : ∀ x : ℕ, x < 127 →
      toC (__fft_gen ⟨Real.pi, Real.cos, Real.sin⟩ g0.d1024
        (some (WDL_fft_init ⟨Real.pi, Real.cos, Real.sin⟩ g0).d512) 127 0 x) =
        w 1024 ((x : ℤ) + 1) :=
    fun x hx => table_gen hw hwd 512 127 (by norm_num) g0.d1024 _ 0
      (by norm_num; ring) (fun b2 hb y hy => by
        cases hb
        have := t512 y (by omega)
        simpa [WDL_fft_init, h0] using this) x hx
  have t2048 : ∀ x : ℕ, x < 255 →
      toC (__fft_gen ⟨Real.pi, Real.cos, Real.sin⟩ g0.d2048
        (some (WDL_fft_init ⟨Real.pi, Real.cos, Real.sin⟩ g0).d1024) 255 0 x) =
        w 2048 ((x : ℤ) + 1) :=
    fun x hx => table_gen hw hwd 1024 255 (by norm_num) g0.d2048 _ 0
      (by norm_num; ring) (fun b2 hb y hy => by
        cases hb
        have := t1024 y (by omega)
        simpa [WDL_fft_init, h0] using this) x hx
  have t4096 : ∀ x : ℕ, x < 511 →
      toC (__fft_gen ⟨Real.pi, Real.cos, Real.sin⟩ g0.d4096
        (some (WDL_fft_init ⟨Real.pi, Real.cos, Real.sin⟩ g0).d2048) 511 0 x) =
        w 4096 ((x : ℤ) + 1) :=
    fun x hx => table_gen hw hwd 2048 511 (by norm_num) g0.d4096 _ 0
      (by norm_num; ring) (fun b2 hb y hy => by
        cases hb
        have := t2048 y (by omega)
        simpa [WDL_fft_init, h0] using this) x hx
  have t8192 : ∀ x : ℕ, x < 1023 →
      toC (__fft_gen ⟨Real.pi, Real.cos, Real.sin⟩ g0.d8192
        (some (WDL_fft_init ⟨Real.pi, Real.cos, Real.sin⟩ g0).d4096) 1023 0 x) =
        w 8192 ((x : ℤ) + 1) :=
    fun x hx => table_gen hw hwd 4096 1023 (by norm_num) g0.d8192 _ 0
      (by norm_num; ring) (fun b2 hb y hy => by
        cases hb
        have := t4096 y (by omega)
        simpa [WDL_fft_init, h0] using this) x hx
  have t16384 : ∀ x : ℕ, x < 2047 →
      toC (__fft_gen ⟨Real.pi, Real.cos, Real.sin⟩ g0.d16384
        (some (WDL_fft_init ⟨Real.pi, Real.cos, Real.sin⟩ g0).d8192) 2047 0 x) =
        w 16384 ((x : ℤ) + 1) :=
    fun x hx => table_gen hw hwd 8192 2047 (by norm_num) g0.d16384 _ 0
      (by norm_num; ring) (fun b2 hb y hy => by
        cases hb
        have := t8192 y (by omega)
        simpa [WDL_fft_init, h0] using this) x hx
  have t32768 : ∀ x : ℕ, x < 4095 →
      toC (__fft_gen ⟨Real.pi, Real.cos, Real.sin⟩ g0.d32768
        (some (WDL_fft_init ⟨Real.pi, Real.cos, Real.sin⟩ g0).d16384) 4095 0 x) =
        w 32768 ((x : ℤ) + 1) :=
    fun x hx => table_gen hw hwd 16384 4095 (by norm_num) g0.d32768 _ 0
      (by norm_num; ring) (fun b2 hb y hy => by
        cases hb
        have := t16384 y (by omega)
        simpa [WDL_fft_init, h0] using this) x hx
  refine ⟨?_, ?_, ?_, ?_, ?_, ?_, ?_, ?_, ?_, ?_, ?_, ?_, ?_⟩
  · intro x hx
    have := t16 x hx
    simpa [WDL_fft_init, h0] using this
  · intro x hx
    have := t32 x hx
    simpa [WDL_fft_init, h0] using this
  · intro x hx
    have := t64 x hx
    simpa [WDL_fft_init, h0] using this
  · intro x hx
    have := t128 x hx
    simpa [WDL_fft_init, h0] using this
  · intro x hx
    have := t256 x hx
    simpa [WDL_fft_init, h0] using this
  · intro x hx
    have := t512 x hx
    simpa [WDL_fft_init, h0] using this
  · intro x hx
    have := t1024 x hx
    simpa [WDL_fft_init, h0] using this
  · intro x hx
    have := t2048 x hx
    simpa [WDL_fft_init, h0] using this
  · intro x hx
    have := t4096 x hx
    simpa [WDL_fft_init, h0] using this
  · intro x hx
    have := t8192 x hx
    simpa [WDL_fft_init, h0] using this
  · intro x hx
    have := t16384 x hx
    simpa [WDL_fft_init, h0] using this
  · intro x hx
    have := t32768 x hx
    simpa [WDL_fft_init, h0] using this
  · have := half_entry hwd g0.d16
    simpa [WDL_fft_init, h0, sqrthalf] using this

theorem permute_init {T : Type} [Field T] (F : Trig T) (g0 : Globals T)
    (h0 : g0.ffttabinit = false) (c : ℕ) (hc1 : 1 ≤ c) (hc : c ≤ 15) (i : ℕ)
    (hi : i < 2 ^ c) :
    WDL_fft_permute (WDL_fft_init F g0) (2 ^ c)
      ((2 ^ c - fftfreq_c i (2 ^ c)) % 2 ^ c) = i := by
  have h2 : 2 ≤ 2 ^ c := by
    have : (2:ℕ) ^ 1 ≤ 2 ^ c := Nat.pow_le_pow_right (by norm_num) hc1
    simpa using this
  have hidx : (WDL_fft_init F g0)._idxperm = init_perm_loop 16 g0._idxperm 0 2 := by
    simp [WDL_fft_init, h0]
  have := (init_perm_loop_spec 16 1 g0._idxperm (by norm_num) (by norm_num)
    (by norm_num)).1 c hc1 hc i hi
  have e : 2 ^ c + (2 ^ c - fftfreq_c i (2 ^ c)) % 2 ^ c - 2 =
      2 ^ c - 2 + (2 ^ c - fftfreq_c i (2 ^ c)) % 2 ^ c := by omega
  simp only [WDL_fft_permute, hidx, e]
  simpa using this

theorem supported_iff (N : ℕ) : N ∈ supportedSizes ↔ ∃ c, 1 ≤ c ∧ c ≤ 15 ∧ N = 2 ^ c := by
  constructor
  · intro h
    simp only [supportedSizes, List.mem_cons, List.mem_singleton, List.not_mem_nil,
      or_false] at h
    rcases h with h | h | h | h | h | h | h | h | h | h | h | h | h | h | h
    · exact ⟨1, by norm_num, by norm_num, by rw [h]; norm_num⟩
    · exact ⟨2, by norm_num, by norm_num, by rw [h]; norm_num⟩
    · exact ⟨3, by norm_num, by norm_num, by rw [h]; norm_num⟩
    · exact ⟨4, by norm_num, by norm_num, by rw [h]; norm_num⟩
    · exact ⟨5, by norm_num, by norm_num, by rw [h]; norm_num⟩
    · exact ⟨6, by norm_num, by norm_num, by rw [h]; norm_num⟩
    · exact ⟨7, by norm_num, by norm_num, by rw [h]; norm_num⟩
    · exact ⟨8, by norm_num, by norm_num, by rw [h]; norm_num⟩
    · exact ⟨9, by norm_num, by norm_num, by rw [h]; norm_num⟩
    · exact ⟨10, by norm_num, by norm_num, by rw [h]; norm_num⟩
    · exact ⟨11, by norm_num, by norm_num, by rw [h]; norm_num⟩
    · exact ⟨12, by norm_num, by norm_num, by rw [h]; norm_num⟩
    · exact ⟨13, by norm_num, by norm_num, by rw [h]; norm_num⟩
    · exact ⟨14, by norm_num, by norm_num, by rw [h]; norm_num⟩
    · exact ⟨15, by norm_num, by norm_num, by rw [h]; norm_num⟩
  · rintro ⟨c, h1, h2, rfl⟩
    interval_cases c <;> simp [supportedSizes]

end Init
end WDLFFT

namespace WDLFFT
section Dispatch
open Complex

variable {T : Type} [CommRing T]

theorem fft_at_2 (g : Globals T) (X : Buf T) (isInverse : ℤ) :
    fft g X ((2 : ℕ) : ℤ) isInverse = c2 X 0 := by
  unfold fft
  simp only [Nat.cast_ofNat]
  rw [if_pos trivial]

theorem fft_at_4 (g : Globals T) (X : Buf T) (isInverse : ℤ) :
    fft g X ((4 : ℕ) : ℤ) isInverse =
      if isInverse = 0 then c4 X 0 else u4 X 0 := by
  unfold fft
  simp only [Nat.cast_ofNat]
  rw [if_neg (by norm_num), if_pos trivial]

theorem fft_at_8 (g : Globals T) (X : Buf T) (isInverse : ℤ) :
    fft g X ((8 : ℕ) : ℤ) isInverse =
      if isInverse = 0 then c8 g X 0 else u8 g X 0 := by
  unfold fft
  simp only [Nat.cast_ofNat]
  rw [if_neg (by norm_num), if_neg (by norm_num), if_pos trivial]

theorem fft_at_16 (g : Globals T) (X : Buf T) (isInverse : ℤ) :
    fft g X ((16 : ℕ) : ℤ) isInverse =
      if isInverse = 0 then c16 g X 0 else u16 g X 0 := by
  unfold fft
  simp only [Nat.cast_ofNat]
  rw [if_neg (by norm_num), if_neg (by norm_num), if_neg (by norm_num), if_pos trivial]

theorem fft_at_32 (g : Globals T) (X : Buf T) (isInverse : ℤ) :
    fft g X ((32 : ℕ) : ℤ) isInverse =
      if isInverse = 0 then c32 g X 0 else u32 g X 0 := by
  unfold fft
  simp only [Nat.cast_ofNat]
  rw [if_neg (by norm_num), if_neg (by norm_num), if_neg (by norm_num), if_neg (by norm_num), if_pos trivial]

theorem fft_at_64 (g : Globals T) (X : Buf T) (isInverse : ℤ) :
    fft g X ((64 : ℕ) : ℤ) isInverse =
      if isInverse = 0 then c64 g X 0 else u64 g X 0 := by
  unfold fft
  simp only [Nat.cast_ofNat]
  rw [if_neg (by norm_num), if_neg (by norm_num), if_neg (by norm_num), if_neg (by norm_num), if_neg (by norm_num), if_pos trivial]

theorem fft_at_128 (g : Globals T) (X : Buf T) (isInverse : ℤ) :
    fft g X ((128 : ℕ) : ℤ) isInverse =
      if isInverse = 0 then c128 g X 0 else u128 g X 0 := by
  unfold fft
  simp only [Nat.cast_ofNat]
  rw [if_neg (by norm_num), if_neg (by norm_num), if_neg (by norm_num), if_neg (by norm_num), if_neg (by norm_num), if_neg (by norm_num), if_pos trivial]

theorem fft_at_256 (g : Globals T) (X : Buf T) (isInverse : ℤ) :
    fft g X ((256 : ℕ) : ℤ) isInverse =
      if isInverse = 0 then c256 g X 0 else u256 g X 0 := by
  unfold fft
  simp only [Nat.cast_ofNat]
  rw [if_neg (by norm_num), if_neg (by norm_num), if_neg (by norm_num), if_neg (by norm_num), if_neg (by norm_num), if_neg (by norm_num), if_neg (by norm_num), if_pos trivial]

theorem fft_at_512 (g : Globals T) (X : Buf T) (isInverse : ℤ) :
    fft g X ((512 : ℕ) : ℤ) isInverse =
      if isInverse = 0 then c512 g X 0 else u512 g X 0 := by
  unfold fft
  simp only [Nat.cast_ofNat]
  rw [if_neg (by norm_num), if_neg (by norm_num), if_neg (by norm_num), if_neg (by norm_num), if_neg (by norm_num), if_neg (by norm_num), if_neg (by norm_num), if_neg (by norm_num), if_pos trivial]

theorem fft_at_1024 (g : Globals T) (X : Buf T) (isInverse : ℤ) :
    fft g X ((1024 : ℕ) : ℤ) isInverse =
      if isInverse = 0 then c1024 g X 0 else u1024 g X 0 := by
  unfold fft
  simp only [Nat.cast_ofNat]
  rw [if_neg (by norm_num), if_neg (by norm_num), if_neg (by norm_num), if_neg (by norm_num), if_neg (by norm_num), if_neg (by norm_num), if_neg (by norm_num), if_neg (by norm_num), if_neg (by norm_num), if_pos trivial]

theorem fft_at_2048 (g : Globals T) (X : Buf T) (isInverse : ℤ) :
    fft g X ((2048 : ℕ) : ℤ) isInverse =
      if isInverse = 0 then c2048 g X 0 else u2048 g X 0 := by
  unfold fft
  simp only [Nat.cast_ofNat]
  rw [if_neg (by norm_num), if_neg (by norm_num), if_neg (by norm_num), if_neg (by norm_num), if_neg (by norm_num), if_neg (by norm_num), if_neg (by norm_num), if_neg (by norm_num), if_neg (by norm_num), if_neg (by norm_num), if_pos trivial]

theorem fft_at_4096 (g : Globals T) (X : Buf T) (isInverse : ℤ) :
    fft g X ((4096 : ℕ) : ℤ) isInverse =
      if isInverse = 0 then c4096 g X 0 else u4096 g X 0 := by
  unfold fft
  simp only [Nat.cast_ofNat]
  rw [if_neg (by norm_num), if_neg (by norm_num), if_neg (by norm_num), if_neg (by norm_num), if_neg (by norm_num), if_neg (by norm_num), if_neg (by norm_num), if_neg (by norm_num), if_neg (by norm_num), if_neg (by norm_num), if_neg (by norm_num), if_pos trivial]

theorem fft_at_8192 (g : Globals T) (X : Buf T) (isInverse : ℤ) :
    fft g X ((8192 : ℕ) : ℤ) isInverse =
      if isInverse = 0 then c8192 g X 0 else u8192 g X 0 := by
  unfold fft
  simp only [Nat.cast_ofNat]
  rw [if_neg (by norm_num), if_neg (by norm_num), if_neg (by norm_num), if_neg (by norm_num), if_neg (by norm_num), if_neg (by norm_num), if_neg (by norm_num), if_neg (by norm_num), if_neg (by norm_num), if_neg (by norm_num), if_neg (by norm_num), if_neg (by norm_num), if_pos trivial]

theorem fft_at_16384 (g : Globals T) (X : Buf T) (isInverse : ℤ) :
    fft g X ((16384 : ℕ) : ℤ) isInverse =
      if isInverse = 0 then c16384 g X 0 else u16384 g X 0 := by
  unfold fft
  simp only [Nat.cast_ofNat]
  rw [if_neg (by norm_num), if_neg (by norm_num), if_neg (by norm_num), if_neg (by norm_num), if_neg (by norm_num), if_neg (by norm_num), if_neg (by norm_num), if_neg (by norm_num), if_neg (by norm_num), if_neg (by norm_num), if_neg (by norm_num), if_neg (by norm_num), if_neg (by norm_num), if_pos trivial]

theorem fft_at_32768 (g : Globals T) (X : Buf T) (isInverse : ℤ) :
    fft g X ((32768 : ℕ) : ℤ) isInverse =
      if isInverse = 0 then c32768 g X 0 else u32768 g X 0 := by
  unfold fft
  simp only [Nat.cast_ofNat]
  rw [if_neg (by norm_num), if_neg (by norm_num), if_neg (by norm_num), if_neg (by norm_num), if_neg (by norm_num), if_neg (by norm_num), if_neg (by norm_num), if_neg (by norm_num), if_neg (by norm_num), if_neg (by norm_num), if_neg (by norm_num), if_neg (by norm_num), if_neg (by norm_num), if_neg (by norm_num), if_pos trivial]

variable {w : ℕ → ℤ → ℂ}

theorem fft_fwd_spec (hw : IsTwiddle w) (g : Globals ℝ) (ht : TablesOK w g) (N : ℕ)
    (hN : N ∈ supportedSizes) (X : Buf ℝ) :
    (fun i => toC (fft g X (N : ℤ) 0 i)) = dftBlock w N 0 (fun i => toC (X i)) := by
  simp only [supportedSizes, List.mem_cons, List.mem_singleton, List.not_mem_nil,
    or_false] at hN
  rcases hN with h | h | h | h | h | h | h | h | h | h | h | h | h | h | h <;> subst h
  · rw [fft_at_2]; exact fwd_c2 hw X 0
  · rw [fft_at_4, if_pos rfl]; exact fwd_c4 hw X 0
  · rw [fft_at_8, if_pos rfl]; exact fwd_c8 hw g ht X 0
  · rw [fft_at_16, if_pos rfl]; exact fwd_c16 hw g ht X 0
  · rw [fft_at_32, if_pos rfl]; exact fwd_c32 hw g ht X 0
  · rw [fft_at_64, if_pos rfl]; exact fwd_c64 hw g ht X 0
  · rw [fft_at_128, if_pos rfl]; exact fwd_c128 hw g ht X 0
  · rw [fft_at_256, if_pos rfl]; exact fwd_c256 hw g ht X 0
  · rw [fft_at_512, if_pos rfl]; exact fwd_c512 hw g ht X 0
  · rw [fft_at_1024, if_pos rfl]; exact fwd_c1024 hw g ht X 0
  · rw [fft_at_2048, if_pos rfl]; exact fwd_c2048 hw g ht X 0
  · rw [fft_at_4096, if_pos rfl]; exact fwd_c4096 hw g ht X 0
  · rw [fft_at_8192, if_pos rfl]; exact fwd_c8192 hw g ht X 0
  · rw [fft_at_16384, if_pos rfl]; exact fwd_c16384 hw g ht X 0
  · rw [fft_at_32768, if_pos rfl]; exact fwd_c32768 hw g ht X 0

theorem fft_inv_spec (hw : IsTwiddle w) (g : Globals ℝ) (ht : TablesOK w g) (N : ℕ)
    (hN : N ∈ supportedSizes) (isInverse : ℤ) (hinv : isInverse ≠ 0) (X : Buf ℝ) :
    (fun i => toC (fft g X (N : ℤ) isInverse i)) = idftBlock w N 0 (fun i => toC (X i)) := by
  simp only [supportedSizes, List.mem_cons, List.mem_singleton, List.not_mem_nil,
    or_false] at hN
  rcases hN with h | h | h | h | h | h | h | h | h | h | h | h | h | h | h <;> subst h
  · rw [fft_at_2]; exact inv_c2 hw X 0
  · rw [fft_at_4, if_neg hinv]; exact inv_u4 hw X 0
  · rw [fft_at_8, if_neg hinv]; exact inv_u8 hw g ht X 0
  · rw [fft_at_16, if_neg hinv]; exact inv_u16 hw g ht X 0
  · rw [fft_at_32, if_neg hinv]; exact inv_u32 hw g ht X 0
  · rw [fft_at_64, if_neg hinv]; exact inv_u64 hw g ht X 0
  · rw [fft_at_128, if_neg hinv]; exact inv_u128 hw g ht X 0
  · rw [fft_at_256, if_neg hinv]; exact inv_u256 hw g ht X 0
  · rw [fft_at_512, if_neg hinv]; exact inv_u512 hw g ht X 0
  · rw [fft_at_1024, if_neg hinv]; exact inv_u1024 hw g ht X 0
  · rw [fft_at_2048, if_neg hinv]; exact inv_u2048 hw g ht X 0
  · rw [fft_at_4096, if_neg hinv]; exact inv_u4096 hw g ht X 0
  · rw [fft_at_8192, if_neg hinv]; exact inv_u8192 hw g ht X 0
  · rw [fft_at_16384, if_neg hinv]; exact inv_u16384 hw g ht X 0
  · rw [fft_at_32768, if_neg hinv]; exact inv_u32768 hw g ht X 0

end Dispatch
end WDLFFT

namespace WDLFFT
section Main
open Complex

variable {w : ℕ → ℤ → ℂ}

theorem fftfreq_c_image (c : ℕ) (hc : c ≤ 31) :
    (Finset.range (2 ^ c)).image (fun i => fftfreq_c i (2 ^ c)) = Finset.range (2 ^ c) := by
  apply Finset.ext
  intro v
  rw [Finset.mem_image, Finset.mem_range]
  constructor
  · rintro ⟨i, hi, rfl⟩
    exact fftfreq_c_lt c hc i (Finset.mem_range.mp hi)
  · intro hv
    obtain ⟨i, hi, h⟩ := fftfreq_c_surj c hc v hv
    exact ⟨i, Finset.mem_range.mpr hi, h⟩

theorem sum_fftfreq_c (c : ℕ) (hc : c ≤ 31) (F : ℕ → ℂ) :
    ∑ i in Finset.range (2 ^ c), F (fftfreq_c i (2 ^ c)) = ∑ v in Finset.range (2 ^ c), F v := by
  conv_rhs => rw [← fftfreq_c_image c hc]
  rw [Finset.sum_image]
  intro i hi j hj h
  exact fftfreq_c_inj c hc i j (Finset.mem_range.mp hi) (Finset.mem_range.mp hj) h

/-- Orthogonality of the characters `w N`. -/
theorem IsTwiddle.ortho (hw : IsTwiddle w) (N : ℕ) (hN : 1 ≤ N) (d : ℤ) :
    ∑ v in Finset.range N, w N (d * (v : ℤ)) = if (N : ℤ) ∣ d then (N : ℂ) else 0 := by
  have hpow : ∀ v : ℕ, w N (d * (v : ℤ)) = (w N d) ^ v := by
    intro v
    rw [mul_comm, hw.nat_mul]
  simp only [hpow]
  split_ifs with h
  · obtain ⟨m, rfl⟩ := h
    rw [hw.mul_period N hN]
    simp
  · have hne : w N d ≠ 1 := fun e => h (hw.prim N d hN e)
    have hN1 : (w N d) ^ N = 1 := by
      rw [← hpow, mul_comm, hw.mul_period N hN]
    rw [geom_sum_eq hne, hN1, sub_self, zero_div]

/-- The inverse transform of the forward transform of a block is `N` times the block. -/
theorem idft_dft (hw : IsTwiddle w) (c : ℕ) (hc : c ≤ 31) (A : ℕ → ℂ) (j : ℕ)
    (hj : j < 2 ^ c) :
    idftBlock w (2 ^ c) 0 (dftBlock w (2 ^ c) 0 A) j = (2 ^ c : ℕ) * A j := by
  have hpos : 1 ≤ 2 ^ c := Nat.one_le_two_pow
  have e0 : j = 0 + j := by omega
  conv_lhs => rw [e0]
  rw [idftBlock_in _ _ _ _ _ hj]
  have h1 : ∀ i ∈ Finset.range (2 ^ c),
      dftBlock w (2 ^ c) 0 A (0 + i) * w (2 ^ c) (-((j : ℤ) * (fftfreq_c i (2 ^ c) : ℤ))) =
      ∑ j' in Finset.range (2 ^ c),
        A j' * w (2 ^ c) ((((j' : ℤ) - j)) * (fftfreq_c i (2 ^ c) : ℤ)) := by
    intro i hi
    rw [dftBlock_in _ _ _ _ _ (Finset.mem_range.mp hi), Finset.sum_mul]
    apply Finset.sum_congr rfl
    intro j' _
    rw [Nat.zero_add, mul_assoc, ← hw.add]
    congr 2
    ring
  rw [Finset.sum_congr rfl h1, Finset.sum_comm]
  have h2 : ∀ j' ∈ Finset.range (2 ^ c),
      ∑ i in Finset.range (2 ^ c),
        A j' * w (2 ^ c) ((((j' : ℤ) - j)) * (fftfreq_c i (2 ^ c) : ℤ)) =
      if j' = j then ((2 ^ c : ℕ) : ℂ) * A j else 0 := by
    intro j' hj'
    rw [Finset.mem_range] at hj'
    rw [← Finset.mul_sum,
      sum_fftfreq_c c hc (fun v => w (2 ^ c) ((((j' : ℤ) - j)) * (v : ℤ))),
      hw.ortho (2 ^ c) hpos]
    by_cases e : j' = j
    · subst e
      simp [mul_comm]
    · have hnd : ¬ (((2 ^ c : ℕ) : ℤ) ∣ ((j' : ℤ) - j)) := by
        intro hd
        have h3 := Int.emod_emod_of_dvd (j' : ℤ) hd
        have : (j' : ℤ) % ((2 ^ c : ℕ) : ℤ) = (j : ℤ) % ((2 ^ c : ℕ) : ℤ) :=
          Int.emod_eq_emod_iff_emod_sub_eq_zero.mpr (Int.emod_eq_zero_of_dvd hd)
        rw [Int.emod_eq_of_lt (by omega) (by exact_mod_cast hj'),
          Int.emod_eq_of_lt (by omega) (by exact_mod_cast hj)] at this
        exact e (by exact_mod_cast this)
      rw [if_neg hnd, if_neg e, mul_zero]
  rw [Finset.sum_congr rfl h2, Finset.sum_ite_eq' (Finset.range (2 ^ c)) j,
    if_pos (Finset.mem_range.mpr hj)]

end Main
end WDLFFT

namespace WDLFFT
section Claims
open Complex

theorem toC_scale (n : ℕ) (z : cmplxT ℝ) :
    toC ⟨(n : ℝ) * z.re, (n : ℝ) * z.im⟩ = (n : ℂ) * toC z := by
  apply Complex.ext <;> simp [toC]

/-- Claim C1 (complex round trip). With the tables built by `WDL_fft_init` in exact real
arithmetic, for every supported size `N` and every buffer `X`, the forward transform
followed by the inverse transform (any non-zero `isInverse`) leaves exactly `N * X[j]` at
every position `j < N`. -/
theorem fft_round_trip (g0 : Globals ℝ) (h0 : g0.ffttabinit = false) (N : ℕ)
    (hN : N ∈ supportedSizes) (isInverse : ℤ) (hinv : isInverse ≠ 0) (X : Buf ℝ) (j : ℕ)
    (hj : j < N) :
    fft (WDL_fft_init ⟨Real.pi, Real.cos, Real.sin⟩ g0)
      (fft (WDL_fft_init ⟨Real.pi, Real.cos, Real.sin⟩ g0) X (N : ℤ) 0) (N : ℤ) isInverse j =
    ⟨(N : ℝ) * (X j).re, (N : ℝ) * (X j).im⟩ := by
  have hw := isTwiddle_exp
  have ht := tablesOK_init hw (fun _ _ => rfl) g0 h0
  obtain ⟨c, hc1, hc2, rfl⟩ := (supported_iff N).mp hN
  apply toC_inj
  have h1 := congrFun (fft_inv_spec hw _ ht (2 ^ c) hN isInverse hinv
    (fft (WDL_fft_init ⟨Real.pi, Real.cos, Real.sin⟩ g0) X ((2 ^ c : ℕ) : ℤ) 0)) j
  have h2 := fft_fwd_spec hw _ ht (2 ^ c) hN X
  simp only at h1
  rw [h1, h2, idft_dft hw c (by omega) _ j hj, toC_scale]

/-- Witness for C1: size 4 from the zero-initialised statics, position 3. -/
theorem fft_round_trip_witness :
    fft (WDL_fft_init ⟨Real.pi, Real.cos, Real.sin⟩ zeroGlobals)
      (fft (WDL_fft_init ⟨Real.pi, Real.cos, Real.sin⟩ zeroGlobals)
        (fun i => ⟨(i : ℝ), 1⟩) ((4 : ℕ) : ℤ) 0) ((4 : ℕ) : ℤ) 1 3 =
    ⟨((4 : ℕ) : ℝ) * ((3 : ℕ) : ℝ), ((4 : ℕ) : ℝ) * 1⟩ :=
  fft_round_trip zeroGlobals rfl 4 (by decide) 1 (by decide) (fun i => ⟨(i : ℝ), 1⟩) 3
    (by decide)

/-- Claim C3 (the forward transform is the DFT in `WDL_fft_permute` order). With exact
tables, for every supported size `N`, input `X` and frequency `k < N`, the sample that
`fft(buf,N,0)` leaves at position `WDL_fft_permute(N,k)` is the unnormalised DFT bin
`∑ j < N, X[j]·exp(-2·π·i·j·k/N)`. -/
theorem fft_forward_is_dft (g0 : Globals ℝ) (h0 : g0.ffttabinit = false) (N : ℕ)
    (hN : N ∈ supportedSizes) (X : Buf ℝ) (k : ℕ) (hk : k < N) :
    toC (fft (WDL_fft_init ⟨Real.pi, Real.cos, Real.sin⟩ g0) X (N : ℤ) 0
      (WDL_fft_permute (WDL_fft_init ⟨Real.pi, Real.cos, Real.sin⟩ g0) N k)) =
    ∑ j in Finset.range N,
      toC (X j) * Complex.exp (-2 * Real.pi * I * (j : ℂ) * (k : ℂ) / (N : ℂ)) := by
  have hw := isTwiddle_exp
  have ht := tablesOK_init hw (fun _ _ => rfl) g0 h0
  obtain ⟨c, hc1, hc2, rfl⟩ := (supported_iff N).mp hN
  have hpos : 1 ≤ 2 ^ c := Nat.one_le_two_pow
  obtain ⟨i, hi, hfi⟩ := fftfreq_c_surj c (by omega) ((2 ^ c - k) % 2 ^ c)
    (Nat.mod_lt _ (by omega))
  have hki : (2 ^ c - fftfreq_c i (2 ^ c)) % 2 ^ c = k := by
    rw [hfi]
    rcases Nat.eq_zero_or_pos k with h | h
    · subst h; simp
    · rw [Nat.mod_eq_of_lt (by omega : 2 ^ c - k < 2 ^ c)]
      have : 2 ^ c - (2 ^ c - k) = k := by omega
      rw [this, Nat.mod_eq_of_lt hk]
  have hperm := permute_init ⟨Real.pi, Real.cos, Real.sin⟩ g0 h0 c hc1 hc2 i hi
  rw [hki] at hperm
  rw [hperm]
  have h2 := congrFun (fft_fwd_spec hw _ ht (2 ^ c) hN X) i
  simp only at h2
  have e0 : i = 0 + i := by omega
  rw [h2]
  conv_lhs => rw [e0]
  rw [dftBlock_in _ _ _ _ _ hi]
  apply Finset.sum_congr rfl
  intro j _
  rw [Nat.zero_add, hfi, hw.mul_mod (2 ^ c) hpos]
  congr 1
  have e1 : (j : ℤ) * ((2 ^ c - k : ℕ) : ℤ) = -((j : ℤ) * (k : ℤ)) + ((2 ^ c : ℕ) : ℤ) * j := by
    rw [Nat.cast_sub (by omega)]; ring
  rw [e1, hw.add_period (2 ^ c) hpos]
  congr 1
  push_cast
  ring

/-- After `WDL_fft_init` the size-4 permutation table is `0, 3, 1, 2`. -/
theorem permute_four {T : Type} [Field T] (F : Trig T) (g0 : Globals T)
    (h0 : g0.ffttabinit = false) :
    WDL_fft_permute (WDL_fft_init F g0) 4 0 = 0 ∧ WDL_fft_permute (WDL_fft_init F g0) 4 1 = 3 ∧
    WDL_fft_permute (WDL_fft_init F g0) 4 2 = 1 ∧ WDL_fft_permute (WDL_fft_init F g0) 4 3 = 2 := by
  have f0 : fftfreq_c 0 4 = 0 := by simp [fftfreq_c]
  have f1 : fftfreq_c 1 4 = 2 := by simp [fftfreq_c]
  have f2 : fftfreq_c 2 4 = 1 := by simp [fftfreq_c]
  have f3 : fftfreq_c 3 4 = 3 := by simp [fftfreq_c]; decide
  have p0 := permute_init F g0 h0 2 (by norm_num) (by norm_num) 0 (by norm_num)
  have p1 := permute_init F g0 h0 2 (by norm_num) (by norm_num) 1 (by norm_num)
  have p2 := permute_init F g0 h0 2 (by norm_num) (by norm_num) 2 (by norm_num)
  have p3 := permute_init F g0 h0 2 (by norm_num) (by norm_num) 3 (by norm_num)
  norm_num [f0, f1, f2, f3] at p0 p1 p2 p3
  exact ⟨p0, p3, p1, p2⟩

/-- Witness for C3: size 4, where the bins `k = 0, 1, 2, 3` sit at positions `0, 3, 1, 2`;
the bin `k = 1` of the buffer `X[j] = (j, 1)` is taken from position 3. -/
theorem fft_forward_is_dft_witness :
    (WDL_fft_permute (WDL_fft_init ⟨Real.pi, Real.cos, Real.sin⟩ (zeroGlobals (T := ℝ))) 4 0 = 0 ∧
      WDL_fft_permute (WDL_fft_init ⟨Real.pi, Real.cos, Real.sin⟩ (zeroGlobals (T := ℝ))) 4 1 = 3 ∧
      WDL_fft_permute (WDL_fft_init ⟨Real.pi, Real.cos, Real.sin⟩ (zeroGlobals (T := ℝ))) 4 2 = 1 ∧
      WDL_fft_permute (WDL_fft_init ⟨Real.pi, Real.cos, Real.sin⟩ (zeroGlobals (T := ℝ))) 4 3 = 2) ∧
    toC (fft (WDL_fft_init ⟨Real.pi, Real.cos, Real.sin⟩ zeroGlobals)
      (fun i => ⟨(i : ℝ), 1⟩) ((4 : ℕ) : ℤ) 0
      (WDL_fft_permute (WDL_fft_init ⟨Real.pi, Real.cos, Real.sin⟩ zeroGlobals) 4 1)) =
    ∑ j in Finset.range 4,
      toC ⟨(j : ℝ), 1⟩ * Complex.exp (-2 * Real.pi * I * (j : ℂ) * ((1 : ℕ) : ℂ) / ((4 : ℕ) : ℂ)) :=
  ⟨permute_four _ _ rfl,
    fft_forward_is_dft zeroGlobals rfl 4 (by decide) (fun i => ⟨(i : ℝ), 1⟩) 1 (by decide)⟩

/-- Claim C6 (the permutation is a bijection). After `WDL_fft_init`, for every supported
size `N` the entries `WDL_fft_permute_tab(N)[0..N-1]` are indices of `[0,N)` and every
index of `[0,N)` occurs exactly once among them. -/
theorem permute_tab_bijection {T : Type} [Field T] (F : Trig T) (g0 : Globals T)
    (h0 : g0.ffttabinit = false) (N : ℕ) (hN : N ∈ supportedSizes) :
    (∀ k, k < N → WDL_fft_permute_tab (WDL_fft_init F g0) N k < N) ∧
    (∀ v, v < N → ∃! k, k < N ∧ WDL_fft_permute_tab (WDL_fft_init F g0) N k = v) := by
  obtain ⟨c, hc1, hc2, rfl⟩ := (supported_iff N).mp hN
  have h2 : 2 ≤ 2 ^ c := by
    have : (2:ℕ) ^ 1 ≤ 2 ^ c := Nat.pow_le_pow_right (by norm_num) hc1
    simpa using this
  have htab : ∀ k, WDL_fft_permute_tab (WDL_fft_init F g0) (2 ^ c) k =
      WDL_fft_permute (WDL_fft_init F g0) (2 ^ c) k := by
    intro k
    have e : 2 ^ c - 2 + k = 2 ^ c + k - 2 := by omega
    simp only [WDL_fft_permute_tab, WDL_fft_permute, e]
  -- every position `k` is `(N - fftfreq_c i N) % N` for exactly the `i` stored there
  have hpos : ∀ k, k < 2 ^ c → ∃ i, i < 2 ^ c ∧
      (2 ^ c - fftfreq_c i (2 ^ c)) % 2 ^ c = k ∧
      WDL_fft_permute (WDL_fft_init F g0) (2 ^ c) k = i := by
    intro k hk
    obtain ⟨i, hi, hfi⟩ := fftfreq_c_surj c (by omega) ((2 ^ c - k) % 2 ^ c)
      (Nat.mod_lt _ (by omega))
    have hki : (2 ^ c - fftfreq_c i (2 ^ c)) % 2 ^ c = k := by
      rw [hfi]
      rcases Nat.eq_zero_or_pos k with h | h
      · subst h; simp
      · rw [Nat.mod_eq_of_lt (by omega : 2 ^ c - k < 2 ^ c)]
        have : 2 ^ c - (2 ^ c - k) = k := by omega
        rw [this, Nat.mod_eq_of_lt hk]
    have hperm := permute_init F g0 h0 c hc1 hc2 i hi
    rw [hki] at hperm
    exact ⟨i, hi, hki, hperm⟩
  refine ⟨fun k hk => ?_, fun v hv => ?_⟩
  · obtain ⟨i, hi, _, hp⟩ := hpos k hk
    rw [htab, hp]; exact hi
  · refine ⟨(2 ^ c - fftfreq_c v (2 ^ c)) % 2 ^ c, ⟨Nat.mod_lt _ (by omega), ?_⟩, ?_⟩
    · rw [htab]; exact permute_init F g0 h0 c hc1 hc2 v hv
    · rintro k ⟨hk, hkv⟩
      obtain ⟨i, hi, hki, hp⟩ := hpos k hk
      rw [htab, hp] at hkv
      rw [← hki, hkv]

/-- Witness for C6: the size-4 table built from the zero-initialised statics. -/
theorem permute_tab_bijection_witness :
    (∀ k, k < 4 → WDL_fft_permute_tab
      (WDL_fft_init ⟨Real.pi, Real.cos, Real.sin⟩ (zeroGlobals (T := ℝ))) 4 k < 4) ∧
    (∀ v, v < 4 → ∃! k, k < 4 ∧ WDL_fft_permute_tab
      (WDL_fft_init ⟨Real.pi, Real.cos, Real.sin⟩ (zeroGlobals (T := ℝ))) 4 k = v) :=
  permute_tab_bijection ⟨Real.pi, Real.cos, Real.sin⟩ zeroGlobals rfl 4 (by decide)

/-- Claim C9 (an unsupported size is a no-op). For every `len` that is not one of
`2, 4, ..., 32768`, `fft` and `real_fft` return the buffer unchanged, whatever
`isInverse` is. -/
theorem unsupported_size_noop {T : Type} [CommRing T] (g : Globals T) (len isInverse : ℤ)
    (h : ∀ N ∈ supportedSizes, len ≠ (N : ℤ)) :
    (∀ buf : Buf T, fft g buf len isInverse = buf) ∧
    (∀ buf : ℕ → T, real_fft g buf len isInverse = buf) := by
  have h2 : len ≠ 2 := by simpa using h 2 (by decide)
  have h4 : len ≠ 4 := by simpa using h 4 (by decide)
  have h8 : len ≠ 8 := by simpa using h 8 (by decide)
  have h16 : len ≠ 16 := by simpa using h 16 (by decide)
  have h32 : len ≠ 32 := by simpa using h 32 (by decide)
  have h64 : len ≠ 64 := by simpa using h 64 (by decide)
  have h128 : len ≠ 128 := by simpa using h 128 (by decide)
  have h256 : len ≠ 256 := by simpa using h 256 (by decide)
  have h512 : len ≠ 512 := by simpa using h 512 (by decide)
  have h1024 : len ≠ 1024 := by simpa using h 1024 (by decide)
  have h2048 : len ≠ 2048 := by simpa using h 2048 (by decide)
  have h4096 : len ≠ 4096 := by simpa using h 4096 (by decide)
  have h8192 : len ≠ 8192 := by simpa using h 8192 (by decide)
  have h16384 : len ≠ 16384 := by simpa using h 16384 (by decide)
  have h32768 : len ≠ 32768 := by simpa using h 32768 (by decide)
  constructor
  · intro buf
    unfold fft
    rw [if_neg h2, if_neg h4, if_neg h8, if_neg h16, if_neg h32, if_neg h64, if_neg h128,
      if_neg h256, if_neg h512, if_neg h1024, if_neg h2048, if_neg h4096, if_neg h8192,
      if_neg h16384, if_neg h32768]
  · intro buf
    unfold real_fft
    have h48 : ¬ (len = 4 ∨ len = 8) := by
      rintro (h' | h')
      · exact h4 h'
      · exact h8 h'
    rw [if_neg h2, if_neg h48, if_neg h16, if_neg h32, if_neg h64, if_neg h128,
      if_neg h256, if_neg h512, if_neg h1024, if_neg h2048, if_neg h4096, if_neg h8192,
      if_neg h16384, if_neg h32768]

/-- Witness for C9: the length 65536, on integer buffers, with `isInverse = 1`. -/
theorem unsupported_size_noop_witness :
    (∀ buf : Buf ℤ, fft zeroGlobals buf 65536 1 = buf) ∧
    (∀ buf : ℕ → ℤ, real_fft zeroGlobals buf 65536 1 = buf) :=
  unsupported_size_noop zeroGlobals 65536 1 (by decide)

/-- Claim C10 (linearity). For any contents of the twiddle tables, every length, both
directions and all complex scalars `α`, `β` (real scalars are those with zero imaginary
part), `fft` applied to `α·X + β·Y` is `α·fft(X) + β·fft(Y)`, elementwise and exactly. -/
theorem fft_linear {T : Type} [CommRing T] (g : Globals T) (len isInverse : ℤ)
    (α β : cmplxT T) (X Y : Buf T) :
    fft g (lincomb α β X Y) len isInverse =
      lincomb α β (fft g X len isInverse) (fft g Y len isInverse) :=
  fft_isLin g len isInverse α β X Y

end Claims
end WDLFFT

namespace WDLFFT
section Layout

/-- Claim C18 (`fftfreq_c` is a bijection fixing 0). For every power of two `n = 2^c` that a
`uint32_t` holds (`c ≤ 31`), `fftfreq_c(i,n)`, a total function, maps `0` to `0`, maps
`[0,n)` into `[0,n)` injectively, hence `[1,n)` into `[1,n-1]`, and `idx_perm_calc`
writes nowhere outside its slot `[offs, offs+n)`. -/
theorem fftfreq_c_bijection (c : ℕ) (hc : c ≤ 31) :
    fftfreq_c 0 (2 ^ c) = 0 ∧
    (∀ i, i < 2 ^ c → fftfreq_c i (2 ^ c) < 2 ^ c) ∧
    (∀ i j, i < 2 ^ c → j < 2 ^ c → fftfreq_c i (2 ^ c) = fftfreq_c j (2 ^ c) → i = j) ∧
    (∀ i, 1 ≤ i → i < 2 ^ c →
      1 ≤ fftfreq_c i (2 ^ c) ∧ fftfreq_c i (2 ^ c) ≤ 2 ^ c - 1) ∧
    (∀ (t : ℕ → ℕ) (offs p : ℕ), (p < offs ∨ offs + 2 ^ c ≤ p) →
      idx_perm_calc t offs (2 ^ c) p = t p) := by
  refine ⟨fftfreq_c_zero c hc, fftfreq_c_lt c hc, fftfreq_c_inj c hc, ?_, ?_⟩
  · intro i h1 hi
    have h2 := fftfreq_c_lt c hc i hi
    exact ⟨fftfreq_c_pos c hc i hi h1, by omega⟩
  · intro t offs p hp
    exact (idx_perm_calc_spec t offs c hc).2 p hp

/-- Witness for C18: the size `n = 8`. -/
theorem fftfreq_c_bijection_witness :
    fftfreq_c 0 (2 ^ 3) = 0 ∧
    (∀ i, i < 2 ^ 3 → fftfreq_c i (2 ^ 3) < 2 ^ 3) ∧
    (∀ i j, i < 2 ^ 3 → j < 2 ^ 3 → fftfreq_c i (2 ^ 3) = fftfreq_c j (2 ^ 3) → i = j) ∧
    (∀ i, 1 ≤ i → i < 2 ^ 3 →
      1 ≤ fftfreq_c i (2 ^ 3) ∧ fftfreq_c i (2 ^ 3) ≤ 2 ^ 3 - 1) ∧
    (∀ (t : ℕ → ℕ) (offs p : ℕ), (p < offs ∨ offs + 2 ^ 3 ≤ p) →
      idx_perm_calc t offs (2 ^ 3) p = t p) :=
  fftfreq_c_bijection 3 (by decide)

/-- The loop of `WDL_fft_init`, entered at size `2^b` with enough iterations left, is the
sequence of calls `idx_perm_calc(2^c - 2, 2^c)` for `c = b, ..., 15`: the running offset of
the size `n` is `n - 2`. -/
theorem init_perm_loop_unroll : ∀ fuel b (t : ℕ → ℕ), 1 ≤ b → b ≤ 16 → 16 ≤ fuel + b →
    init_perm_loop fuel t (2 ^ b - 2) (2 ^ b) =
      (List.range' b (16 - b)).foldl (fun t c => idx_perm_calc t (2 ^ c - 2) (2 ^ c)) t := by
  intro fuel
  induction fuel with
  | zero =>
    intro b t h1 h2 h3
    have hb : b = 16 := by omega
    subst hb
    rfl
  | succ fuel ih =>
    intro b t h1 h2 h3
    rcases Nat.lt_or_ge b 16 with hb | hb
    · have hle : 2 ^ b ≤ 32768 := by
        have : (2:ℕ) ^ b ≤ 2 ^ 15 := Nat.pow_le_pow_right (by norm_num) (by omega)
        norm_num at this; exact this
      have h2b : 2 ≤ 2 ^ b := by
        have : (2:ℕ) ^ 1 ≤ 2 ^ b := Nat.pow_le_pow_right (by norm_num) h1
        simpa using this
      have eo : 2 ^ b - 2 + 2 ^ b = 2 ^ (b + 1) - 2 := by
        rw [pow_succ]; omega
      have ei : 2 ^ b * 2 = 2 ^ (b + 1) := by rw [pow_succ]
      have er : 16 - b = (16 - (b + 1)) + 1 := by omega
      rw [init_perm_loop, if_pos hle, eo, ei, ih (b + 1) _ (by omega) (by omega) (by omega),
        er, List.range'_succ, List.foldl_cons]
    · have hb' : b = 16 := by omega
      subst hb'
      have hgt : ¬ 2 ^ 16 ≤ 32768 := by norm_num
      rw [init_perm_loop, if_neg hgt]
      rfl

/-- The loop of `WDL_fft_init` writes nothing at or beyond index `2^16 - 2`. -/
theorem init_perm_loop_frame : ∀ fuel b (t : ℕ → ℕ), 1 ≤ b → b ≤ 16 → 16 ≤ fuel + b →
    ∀ p, 2 ^ 16 - 2 ≤ p → init_perm_loop fuel t (2 ^ b - 2) (2 ^ b) p = t p := by
  intro fuel
  induction fuel with
  | zero =>
    intro b t h1 h2 h3 p _
    rfl
  | succ fuel ih =>
    intro b t h1 h2 h3 p hp
    rcases Nat.lt_or_ge b 16 with hb | hb
    · have hle : 2 ^ b ≤ 32768 := by
        have : (2:ℕ) ^ b ≤ 2 ^ 15 := Nat.pow_le_pow_right (by norm_num) (by omega)
        norm_num at this; exact this
      have h2b : 2 ≤ 2 ^ b := by
        have : (2:ℕ) ^ 1 ≤ 2 ^ b := Nat.pow_le_pow_right (by norm_num) h1
        simpa using this
      have eo : 2 ^ b - 2 + 2 ^ b = 2 ^ (b + 1) - 2 := by
        rw [pow_succ]; omega
      have ei : 2 ^ b * 2 = 2 ^ (b + 1) := by rw [pow_succ]
      rw [init_perm_loop, if_pos hle, eo, ei, ih (b + 1) _ (by omega) (by omega) (by omega) p hp]
      refine (idx_perm_calc_spec t (2 ^ b - 2) b (by omega)).2 p (Or.inr ?_)
      norm_num at hp
      omega
    · have hb' : b = 16 := by omega
      subst hb'
      have hgt : ¬ 2 ^ 16 ≤ 32768 := by norm_num
      rw [init_perm_loop, if_neg hgt]

/-- Claim C17 (layout of the permutation table). After `WDL_fft_init`, `_idxperm` is the
result of the calls `idx_perm_calc(n - 2, n)` for `n = 2, 4, ..., 32768` in this order; for
every supported `n` the size-`n` table is `_idxperm[n-2 .. 2n-3]`, inside `IDXPERM_SIZE`
and below the table of every larger size; nothing is written from `IDXPERM_SIZE - 2` on;
`WDL_fft_permute(n,0) = 0` and `WDL_fft_permute(n, n - fftfreq_c(i,n)) = i` for
`1 ≤ i < n`. -/
theorem permute_table_layout {T : Type} [Field T] (F : Trig T) (g0 : Globals T)
    (h0 : g0.ffttabinit = false) (n : ℕ) (hn : n ∈ supportedSizes) :
    (WDL_fft_init F g0)._idxperm =
      (List.range' 1 15).foldl (fun t c => idx_perm_calc t (2 ^ c - 2) (2 ^ c))
        g0._idxperm ∧
    (∀ k, k < n →
      WDL_fft_permute (WDL_fft_init F g0) n k = (WDL_fft_init F g0)._idxperm (n - 2 + k) ∧
      WDL_fft_permute_tab (WDL_fft_init F g0) n k =
        (WDL_fft_init F g0)._idxperm (n - 2 + k) ∧
      n - 2 + k < IDXPERM_SIZE) ∧
    (∀ m ∈ supportedSizes, n < m → n - 2 + n ≤ m - 2) ∧
    (∀ p, IDXPERM_SIZE - 2 ≤ p → (WDL_fft_init F g0)._idxperm p = g0._idxperm p) ∧
    WDL_fft_permute (WDL_fft_init F g0) n 0 = 0 ∧
    (∀ i, 1 ≤ i → i < n →
      WDL_fft_permute (WDL_fft_init F g0) n (n - fftfreq_c i n) = i) := by
  have hidx : (WDL_fft_init F g0)._idxperm = init_perm_loop 16 g0._idxperm 0 2 := by
    simp [WDL_fft_init, h0]
  obtain ⟨c, hc1, hc2, rfl⟩ := (supported_iff n).mp hn
  have h2c : 2 ≤ 2 ^ c := by
    have : (2:ℕ) ^ 1 ≤ 2 ^ c := Nat.pow_le_pow_right (by norm_num) hc1
    simpa using this
  have hle : 2 ^ c ≤ 32768 := by
    have : (2:ℕ) ^ c ≤ 2 ^ 15 := Nat.pow_le_pow_right (by norm_num) hc2
    norm_num at this; exact this
  refine ⟨?_, ?_, ?_, ?_, ?_, ?_⟩
  · rw [hidx]
    exact init_perm_loop_unroll 16 1 g0._idxperm (by norm_num) (by norm_num) (by norm_num)
  · intro k hk
    refine ⟨?_, rfl, ?_⟩
    · unfold WDL_fft_permute
      congr 1
      omega
    · have : IDXPERM_SIZE = 65536 := by decide
      omega
  · intro m hm hlt
    obtain ⟨d, hd1, hd2, rfl⟩ := (supported_iff m).mp hm
    have hcd : c < d := (Nat.pow_lt_pow_iff_right (by norm_num)).mp hlt
    have : (2:ℕ) ^ (c + 1) ≤ 2 ^ d := Nat.pow_le_pow_right (by norm_num) hcd
    rw [pow_succ] at this
    omega
  · intro p hp
    rw [hidx]
    have e : IDXPERM_SIZE = 2 ^ 16 := by decide
    rw [e] at hp
    exact init_perm_loop_frame 16 1 g0._idxperm (by norm_num) (by norm_num) (by norm_num) p hp
  · have h := permute_init F g0 h0 c hc1 hc2 0 (by omega)
    rw [fftfreq_c_zero c (by omega)] at h
    simpa using h
  · intro i h1 hi
    have h := permute_init F g0 h0 c hc1 hc2 i hi
    have hp := fftfreq_c_pos c (by omega) i hi h1
    rwa [Nat.mod_eq_of_lt (by omega)] at h

/-- Witness for C17: the size-8 table built from the zero-initialised statics. -/
theorem permute_table_layout_witness :
    (8 : ℕ) ∈ supportedSizes ∧
    WDL_fft_permute (WDL_fft_init ⟨(0 : ℚ), id, id⟩ zeroGlobals) 8 0 = 0 ∧
    (∀ i, 1 ≤ i → i < 8 →
      WDL_fft_permute (WDL_fft_init ⟨(0 : ℚ), id, id⟩ zeroGlobals) 8 (8 - fftfreq_c i 8) = i) :=
  ⟨by decide,
    (permute_table_layout ⟨(0 : ℚ), id, id⟩ zeroGlobals rfl 8 (by decide)).2.2.2.2.1,
    (permute_table_layout ⟨(0 : ℚ), id, id⟩ zeroGlobals rfl 8 (by decide)).2.2.2.2.2⟩

end Layout
end WDLFFT

namespace WDLFFT
section Tiering

/-- An entry that `__fft_gen` computes (no parent table, or an even index) is the
cosine/sine pair at the angle step `(π/4)/(sz+1)`, doubled exactly when `isfull` is set. -/
theorem fft_gen_computed {T : Type} [Field T] (F : Trig T) (buf : ℕ → cmplxT T)
    (buf2 : Option (ℕ → cmplxT T)) (sz : ℕ) (isfull : ℤ) (x : ℕ) (hx : x < sz)
    (h : buf2 = none ∨ x % 2 = 0) :
    __fft_gen F buf buf2 sz isfull x = tierEntry F sz (decide (isfull ≠ 0)) x := by
  rw [fft_gen_apply F buf buf2 sz isfull x hx]
  unfold tierEntry
  cases buf2 with
  | none => by_cases hf : isfull ≠ 0 <;> simp [hf]
  | some b2 =>
    have hx2 : x % 2 = 0 := by
      rcases h with h | h
      · cases h
      · exact h
    have hand : x &&& 1 = 0 := by rw [Nat.and_one_is_mod]; exact hx2
    by_cases hf : isfull ≠ 0 <;> simp [hf, hand]

/-- Claim C20, as the code has it: the tiering is the reverse of the claimed one. After
`WDL_fft_init`, every computed entry (all of `d16`, the even indices of the other tables) is
the cosine/sine pair at the angle step `(π/4)/(L+1)`, `L` the table length, and that step is
doubled for the tables of the sizes `16 .. 512` and not doubled for those of the sizes
`1024 .. 32768`. -/
theorem twiddle_angle_tiering {T : Type} [Field T] (F : Trig T) (g0 : Globals T)
    (h0 : g0.ffttabinit = false) :
    (∀ x, x < 3 → (WDL_fft_init F g0).d16 x = tierEntry F 3 true x) ∧
    (∀ x, x % 2 = 0 →
      (x < 7 → (WDL_fft_init F g0).d32 x = tierEntry F 7 true x) ∧
      (x < 15 → (WDL_fft_init F g0).d64 x = tierEntry F 15 true x) ∧
      (x < 31 → (WDL_fft_init F g0).d128 x = tierEntry F 31 true x) ∧
      (x < 63 → (WDL_fft_init F g0).d256 x = tierEntry F 63 true x) ∧
      (x < 127 → (WDL_fft_init F g0).d512 x = tierEntry F 127 true x) ∧
      (x < 127 → (WDL_fft_init F g0).d1024 x = tierEntry F 127 false x) ∧
      (x < 255 → (WDL_fft_init F g0).d2048 x = tierEntry F 255 false x) ∧
      (x < 511 → (WDL_fft_init F g0).d4096 x = tierEntry F 511 false x) ∧
      (x < 1023 → (WDL_fft_init F g0).d8192 x = tierEntry F 1023 false x) ∧
      (x < 2047 → (WDL_fft_init F g0).d16384 x = tierEntry F 2047 false x) ∧
      (x < 4095 → (WDL_fft_init F g0).d32768 x = tierEntry F 4095 false x)) := by
  refine ⟨fun x hx => ?_, fun x he => ⟨fun hx => ?_, fun hx => ?_, fun hx => ?_, fun hx => ?_,
    fun hx => ?_, fun hx => ?_, fun hx => ?_, fun hx => ?_, fun hx => ?_, fun hx => ?_,
    fun hx => ?_⟩⟩
  · have := fft_gen_computed F g0.d16 none 3 1 x hx (Or.inl rfl)
    simpa [WDL_fft_init, h0] using this
  · have := fft_gen_computed F g0.d32 (some (__fft_gen F g0.d16 none 3 1)) 7 1 x hx (Or.inr he)
    simpa [WDL_fft_init, h0] using this
  all_goals simp only [WDL_fft_init, h0, Bool.false_eq_true, if_false]
  all_goals refine (fft_gen_computed F _ _ _ _ x hx (Or.inr he)).trans ?_
  all_goals simp

/-- Witness for C20: entry 2 of `d64` and of `d2048`, from the zero-initialised statics. -/
theorem twiddle_angle_tiering_witness :
    (WDL_fft_init ⟨Real.pi, Real.cos, Real.sin⟩ zeroGlobals).d64 2 =
      tierEntry ⟨Real.pi, Real.cos, Real.sin⟩ 15 true 2 ∧
    (WDL_fft_init ⟨Real.pi, Real.cos, Real.sin⟩ zeroGlobals).d2048 2 =
      tierEntry ⟨Real.pi, Real.cos, Real.sin⟩ 255 false 2 :=
  ⟨((twiddle_angle_tiering ⟨Real.pi, Real.cos, Real.sin⟩ zeroGlobals rfl).2 2 rfl).2.1
      (by norm_num),
    ((twiddle_angle_tiering ⟨Real.pi, Real.cos, Real.sin⟩ zeroGlobals rfl).2 2
      rfl).2.2.2.2.2.2.1 (by norm_num)⟩

/-- Counterexample to C20 as stated (step not doubled up to size 512, doubled from size
1024): entry 0 of `d16` is not the pair at the undoubled step `π/16`, and entry 0 of
`d1024` is not the pair at the doubled step `π/256`. -/
theorem twiddle_angle_tiering_counterexample :
    (WDL_fft_init ⟨Real.pi, Real.cos, Real.sin⟩ zeroGlobals).d16 0 ≠
      tierEntry ⟨Real.pi, Real.cos, Real.sin⟩ 3 false 0 ∧
    (WDL_fft_init ⟨Real.pi, Real.cos, Real.sin⟩ zeroGlobals).d1024 0 ≠
      tierEntry ⟨Real.pi, Real.cos, Real.sin⟩ 127 true 0 := by
  have hπ := Real.pi_pos
  have key : ∀ a b : ℝ, 0 ≤ a → a ≤ Real.pi → 0 ≤ b → b ≤ Real.pi → a ≠ b →
      (⟨Real.cos a, Real.sin a⟩ : cmplxT ℝ) ≠ ⟨Real.cos b, Real.sin b⟩ := by
    intro a b ha1 ha2 hb1 hb2 hab h
    have hc : Real.cos a = Real.cos b := congrArg cmplxT.re h
    exact hab (Real.injOn_cos ⟨ha1, ha2⟩ ⟨hb1, hb2⟩ hc)
  constructor
  · have h := fft_gen_computed ⟨Real.pi, Real.cos, Real.sin⟩ (zeroGlobals (T := ℝ)).d16 none 3 1
      0 (by norm_num) (Or.inl rfl)
    have e : (WDL_fft_init ⟨Real.pi, Real.cos, Real.sin⟩ zeroGlobals).d16 0 =
        tierEntry ⟨Real.pi, Real.cos, Real.sin⟩ 3 true 0 := by
      simpa [WDL_fft_init, zeroGlobals] using h
    rw [e]
    simp only [tierEntry, if_true, Bool.false_eq_true, if_false]
    apply key <;> norm_num <;> nlinarith
  · have e : (WDL_fft_init ⟨Real.pi, Real.cos, Real.sin⟩ zeroGlobals).d1024 0 =
        tierEntry ⟨Real.pi, Real.cos, Real.sin⟩ 127 false 0 := by
      simp only [WDL_fft_init, zeroGlobals, Bool.false_eq_true, if_false]
      refine (fft_gen_computed _ _ _ _ _ 0 (by norm_num) (Or.inr rfl)).trans ?_
      simp
    rw [e]
    simp only [tierEntry, if_true, Bool.false_eq_true, if_false]
    apply key <;> norm_num <;> nlinarith

end Tiering
end WDLFFT

namespace WDLFFT
section Direction
open Complex

/-- With exact tables, the sample that the forward transform leaves at buffer position `i`
is the DFT bin of the frequency `(N - fftfreq_c(i,N)) mod N`. -/
theorem fwd_bin_at (g0 : Globals ℝ) (h0 : g0.ffttabinit = false) (c : ℕ) (hc1 : 1 ≤ c)
    (hc2 : c ≤ 15) (X : Buf ℝ) (i : ℕ) (hi : i < 2 ^ c) :
    toC (fft (WDL_fft_init ⟨Real.pi, Real.cos, Real.sin⟩ g0) X ((2 ^ c : ℕ) : ℤ) 0 i) =
    ∑ j in Finset.range (2 ^ c),
      toC (X j) * Complex.exp (-2 * Real.pi * I * (j : ℂ) *
        (((2 ^ c - fftfreq_c i (2 ^ c)) % 2 ^ c : ℕ) : ℂ) / ((2 ^ c : ℕ) : ℂ)) := by
  have hw := isTwiddle_exp
  have ht := tablesOK_init hw (fun _ _ => rfl) g0 h0
  have hN : 2 ^ c ∈ supportedSizes := (supported_iff _).mpr ⟨c, hc1, hc2, rfl⟩
  have hpos : 1 ≤ 2 ^ c := Nat.one_le_two_pow
  have hf := fftfreq_c_lt c (by omega) i hi
  have h2 := congrFun (fft_fwd_spec hw _ ht (2 ^ c) hN X) i
  simp only at h2
  have e0 : i = 0 + i := by omega
  rw [h2]
  conv_lhs => rw [e0]
  rw [dftBlock_in _ _ _ _ _ hi]
  apply Finset.sum_congr rfl
  intro j _
  rw [Nat.zero_add]
  congr 1
  rcases Nat.eq_zero_or_pos (fftfreq_c i (2 ^ c)) with h | h
  · rw [h]
    simp
  · rw [Nat.mod_eq_of_lt (by omega)]
    have e1 : (j : ℤ) * (fftfreq_c i (2 ^ c) : ℤ) =
        -((j : ℤ) * ((2 ^ c - fftfreq_c i (2 ^ c) : ℕ) : ℤ)) + ((2 ^ c : ℕ) : ℤ) * j := by
      rw [Nat.cast_sub (by omega)]; ring
    rw [e1, hw.add_period (2 ^ c) hpos]
    congr 1
    push_cast
    ring

/-- Claim C14, amended: `WDL_fft_permute(N,·)` maps a frequency to the buffer position
that holds it. For every supported `N` and natural position `i < N`, with
`k = (N - fftfreq_c(i,N)) mod N`, one has `WDL_fft_permute(N,k) = i`, and the sample that
`fft(buf,N,0)` leaves at position `i` is the DFT bin of frequency `k`. -/
theorem permute_maps_frequency_to_position (g0 : Globals ℝ) (h0 : g0.ffttabinit = false)
    (N : ℕ) (hN : N ∈ supportedSizes) (X : Buf ℝ) (i : ℕ) (hi : i < N) :
    (N - fftfreq_c i N) % N < N ∧
    WDL_fft_permute (WDL_fft_init ⟨Real.pi, Real.cos, Real.sin⟩ g0) N
      ((N - fftfreq_c i N) % N) = i ∧
    toC (fft (WDL_fft_init ⟨Real.pi, Real.cos, Real.sin⟩ g0) X (N : ℤ) 0 i) =
      ∑ j in Finset.range N,
        toC (X j) * Complex.exp (-2 * Real.pi * I * (j : ℂ) *
          (((N - fftfreq_c i N) % N : ℕ) : ℂ) / (N : ℂ)) := by
  obtain ⟨c, hc1, hc2, rfl⟩ := (supported_iff N).mp hN
  have hpos : 1 ≤ 2 ^ c := Nat.one_le_two_pow
  exact ⟨Nat.mod_lt _ (by omega), permute_init _ g0 h0 c hc1 hc2 i hi,
    fwd_bin_at g0 h0 c hc1 hc2 X i hi⟩

/-- Witness for C14 (amended): size 4, position 3, which holds the frequency 1. -/
theorem permute_maps_frequency_to_position_witness :
    (4 - fftfreq_c 3 4) % 4 < 4 ∧
    WDL_fft_permute (WDL_fft_init ⟨Real.pi, Real.cos, Real.sin⟩ zeroGlobals) 4
      ((4 - fftfreq_c 3 4) % 4) = 3 ∧
    toC (fft (WDL_fft_init ⟨Real.pi, Real.cos, Real.sin⟩ zeroGlobals)
      (fun j => ⟨(j : ℝ), 1⟩) ((4 : ℕ) : ℤ) 0 3) =
      ∑ j in Finset.range 4,
        toC ((fun j => (⟨(j : ℝ), 1⟩ : cmplxT ℝ)) j) *
          Complex.exp (-2 * Real.pi * I * (j : ℂ) *
          (((4 - fftfreq_c 3 4) % 4 : ℕ) : ℂ) / ((4 : ℕ) : ℂ)) :=
  permute_maps_frequency_to_position zeroGlobals rfl 4 (by decide) (fun j => ⟨(j : ℝ), 1⟩) 3
    (by decide)

/-- Counterexample to C14 as stated: for `N = 4` and the unit impulse at `j = 1`, the
sample at buffer position 3 is not the DFT bin of frequency `WDL_fft_permute(4,3) = 2`
(it is the bin of frequency 1). -/
theorem permute_direction_counterexample :
    toC (fft (WDL_fft_init ⟨Real.pi, Real.cos, Real.sin⟩ zeroGlobals)
      (fun j => if j = 1 then ⟨1, 0⟩ else ⟨0, 0⟩) 4 0 3) ≠
    ∑ j in Finset.range 4,
      toC ((fun j => if j = 1 then (⟨1, 0⟩ : cmplxT ℝ) else ⟨0, 0⟩) j) *
        Complex.exp (-2 * Real.pi * I * (j : ℂ) *
          ((WDL_fft_permute (WDL_fft_init ⟨Real.pi, Real.cos, Real.sin⟩
            (zeroGlobals (T := ℝ))) 4 3 : ℕ) : ℂ) / 4) := by
  have hp := (permute_four ⟨Real.pi, Real.cos, Real.sin⟩ (zeroGlobals (T := ℝ)) rfl).2.2.2
  have hb := fwd_bin_at zeroGlobals rfl 2 (by norm_num) (by norm_num)
    (fun j => if j = 1 then ⟨1, 0⟩ else ⟨0, 0⟩) 3 (by norm_num)
  have f3 : fftfreq_c 3 4 = 3 := by simp [fftfreq_c]; decide
  have e4 : (2 : ℕ) ^ 2 = 4 := by norm_num
  rw [e4, f3] at hb
  have e5 : (((4 : ℕ) : ℤ)) = 4 := by norm_num
  rw [e5] at hb
  rw [hb, hp]
  have z0 : toC (⟨0, 0⟩ : cmplxT ℝ) = 0 := by apply Complex.ext <;> simp [toC]
  have z1 : toC (⟨1, 0⟩ : cmplxT ℝ) = 1 := by apply Complex.ext <;> simp [toC]
  simp only [Finset.sum_range_succ, Finset.sum_range_zero]
  norm_num [z0, z1]
  intro h
  have e1 : (-(2 * (Real.pi : ℂ) * I) / 4) = ((-(Real.pi / 2) : ℝ) : ℂ) * I := by
    push_cast; ring
  have e2 : (-(2 * (Real.pi : ℂ) * I * 2) / 4) = ((-Real.pi : ℝ) : ℂ) * I := by
    push_cast; ring
  rw [e1, e2] at h
  have h2 := congrArg Complex.re h
  rw [Complex.exp_ofReal_mul_I_re, Complex.exp_ofReal_mul_I_re] at h2
  simp at h2

end Direction
end WDLFFT

namespace WDLFFT
section Multiply
variable {T : Type} [CommRing T]

/-- One iteration of the loop of `WDL_fft_complexmul` rewrites the two samples at `o`
and `o + 1` and nothing else. -/
theorem complexmul_body_eq (a b : Buf T) (o : ℕ) :
    complexmul_body a b o =
    fun k => if k = o ∨ k = o + 1 then cmul (a k) (b k) else a k := by
  funext k
  have hne : o + 1 ≠ o := by omega
  by_cases h1 : k = o + 1
  · subst h1
    simp [complexmul_body, complexmul_terms, cmul, cadd, Function.update, hne]
    ring_nf
  · by_cases h0 : k = o
    · subst h0
      simp [complexmul_body, complexmul_terms, cmul, cadd, Function.update, hne, Ne.symm hne]
      ring_nf
    · simp [complexmul_body, Function.update, h0, h1]

/-- The loop of `WDL_fft_complexmul`, entered with `n = 2m`, `m ≥ 1`, leaves through its
condition after exactly `m` iterations, having rewritten the samples `o .. o + 2m - 1`. -/
theorem complexmul_loop_spec : ∀ (fuel m : ℕ) (a b : Buf T) (o : ℕ), 1 ≤ m →
    complexmul_loop fuel a b o (2 * (m : ℤ)) =
      if m ≤ fuel then
        some (fun k => if o ≤ k ∧ k < o + 2 * m then cmul (a k) (b k) else a k)
      else none := by
  intro fuel
  induction fuel with
  | zero =>
    intro m a b o hm
    rw [if_neg (by omega)]
    rfl
  | succ fuel ih =>
    intro m a b o hm
    have hb := complexmul_body_eq a b o
    rw [complexmul_loop]
    rw [hb]
    rcases Nat.eq_or_lt_of_le hm with h1 | h1
    · subst h1
      have e : ¬ (2 * ((1 : ℕ) : ℤ) - 2 ≠ 0) := by norm_num
      rw [if_neg e, if_pos (by omega)]
      congr 1
      funext k
      have : (k = o ∨ k = o + 1) ↔ (o ≤ k ∧ k < o + 2 * 1) := by omega
      simp only [this]
    · have e : 2 * (m : ℤ) - 2 ≠ 0 := by omega
      have e2 : 2 * (m : ℤ) - 2 = 2 * ((m - 1 : ℕ) : ℤ) := by
        rw [Nat.cast_sub hm]; ring
      rw [if_pos e, e2, ih (m - 1) _ _ (o + 2) (by omega)]
      by_cases hf : m ≤ fuel + 1
      · rw [if_pos (by omega), if_pos hf]
        congr 1
        funext k
        by_cases hk : o + 2 ≤ k ∧ k < o + 2 + 2 * (m - 1)
        · have hk2 : o ≤ k ∧ k < o + 2 * m := by omega
          have hk3 : ¬ (k = o ∨ k = o + 1) := by omega
          simp only [hk, hk2, hk3, if_true, if_false, and_self]
        · by_cases hk3 : k = o ∨ k = o + 1
          · have hk2 : o ≤ k ∧ k < o + 2 * m := by omega
            simp only [hk, hk2, hk3, if_true, if_false, and_self]
          · have hk2 : ¬ (o ≤ k ∧ k < o + 2 * m) := by omega
            simp only [hk, hk2, hk3, if_true, if_false, and_self]
      · rw [if_neg (by omega), if_neg hf]

/-- One iteration of the loop of `WDL_fft_complexmul2` rewrites the two samples at `o`
and `o + 1` and nothing else. -/
theorem complexmul2_body_eq (c a b : Buf T) (o : ℕ) :
    complexmul2_body c a b o =
    fun k => if k = o ∨ k = o + 1 then cmul (a k) (b k) else c k := by
  funext k
  have hne : o + 1 ≠ o := by omega
  by_cases h1 : k = o + 1
  · subst h1
    simp [complexmul2_body, complexmul_terms, cmul, cadd, Function.update, hne]
    ring_nf
  · by_cases h0 : k = o
    · subst h0
      simp [complexmul2_body, complexmul_terms, cmul, cadd, Function.update, hne, Ne.symm hne]
      ring_nf
    · simp [complexmul2_body, Function.update, h0, h1]

/-- The loop of `WDL_fft_complexmul2`, entered with `n = 2m`, `m ≥ 1`, leaves through its
condition after exactly `m` iterations, having rewritten the samples `o .. o + 2m - 1`. -/
theorem complexmul2_loop_spec : ∀ (fuel m : ℕ) (c a b : Buf T) (o : ℕ), 1 ≤ m →
    complexmul2_loop fuel c a b o (2 * (m : ℤ)) =
      if m ≤ fuel then
        some (fun k => if o ≤ k ∧ k < o + 2 * m then cmul (a k) (b k) else c k)
      else none := by
  intro fuel
  induction fuel with
  | zero =>
    intro m c a b o hm
    rw [if_neg (by omega)]
    rfl
  | succ fuel ih =>
    intro m c a b o hm
    have hb := complexmul2_body_eq c a b o
    rw [complexmul2_loop]
    rw [hb]
    rcases Nat.eq_or_lt_of_le hm with h1 | h1
    · subst h1
      have e : ¬ (2 * ((1 : ℕ) : ℤ) - 2 ≠ 0) := by norm_num
      rw [if_neg e, if_pos (by omega)]
      congr 1
      funext k
      have : (k = o ∨ k = o + 1) ↔ (o ≤ k ∧ k < o + 2 * 1) := by omega
      simp only [this]
    · have e : 2 * (m : ℤ) - 2 ≠ 0 := by omega
      have e2 : 2 * (m : ℤ) - 2 = 2 * ((m - 1 : ℕ) : ℤ) := by
        rw [Nat.cast_sub hm]; ring
      rw [if_pos e, e2, ih (m - 1) _ _ _ (o + 2) (by omega)]
      by_cases hf : m ≤ fuel + 1
      · rw [if_pos (by omega), if_pos hf]
        congr 1
        funext k
        by_cases hk : o + 2 ≤ k ∧ k < o + 2 + 2 * (m - 1)
        · have hk2 : o ≤ k ∧ k < o + 2 * m := by omega
          have hk3 : ¬ (k = o ∨ k = o + 1) := by omega
          simp only [hk, hk2, hk3, if_true, if_false, and_self]
        · by_cases hk3 : k = o ∨ k = o + 1
          · have hk2 : o ≤ k ∧ k < o + 2 * m := by omega
            simp only [hk, hk2, hk3, if_true, if_false, and_self]
          · have hk2 : ¬ (o ≤ k ∧ k < o + 2 * m) := by omega
            simp only [hk, hk2, hk3, if_true, if_false, and_self]
      · rw [if_neg (by omega), if_neg hf]

/-- One iteration of the loop of `WDL_fft_complexmul3` rewrites the two samples at `o`
and `o + 1` and nothing else. -/
theorem complexmul3_body_eq (c a b : Buf T) (o : ℕ) :
    complexmul3_body c a b o =
    fun k => if k = o ∨ k = o + 1 then cadd (c k) (cmul (a k) (b k)) else c k := by
  funext k
  have hne : o + 1 ≠ o := by omega
  by_cases h1 : k = o + 1
  · subst h1
    simp [complexmul3_body, complexmul_terms, cmul, cadd, Function.update, hne]
    ring_nf
  · by_cases h0 : k = o
    · subst h0
      simp [complexmul3_body, complexmul_terms, cmul, cadd, Function.update, hne, Ne.symm hne]
      ring_nf
    · simp [complexmul3_body, Function.update, h0, h1]

/-- The loop of `WDL_fft_complexmul3`, entered with `n = 2m`, `m ≥ 1`, leaves through its
condition after exactly `m` iterations, having rewritten the samples `o .. o + 2m - 1`. -/
theorem complexmul3_loop_spec : ∀ (fuel m : ℕ) (c a b : Buf T) (o : ℕ), 1 ≤ m →
    complexmul3_loop fuel c a b o (2 * (m : ℤ)) =
      if m ≤ fuel then
        some (fun k => if o ≤ k ∧ k < o + 2 * m then cadd (c k) (cmul (a k) (b k)) else c k)
      else none := by
  intro fuel
  induction fuel with
  | zero =>
    intro m c a b o hm
    rw [if_neg (by omega)]
    rfl
  | succ fuel ih =>
    intro m c a b o hm
    have hb := complexmul3_body_eq c a b o
    rw [complexmul3_loop]
    rw [hb]
    rcases Nat.eq_or_lt_of_le hm with h1 | h1
    · subst h1
      have e : ¬ (2 * ((1 : ℕ) : ℤ) - 2 ≠ 0) := by norm_num
      rw [if_neg e, if_pos (by omega)]
      congr 1
      funext k
      have : (k = o ∨ k = o + 1) ↔ (o ≤ k ∧ k < o + 2 * 1) := by omega
      simp only [this]
    · have e : 2 * (m : ℤ) - 2 ≠ 0 := by omega
      have e2 : 2 * (m : ℤ) - 2 = 2 * ((m - 1 : ℕ) : ℤ) := by
        rw [Nat.cast_sub hm]; ring
      rw [if_pos e, e2, ih (m - 1) _ _ _ (o + 2) (by omega)]
      by_cases hf : m ≤ fuel + 1
      · rw [if_pos (by omega), if_pos hf]
        congr 1
        funext k
        by_cases hk : o + 2 ≤ k ∧ k < o + 2 + 2 * (m - 1)
        · have hk2 : o ≤ k ∧ k < o + 2 * m := by omega
          have hk3 : ¬ (k = o ∨ k = o + 1) := by omega
          simp only [hk, hk2, hk3, if_true, if_false, and_self]
        · by_cases hk3 : k = o ∨ k = o + 1
          · have hk2 : o ≤ k ∧ k < o + 2 * m := by omega
            simp only [hk, hk2, hk3, if_true, if_false, and_self]
          · have hk2 : ¬ (o ≤ k ∧ k < o + 2 * m) := by omega
            simp only [hk, hk2, hk3, if_true, if_false, and_self]
      · rw [if_neg (by omega), if_neg hf]

end Multiply
end WDLFFT

namespace WDLFFT
section MultiplyClaims
variable {T : Type} [CommRing T]

/-- Claim C15 (the multiply helpers reject bad counts). For every `n` that is odd or less
than 2 (zero and the negative counts included), `WDL_fft_complexmul`,
`WDL_fft_complexmul2` and `WDL_fft_complexmul3` return with the buffer they would write
(`a`, `c`, `c`) unchanged; the other buffers are never written. -/
theorem complexmul_bad_count_noop (a b c : Buf T) (n : ℤ) (h : n < 2 ∨ Odd n) :
    WDL_fft_complexmul a b n = some a ∧ WDL_fft_complexmul2 c a b n = some c ∧
    WDL_fft_complexmul3 c a b n = some c := by
  have hg : n < 2 ∨ n % 2 ≠ 0 := by
    rcases h with h | h
    · exact Or.inl h
    · right
      rw [Int.odd_iff] at h
      omega
  exact ⟨by rw [WDL_fft_complexmul, if_pos hg], by rw [WDL_fft_complexmul2, if_pos hg],
    by rw [WDL_fft_complexmul3, if_pos hg]⟩

/-- Witness for C15: the odd count `n = 7` on integer buffers. -/
theorem complexmul_bad_count_noop_witness :
    WDL_fft_complexmul (fun (i : ℕ) => (⟨i, 1⟩ : cmplxT ℤ)) (fun (i : ℕ) => ⟨2, i⟩) 7 =
      some (fun (i : ℕ) => (⟨i, 1⟩ : cmplxT ℤ)) ∧
    WDL_fft_complexmul2 (fun _ => ⟨5, 5⟩) (fun (i : ℕ) => (⟨i, 1⟩ : cmplxT ℤ)) (fun (i : ℕ) => ⟨2, i⟩) 7 =
      some (fun _ => ⟨5, 5⟩) ∧
    WDL_fft_complexmul3 (fun _ => ⟨5, 5⟩) (fun (i : ℕ) => (⟨i, 1⟩ : cmplxT ℤ)) (fun (i : ℕ) => ⟨2, i⟩) 7 =
      some (fun _ => ⟨5, 5⟩) :=
  complexmul_bad_count_noop _ _ _ 7 (Or.inr (by decide))

/-- Claim C16 (pointwise spectral multiply). For every even `n ≥ 2` and separate buffers:
`WDL_fft_complexmul` leaves `a[k] = a0[k]·b[k]`, `WDL_fft_complexmul2` leaves
`c[k] = a[k]·b[k]` and `WDL_fft_complexmul3` leaves `c[k] = c0[k] + a[k]·b[k]` for
`k < n`, each leaving every sample at an index `≥ n` as it was; and each loop returns
exactly when it is allowed `n/2` iterations. -/
theorem complexmul_pointwise (a b c : Buf T) (n : ℤ) (h2 : 2 ≤ n) (he : Even n) :
    WDL_fft_complexmul a b n =
      some (fun (k : ℕ) => if (k : ℤ) < n then cmul (a k) (b k) else a k) ∧
    WDL_fft_complexmul2 c a b n =
      some (fun (k : ℕ) => if (k : ℤ) < n then cmul (a k) (b k) else c k) ∧
    WDL_fft_complexmul3 c a b n =
      some (fun (k : ℕ) => if (k : ℤ) < n then cadd (c k) (cmul (a k) (b k)) else c k) ∧
    (∀ fuel : ℕ, (complexmul_loop fuel a b 0 n).isSome = true ↔ n / 2 ≤ (fuel : ℤ)) ∧
    (∀ fuel : ℕ, (complexmul2_loop fuel c a b 0 n).isSome = true ↔ n / 2 ≤ (fuel : ℤ)) ∧
    (∀ fuel : ℕ, (complexmul3_loop fuel c a b 0 n).isSome = true ↔ n / 2 ≤ (fuel : ℤ)) := by
  obtain ⟨r, hr⟩ := he
  have hr0 : 1 ≤ r := by omega
  obtain ⟨m, rfl⟩ := Int.eq_ofNat_of_zero_le (by omega : 0 ≤ r)
  have hm : 1 ≤ m := by exact_mod_cast hr0
  have hn : n = 2 * (m : ℤ) := by omega
  subst hn
  have hg : ¬ (2 * (m : ℤ) < 2 ∨ 2 * (m : ℤ) % 2 ≠ 0) := by omega
  have ht : (2 * (m : ℤ)).toNat = 2 * m := by omega
  have hc : ∀ k : ℕ, (0 ≤ k ∧ k < 0 + 2 * m) ↔ ((k : ℤ) < 2 * (m : ℤ)) := by
    intro k; omega
  have hd : 2 * (m : ℤ) / 2 = m := by omega
  refine ⟨?_, ?_, ?_, ?_, ?_, ?_⟩
  · rw [WDL_fft_complexmul, if_neg hg, ht, complexmul_loop_spec _ m a b 0 hm,
      if_pos (by omega)]
    simp only [hc]
  · rw [WDL_fft_complexmul2, if_neg hg, ht, complexmul2_loop_spec _ m c a b 0 hm,
      if_pos (by omega)]
    simp only [hc]
  · rw [WDL_fft_complexmul3, if_neg hg, ht, complexmul3_loop_spec _ m c a b 0 hm,
      if_pos (by omega)]
    simp only [hc]
  · intro fuel
    rw [complexmul_loop_spec fuel m a b 0 hm, hd]
    by_cases hf : m ≤ fuel
    · simp [hf]
    · simp [hf]
  · intro fuel
    rw [complexmul2_loop_spec fuel m c a b 0 hm, hd]
    by_cases hf : m ≤ fuel
    · simp [hf]
    · simp [hf]
  · intro fuel
    rw [complexmul3_loop_spec fuel m c a b 0 hm, hd]
    by_cases hf : m ≤ fuel
    · simp [hf]
    · simp [hf]

/-- Witness for C16: the count `n = 4` on integer buffers. -/
theorem complexmul_pointwise_witness :
    WDL_fft_complexmul (fun (i : ℕ) => (⟨i, 1⟩ : cmplxT ℤ)) (fun (i : ℕ) => ⟨2, i⟩) 4 =
      some (fun (k : ℕ) => if (k : ℤ) < 4 then
        cmul ((fun (i : ℕ) => (⟨i, 1⟩ : cmplxT ℤ)) k) ((fun (i : ℕ) => (⟨2, i⟩ : cmplxT ℤ)) k)
        else (fun (i : ℕ) => (⟨i, 1⟩ : cmplxT ℤ)) k) :=
  (complexmul_pointwise (fun (i : ℕ) => (⟨i, 1⟩ : cmplxT ℤ)) (fun (i : ℕ) => ⟨2, i⟩) (fun _ => ⟨0, 0⟩) 4
    (by decide) (by decide)).1

end MultiplyClaims
end WDLFFT

namespace WDLFFT
section Orbits

variable {σ : ℕ → ℕ} {N : ℕ}

/-- The iterates of a point of `[0, N)` stay in `[0, N)`. -/
theorem PermOn.iterate_lt (h : PermOn σ N) (x : ℕ) (hx : x < N) : ∀ j, σ^[j] x < N := by
  intro j
  induction j with
  | zero => exact hx
  | succ j ih =>
    rw [Function.iterate_succ_apply']
    exact h.maps _ ih

/-- Iterates of an injective map can be cancelled on the left. -/
theorem PermOn.iterate_cancel (h : PermOn σ N) (x y : ℕ) (hx : x < N) (hy : y < N) :
    ∀ a, σ^[a] x = σ^[a] y → x = y := by
  intro a
  induction a with
  | zero => exact fun e => e
  | succ a ih =>
    intro e
    rw [Function.iterate_succ_apply', Function.iterate_succ_apply'] at e
    exact ih (h.inj _ _ (h.iterate_lt x hx a) (h.iterate_lt y hy a) e)

/-- Every point of `[0, N)` returns to itself within `N` steps. -/
theorem PermOn.exists_period (h : PermOn σ N) (x : ℕ) (hx : x < N) :
    ∃ p, 1 ≤ p ∧ p ≤ N ∧ σ^[p] x = x := by
  have hmap : ∀ j ∈ Finset.range (N + 1), σ^[j] x ∈ Finset.range N := by
    intro j _
    exact Finset.mem_range.mpr (h.iterate_lt x hx j)
  obtain ⟨a, ha, b, hb, hab, e⟩ := Finset.exists_ne_map_eq_of_card_lt_of_maps_to
    (by simp) hmap
  rw [Finset.mem_range] at ha hb
  rcases Nat.lt_or_gt_of_ne hab with hlt | hlt
  · refine ⟨b - a, by omega, by omega, ?_⟩
    have e2 : σ^[a] (σ^[b - a] x) = σ^[a] x := by
      rw [← Function.iterate_add_apply, Nat.add_sub_cancel' (le_of_lt hlt), e]
    exact h.iterate_cancel _ _ (h.iterate_lt x hx _) hx a e2
  · refine ⟨a - b, by omega, by omega, ?_⟩
    have e2 : σ^[b] (σ^[a - b] x) = σ^[b] x := by
      rw [← Function.iterate_add_apply, Nat.add_sub_cancel' (le_of_lt hlt), e]
    exact h.iterate_cancel _ _ (h.iterate_lt x hx _) hx b e2

/-- The minimal period of a point of `[0, N)` lies in `[1, N]`. -/
theorem PermOn.minimalPeriod_bounds (h : PermOn σ N) (x : ℕ) (hx : x < N) :
    1 ≤ Function.minimalPeriod σ x ∧ Function.minimalPeriod σ x ≤ N := by
  obtain ⟨p, hp1, hp2, hp3⟩ := h.exists_period x hx
  have hper : Function.IsPeriodicPt σ p x := hp3
  exact ⟨hper.minimalPeriod_pos (by omega), le_trans (hper.minimalPeriod_le (by omega)) hp2⟩

/-- A point that `σ` moves has minimal period at least two. -/
theorem PermOn.two_le_minimalPeriod (h : PermOn σ N) (x : ℕ) (hx : x < N) (hm : σ x ≠ x) :
    2 ≤ Function.minimalPeriod σ x := by
  have h1 := (h.minimalPeriod_bounds x hx).1
  rcases Nat.eq_or_lt_of_le h1 with e | e
  · exfalso
    exact hm (Function.minimalPeriod_eq_one_iff_isFixedPt.mp e.symm)
  · exact e

/-- Membership in the orbit: being an iterate is symmetric. -/
theorem PermOn.orbit_symm (h : PermOn σ N) (x : ℕ) (hx : x < N) (j : ℕ) :
    ∃ i, σ^[i] (σ^[j] x) = x := by
  refine ⟨Function.minimalPeriod σ x * j - j, ?_⟩
  have h1 := (h.minimalPeriod_bounds x hx).1
  have hle : j ≤ Function.minimalPeriod σ x * j := Nat.le_mul_of_pos_left j h1
  rw [← Function.iterate_add_apply, Nat.sub_add_cancel hle]
  exact (Function.isPeriodicPt_minimalPeriod σ x).mul_const j

/-- The orbit list of `x` holds exactly the iterates of `x`. -/
theorem PermOn.mem_orbit_list (h : PermOn σ N) (x : ℕ) (hx : x < N) (y : ℕ) :
    y ∈ List.iterate σ x (Function.minimalPeriod σ x) ↔ ∃ j, σ^[j] x = y := by
  rw [List.mem_iterate]
  constructor
  · rintro ⟨j, _, e⟩
    exact ⟨j, e.symm⟩
  · rintro ⟨j, e⟩
    refine ⟨j % Function.minimalPeriod σ x, Nat.mod_lt _ (h.minimalPeriod_bounds x hx).1, ?_⟩
    rw [Function.iterate_mod_minimalPeriod_eq, e]

/-- The orbit list of `x` has no repetition. -/
theorem orbit_list_nodup (σ : ℕ → ℕ) (x : ℕ) :
    (List.iterate σ x (Function.minimalPeriod σ x)).Nodup := by
  rw [List.nodup_iff_injective_get]
  intro a b e
  have ha := a.2
  have hb := b.2
  simp only [List.length_iterate] at ha hb
  simp only [List.get_eq_getElem, List.getElem_iterate] at e
  exact Fin.ext (Function.iterate_injOn_Iio_minimalPeriod ha hb e)

/-- A fixed point stays fixed under iteration. -/
theorem iterate_fixed (σ : ℕ → ℕ) (y : ℕ) (hy : σ y = y) : ∀ j, σ^[j] y = y := by
  intro j
  induction j with
  | zero => rfl
  | succ j ih => rw [Function.iterate_succ_apply', ih, hy]

end Orbits
end WDLFFT

namespace WDLFFT
section Builder

variable {σ : ℕ → ℕ}

/-- The `do ... while (fx != x)` loop, entered with `fx = σ^i x` while `d + 1` entries of the
orbit of `x` remain, writes exactly these entries, flags them and returns. -/
theorem reorder_run_spec (x P : ℕ) (hP : σ^[P] x = x)
    (hmin : ∀ j, 1 ≤ j → j < P → σ^[j] x ≠ x) :
    ∀ (d fuel : ℕ) (s : ReorderBuild) (i : ℕ), 1 ≤ i → i + (d + 1) = P → d + 1 ≤ fuel →
      ∃ s', reorder_run σ x fuel s (σ^[i] x) = some s' ∧ s'.pos = s.pos + (d + 1) ∧
        (∀ p, s'.tab p =
          if s.pos ≤ p ∧ p < s.pos + (d + 1) then σ^[i + (p - s.pos)] x else s.tab p) ∧
        (∀ y, s'.flag y = true ↔ (s.flag y = true ∨ ∃ j, j < d + 1 ∧ σ^[i + j] x = y)) := by
  intro d
  induction d with
  | zero =>
    intro fuel s i hi hd hf
    obtain ⟨f, rfl⟩ : ∃ f, fuel = f + 1 := ⟨fuel - 1, by omega⟩
    have e0 : σ^[i + 1] x = x := by
      rw [show i + 1 = P by omega]; exact hP
    have e1 : σ (σ^[i] x) = x := (Function.iterate_succ_apply' σ i x).symm.trans e0
    refine ⟨ReorderBuild.mk (Function.update s.flag (σ^[i] x) true)
        (Function.update s.tab s.pos (σ^[i] x)) (s.pos + 1),
      by rw [reorder_run]; simp only [e1, ne_eq, not_true_eq_false, if_false], rfl, ?_, ?_⟩
    · intro p
      by_cases hp : p = s.pos
      · rw [hp]
        simp
      · have : ¬ (s.pos ≤ p ∧ p < s.pos + (0 + 1)) := by omega
        simp [Function.update, hp, this]
    · intro y
      by_cases hy : y = σ^[i] x
      · subst hy
        simp only [Function.update_same, true_iff]
        exact Or.inr ⟨0, by omega, rfl⟩
      · simp only [Function.update_noteq hy]
        constructor
        · exact fun h => Or.inl h
        · rintro (h | ⟨j, hj, e⟩)
          · exact h
          · have : j = 0 := by omega
            subst this
            exact absurd e.symm hy
  | succ d ih =>
    intro fuel s i hi hd hf
    obtain ⟨f, rfl⟩ : ∃ f, fuel = f + 1 := ⟨fuel - 1, by omega⟩
    have e1 : σ (σ^[i] x) = σ^[i + 1] x := (Function.iterate_succ_apply' σ i x).symm
    have e2 : σ^[i + 1] x ≠ x := hmin (i + 1) (by omega) (by omega)
    obtain ⟨s', h1, h2, h3, h4⟩ := ih f
      (ReorderBuild.mk (Function.update s.flag (σ^[i] x) true)
        (Function.update s.tab s.pos (σ^[i] x)) (s.pos + 1))
      (i + 1) (by omega) (by omega) (by omega)
    refine ⟨s', ?_, ?_, ?_, ?_⟩
    · rw [reorder_run]
      simp only [e1, ne_eq, e2, not_false_eq_true, if_true]
      exact h1
    · rw [h2]; simp only; omega
    · intro p
      rw [h3 p]
      simp only
      by_cases hp : p = s.pos
      · rw [hp]
        have a1 : ¬ (s.pos + 1 ≤ s.pos ∧ s.pos < s.pos + 1 + (d + 1)) := by omega
        have a2 : s.pos ≤ s.pos ∧ s.pos < s.pos + (d + 1 + 1) := by omega
        simp [a1, a2]
      · by_cases hq : s.pos + 1 ≤ p ∧ p < s.pos + 1 + (d + 1)
        · have a2 : s.pos ≤ p ∧ p < s.pos + (d + 1 + 1) := by omega
          have a3 : i + 1 + (p - (s.pos + 1)) = i + (p - s.pos) := by omega
          simp only [hq, a2, and_self, if_true, a3]
        · have a2 : ¬ (s.pos ≤ p ∧ p < s.pos + (d + 1 + 1)) := by omega
          simp only [hq, a2, if_false, Function.update_noteq hp]
    · intro y
      rw [h4 y]
      simp only
      constructor
      · rintro (h | ⟨j, hj, e⟩)
        · by_cases hy : y = σ^[i] x
          · exact Or.inr ⟨0, by omega, hy.symm⟩
          · rw [Function.update_noteq hy] at h
            exact Or.inl h
        · exact Or.inr ⟨j + 1, by omega, by rw [← e]; congr 1; omega⟩
      · rintro (h | ⟨j, hj, e⟩)
        · by_cases hy : y = σ^[i] x
          · subst hy
            left; simp
          · left; rw [Function.update_noteq hy]; exact h
        · rcases Nat.eq_zero_or_pos j with h0 | h0
          · subst h0
            left
            rw [← e]
            simp
          · exact Or.inr ⟨j - 1, by omega, by rw [← e]; congr 1; omega⟩

theorem flatRuns_append (R : List (List ℕ)) (r : List ℕ) :
    flatRuns (R ++ [r]) = flatRuns R ++ (r ++ [0]) := by
  induction R with
  | nil => simp [flatRuns]
  | cons q R ih => simp [flatRuns, ih]

theorem runMembers_append (R : List (List ℕ)) (r : List ℕ) :
    runMembers (R ++ [r]) = runMembers R ++ r := by
  induction R with
  | nil => simp [runMembers]
  | cons q R ih => simp [runMembers, ih]

theorem mem_runMembers (R : List (List ℕ)) (y : ℕ) :
    y ∈ runMembers R ↔ ∃ r ∈ R, y ∈ r := by
  induction R with
  | nil => simp [runMembers]
  | cons q R ih => simp [runMembers, ih]

theorem TabHolds_append (tab : ℕ → ℕ) : ∀ (L1 L2 : List ℕ) (pos : ℕ),
    TabHolds tab pos (L1 ++ L2) ↔ TabHolds tab pos L1 ∧ TabHolds tab (pos + L1.length) L2 := by
  intro L1
  induction L1 with
  | nil => intro L2 pos; simp [TabHolds]
  | cons a L1 ih =>
    intro L2 pos
    have e : pos + 1 + L1.length = pos + (L1.length + 1) := by omega
    show (tab pos = a ∧ TabHolds tab (pos + 1) (L1 ++ L2)) ↔
      ((tab pos = a ∧ TabHolds tab (pos + 1) L1) ∧ TabHolds tab (pos + (L1.length + 1)) L2)
    rw [ih, e, and_assoc]

theorem TabHolds_congr (tab tab2 : ℕ → ℕ) : ∀ (L : List ℕ) (pos : ℕ),
    (∀ p, pos ≤ p → p < pos + L.length → tab2 p = tab p) → TabHolds tab pos L →
    TabHolds tab2 pos L := by
  intro L
  induction L with
  | nil => intro pos _ _; trivial
  | cons a L ih =>
    intro pos h ht
    simp only [TabHolds] at ht ⊢
    refine ⟨by rw [h pos (le_refl _) (by simp)]; exact ht.1, ih (pos + 1) ?_ ht.2⟩
    intro p h1 h2
    exact h p (by omega) (by simp only [List.length_cons]; omega)

theorem TabHolds_iterate (tab : ℕ → ℕ) (σ : ℕ → ℕ) : ∀ (n x pos : ℕ),
    TabHolds tab pos (List.iterate σ x n) ↔ ∀ j, j < n → tab (pos + j) = σ^[j] x := by
  intro n
  induction n with
  | zero => intro x pos; simp [List.iterate, TabHolds]
  | succ n ih =>
    intro x pos
    simp only [List.iterate, TabHolds, ih]
    constructor
    · rintro ⟨h0, h1⟩ j hj
      rcases Nat.eq_zero_or_pos j with e | e
      · subst e; simpa using h0
      · have := h1 (j - 1) (by omega)
        rw [show pos + 1 + (j - 1) = pos + j by omega] at this
        rw [this, ← Function.iterate_succ_apply]
        congr 1
        omega
    · intro h
      refine ⟨by simpa using h 0 (by omega), fun j hj => ?_⟩
      have := h (j + 1) (by omega)
      rw [show pos + 1 + j = pos + (j + 1) by omega, this, Function.iterate_succ_apply]

end Builder
end WDLFFT

namespace WDLFFT
section BuilderStep

variable {σ : ℕ → ℕ} {N : ℕ}

/-- The body of the table-building loop at an index `k` that is not flagged and not fixed:
it writes the orbit of `k` and one `0`, and flags the orbit. -/
theorem reorder_build_step_run (h : PermOn σ N) (hN : N ≤ 32768) (s : ReorderBuild) (k : ℕ)
    (hk : k < N) (hf : s.flag k = false) (hm : σ k ≠ k) :
    ∃ s', reorder_build_step σ (some s) k = some s' ∧
      s'.pos = s.pos + Function.minimalPeriod σ k + 1 ∧
      (∀ j, j < Function.minimalPeriod σ k → s'.tab (s.pos + j) = σ^[j] k) ∧
      s'.tab (s.pos + Function.minimalPeriod σ k) = 0 ∧
      (∀ p, (p < s.pos ∨ s.pos + Function.minimalPeriod σ k + 1 ≤ p) → s'.tab p = s.tab p) ∧
      (∀ y, s'.flag y = true ↔
        (s.flag y = true ∨ ∃ j, j < Function.minimalPeriod σ k ∧ σ^[j] k = y)) := by
  have hP2 := h.two_le_minimalPeriod k hk hm
  have hPN := (h.minimalPeriod_bounds k hk).2
  have hS : S_TAB_SIZE = 65848 := by decide
  have hmin : ∀ j, 1 ≤ j → j < Function.minimalPeriod σ k → σ^[j] k ≠ k := by
    intro j h1 h2
    exact Function.not_isPeriodicPt_of_pos_of_lt_minimalPeriod (by omega) h2
  obtain ⟨s1, r1, r2, r3, r4⟩ := reorder_run_spec k (Function.minimalPeriod σ k)
    Function.iterate_minimalPeriod hmin (Function.minimalPeriod σ k - 2) S_TAB_SIZE
    (ReorderBuild.mk (Function.update s.flag k true) (Function.update s.tab s.pos k)
      (s.pos + 1)) 1 (le_refl 1) (by omega) (by omega)
  rw [Function.iterate_one] at r1
  simp only at r2 r3 r4
  refine ⟨{ s1 with tab := Function.update s1.tab s1.pos 0, pos := s1.pos + 1 }, ?_, ?_, ?_,
    ?_, ?_, ?_⟩
  · unfold reorder_build_step
    simp only [hf, hm, ne_eq, not_false_eq_true, and_self, if_true, r1]
  · simp only [r2]; omega
  · intro j hj
    simp only
    have hne : s.pos + j ≠ s1.pos := by omega
    rw [Function.update_noteq hne, r3]
    rcases Nat.eq_zero_or_pos j with e | e
    · subst e
      have a1 : ¬ (s.pos + 1 ≤ s.pos + 0 ∧
          s.pos + 0 < s.pos + 1 + (Function.minimalPeriod σ k - 2 + 1)) := by omega
      simp [a1]
    · have a1 : s.pos + 1 ≤ s.pos + j ∧
          s.pos + j < s.pos + 1 + (Function.minimalPeriod σ k - 2 + 1) := by omega
      rw [if_pos a1]
      congr 1
      omega
  · simp only
    have e : s.pos + Function.minimalPeriod σ k = s1.pos := by omega
    rw [e, Function.update_same]
  · intro p hp
    simp only
    have hne : p ≠ s1.pos := by omega
    rw [Function.update_noteq hne, r3]
    have a1 : ¬ (s.pos + 1 ≤ p ∧ p < s.pos + 1 + (Function.minimalPeriod σ k - 2 + 1)) := by
      omega
    rw [if_neg a1, Function.update_noteq (by omega)]
  · intro y
    simp only
    rw [r4]
    constructor
    · rintro (hy | ⟨j, hj, e⟩)
      · by_cases hyk : y = k
        · exact Or.inr ⟨0, by omega, hyk.symm⟩
        · rw [Function.update_noteq hyk] at hy
          exact Or.inl hy
      · exact Or.inr ⟨1 + j, by omega, e⟩
    · rintro (hy | ⟨j, hj, e⟩)
      · left
        by_cases hyk : y = k
        · rw [hyk]; simp
        · rw [Function.update_noteq hyk]; exact hy
      · rcases Nat.eq_zero_or_pos j with e0 | e0
        · subst e0
          left
          rw [← e]
          simp
        · exact Or.inr ⟨j - 1, by omega, by rw [← e]; congr 1; omega⟩

end BuilderStep
end WDLFFT

namespace WDLFFT
section BuilderInv

variable {σ : ℕ → ℕ} {N : ℕ}

/-- The loop invariant before the first index. -/
theorem buildInv_init (σ : ℕ → ℕ) (tab0 : ℕ → ℕ) (t0 : ℕ) :
    BuildInv σ tab0 t0 0 (ReorderBuild.mk (fun _ => false) tab0 t0) [] where
  flag := by intro y; simp
  holds := trivial
  pos := rfl
  frame := fun _ _ => rfl
  runs := by intro r hr; cases hr
  nodup := List.nodup_nil
  mem := by intro y; simp [runMembers]

/-- The loop invariant is kept by an index that is already flagged or fixed. -/
theorem buildInv_skip (tab0 : ℕ → ℕ) (t0 k : ℕ) (s : ReorderBuild)
    (R : List (List ℕ)) (inv : BuildInv σ tab0 t0 k s R)
    (hc : ¬ (s.flag k = false ∧ σ k ≠ k)) :
    BuildInv σ tab0 t0 (k + 1) { s with flag := Function.update s.flag k true } R where
  flag := by
    intro y
    simp only
    constructor
    · intro hy
      by_cases hyk : y = k
      · exact ⟨k, by omega, 0, hyk.symm⟩
      · rw [Function.update_noteq hyk] at hy
        obtain ⟨z, hz, j, e⟩ := (inv.flag y).mp hy
        exact ⟨z, by omega, j, e⟩
    · rintro ⟨z, hz, j, e⟩
      by_cases hyk : y = k
      · rw [hyk]; simp
      · rw [Function.update_noteq hyk]
        rcases Nat.lt_or_ge z k with hlt | hge
        · exact (inv.flag y).mpr ⟨z, hlt, j, e⟩
        · have hzk : z = k := by omega
          subst hzk
          by_cases hfl : s.flag z = true
          · obtain ⟨z2, hz2, j2, e2⟩ := (inv.flag z).mp hfl
            refine (inv.flag y).mpr ⟨z2, hz2, j + j2, ?_⟩
            rw [Function.iterate_add_apply, e2, e]
          · have hfix : σ z = z := by
              by_contra hne
              exact hc ⟨by simpa using hfl, hne⟩
            exact absurd ((iterate_fixed σ z hfix j).symm.trans e).symm hyk
  holds := inv.holds
  pos := inv.pos
  frame := inv.frame
  runs := inv.runs
  nodup := inv.nodup
  mem := by
    intro y
    simp only
    rw [inv.mem y]
    constructor
    · rintro ⟨h1, h2⟩
      refine ⟨?_, h2⟩
      by_cases hyk : y = k
      · rw [hyk]; simp
      · rw [Function.update_noteq hyk]; exact h1
    · rintro ⟨h1, h2⟩
      refine ⟨?_, h2⟩
      by_cases hyk : y = k
      · subst hyk
        by_contra hfl
        exact hc ⟨by simpa using hfl, h2⟩
      · rw [Function.update_noteq hyk] at h1; exact h1

/-- The loop invariant is kept by an index that starts a new run. -/
theorem buildInv_run (h : PermOn σ N) (tab0 : ℕ → ℕ) (t0 k : ℕ) (s s' : ReorderBuild)
    (R : List (List ℕ)) (hk : k < N) (inv : BuildInv σ tab0 t0 k s R)
    (hf : s.flag k = false) (hm : σ k ≠ k)
    (h2 : s'.pos = s.pos + Function.minimalPeriod σ k + 1)
    (h3 : ∀ j, j < Function.minimalPeriod σ k → s'.tab (s.pos + j) = σ^[j] k)
    (h4 : s'.tab (s.pos + Function.minimalPeriod σ k) = 0)
    (h5 : ∀ p, (p < s.pos ∨ s.pos + Function.minimalPeriod σ k + 1 ≤ p) → s'.tab p = s.tab p)
    (h6 : ∀ y, s'.flag y = true ↔
      (s.flag y = true ∨ ∃ j, j < Function.minimalPeriod σ k ∧ σ^[j] k = y)) :
    BuildInv σ tab0 t0 (k + 1) s'
      (R ++ [List.iterate σ k (Function.minimalPeriod σ k)]) where
  flag := by
    intro y
    rw [h6]
    constructor
    · rintro (hy | ⟨j, _, e⟩)
      · obtain ⟨z, hz, j, e⟩ := (inv.flag y).mp hy
        exact ⟨z, by omega, j, e⟩
      · exact ⟨k, by omega, j, e⟩
    · rintro ⟨z, hz, j, e⟩
      rcases Nat.lt_or_ge z k with hlt | hge
      · exact Or.inl ((inv.flag y).mpr ⟨z, hlt, j, e⟩)
      · have hzk : z = k := by omega
        subst hzk
        right
        obtain ⟨i, hi, e2⟩ := List.mem_iterate.mp ((h.mem_orbit_list z hk y).mpr ⟨j, e⟩)
        exact ⟨i, hi, e2.symm⟩
  holds := by
    rw [flatRuns_append, TabHolds_append, TabHolds_append]
    refine ⟨TabHolds_congr _ _ _ _ ?_ inv.holds, ?_, ?_⟩
    · intro p _ hp2
      exact h5 p (Or.inl (by rw [inv.pos]; exact hp2))
    · rw [← inv.pos, TabHolds_iterate]
      exact h3
    · rw [← inv.pos, List.length_iterate]
      exact ⟨h4, trivial⟩
  pos := by
    rw [h2, inv.pos, flatRuns_append]
    simp only [List.length_append, List.length_iterate, List.length_singleton]
    omega
  frame := by
    intro p hp
    have hpos := inv.pos
    rw [h5 p (by omega)]
    exact inv.frame p (by omega)
  runs := by
    intro r hr
    rcases List.mem_append.mp hr with hr | hr
    · exact inv.runs r hr
    · rw [List.mem_singleton] at hr
      exact ⟨k, Function.minimalPeriod σ k, hr, h.two_le_minimalPeriod k hk hm,
        Function.iterate_minimalPeriod, by rw [hr]; exact orbit_list_nodup σ k⟩
  nodup := by
    rw [runMembers_append]
    refine List.Nodup.append inv.nodup (orbit_list_nodup σ k) ?_
    intro y hy1 hy2
    have hfl := ((inv.mem y).mp hy1).1
    obtain ⟨z, hz, i, e⟩ := (inv.flag y).mp hfl
    obtain ⟨j, e2⟩ := (h.mem_orbit_list k hk y).mp hy2
    obtain ⟨i2, e3⟩ := h.orbit_symm k hk j
    have hkf : s.flag k = true := by
      refine (inv.flag k).mpr ⟨z, hz, i2 + i, ?_⟩
      rw [Function.iterate_add_apply, e, ← e2, e3]
    rw [hf] at hkf
    exact absurd hkf (by decide)
  mem := by
    intro y
    rw [runMembers_append, List.mem_append, h6, inv.mem y]
    constructor
    · rintro (⟨a1, a2⟩ | hy)
      · exact ⟨Or.inl a1, a2⟩
      · obtain ⟨j, hj, e⟩ := List.mem_iterate.mp hy
        refine ⟨Or.inr ⟨j, hj, e.symm⟩, ?_⟩
        intro hfix
        obtain ⟨i2, e3⟩ := h.orbit_symm k hk j
        rw [← e, iterate_fixed σ y hfix] at e3
        exact hm (by rw [← e3]; exact hfix)
    · rintro ⟨a1 | ⟨j, hj, e⟩, a2⟩
      · exact Or.inl ⟨a1, a2⟩
      · exact Or.inr (List.mem_iterate.mpr ⟨j, hj, e.symm⟩)

/-- The loop `for (x = 0; x < fft_sz; x++)` of `fft_make_reorder_table` returns and keeps
its invariant. -/
theorem build_inv (h : PermOn σ N) (hN : N ≤ 32768) (tab0 : ℕ → ℕ) (t0 : ℕ) :
    ∀ k, k ≤ N → ∃ s R,
      forLoop 0 k (reorder_build_step σ) (some (ReorderBuild.mk (fun _ => false) tab0 t0)) =
        some s ∧ BuildInv σ tab0 t0 k s R := by
  intro k
  induction k with
  | zero =>
    intro _
    exact ⟨_, [], forLoop_self _ _ _, buildInv_init σ tab0 t0⟩
  | succ k ih =>
    intro hk
    obtain ⟨s, R, e, inv⟩ := ih (by omega)
    rw [forLoop_succ 0 k (by omega), e]
    by_cases hc : s.flag k = false ∧ σ k ≠ k
    · obtain ⟨s', e1, h2, h3, h4, h5, h6⟩ :=
        reorder_build_step_run h hN s k (by omega) hc.1 hc.2
      exact ⟨s', _, e1, buildInv_run h tab0 t0 k s s' R (by omega) inv hc.1 hc.2 h2 h3 h4 h5 h6⟩
    · refine ⟨{ s with flag := Function.update s.flag k true }, R, ?_,
        buildInv_skip tab0 t0 k s R inv hc⟩
      unfold reorder_build_step
      simp only [hc, if_false]

end BuilderInv
end WDLFFT

namespace WDLFFT
section Reader

variable {T : Type} {σ : ℕ → ℕ}

/-- A run that is an orbit is closed under `σ`. -/
theorem IsOrbitRun.closed {r : List ℕ} (hr : IsOrbitRun σ r) (y : ℕ) (hy : y ∈ r) :
    σ y ∈ r := by
  obtain ⟨x, k, rfl, hk, hper, _⟩ := hr
  obtain ⟨j, hj, e⟩ := List.mem_iterate.mp hy
  rw [List.mem_iterate]
  rcases Nat.lt_or_ge (j + 1) k with h1 | h1
  · exact ⟨j + 1, h1, by rw [e, Function.iterate_succ_apply']⟩
  · have : j + 1 = k := by omega
    refine ⟨0, by omega, ?_⟩
    rw [e, ← Function.iterate_succ_apply' σ j x, show j.succ = k from this, hper]
    rfl

/-- Distinct positions of a run hold distinct indices. -/
theorem IsOrbitRun.distinct {x k : ℕ} (hn : (List.iterate σ x k).Nodup) (a b : ℕ)
    (ha : a < k) (hb : b < k) (e : σ^[a] x = σ^[b] x) : a = b := by
  rw [List.nodup_iff_injective_get] at hn
  have h := @hn ⟨a, by rw [List.length_iterate]; exact ha⟩
    ⟨b, by rw [List.length_iterate]; exact hb⟩
    (by simp only [List.get_eq_getElem, List.getElem_iterate]; exact e)
  exact Fin.mk.inj h

/-- The inner loop of the forward branch of `reorder_buffer` on the rest of a run: entered
with `lidx = σ^i x` while `m` entries remain before the `0`, it shifts the samples at
`σ^i x, ..., σ^(i+m-1) x` down by one step and stops after `m + 1` reads. -/
theorem reorder_fwd_run_spec (tab : ℕ → ℕ) (x : ℕ) :
    ∀ (m fuel : ℕ) (data : Buf T) (pos i : ℕ),
      (∀ j, j < m → tab (pos + j) = σ^[i + 1 + j] x) → tab (pos + m) = 0 →
      (∀ j, j < m → σ^[i + 1 + j] x ≠ 0) →
      (∀ a b, a ≤ m → b ≤ m → σ^[i + a] x = σ^[i + b] x → a = b) →
      m < fuel →
      ∃ data', reorder_fwd_run tab fuel data pos (σ^[i] x) =
          some (data', pos + m + 1, σ^[i + m] x) ∧
        (∀ j, j < m → data' (σ^[i + j] x) = data (σ^[i + j + 1] x)) ∧
        (∀ z, (∀ j, j < m → z ≠ σ^[i + j] x) → data' z = data z) := by
  intro m
  induction m with
  | zero =>
    intro fuel data pos i _ h0 _ _ hf
    obtain ⟨f, rfl⟩ : ∃ f, fuel = f + 1 := ⟨fuel - 1, by omega⟩
    refine ⟨data, ?_, fun j hj => by omega, fun z _ => rfl⟩
    rw [reorder_fwd_run]
    simp only [Nat.add_zero] at h0 ⊢
    simp only [h0, if_true]
  | succ m ih =>
    intro fuel data pos i ht h0 hnz hd hf
    obtain ⟨f, rfl⟩ : ∃ f, fuel = f + 1 := ⟨fuel - 1, by omega⟩
    have e1 : tab pos = σ^[i + 1] x := by simpa using ht 0 (by omega)
    have n1 : σ^[i + 1] x ≠ 0 := by simpa using hnz 0 (by omega)
    obtain ⟨data', r1, r2, r3⟩ := ih f
      (Function.update data (σ^[i] x) (data (σ^[i + 1] x))) (pos + 1) (i + 1)
      (fun j hj => by
        have := ht (j + 1) (by omega)
        rw [show pos + 1 + j = pos + (j + 1) by omega, this]
        congr 1
        omega)
      (by rw [show pos + 1 + m = pos + (m + 1) by omega]; exact h0)
      (fun j hj => by
        have := hnz (j + 1) (by omega)
        rwa [show i + 1 + 1 + j = i + 1 + (j + 1) by omega])
      (fun a b ha hb e => by
        have := hd (a + 1) (b + 1) (by omega) (by omega)
          (by rw [show i + (a + 1) = i + 1 + a by omega,
            show i + (b + 1) = i + 1 + b by omega]; exact e)
        omega)
      (by omega)
    refine ⟨data', ?_, ?_, ?_⟩
    · rw [reorder_fwd_run]
      simp only [e1, n1, if_false]
      rw [r1, show pos + 1 + m + 1 = pos + (m + 1) + 1 by omega,
        show i + 1 + m = i + (m + 1) by omega]
    · intro j hj
      rcases Nat.eq_zero_or_pos j with e | e
      · subst e
        rw [r3 _ (fun j2 hj2 he => by
          have := hd 0 (j2 + 1) (by omega) (by omega)
            (by rw [show i + (j2 + 1) = i + 1 + j2 by omega]; exact he)
          omega)]
        simp
      · have := r2 (j - 1) (by omega)
        rw [show i + 1 + (j - 1) = i + j by omega] at this
        rw [this, Function.update_noteq]
        intro he
        have := hd (j + 1) 0 (by omega) (by omega) (by simpa [Nat.add_assoc] using he)
        omega
    · intro z hz
      rw [r3 z (fun j hj => by
        have := hz (j + 1) (by omega)
        rwa [show i + (j + 1) = i + 1 + j by omega] at this)]
      rw [Function.update_noteq]
      simpa using hz 0 (by omega)

end Reader
end WDLFFT

namespace WDLFFT
section ReaderFwd

variable {T : Type} {σ : ℕ → ℕ}

/-- The table of a nonempty list of runs starts with the first run, then a `0`, then the
table of the other runs. -/
theorem TabHolds_cons_run (tab : ℕ → ℕ) (pos x k : ℕ) (R : List (List ℕ))
    (h : TabHolds tab pos (flatRuns (List.iterate σ x k :: R) ++ [0])) :
    (∀ j, j < k → tab (pos + j) = σ^[j] x) ∧ tab (pos + k) = 0 ∧
      TabHolds tab (pos + k + 1) (flatRuns R ++ [0]) := by
  have e : flatRuns (List.iterate σ x k :: R) ++ [0] =
      List.iterate σ x k ++ (0 :: (flatRuns R ++ [0])) := by
    simp [flatRuns]
  rw [e, TabHolds_append, TabHolds_iterate, List.length_iterate] at h
  exact ⟨h.1, h.2.1, h.2.2⟩

/-- The forward branch of `reorder_buffer` on a table of orbit runs: every index of a run
receives the sample of its image under `σ`, every other sample stays. -/
theorem reorder_fwd_spec (tab : ℕ → ℕ) :
    ∀ (R : List (List ℕ)) (fuel : ℕ) (data : Buf T) (pos : ℕ),
      TabHolds tab pos (flatRuns R ++ [0]) → (∀ r ∈ R, IsOrbitRun σ r) →
      (runMembers R).Nodup → (∀ y ∈ runMembers R, y ≠ 0) →
      (∀ r ∈ R, r.length ≤ S_TAB_SIZE) → R.length < fuel →
      ∃ data', reorder_fwd tab fuel data pos = some data' ∧
        (∀ y ∈ runMembers R, data' y = data (σ y)) ∧
        (∀ y, y ∉ runMembers R → data' y = data y) := by
  intro R
  induction R with
  | nil =>
    intro fuel data pos ht _ _ _ _ hf
    obtain ⟨f, rfl⟩ : ∃ f, fuel = f + 1 := ⟨fuel - 1, by omega⟩
    have h0 : tab pos = 0 := ht.1
    refine ⟨data, ?_, fun y hy => by simp [runMembers] at hy, fun y _ => rfl⟩
    rw [reorder_fwd, if_pos h0]
  | cons r R ih =>
    intro fuel data pos ht hr hn hz hl hf
    obtain ⟨f, rfl⟩ : ∃ f, fuel = f + 1 := ⟨fuel - 1, by simp at hf; omega⟩
    have hor := hr r (List.mem_cons_self _ _)
    obtain ⟨x, k, rfl, hk, hper, hnd⟩ := hor
    obtain ⟨t1, t2, t3⟩ := TabHolds_cons_run tab pos x k R ht
    have hmem : ∀ j, j < k → σ^[j] x ∈ runMembers (List.iterate σ x k :: R) := by
      intro j hj
      simp only [runMembers, List.mem_append]
      exact Or.inl (List.mem_iterate.mpr ⟨j, hj, rfl⟩)
    have hx0 : tab pos = x := by simpa using t1 0 (by omega)
    have hxn : x ≠ 0 := by simpa using hz _ (hmem 0 (by omega))
    have hlen : k ≤ S_TAB_SIZE := by
      simpa using hl _ (List.mem_cons_self _ _)
    obtain ⟨d1, r1, r2, r3⟩ := reorder_fwd_run_spec (σ := σ) tab x (k - 1) S_TAB_SIZE data
      (pos + 1) 0
      (fun j hj => by
        rw [show pos + 1 + j = pos + (1 + j) by omega, t1 _ (by omega)])
      (by rw [show pos + 1 + (k - 1) = pos + k by omega]; exact t2)
      (fun j hj => by
        have := hz _ (hmem (0 + 1 + j) (by omega))
        exact this)
      (fun a b ha hb e => by
        simp only [Nat.zero_add] at e
        exact IsOrbitRun.distinct hnd a b (by omega) (by omega) e)
      (by omega)
    simp only [Nat.zero_add, Function.iterate_zero, id_eq] at r1 r2 r3
    simp only [runMembers, List.nodup_append] at hn
    obtain ⟨_, hn2, hdis⟩ := hn
    obtain ⟨d2, q1, q2, q3⟩ := ih f (Function.update d1 (σ^[k - 1] x) (data x)) (pos + k + 1) t3
      (fun r hr2 => hr r (List.mem_cons_of_mem _ hr2)) hn2
      (fun y hy => hz y (by simp only [runMembers, List.mem_append]; exact Or.inr hy))
      (fun r hr2 => hl r (List.mem_cons_of_mem _ hr2))
      (by simp at hf; omega)
    have hlast : σ (σ^[k - 1] x) = x := by
      rw [← Function.iterate_succ_apply' σ (k - 1) x, show (k - 1).succ = k by omega, hper]
    refine ⟨d2, ?_, ?_, ?_⟩
    · rw [reorder_fwd, if_neg (by rw [hx0]; exact hxn)]
      simp only [hx0]
      rw [r1]
      simp only
      rw [show pos + 1 + (k - 1) + 1 = pos + k + 1 by omega]
      exact q1
    · intro y hy
      simp only [runMembers, List.mem_append] at hy
      rcases hy with hy | hy
      · have hy2 : y ∉ runMembers R := fun h2 => hdis hy h2
        rw [q3 y hy2]
        obtain ⟨j, hj, e⟩ := List.mem_iterate.mp hy
        rcases Nat.lt_or_ge j (k - 1) with hlt | hge
        · have hne : y ≠ σ^[k - 1] x := by
            intro he
            have := IsOrbitRun.distinct hnd j (k - 1) hj (by omega) (by rw [← e, he])
            omega
          rw [Function.update_noteq hne, e, r2 j hlt, Function.iterate_succ_apply']
        · have hj2 : j = k - 1 := by omega
          rw [e, hj2, Function.update_same, hlast]
      · have hor2 : ∃ r2 ∈ R, y ∈ r2 := (mem_runMembers R y).mp hy
        obtain ⟨r2', hr2, hy2⟩ := hor2
        have hcl : σ y ∈ runMembers R :=
          (mem_runMembers R (σ y)).mpr
            ⟨r2', hr2, (hr r2' (List.mem_cons_of_mem _ hr2)).closed y hy2⟩
        have hnot : σ y ∉ List.iterate σ x k := fun h2 => hdis h2 hcl
        rw [q2 y hy, Function.update_noteq, r3]
        · intro j hj he
          exact hnot (List.mem_iterate.mpr ⟨j, by omega, he⟩)
        · intro he
          exact hnot (List.mem_iterate.mpr ⟨k - 1, by omega, he⟩)
    · intro y hy
      simp only [runMembers, List.mem_append, not_or] at hy
      rw [q3 y hy.2, Function.update_noteq, r3]
      · intro j hj he
        exact hy.1 (List.mem_iterate.mpr ⟨j, by omega, he⟩)
      · intro he
        exact hy.1 (List.mem_iterate.mpr ⟨k - 1, by omega, he⟩)

end ReaderFwd
end WDLFFT

namespace WDLFFT
section ReaderInv

variable {T : Type} {σ : ℕ → ℕ}

/-- The inner loop of the inverse branch of `reorder_buffer` on the rest of a run: entered
with the carried sample `a` while `m` entries `σ^(i+1) x, ..., σ^(i+m) x` remain before the
`0`, it stores `a` at the first of them, moves each other sample one step up and carries the
last one out. -/
theorem reorder_inv_run_spec (tab : ℕ → ℕ) (x : ℕ) :
    ∀ (m fuel : ℕ) (data : Buf T) (pos i : ℕ) (a : cmplxT T),
      (∀ j, j < m → tab (pos + j) = σ^[i + 1 + j] x) → tab (pos + m) = 0 →
      (∀ j, j < m → σ^[i + 1 + j] x ≠ 0) →
      (∀ a b, a ≤ m → b ≤ m → σ^[i + a] x = σ^[i + b] x → a = b) →
      m < fuel →
      ∃ data' a', reorder_inv_run tab fuel data pos a = some (data', pos + m + 1, a') ∧
        a' = (if m = 0 then a else data (σ^[i + m] x)) ∧
        (1 ≤ m → data' (σ^[i + 1] x) = a) ∧
        (∀ j, 1 ≤ j → j < m → data' (σ^[i + 1 + j] x) = data (σ^[i + j] x)) ∧
        (∀ z, (∀ j, j < m → z ≠ σ^[i + 1 + j] x) → data' z = data z) := by
  intro m
  induction m with
  | zero =>
    intro fuel data pos i a _ h0 _ _ hf
    obtain ⟨f, rfl⟩ : ∃ f, fuel = f + 1 := ⟨fuel - 1, by omega⟩
    refine ⟨data, a, ?_, by simp, fun h => by omega, fun j h1 h2 => by omega, fun z _ => rfl⟩
    rw [reorder_inv_run]
    simp only [Nat.add_zero] at h0 ⊢
    simp only [h0, if_true]
  | succ m ih =>
    intro fuel data pos i a ht h0 hnz hd hf
    obtain ⟨f, rfl⟩ : ∃ f, fuel = f + 1 := ⟨fuel - 1, by omega⟩
    have e1 : tab pos = σ^[i + 1] x := by simpa using ht 0 (by omega)
    have n1 : σ^[i + 1] x ≠ 0 := by simpa using hnz 0 (by omega)
    obtain ⟨data', a', r1, r2, r3, r4, r5⟩ := ih f
      (Function.update data (σ^[i + 1] x) a) (pos + 1) (i + 1) (data (σ^[i + 1] x))
      (fun j hj => by
        have := ht (j + 1) (by omega)
        rw [show pos + 1 + j = pos + (j + 1) by omega, this]
        congr 1
        omega)
      (by rw [show pos + 1 + m = pos + (m + 1) by omega]; exact h0)
      (fun j hj => by
        have := hnz (j + 1) (by omega)
        rwa [show i + 1 + 1 + j = i + 1 + (j + 1) by omega])
      (fun a b ha hb e => by
        have := hd (a + 1) (b + 1) (by omega) (by omega)
          (by rw [show i + (a + 1) = i + 1 + a by omega,
            show i + (b + 1) = i + 1 + b by omega]; exact e)
        omega)
      (by omega)
    have dne : ∀ c, 1 ≤ c → c ≤ m → σ^[i + 1 + c] x ≠ σ^[i + 1] x := by
      intro c hc1 hc2 he
      have := hd (c + 1) 1 (by omega) (by omega)
        (by rw [show i + (c + 1) = i + 1 + c by omega]; exact he)
      omega
    refine ⟨data', a', ?_, ?_, ?_, ?_, ?_⟩
    · rw [reorder_inv_run]
      simp only [e1, n1, if_false]
      rw [r1, show pos + 1 + m + 1 = pos + (m + 1) + 1 by omega]
    · have hm1 : ¬ (m + 1 = 0) := by omega
      rw [r2, if_neg hm1]
      rcases Nat.eq_zero_or_pos m with e | e
      · subst e
        simp
      · have hm0 : ¬ (m = 0) := by omega
        rw [if_neg hm0, Function.update_noteq (dne m e (le_refl _))]
        congr 2
        omega
    · intro _
      rw [r5 _ (fun j hj he => by
        have := dne (j + 1) (by omega) (by omega)
        exact this (by rw [show i + 1 + (j + 1) = i + 1 + 1 + j by omega]; exact he.symm))]
      simp
    · intro j hj1 hj2
      rcases Nat.eq_or_lt_of_le hj1 with e | e
      · subst e
        exact r3 (by omega)
      · have := r4 (j - 1) (by omega) (by omega)
        rw [show i + 1 + 1 + (j - 1) = i + 1 + j by omega,
          show i + 1 + (j - 1) = i + j by omega] at this
        rw [this, Function.update_noteq]
        have := dne (j - 1) (by omega) (by omega)
        rwa [show i + 1 + (j - 1) = i + j by omega] at this
    · intro z hz
      rw [r5 z (fun j hj => by
        have := hz (j + 1) (by omega)
        rwa [show i + 1 + (j + 1) = i + 1 + 1 + j by omega] at this)]
      rw [Function.update_noteq]
      simpa using hz 0 (by omega)

/-- The inverse branch of `reorder_buffer` on a table of orbit runs: the sample of every
index of a run moves to the image of that index under `σ`, every other sample stays. -/
theorem reorder_inv_spec (tab : ℕ → ℕ) :
    ∀ (R : List (List ℕ)) (fuel : ℕ) (data : Buf T) (pos : ℕ),
      TabHolds tab pos (flatRuns R ++ [0]) → (∀ r ∈ R, IsOrbitRun σ r) →
      (runMembers R).Nodup → (∀ y ∈ runMembers R, y ≠ 0) →
      (∀ r ∈ R, r.length ≤ S_TAB_SIZE) → R.length < fuel →
      ∃ data', reorder_inv tab fuel data pos = some data' ∧
        (∀ y ∈ runMembers R, data' (σ y) = data y) ∧
        (∀ y, y ∉ runMembers R → data' y = data y) := by
  intro R
  induction R with
  | nil =>
    intro fuel data pos ht _ _ _ _ hf
    obtain ⟨f, rfl⟩ : ∃ f, fuel = f + 1 := ⟨fuel - 1, by omega⟩
    have h0 : tab pos = 0 := ht.1
    refine ⟨data, ?_, fun y hy => by simp [runMembers] at hy, fun y _ => rfl⟩
    rw [reorder_inv, if_pos h0]
  | cons r R ih =>
    intro fuel data pos ht hr hn hz hl hf
    obtain ⟨f, rfl⟩ : ∃ f, fuel = f + 1 := ⟨fuel - 1, by simp at hf; omega⟩
    have hor := hr r (List.mem_cons_self _ _)
    obtain ⟨x, k, rfl, hk, hper, hnd⟩ := hor
    obtain ⟨t1, t2, t3⟩ := TabHolds_cons_run tab pos x k R ht
    have hmem : ∀ j, j < k → σ^[j] x ∈ runMembers (List.iterate σ x k :: R) := by
      intro j hj
      simp only [runMembers, List.mem_append]
      exact Or.inl (List.mem_iterate.mpr ⟨j, hj, rfl⟩)
    have hx0 : tab pos = x := by simpa using t1 0 (by omega)
    have hxn : x ≠ 0 := by simpa using hz _ (hmem 0 (by omega))
    have hlen : k ≤ S_TAB_SIZE := by
      simpa using hl _ (List.mem_cons_self _ _)
    obtain ⟨d1, a1, r1, r2, r3, r4, r5⟩ := reorder_inv_run_spec (σ := σ) tab x (k - 1)
      S_TAB_SIZE data (pos + 1) 0 (data x)
      (fun j hj => by
        rw [show pos + 1 + j = pos + (1 + j) by omega, t1 _ (by omega)])
      (by rw [show pos + 1 + (k - 1) = pos + k by omega]; exact t2)
      (fun j hj => by
        have := hz _ (hmem (0 + 1 + j) (by omega))
        exact this)
      (fun a b ha hb e => by
        simp only [Nat.zero_add] at e
        exact IsOrbitRun.distinct hnd a b (by omega) (by omega) e)
      (by omega)
    have hk1 : ¬ (k - 1 = 0) := by omega
    simp only [Nat.zero_add, hk1, if_false] at r1 r2 r3 r4 r5
    simp only [runMembers, List.nodup_append] at hn
    obtain ⟨_, hn2, hdis⟩ := hn
    obtain ⟨d2, q1, q2, q3⟩ := ih f (Function.update d1 x a1) (pos + k + 1) t3
      (fun r hr2 => hr r (List.mem_cons_of_mem _ hr2)) hn2
      (fun y hy => hz y (by simp only [runMembers, List.mem_append]; exact Or.inr hy))
      (fun r hr2 => hl r (List.mem_cons_of_mem _ hr2))
      (by simp at hf; omega)
    have hlast : σ (σ^[k - 1] x) = x := by
      rw [← Function.iterate_succ_apply' σ (k - 1) x, show (k - 1).succ = k by omega, hper]
    have hrun : IsOrbitRun σ (List.iterate σ x k) := ⟨x, k, rfl, hk, hper, hnd⟩
    refine ⟨d2, ?_, ?_, ?_⟩
    · rw [reorder_inv, if_neg (by rw [hx0]; exact hxn)]
      simp only [hx0]
      rw [r1]
      simp only
      rw [show pos + 1 + (k - 1) + 1 = pos + k + 1 by omega]
      exact q1
    · intro y hy
      simp only [runMembers, List.mem_append] at hy
      rcases hy with hy | hy
      · have hy2 : σ y ∉ runMembers R := fun h2 => hdis (hrun.closed y hy) h2
        rw [q3 _ hy2]
        obtain ⟨j, hj, e⟩ := List.mem_iterate.mp hy
        rcases Nat.lt_or_ge j (k - 1) with hlt | hge
        · have hne : σ y ≠ x := by
            intro he
            rw [e, ← Function.iterate_succ_apply' σ j x] at he
            have := IsOrbitRun.distinct hnd (j + 1) 0 (by omega) (by omega) he
            omega
          rw [Function.update_noteq hne]
          rcases Nat.eq_zero_or_pos j with e0 | e0
          · subst e0
            rw [e]
            exact r3 (by omega)
          · have := r4 j e0 hlt
            rw [e, ← Function.iterate_succ_apply' σ j x, show j.succ = 1 + j by omega]
            exact this
        · have hj2 : j = k - 1 := by omega
          rw [e, hj2, hlast, Function.update_same, r2]
      · have hy2 : y ∉ List.iterate σ x k := fun h2 => hdis h2 hy
        rw [q2 y hy, Function.update_noteq, r5]
        · intro j hj he
          exact hy2 (List.mem_iterate.mpr ⟨1 + j, by omega, he⟩)
        · intro he
          exact hy2 (List.mem_iterate.mpr ⟨0, by omega, he⟩)
    · intro y hy
      simp only [runMembers, List.mem_append, not_or] at hy
      rw [q3 y hy.2, Function.update_noteq, r5]
      · intro j hj he
        exact hy.1 (List.mem_iterate.mpr ⟨1 + j, by omega, he⟩)
      · intro he
        exact hy.1 (List.mem_iterate.mpr ⟨0, by omega, he⟩)

end ReaderInv
end WDLFFT

namespace WDLFFT
section TableSpec

/-- A permutation table that inverts `i ↦ (N - fftfreq_c(i,N)) mod N` is a permutation of
`[0, N)` fixing `0`. -/
theorem permOn_of_table {T : Type} (g : Globals T) (c : ℕ) (hc : c ≤ 31)
    (hp : ∀ i, i < 2 ^ c →
      WDL_fft_permute g (2 ^ c) ((2 ^ c - fftfreq_c i (2 ^ c)) % 2 ^ c) = i) :
    PermOn (fun x => WDL_fft_permute g (2 ^ c) x) (2 ^ c) := by
  have hpos : 0 < 2 ^ c := Nat.pos_pow_of_pos c (by norm_num)
  have hsurj : ∀ k, k < 2 ^ c → ∃ i, i < 2 ^ c ∧ (2 ^ c - fftfreq_c i (2 ^ c)) % 2 ^ c = k := by
    intro k hk
    obtain ⟨i, hi, hfi⟩ := fftfreq_c_surj c hc ((2 ^ c - k) % 2 ^ c) (Nat.mod_lt _ hpos)
    refine ⟨i, hi, ?_⟩
    rw [hfi]
    rcases Nat.eq_zero_or_pos k with h | h
    · subst h; simp
    · rw [Nat.mod_eq_of_lt (by omega : 2 ^ c - k < 2 ^ c)]
      have : 2 ^ c - (2 ^ c - k) = k := by omega
      rw [this, Nat.mod_eq_of_lt hk]
  refine ⟨?_, ?_, ?_⟩
  · intro x hx
    obtain ⟨i, hi, e⟩ := hsurj x hx
    show WDL_fft_permute g (2 ^ c) x < 2 ^ c
    rw [← e, hp i hi]
    exact hi
  · intro x y hx hy e
    obtain ⟨i, hi, e1⟩ := hsurj x hx
    obtain ⟨j, hj, e2⟩ := hsurj y hy
    have e : WDL_fft_permute g (2 ^ c) x = WDL_fft_permute g (2 ^ c) y := e
    rw [← e1, ← e2, hp i hi, hp j hj] at e
    rw [← e1, ← e2, e]
  · have := hp 0 hpos
    rw [fftfreq_c_zero c hc] at this
    show WDL_fft_permute g (2 ^ c) 0 = 0
    simpa using this

/-- A list without repetition of numbers below `N` has at most `N` entries. -/
theorem nodup_length_le (L : List ℕ) (N : ℕ) (hn : L.Nodup) (hb : ∀ y ∈ L, y < N) :
    L.length ≤ N := by
  rw [← List.toFinset_card_of_nodup hn]
  have : L.toFinset ⊆ Finset.range N := by
    intro y hy
    rw [List.mem_toFinset] at hy
    exact Finset.mem_range.mpr (hb y hy)
  simpa using Finset.card_le_card this

/-- Every run is a sublist of the member list, so no longer than it. -/
theorem run_length_le (R : List (List ℕ)) (r : List ℕ) (hr : r ∈ R) :
    r.length ≤ (runMembers R).length := by
  induction R with
  | nil => cases hr
  | cons q R ih =>
    simp only [runMembers, List.length_append]
    rcases List.mem_cons.mp hr with e | e
    · subst e; omega
    · have := ih e; omega

/-- There are at most as many runs as members when no run is empty. -/
theorem runs_length_le (R : List (List ℕ)) (hr : ∀ r ∈ R, 1 ≤ r.length) :
    R.length ≤ (runMembers R).length := by
  induction R with
  | nil => simp
  | cons q R ih =>
    simp only [runMembers, List.length_append, List.length_cons]
    have h1 := hr q (List.mem_cons_self _ _)
    have h2 := ih (fun r hr2 => hr r (List.mem_cons_of_mem _ hr2))
    omega

/-- The table builder returns, and what it writes is the cycle table of the permutation. -/
theorem make_table_spec {T : Type} (g : Globals T) (b : ℕ) (hb : b ≤ 15) (t0 : ℕ)
    (hperm : PermOn (fun x => WDL_fft_permute g (2 ^ b) x) (2 ^ b)) :
    ∃ t R, fft_make_reorder_table g b t0 = some t ∧
      IsCycleTable (fun x => WDL_fft_permute g (2 ^ b) x) (2 ^ b) g.s_tab t t0 R := by
  have hN : 2 ^ b ≤ 32768 := by
    have : (2:ℕ) ^ b ≤ 2 ^ 15 := Nat.pow_le_pow_right (by norm_num) hb
    norm_num at this; exact this
  obtain ⟨s, R, e, inv⟩ := build_inv hperm hN g.s_tab t0 (2 ^ b) (le_refl _)
  refine ⟨Function.update s.tab s.pos 0, R, ?_, ?_⟩
  · unfold fft_make_reorder_table
    simp only [Nat.one_shiftLeft]
    rw [e]
  · have hpos := inv.pos
    refine ⟨?_, ?_, inv.runs, inv.nodup, ?_⟩
    · rw [TabHolds_append]
      refine ⟨TabHolds_congr _ _ _ _ ?_ inv.holds, ?_, trivial⟩
      · intro p _ hp2
        rw [Function.update_noteq (by omega)]
      · rw [← hpos, Function.update_same]
    · intro p hp
      rw [Function.update_noteq (by omega)]
      exact inv.frame p (by omega)
    · intro y
      rw [inv.mem y, inv.flag y]
      constructor
      · rintro ⟨⟨z, hz, j, e2⟩, h2⟩
        exact ⟨by rw [← e2]; exact hperm.iterate_lt z hz j, h2⟩
      · rintro ⟨h1, h2⟩
        exact ⟨⟨y, h1, 0, rfl⟩, h2⟩

end TableSpec
end WDLFFT

namespace WDLFFT
section Floorlog

/-- On a positive `x` below `2^fuel` the recursion of `floorlog2` returns within `fuel`
unfoldings, with the floor of the binary logarithm. -/
theorem floorlog2_rec_spec : ∀ (fuel : ℕ) (x : ℕ), 1 ≤ x → x < 2 ^ fuel →
    floorlog2_rec fuel (x : ℤ) = some (Nat.log 2 x) := by
  intro fuel
  induction fuel with
  | zero => intro x h1 h2; simp at h2; omega
  | succ fuel ih =>
    intro x h1 h2
    rw [floorlog2_rec]
    rcases Nat.eq_or_lt_of_le h1 with e | e
    · subst e
      simp
    · have hne : ¬ ((x : ℤ) = 1) := by omega
      have hs0 : (x : ℤ) >>> 1 = ((x >>> 1 : ℕ) : ℤ) := rfl
      have hs : (x : ℤ) >>> 1 = ((x / 2 : ℕ) : ℤ) := by
        rw [hs0, Nat.shiftRight_eq_div_pow, pow_one]
      rw [if_neg hne, hs, ih (x / 2) (by omega) (by rw [pow_succ] at h2; omega)]
      simp only [Option.map_some']
      rw [Nat.log_of_one_lt_of_le (by norm_num) (by omega : 2 ≤ x)]
      congr 1
      omega

/-- `floorlog2` of a positive 32-bit integer is the floor of its binary logarithm. -/
theorem floorlog2_spec (x : ℕ) (h1 : 1 ≤ x) (h2 : x < 2 ^ 32) :
    floorlog2 (x : ℤ) = some (Nat.log 2 x) :=
  floorlog2_rec_spec 32 x h1 h2

/-- `floorlog2` of a power of two is the exponent. -/
theorem floorlog2_pow (c : ℕ) (hc : c ≤ 31) : floorlog2 ((2 ^ c : ℕ) : ℤ) = some c := by
  rw [floorlog2_spec (2 ^ c) Nat.one_le_two_pow
    (Nat.pow_lt_pow_right (by norm_num) (by omega)), Nat.log_pow (by norm_num)]

end Floorlog
end WDLFFT

namespace WDLFFT
section ReorderBuffer

variable {T : Type}

/-- What `reorder_buffer` does when the array `s_tab` holds the cycle table of the size:
forward, the sample at `x` becomes the old sample at `σ x`; inverse, the old sample at `x`
moves to `σ x`; samples from `N` on stay. -/
theorem reorder_buffer_spec (g : Globals T) (c : ℕ) (hc : c ≤ 15) (σ : ℕ → ℕ)
    (hperm : PermOn σ (2 ^ c)) (tab0 : ℕ → ℕ) (R : List (List ℕ))
    (htab : IsCycleTable σ (2 ^ c) tab0 g.s_tab (fft_reorder_table_for_bitsize c) R)
    (buf : ℕ → T) (isInverse : ℤ) :
    ∃ new, reorder_buffer g ((2 ^ c : ℕ) : ℤ) buf isInverse = some new ∧
      (∀ x, x < 2 ^ c → (isInverse = 0 → asCmplx new x = asCmplx buf (σ x)) ∧
        (isInverse ≠ 0 → asCmplx new (σ x) = asCmplx buf x)) ∧
      (∀ x, 2 ^ c ≤ x → asCmplx new x = asCmplx buf x) := by
  have hN : 2 ^ c ≤ 32768 := by
    have : (2:ℕ) ^ c ≤ 2 ^ 15 := Nat.pow_le_pow_right (by norm_num) hc
    norm_num at this; exact this
  have hS : S_TAB_SIZE = 65848 := by decide
  have hlt : ∀ y ∈ runMembers R, y < 2 ^ c := fun y hy => ((htab.mem y).mp hy).1
  have hz : ∀ y ∈ runMembers R, y ≠ 0 := by
    intro y hy e
    subst e
    exact ((htab.mem 0).mp hy).2 hperm.zero
  have hml := nodup_length_le _ _ htab.nodup hlt
  have hl : ∀ r ∈ R, r.length ≤ S_TAB_SIZE := by
    intro r hr
    have := run_length_le R r hr
    omega
  have hrl : R.length < S_TAB_SIZE := by
    have := runs_length_le R (fun r hr => by
      obtain ⟨x, k, e, hk, _, _⟩ := htab.runs r hr
      rw [e, List.length_iterate]; omega)
    omega
  have hcast : ∀ a : Buf T, asCmplx (fun j => if j % 2 = 0 then (a (j / 2)).re
      else (a (j / 2)).im) = a := by
    intro a
    funext i
    have e1 : (2 * i) % 2 = 0 := by omega
    have e2 : ¬ ((2 * i + 1) % 2 = 0) := by omega
    have e3 : 2 * i / 2 = i := by omega
    have e4 : (2 * i + 1) / 2 = i := by omega
    simp only [asCmplx, e1, e2, e3, e4, if_true, if_false]
  unfold reorder_buffer
  rw [floorlog2_pow c (by omega)]
  simp only
  by_cases hi : isInverse = 0
  · obtain ⟨d, e, q1, q2⟩ := reorder_fwd_spec (σ := σ) g.s_tab R S_TAB_SIZE (asCmplx buf)
      (fft_reorder_table_for_bitsize c) htab.holds htab.runs htab.nodup hz hl hrl
    have e' : reorder_fwd g.s_tab S_TAB_SIZE (fun i => ⟨buf (2 * i), buf (2 * i + 1)⟩)
        (fft_reorder_table_for_bitsize c) = some d := e
    rw [if_neg (by simpa using hi), e']
    refine ⟨_, rfl, ?_, ?_⟩
    · intro x hx
      refine ⟨fun _ => ?_, fun h => absurd hi h⟩
      rw [hcast]
      by_cases hm : x ∈ runMembers R
      · exact q1 x hm
      · rw [q2 x hm]
        have : σ x = x := by
          by_contra hne
          exact hm ((htab.mem x).mpr ⟨hx, hne⟩)
        rw [this]
    · intro x hx
      rw [hcast]
      exact q2 x (fun hm => by have := hlt x hm; omega)
  · obtain ⟨d, e, q1, q2⟩ := reorder_inv_spec (σ := σ) g.s_tab R S_TAB_SIZE (asCmplx buf)
      (fft_reorder_table_for_bitsize c) htab.holds htab.runs htab.nodup hz hl hrl
    have e' : reorder_inv g.s_tab S_TAB_SIZE (fun i => ⟨buf (2 * i), buf (2 * i + 1)⟩)
        (fft_reorder_table_for_bitsize c) = some d := e
    rw [if_pos hi, e']
    refine ⟨_, rfl, ?_, ?_⟩
    · intro x hx
      refine ⟨fun h => absurd h hi, fun _ => ?_⟩
      rw [hcast]
      by_cases hm : x ∈ runMembers R
      · exact q1 x hm
      · have : σ x = x := by
          by_contra hne
          exact hm ((htab.mem x).mpr ⟨hx, hne⟩)
        rw [this]
        exact q2 x hm
    · intro x hx
      rw [hcast]
      exact q2 x (fun hm => by have := hlt x hm; omega)

end ReorderBuffer
end WDLFFT

namespace WDLFFT
section ReorderClaims

variable {T : Type} [Field T]

/-- After `WDL_fft_init` the permutation `WDL_fft_permute(2^c, ·)` is a permutation of
`[0, 2^c)` fixing `0`, and every index below `2^c` is one of its values. -/
theorem init_permOn (F : Trig T) (g0 : Globals T) (h0 : g0.ffttabinit = false) (c : ℕ)
    (hc1 : 1 ≤ c) (hc : c ≤ 15) :
    PermOn (fun x => WDL_fft_permute (WDL_fft_init F g0) (2 ^ c) x) (2 ^ c) ∧
    (∀ i, i < 2 ^ c → ∃ k, k < 2 ^ c ∧ WDL_fft_permute (WDL_fft_init F g0) (2 ^ c) k = i) := by
  refine ⟨permOn_of_table _ c (by omega) (fun i hi => permute_init F g0 h0 c hc1 hc i hi), ?_⟩
  intro i hi
  exact ⟨_, Nat.mod_lt _ (Nat.pos_pow_of_pos c (by norm_num)), permute_init F g0 h0 c hc1 hc i hi⟩

/-- In a run that is an orbit, every entry is the image of its predecessor, cyclically. -/
theorem IsOrbitRun.successor {σ : ℕ → ℕ} {r : List ℕ} (hr : IsOrbitRun σ r) :
    2 ≤ r.length ∧
    ∀ j, j < r.length → r.getD ((j + 1) % r.length) 0 = σ (r.getD j 0) := by
  obtain ⟨x, k, rfl, hk, hper, _⟩ := hr
  rw [List.length_iterate]
  refine ⟨hk, fun j hj => ?_⟩
  have hm : (j + 1) % k < k := Nat.mod_lt _ (by omega)
  rw [List.getD_eq_getElem _ _ (by rw [List.length_iterate]; exact hm),
    List.getD_eq_getElem _ _ (by rw [List.length_iterate]; exact hj),
    List.getElem_iterate, List.getElem_iterate, ← Function.iterate_succ_apply' σ j x]
  rcases Nat.lt_or_ge (j + 1) k with h1 | h1
  · rw [Nat.mod_eq_of_lt h1]
  · have e : j + 1 = k := by omega
    rw [e, Nat.mod_self, show j.succ = k from e, hper]
    rfl

/-- Claim C19 (structure of the cycle table). For every bit size `b` in `1..15` and every
offset `tab`, `fft_make_reorder_table(b,tab)` returns; what it writes from `tab` on is a
sequence of runs, each followed by one `0`, and one final `0`; every run has at least two
entries, none of them `0`, each the `WDL_fft_permute` of its predecessor and the first the
`WDL_fft_permute` of the last; the runs hold no index twice, and they hold exactly the
indices `x < 2^b` with `WDL_fft_permute(2^b,x) ≠ x`; the rest of `s_tab` is untouched. -/
theorem reorder_table_structure (F : Trig T) (g0 : Globals T) (h0 : g0.ffttabinit = false)
    (b : ℕ) (hb1 : 1 ≤ b) (hb : b ≤ 15) (tab : ℕ) :
    ∃ t R, fft_make_reorder_table (WDL_fft_init F g0) b tab = some t ∧
      TabHolds t tab (flatRuns R ++ [0]) ∧
      (∀ r ∈ R, 2 ≤ r.length ∧ 0 ∉ r ∧
        ∀ j, j < r.length → r.getD ((j + 1) % r.length) 0 =
          WDL_fft_permute (WDL_fft_init F g0) (2 ^ b) (r.getD j 0)) ∧
      (runMembers R).Nodup ∧
      (∀ x, x ∈ runMembers R ↔
        (x < 2 ^ b ∧ WDL_fft_permute (WDL_fft_init F g0) (2 ^ b) x ≠ x)) ∧
      (∀ p, (p < tab ∨ tab + (flatRuns R).length + 1 ≤ p) →
        t p = (WDL_fft_init F g0).s_tab p) := by
  have hperm := (init_permOn F g0 h0 b hb1 hb).1
  obtain ⟨t, R, e, ht⟩ := make_table_spec (WDL_fft_init F g0) b hb tab hperm
  refine ⟨t, R, e, ht.holds, ?_, ht.nodup, ht.mem, ht.frame⟩
  intro r hr
  have hs := (ht.runs r hr).successor
  refine ⟨hs.1, ?_, hs.2⟩
  intro h0r
  have := (ht.mem 0).mp ((mem_runMembers R 0).mpr ⟨r, hr, h0r⟩)
  exact this.2 hperm.zero

/-- Witness for C19: bit size 2 (the table of size 4) at offset 0. -/
theorem reorder_table_structure_witness :
    ∃ t R, fft_make_reorder_table (WDL_fft_init ⟨(0 : ℚ), id, id⟩ zeroGlobals) 2 0 = some t ∧
      TabHolds t 0 (flatRuns R ++ [0]) ∧
      (∀ r ∈ R, 2 ≤ r.length ∧ 0 ∉ r ∧
        ∀ j, j < r.length → r.getD ((j + 1) % r.length) 0 =
          WDL_fft_permute (WDL_fft_init ⟨(0 : ℚ), id, id⟩ zeroGlobals) (2 ^ 2) (r.getD j 0)) ∧
      (runMembers R).Nodup ∧
      (∀ x, x ∈ runMembers R ↔
        (x < 2 ^ 2 ∧ WDL_fft_permute (WDL_fft_init ⟨(0 : ℚ), id, id⟩ zeroGlobals) (2 ^ 2) x ≠ x)) ∧
      (∀ p, (p < 0 ∨ 0 + (flatRuns R).length + 1 ≤ p) →
        t p = (WDL_fft_init ⟨(0 : ℚ), id, id⟩ zeroGlobals).s_tab p) :=
  reorder_table_structure ⟨(0 : ℚ), id, id⟩ zeroGlobals rfl 2 (by decide) (by decide) 0

end ReorderClaims
end WDLFFT

namespace WDLFFT
section ReorderClaims2

variable {T : Type} [Field T]

omit [Field T] in
/-- Two `T *` buffers with the same complex samples are equal. -/
theorem eq_of_asCmplx_eq (a b : ℕ → T) (h : ∀ x, asCmplx a x = asCmplx b x) : a = b := by
  funext j
  have h1 := congrArg cmplxT.re (h (j / 2))
  have h2 := congrArg cmplxT.im (h (j / 2))
  simp only [asCmplx] at h1 h2
  rcases Nat.mod_two_eq_zero_or_one j with e | e
  · rwa [show 2 * (j / 2) = j by omega] at h1
  · rwa [show 2 * (j / 2) + 1 = j by omega] at h2

/-- Claim C8 (the forward reorder applies the permutation). For every supported size
`N = 2^c` with the tables of `WDL_fft_init`, `fft_make_reorder_table` builds the table of
the bit size `c`, and with it `reorder_buffer(N,buf,0)` returns with
`new[x] = old[WDL_fft_permute(N,x)]` for every `x < N`, while the inverse direction returns
with `new[WDL_fft_permute(N,x)] = old[x]`. -/
theorem reorder_applies_permutation (F : Trig T) (g0 : Globals T)
    (h0 : g0.ffttabinit = false) (c : ℕ) (hc1 : 1 ≤ c) (hc : c ≤ 15) (buf : ℕ → T)
    (isInverse : ℤ) (hinv : isInverse ≠ 0) :
    ∃ t, fft_make_reorder_table (WDL_fft_init F g0) c (fft_reorder_table_for_bitsize c) =
        some t ∧
      (∃ new, reorder_buffer { WDL_fft_init F g0 with s_tab := t } ((2 ^ c : ℕ) : ℤ) buf 0 =
          some new ∧
        ∀ x, x < 2 ^ c →
          asCmplx new x = asCmplx buf (WDL_fft_permute (WDL_fft_init F g0) (2 ^ c) x)) ∧
      (∃ new, reorder_buffer { WDL_fft_init F g0 with s_tab := t } ((2 ^ c : ℕ) : ℤ) buf
          isInverse = some new ∧
        ∀ x, x < 2 ^ c →
          asCmplx new (WDL_fft_permute (WDL_fft_init F g0) (2 ^ c) x) = asCmplx buf x) := by
  have hperm := (init_permOn F g0 h0 c hc1 hc).1
  obtain ⟨t, R, e, ht⟩ := make_table_spec (WDL_fft_init F g0) c hc
    (fft_reorder_table_for_bitsize c) hperm
  refine ⟨t, e, ?_, ?_⟩
  · obtain ⟨new, e1, q1, _⟩ := reorder_buffer_spec { WDL_fft_init F g0 with s_tab := t } c hc _
      hperm _ R ht buf 0
    exact ⟨new, e1, fun x hx => (q1 x hx).1 rfl⟩
  · obtain ⟨new, e1, q1, _⟩ := reorder_buffer_spec { WDL_fft_init F g0 with s_tab := t } c hc _
      hperm _ R ht buf isInverse
    exact ⟨new, e1, fun x hx => (q1 x hx).2 hinv⟩

/-- Witness for C8: size 8 on a rational buffer, from the zero-initialised statics. -/
theorem reorder_applies_permutation_witness :
    ∃ t, fft_make_reorder_table (WDL_fft_init ⟨(0 : ℚ), id, id⟩ zeroGlobals) 3
        (fft_reorder_table_for_bitsize 3) = some t ∧
      (∃ new, reorder_buffer { WDL_fft_init ⟨(0 : ℚ), id, id⟩ zeroGlobals with s_tab := t }
          ((2 ^ 3 : ℕ) : ℤ) (fun (j : ℕ) => (j : ℚ)) 0 = some new ∧
        ∀ x, x < 2 ^ 3 →
          asCmplx new x = asCmplx (fun (j : ℕ) => (j : ℚ))
            (WDL_fft_permute (WDL_fft_init ⟨(0 : ℚ), id, id⟩ zeroGlobals) (2 ^ 3) x)) ∧
      (∃ new, reorder_buffer { WDL_fft_init ⟨(0 : ℚ), id, id⟩ zeroGlobals with s_tab := t }
          ((2 ^ 3 : ℕ) : ℤ) (fun (j : ℕ) => (j : ℚ)) 1 = some new ∧
        ∀ x, x < 2 ^ 3 →
          asCmplx new (WDL_fft_permute (WDL_fft_init ⟨(0 : ℚ), id, id⟩ zeroGlobals) (2 ^ 3) x) =
            asCmplx (fun (j : ℕ) => (j : ℚ)) x) :=
  reorder_applies_permutation ⟨(0 : ℚ), id, id⟩ zeroGlobals rfl 3 (by decide) (by decide)
    (fun (j : ℕ) => (j : ℚ)) 1 (by decide)

/-- Claim C7 (fidelity of the cycle table). For every supported size `N = 2^c` with the
tables of `WDL_fft_init` and the cycle table built by `fft_make_reorder_table` for the bit
size `c`, and every buffer, `reorder_buffer(N,buf,0)` followed by `reorder_buffer(N,buf,1)`
returns the original buffer, and so does the inverse followed by the forward direction. -/
theorem reorder_round_trip (F : Trig T) (g0 : Globals T) (h0 : g0.ffttabinit = false)
    (c : ℕ) (hc1 : 1 ≤ c) (hc : c ≤ 15) (buf : ℕ → T) (isInverse : ℤ)
    (hinv : isInverse ≠ 0) :
    ∃ t, fft_make_reorder_table (WDL_fft_init F g0) c (fft_reorder_table_for_bitsize c) =
        some t ∧
      (∃ mid, reorder_buffer { WDL_fft_init F g0 with s_tab := t } ((2 ^ c : ℕ) : ℤ) buf 0 =
          some mid ∧
        reorder_buffer { WDL_fft_init F g0 with s_tab := t } ((2 ^ c : ℕ) : ℤ) mid isInverse =
          some buf) ∧
      (∃ mid, reorder_buffer { WDL_fft_init F g0 with s_tab := t } ((2 ^ c : ℕ) : ℤ) buf
          isInverse = some mid ∧
        reorder_buffer { WDL_fft_init F g0 with s_tab := t } ((2 ^ c : ℕ) : ℤ) mid 0 =
          some buf) := by
  obtain ⟨hperm, hsurj⟩ := init_permOn F g0 h0 c hc1 hc
  obtain ⟨t, R, e, ht⟩ := make_table_spec (WDL_fft_init F g0) c hc
    (fft_reorder_table_for_bitsize c) hperm
  refine ⟨t, e, ?_, ?_⟩
  · obtain ⟨mid, e1, q1, f1⟩ := reorder_buffer_spec { WDL_fft_init F g0 with s_tab := t } c hc _
      hperm _ R ht buf 0
    obtain ⟨fin, e2, q2, f2⟩ := reorder_buffer_spec { WDL_fft_init F g0 with s_tab := t } c hc _
      hperm _ R ht mid isInverse
    refine ⟨mid, e1, ?_⟩
    rw [e2]
    congr 1
    apply eq_of_asCmplx_eq
    intro x
    rcases Nat.lt_or_ge x (2 ^ c) with hx | hx
    · obtain ⟨k, hk, ek⟩ := hsurj x hx
      have a1 := (q2 k hk).2 hinv
      have a2 := (q1 k hk).1 rfl
      simp only [ek] at a1 a2
      rw [a1, a2]
    · rw [f2 x hx, f1 x hx]
  · obtain ⟨mid, e1, q1, f1⟩ := reorder_buffer_spec { WDL_fft_init F g0 with s_tab := t } c hc _
      hperm _ R ht buf isInverse
    obtain ⟨fin, e2, q2, f2⟩ := reorder_buffer_spec { WDL_fft_init F g0 with s_tab := t } c hc _
      hperm _ R ht mid 0
    refine ⟨mid, e1, ?_⟩
    rw [e2]
    congr 1
    apply eq_of_asCmplx_eq
    intro x
    rcases Nat.lt_or_ge x (2 ^ c) with hx | hx
    · rw [(q2 x hx).1 rfl, (q1 x hx).2 hinv]
    · rw [f2 x hx, f1 x hx]

/-- Witness for C7: size 8 on a rational buffer, from the zero-initialised statics. -/
theorem reorder_round_trip_witness :
    ∃ t, fft_make_reorder_table (WDL_fft_init ⟨(0 : ℚ), id, id⟩ zeroGlobals) 3
        (fft_reorder_table_for_bitsize 3) = some t ∧
      (∃ mid, reorder_buffer { WDL_fft_init ⟨(0 : ℚ), id, id⟩ zeroGlobals with s_tab := t }
          ((2 ^ 3 : ℕ) : ℤ) (fun (j : ℕ) => (j : ℚ)) 0 = some mid ∧
        reorder_buffer { WDL_fft_init ⟨(0 : ℚ), id, id⟩ zeroGlobals with s_tab := t }
          ((2 ^ 3 : ℕ) : ℤ) mid 1 = some (fun (j : ℕ) => (j : ℚ))) ∧
      (∃ mid, reorder_buffer { WDL_fft_init ⟨(0 : ℚ), id, id⟩ zeroGlobals with s_tab := t }
          ((2 ^ 3 : ℕ) : ℤ) (fun (j : ℕ) => (j : ℚ)) 1 = some mid ∧
        reorder_buffer { WDL_fft_init ⟨(0 : ℚ), id, id⟩ zeroGlobals with s_tab := t }
          ((2 ^ 3 : ℕ) : ℤ) mid 0 = some (fun (j : ℕ) => (j : ℚ))) :=
  reorder_round_trip ⟨(0 : ℚ), id, id⟩ zeroGlobals rfl 3 (by decide) (by decide)
    (fun (j : ℕ) => (j : ℚ)) 1 (by decide)

end ReorderClaims2
end WDLFFT

namespace WDLFFT
section InitCoverage

variable {T : Type} [Field T]

/-- `WDL_fft_init` does not write `s_tab`. -/
theorem init_s_tab (F : Trig T) (g : Globals T) : (WDL_fft_init F g).s_tab = g.s_tab := by
  unfold WDL_fft_init
  by_cases h : g.ffttabinit = true
  · rw [if_pos h]
  · rw [if_neg h]

omit [Field T] in
/-- Replacing `s_tab` does not change `WDL_fft_permute`. -/
theorem permute_with_s_tab (g : Globals T) (t : ℕ → ℕ) (n k : ℕ) :
    WDL_fft_permute { g with s_tab := t } n k = WDL_fft_permute g n k := rfl

/-- `InitFFTData` is `WDL_fft_init` followed by the build of the cycle table of the bit
size `floorlog2(fftsize)`. -/
theorem InitFFTData_of_log (F : Trig T) (g0 : Globals T) (h : ℤ) (c : ℕ)
    (hl : floorlog2 h = some c) (t : ℕ → ℕ)
    (ht : fft_make_reorder_table (WDL_fft_init F g0) c (fft_reorder_table_for_bitsize c) =
      some t) :
    InitFFTData F g0 h = some { WDL_fft_init F g0 with s_tab := t } := by
  unfold InitFFTData
  rw [hl]
  simp only
  rw [ht]

/-- Claim C13, amended: `InitFFTData(h)` builds one cycle table. For `2 ≤ h ≤ 32768` and
`c = floor(log2 h)`, that is `2^c ≤ h < 2^(c+1)`, `InitFFTData(h)` returns; the twiddle and
permutation tables are those of `WDL_fft_init`; the cycle table is built for the one size
`2^c` (the largest power of two not above `h`), leaving `s_tab` below the offset of that
table as it was; and with it `reorder_buffer(2^c,buf,0)` applies
`new[x] = old[WDL_fft_permute(2^c,x)]`. -/
theorem init_builds_one_reorder_table (F : Trig T) (g0 : Globals T)
    (h0 : g0.ffttabinit = false) (h c : ℕ) (h2 : 2 ≤ h) (hle : h ≤ 32768)
    (hlo : 2 ^ c ≤ h) (hhi : h < 2 ^ (c + 1)) (buf : ℕ → T) :
    ∃ t, InitFFTData F g0 (h : ℤ) = some { WDL_fft_init F g0 with s_tab := t } ∧
      (∀ p, p < fft_reorder_table_for_bitsize c → t p = g0.s_tab p) ∧
      ∃ new, reorder_buffer { WDL_fft_init F g0 with s_tab := t }
          ((2 ^ c : ℕ) : ℤ) buf 0 = some new ∧
        ∀ x, x < 2 ^ c →
          asCmplx new x = asCmplx buf (WDL_fft_permute (WDL_fft_init F g0) (2 ^ c) x) := by
  have hlog : Nat.log 2 h = c := by
    rw [Nat.log_eq_iff (Or.inr ⟨by norm_num, by omega⟩)]
    exact ⟨hlo, hhi⟩
  have hc1 : 1 ≤ c := by
    have := Nat.log_pos (b := 2) (by norm_num) h2
    omega
  have hc : c ≤ 15 := by
    by_contra hcon
    have : (2:ℕ) ^ 16 ≤ 2 ^ c := Nat.pow_le_pow_right (by norm_num) (by omega)
    norm_num at this
    omega
  have hperm := (init_permOn F g0 h0 _ hc1 hc).1
  obtain ⟨t, R, e, ht⟩ := make_table_spec (WDL_fft_init F g0) _ hc
    (fft_reorder_table_for_bitsize c) hperm
  refine ⟨t, ?_, ?_, ?_⟩
  · exact InitFFTData_of_log F g0 _ c
      (by rw [floorlog2_spec h (by omega) (by omega), hlog]) t e
  · intro p hp
    rw [ht.frame p (Or.inl hp), init_s_tab]
  · obtain ⟨new, e1, q1, _⟩ := reorder_buffer_spec { WDL_fft_init F g0 with s_tab := t } _ hc _
      hperm _ R ht buf 0
    exact ⟨new, e1, fun x hx => (q1 x hx).1 rfl⟩

/-- Witness for C13 (amended): the size hint `h = 24`, for which the table of size 16 is
built. -/
theorem init_builds_one_reorder_table_witness :
    ∃ t, InitFFTData ⟨(0 : ℚ), id, id⟩ zeroGlobals ((24 : ℕ) : ℤ) =
        some { WDL_fft_init ⟨(0 : ℚ), id, id⟩ zeroGlobals with s_tab := t } ∧
      (∀ p, p < fft_reorder_table_for_bitsize 4 → t p = (zeroGlobals (T := ℚ)).s_tab p) ∧
      ∃ new, reorder_buffer { WDL_fft_init ⟨(0 : ℚ), id, id⟩ zeroGlobals with s_tab := t }
          ((2 ^ 4 : ℕ) : ℤ) (fun (j : ℕ) => (j : ℚ)) 0 = some new ∧
        ∀ x, x < 2 ^ 4 →
          asCmplx new x = asCmplx (fun (j : ℕ) => (j : ℚ))
            (WDL_fft_permute (WDL_fft_init ⟨(0 : ℚ), id, id⟩ zeroGlobals) (2 ^ 4) x) :=
  init_builds_one_reorder_table ⟨(0 : ℚ), id, id⟩ zeroGlobals rfl 24 4 (by norm_num)
    (by norm_num) (by norm_num) (by norm_num) (fun (j : ℕ) => (j : ℚ))

/-- Counterexample to C13 as stated: after `InitFFTData(16)` on the zero-initialised
statics, `reorder_buffer(8,buf,0)` returns the buffer as it was, although
`WDL_fft_permute(8,1) = 6`: the sample at index 1 is not the old sample at index 6. -/
theorem init_coverage_counterexample :
    ∃ g' new, InitFFTData ⟨(0 : ℚ), id, id⟩ zeroGlobals 16 = some g' ∧
      reorder_buffer g' 8 (fun (j : ℕ) => (j : ℚ)) 0 = some new ∧
      asCmplx new 1 ≠ asCmplx (fun (j : ℕ) => (j : ℚ)) (WDL_fft_permute g' 8 1) := by
  obtain ⟨hperm, _⟩ := init_permOn ⟨(0 : ℚ), id, id⟩ zeroGlobals rfl 4 (by norm_num)
    (by norm_num)
  obtain ⟨t, R, e, ht⟩ := make_table_spec (WDL_fft_init ⟨(0 : ℚ), id, id⟩ zeroGlobals) 4
    (by norm_num) (fft_reorder_table_for_bitsize 4) hperm
  have e16 : floorlog2 16 = some 4 := by
    have := floorlog2_pow 4 (by norm_num)
    norm_num at this
    exact this
  have e8 : floorlog2 8 = some 3 := by
    have := floorlog2_pow 3 (by norm_num)
    norm_num at this
    exact this
  have ht0 : t 0 = 0 := by
    rw [ht.frame 0 (Or.inl (by decide)), init_s_tab]
    rfl
  have hp : WDL_fft_permute (WDL_fft_init ⟨(0 : ℚ), id, id⟩ zeroGlobals) 8 1 = 6 := by
    have f6 : fftfreq_c 6 8 = 7 := by simp [fftfreq_c]; decide
    have := permute_init ⟨(0 : ℚ), id, id⟩ zeroGlobals rfl 3 (by norm_num) (by norm_num) 6
      (by norm_num)
    norm_num [f6] at this
    exact this
  refine ⟨{ WDL_fft_init ⟨(0 : ℚ), id, id⟩ zeroGlobals with s_tab := t },
    fun (j : ℕ) => (j : ℚ), ?_, ?_, ?_⟩
  · exact InitFFTData_of_log _ _ 16 4 e16 t e
  · unfold reorder_buffer
    rw [e8]
    have e0 : fft_reorder_table_for_bitsize 3 = 0 := by decide
    have hS : S_TAB_SIZE = 65847 + 1 := by decide
    have hstop : ∀ (f : ℕ) (d : Buf ℚ), reorder_fwd t (f + 1) d 0 = some d := by
      intro f d
      rw [reorder_fwd, if_pos ht0]
    simp only [e0, ne_eq, not_true_eq_false, if_false]
    rw [hS, hstop]
    simp only [Option.map_some']
    refine congrArg some ?_
    funext j
    rcases Nat.mod_two_eq_zero_or_one j with e2 | e2
    · have e3 : 2 * (j / 2) = j := by omega
      simp only [e2, if_true, e3]
    · have e3 : 2 * (j / 2) + 1 = j := by omega
      have : ¬ (j % 2 = 0) := by omega
      simp only [this, if_false, e3]
  · rw [permute_with_s_tab, hp]
    simp [asCmplx]

end InitCoverage
end WDLFFT

namespace WDLFFT
section RealDispatch

variable {T : Type} [CommRing T]

/-- The forward complex transform of a supported size puts the sum of the first `M` samples
at position 0 and leaves the samples from `M` on untouched, whatever the tables hold. -/
theorem fft_frameDC (g : Globals T) (M : ℕ) (hM : M ∈ supportedSizes) (X : Buf T) :
    (fft g X (M : ℤ) 0 0).re = ∑ j in Finset.range M, (X j).re ∧
    (fft g X (M : ℤ) 0 0).im = ∑ j in Finset.range M, (X j).im ∧
    ∀ i, M ≤ i → fft g X (M : ℤ) 0 i = X i := by
  have key : ∀ (c : Buf T → ℕ → Buf T) (N : ℕ), FrameDC c N →
      (c X 0 0).re = ∑ j in Finset.range N, (X j).re ∧
      (c X 0 0).im = ∑ j in Finset.range N, (X j).im ∧
      ∀ i, N ≤ i → c X 0 i = X i := by
    intro c N h
    have h2 := h.2 X 0
    simp only [Nat.zero_add] at h2
    exact ⟨h2.1, h2.2, fun i hi => h.1 X 0 i (Or.inr (by omega))⟩
  simp only [supportedSizes, List.mem_cons, List.mem_singleton, List.not_mem_nil,
    or_false] at hM
  rcases hM with h | h | h | h | h | h | h | h | h | h | h | h | h | h | h <;> subst h
  · rw [fft_at_2]; exact key _ _ frameDC_c2
  · rw [fft_at_4, if_pos rfl]; exact key _ _ frameDC_c4
  · rw [fft_at_8, if_pos rfl]; exact key _ _ (frameDC_c8 g)
  · rw [fft_at_16, if_pos rfl]; exact key _ _ (frameDC_c16 g)
  · rw [fft_at_32, if_pos rfl]; exact key _ _ (frameDC_c32 g)
  · rw [fft_at_64, if_pos rfl]; exact key _ _ (frameDC_c64 g)
  · rw [fft_at_128, if_pos rfl]; exact key _ _ (frameDC_c128 g)
  · rw [fft_at_256, if_pos rfl]; exact key _ _ (frameDC_c256 g)
  · rw [fft_at_512, if_pos rfl]; exact key _ _ (frameDC_c512 g)
  · rw [fft_at_1024, if_pos rfl]; exact key _ _ (frameDC_c1024 g)
  · rw [fft_at_2048, if_pos rfl]; exact key _ _ (frameDC_c2048 g)
  · rw [fft_at_4096, if_pos rfl]; exact key _ _ (frameDC_c4096 g)
  · rw [fft_at_8192, if_pos rfl]; exact key _ _ (frameDC_c8192 g)
  · rw [fft_at_16384, if_pos rfl]; exact key _ _ (frameDC_c16384 g)
  · rw [fft_at_32768, if_pos rfl]; exact key _ _ (frameDC_c32768 g)

theorem real_fft_at_4 (g : Globals T) (buf : ℕ → T) (isInverse : ℤ) :
    real_fft g buf ((4 : ℕ) : ℤ) isInverse =
      two_for_one g buf (realTable g 4) ((4 : ℕ) : ℤ) isInverse := by
  have e : realTable g 4 = (fun _ => ⟨0, 0⟩) := by simp [realTable]
  rw [e]
  unfold real_fft
  simp only [Nat.cast_ofNat]
  rw [if_neg (by norm_num), if_pos (by norm_num)]

theorem real_fft_at_8 (g : Globals T) (buf : ℕ → T) (isInverse : ℤ) :
    real_fft g buf ((8 : ℕ) : ℤ) isInverse =
      two_for_one g buf (realTable g 8) ((8 : ℕ) : ℤ) isInverse := by
  have e : realTable g 8 = (fun _ => ⟨0, 0⟩) := by simp [realTable]
  rw [e]
  unfold real_fft
  simp only [Nat.cast_ofNat]
  rw [if_neg (by norm_num), if_pos (by norm_num)]

theorem real_fft_at_16 (g : Globals T) (buf : ℕ → T) (isInverse : ℤ) :
    real_fft g buf ((16 : ℕ) : ℤ) isInverse =
      two_for_one g buf (realTable g 16) ((16 : ℕ) : ℤ) isInverse := by
  have e : realTable g 16 = g.d16 := by simp [realTable]
  rw [e]
  unfold real_fft
  simp only [Nat.cast_ofNat]
  rw [if_neg (by norm_num), if_neg (by norm_num), if_pos trivial]

theorem real_fft_at_32 (g : Globals T) (buf : ℕ → T) (isInverse : ℤ) :
    real_fft g buf ((32 : ℕ) : ℤ) isInverse =
      two_for_one g buf (realTable g 32) ((32 : ℕ) : ℤ) isInverse := by
  have e : realTable g 32 = g.d32 := by simp [realTable]
  rw [e]
  unfold real_fft
  simp only [Nat.cast_ofNat]
  rw [if_neg (by norm_num), if_neg (by norm_num), if_neg (by norm_num), if_pos trivial]

theorem real_fft_at_64 (g : Globals T) (buf : ℕ → T) (isInverse : ℤ) :
    real_fft g buf ((64 : ℕ) : ℤ) isInverse =
      two_for_one g buf (realTable g 64) ((64 : ℕ) : ℤ) isInverse := by
  have e : realTable g 64 = g.d64 := by simp [realTable]
  rw [e]
  unfold real_fft
  simp only [Nat.cast_ofNat]
  rw [if_neg (by norm_num), if_neg (by norm_num), if_neg (by norm_num), if_neg (by norm_num), if_pos trivial]

theorem real_fft_at_128 (g : Globals T) (buf : ℕ → T) (isInverse : ℤ) :
    real_fft g buf ((128 : ℕ) : ℤ) isInverse =
      two_for_one g buf (realTable g 128) ((128 : ℕ) : ℤ) isInverse := by
  have e : realTable g 128 = g.d128 := by simp [realTable]
  rw [e]
  unfold real_fft
  simp only [Nat.cast_ofNat]
  rw [if_neg (by norm_num), if_neg (by norm_num), if_neg (by norm_num), if_neg (by norm_num), if_neg (by norm_num), if_pos trivial]

theorem real_fft_at_256 (g : Globals T) (buf : ℕ → T) (isInverse : ℤ) :
    real_fft g buf ((256 : ℕ) : ℤ) isInverse =
      two_for_one g buf (realTable g 256) ((256 : ℕ) : ℤ) isInverse := by
  have e : realTable g 256 = g.d256 := by simp [realTable]
  rw [e]
  unfold real_fft
  simp only [Nat.cast_ofNat]
  rw [if_neg (by norm_num), if_neg (by norm_num), if_neg (by norm_num), if_neg (by norm_num), if_neg (by norm_num), if_neg (by norm_num), if_pos trivial]

theorem real_fft_at_512 (g : Globals T) (buf : ℕ → T) (isInverse : ℤ) :
    real_fft g buf ((512 : ℕ) : ℤ) isInverse =
      two_for_one g buf (realTable g 512) ((512 : ℕ) : ℤ) isInverse := by
  have e : realTable g 512 = g.d512 := by simp [realTable]
  rw [e]
  unfold real_fft
  simp only [Nat.cast_ofNat]
  rw [if_neg (by norm_num), if_neg (by norm_num), if_neg (by norm_num), if_neg (by norm_num), if_neg (by norm_num), if_neg (by norm_num), if_neg (by norm_num), if_pos trivial]

theorem real_fft_at_1024 (g : Globals T) (buf : ℕ → T) (isInverse : ℤ) :
    real_fft g buf ((1024 : ℕ) : ℤ) isInverse =
      two_for_one g buf (realTable g 1024) ((1024 : ℕ) : ℤ) isInverse := by
  have e : realTable g 1024 = g.d1024 := by simp [realTable]
  rw [e]
  unfold real_fft
  simp only [Nat.cast_ofNat]
  rw [if_neg (by norm_num), if_neg (by norm_num), if_neg (by norm_num), if_neg (by norm_num), if_neg (by norm_num), if_neg (by norm_num), if_neg (by norm_num), if_neg (by norm_num), if_pos trivial]

theorem real_fft_at_2048 (g : Globals T) (buf : ℕ → T) (isInverse : ℤ) :
    real_fft g buf ((2048 : ℕ) : ℤ) isInverse =
      two_for_one g buf (realTable g 2048) ((2048 : ℕ) : ℤ) isInverse := by
  have e : realTable g 2048 = g.d2048 := by simp [realTable]
  rw [e]
  unfold real_fft
  simp only [Nat.cast_ofNat]
  rw [if_neg (by norm_num), if_neg (by norm_num), if_neg (by norm_num), if_neg (by norm_num), if_neg (by norm_num), if_neg (by norm_num), if_neg (by norm_num), if_neg (by norm_num), if_neg (by norm_num), if_pos trivial]

theorem real_fft_at_4096 (g : Globals T) (buf : ℕ → T) (isInverse : ℤ) :
    real_fft g buf ((4096 : ℕ) : ℤ) isInverse =
      two_for_one g buf (realTable g 4096) ((4096 : ℕ) : ℤ) isInverse := by
  have e : realTable g 4096 = g.d4096 := by simp [realTable]
  rw [e]
  unfold real_fft
  simp only [Nat.cast_ofNat]
  rw [if_neg (by norm_num), if_neg (by norm_num), if_neg (by norm_num), if_neg (by norm_num), if_neg (by norm_num), if_neg (by norm_num), if_neg (by norm_num), if_neg (by norm_num), if_neg (by norm_num), if_neg (by norm_num), if_pos trivial]

theorem real_fft_at_8192 (g : Globals T) (buf : ℕ → T) (isInverse : ℤ) :
    real_fft g buf ((8192 : ℕ) : ℤ) isInverse =
      two_for_one g buf (realTable g 8192) ((8192 : ℕ) : ℤ) isInverse := by
  have e : realTable g 8192 = g.d8192 := by simp [realTable]
  rw [e]
  unfold real_fft
  simp only [Nat.cast_ofNat]
  rw [if_neg (by norm_num), if_neg (by norm_num), if_neg (by norm_num), if_neg (by norm_num), if_neg (by norm_num), if_neg (by norm_num), if_neg (by norm_num), if_neg (by norm_num), if_neg (by norm_num), if_neg (by norm_num), if_neg (by norm_num), if_pos trivial]

theorem real_fft_at_16384 (g : Globals T) (buf : ℕ → T) (isInverse : ℤ) :
    real_fft g buf ((16384 : ℕ) : ℤ) isInverse =
      two_for_one g buf (realTable g 16384) ((16384 : ℕ) : ℤ) isInverse := by
  have e : realTable g 16384 = g.d16384 := by simp [realTable]
  rw [e]
  unfold real_fft
  simp only [Nat.cast_ofNat]
  rw [if_neg (by norm_num), if_neg (by norm_num), if_neg (by norm_num), if_neg (by norm_num), if_neg (by norm_num), if_neg (by norm_num), if_neg (by norm_num), if_neg (by norm_num), if_neg (by norm_num), if_neg (by norm_num), if_neg (by norm_num), if_neg (by norm_num), if_pos trivial]

theorem real_fft_at_32768 (g : Globals T) (buf : ℕ → T) (isInverse : ℤ) :
    real_fft g buf ((32768 : ℕ) : ℤ) isInverse =
      two_for_one g buf (realTable g 32768) ((32768 : ℕ) : ℤ) isInverse := by
  have e : realTable g 32768 = g.d32768 := by simp [realTable]
  rw [e]
  unfold real_fft
  simp only [Nat.cast_ofNat]
  rw [if_neg (by norm_num), if_neg (by norm_num), if_neg (by norm_num), if_neg (by norm_num), if_neg (by norm_num), if_neg (by norm_num), if_neg (by norm_num), if_neg (by norm_num), if_neg (by norm_num), if_neg (by norm_num), if_neg (by norm_num), if_neg (by norm_num), if_neg (by norm_num), if_pos trivial]

/-- For every supported length but 2, `real_fft` is `two_for_one` with the table of the
length. -/
theorem real_fft_dispatch (g : Globals T) (N : ℕ) (hN : N ∈ supportedSizes) (h2 : N ≠ 2)
    (buf : ℕ → T) (isInverse : ℤ) :
    real_fft g buf (N : ℤ) isInverse =
      two_for_one g buf (realTable g N) (N : ℤ) isInverse := by
  simp only [supportedSizes, List.mem_cons, List.mem_singleton, List.not_mem_nil,
    or_false] at hN
  rcases hN with h | h | h | h | h | h | h | h | h | h | h | h | h | h | h <;> subst h
  · exact absurd rfl h2
  · exact real_fft_at_4 g buf isInverse
  · exact real_fft_at_8 g buf isInverse
  · exact real_fft_at_16 g buf isInverse
  · exact real_fft_at_32 g buf isInverse
  · exact real_fft_at_64 g buf isInverse
  · exact real_fft_at_128 g buf isInverse
  · exact real_fft_at_256 g buf isInverse
  · exact real_fft_at_512 g buf isInverse
  · exact real_fft_at_1024 g buf isInverse
  · exact real_fft_at_2048 g buf isInverse
  · exact real_fft_at_4096 g buf isInverse
  · exact real_fft_at_8192 g buf isInverse
  · exact real_fft_at_16384 g buf isInverse
  · exact real_fft_at_32768 g buf isInverse

end RealDispatch
end WDLFFT

namespace WDLFFT
section TwoForOne

variable {T : Type} [CommRing T]

/-- `two_for_one` at the length `2M`: the `uint32_t` value `half` is `M`, and the function
is the sequence of its three phases, followed by `fft` in the inverse direction. -/
theorem two_for_one_eq (g : Globals T) (buf : ℕ → T) (d : ℕ → cmplxT T) (M : ℕ)
    (hM : 2 * M < 4294967296) (isInverse : ℤ) :
    two_for_one g buf d ((2 * M : ℕ) : ℤ) isInverse =
      asReal
        (if isInverse ≠ 0 then
          fft g (tfoMid g M (tfoLoop g d M isInverse (tfoStart g buf M isInverse)))
            (M : ℤ) isInverse
        else tfoMid g M (tfoLoop g d M isInverse (tfoStart g buf M isInverse))) := by
  have hhalf : (((2 * M : ℕ) : ℤ) % 4294967296).toNat >>> 1 = M := by
    have e1 : ((2 * M : ℕ) : ℤ) % 4294967296 = ((2 * M : ℕ) : ℤ) :=
      Int.emod_eq_of_lt (by omega) (by omega)
    rw [e1, Int.toNat_natCast, Nat.shiftRight_eq_div_pow]
    omega
  unfold two_for_one tfoMid tfoLoop tfoStart
  simp only [hhalf]

end TwoForOne
end WDLFFT

namespace WDLFFT
section RealLoop

variable {T : Type} [CommRing T]

/-- An iteration of the loop of `two_for_one` writes only the samples at `permute[i]` and
`permute[half - i]`. -/
theorem two_for_one_step_frame (g : Globals T) (d : ℕ → cmplxT T) (permute : ℕ → ℕ)
    (half quart eighth : ℕ) (isInverse : ℤ) (a : Buf T) (i z : ℕ)
    (h1 : z ≠ permute i) (h2 : z ≠ permute (half - i)) :
    two_for_one_step g d permute half quart eighth isInverse a i z = a z := by
  unfold two_for_one_step
  rw [Function.update_noteq h2, Function.update_noteq h1]

/-- An iteration of the loop of `two_for_one` on two zero samples changes nothing. -/
theorem two_for_one_step_zero (g : Globals T) (d : ℕ → cmplxT T) (permute : ℕ → ℕ)
    (half quart eighth : ℕ) (isInverse : ℤ) (a : Buf T) (i : ℕ)
    (h1 : a (permute i) = ⟨0, 0⟩) (h2 : a (permute (half - i)) = ⟨0, 0⟩) :
    two_for_one_step g d permute half quart eighth isInverse a i = a := by
  unfold two_for_one_step
  simp only [h1, h2, add_zero, sub_zero, mul_zero, neg_zero]
  rw [← h1, Function.update_eq_self, h1, ← h2, Function.update_eq_self]

/-- The loop of `two_for_one` leaves every sample that is at no `permute[i]` and no
`permute[half - i]` as it was. -/
theorem two_for_one_loop_frame (g : Globals T) (d : ℕ → cmplxT T) (permute : ℕ → ℕ)
    (half quart eighth : ℕ) (isInverse : ℤ) (a : Buf T) (z : ℕ) :
    ∀ Q, (∀ i, 1 ≤ i → i < Q → z ≠ permute i ∧ z ≠ permute (half - i)) →
      forLoop 1 Q (two_for_one_step g d permute half quart eighth isInverse) a z = a z := by
  intro Q
  induction Q with
  | zero => intro _; simp [forLoop]
  | succ Q ih =>
    intro h
    rcases Nat.eq_zero_or_pos Q with e | e
    · subst e; rw [forLoop_self]
    · rw [forLoop_succ 1 Q (by omega),
        two_for_one_step_frame _ _ _ _ _ _ _ _ _ _ (h Q e (by omega)).1 (h Q e (by omega)).2]
      exact ih (fun i h1 h2 => h i h1 (by omega))

/-- The loop of `two_for_one` changes nothing when all the samples it visits are zero. -/
theorem two_for_one_loop_zero (g : Globals T) (d : ℕ → cmplxT T) (permute : ℕ → ℕ)
    (half quart eighth : ℕ) (isInverse : ℤ) (a : Buf T) :
    ∀ Q, (∀ i, 1 ≤ i → i < Q → a (permute i) = ⟨0, 0⟩ ∧ a (permute (half - i)) = ⟨0, 0⟩) →
      forLoop 1 Q (two_for_one_step g d permute half quart eighth isInverse) a = a := by
  intro Q
  induction Q with
  | zero => intro _; simp [forLoop]
  | succ Q ih =>
    intro h
    rcases Nat.eq_zero_or_pos Q with e | e
    · subst e; rw [forLoop_self]
    · rw [forLoop_succ 1 Q (by omega), ih (fun i h1 h2 => h i h1 (by omega))]
      exact two_for_one_step_zero _ _ _ _ _ _ _ _ _ (h Q e (by omega)).1 (h Q e (by omega)).2

omit [CommRing T] in
/-- The pointer `WDL_fft_permute_tab(M)` read at `i` is `WDL_fft_permute(M,i)`. -/
theorem permute_tab_eq (g : Globals T) (M i : ℕ) (hM : 2 ≤ M) :
    WDL_fft_permute_tab g M i = WDL_fft_permute g M i := by
  unfold WDL_fft_permute_tab WDL_fft_permute
  congr 1
  omega

/-- The complex view of `r2` applied to the real view of a complex buffer. -/
theorem asCmplx_r2_asReal (A : Buf T) :
    asCmplx (r2 (asReal A)) =
      Function.update A 0 ⟨((A 0).re + (A 0).im) * 2, ((A 0).re - (A 0).im) * 2⟩ := by
  funext i
  rcases Nat.eq_zero_or_pos i with e | e
  · subst e
    simp [asCmplx, r2, asReal]
  · have h1 : 2 * i ≠ 0 := by omega
    have h2 : 2 * i ≠ 1 := by omega
    have h3 : 2 * i + 1 ≠ 1 := by omega
    have h5 : (2 * i) % 2 = 0 := by omega
    have h6 : ¬ ((2 * i + 1) % 2 = 0) := by omega
    have h7 : (2 * i) / 2 = i := by omega
    have h8 : (2 * i + 1) / 2 = i := by omega
    rw [Function.update_noteq (by omega)]
    simp [asCmplx, r2, asReal, Function.update, h1, h2, h3, h5, h6, h7, h8]

omit [CommRing T] in
/-- The real view of a complex buffer, read at the two slots of a sample. -/
theorem asReal_at (A : Buf T) (i : ℕ) :
    asReal A (2 * i) = (A i).re ∧ asReal A (2 * i + 1) = (A i).im := by
  have h5 : (2 * i) % 2 = 0 := by omega
  have h6 : ¬ ((2 * i + 1) % 2 = 0) := by omega
  have h7 : (2 * i) / 2 = i := by omega
  have h8 : (2 * i + 1) / 2 = i := by omega
  simp [asReal, h5, h6, h7, h8]

end RealLoop
end WDLFFT

namespace WDLFFT
section DCNyquist

/-- A sum over `[0, 2M)` split into the even and the odd indices. -/
theorem sum_range_even_odd {R : Type} [AddCommMonoid R] (F : ℕ → R) (M : ℕ) :
    ∑ j in Finset.range (2 * M), F j = ∑ j in Finset.range M, (F (2 * j) + F (2 * j + 1)) := by
  induction M with
  | zero => simp
  | succ M ih =>
    rw [show 2 * (M + 1) = 2 * M + 1 + 1 by ring, Finset.sum_range_succ, Finset.sum_range_succ,
      ih, Finset.sum_range_succ, add_assoc]

variable {T : Type} [Field T]

/-- A table `_idxperm` equal to the one `WDL_fft_init` builds gives a permutation of
`[0, 2^c)` that fixes `0`, so it maps `[1, 2^c)` into itself. -/
theorem permute_pos (F : Trig T) (g0 : Globals T) (h0 : g0.ffttabinit = false)
    (g : Globals T) (hg : g._idxperm = (WDL_fft_init F g0)._idxperm) (c : ℕ) (hc1 : 1 ≤ c)
    (hc : c ≤ 15) :
    PermOn (fun x => WDL_fft_permute g (2 ^ c) x) (2 ^ c) ∧
    ∀ k, 1 ≤ k → k < 2 ^ c →
      WDL_fft_permute g (2 ^ c) k ≠ 0 ∧ WDL_fft_permute g (2 ^ c) k < 2 ^ c := by
  have e : ∀ n k, WDL_fft_permute g n k = WDL_fft_permute (WDL_fft_init F g0) n k := by
    intro n k
    unfold WDL_fft_permute
    rw [hg]
  have hp : PermOn (fun x => WDL_fft_permute g (2 ^ c) x) (2 ^ c) :=
    permOn_of_table g c (by omega) (fun i hi => by rw [e]; exact permute_init F g0 h0 c hc1 hc i hi)
  refine ⟨hp, fun k h1 hk => ⟨fun h => ?_, hp.maps k hk⟩⟩
  have h2 := hp.inj k 0 hk (Nat.pos_pow_of_pos c (by norm_num)) (by
    show WDL_fft_permute g (2 ^ c) k = WDL_fft_permute g (2 ^ c) 0
    rw [h]
    exact hp.zero.symm)
  omega

/-- The forward `two_for_one` leaves, in the first complex sample, twice the sum and twice
the difference of the sums of the real and the imaginary parts of the packed input. -/
theorem two_for_one_first (F : Trig T) (g0 : Globals T) (h0 : g0.ffttabinit = false)
    (g : Globals T) (hg : g._idxperm = (WDL_fft_init F g0)._idxperm) (c : ℕ) (hc1 : 1 ≤ c)
    (hc : c ≤ 14) (d : ℕ → cmplxT T) (buf : ℕ → T) :
    tfoMid g (2 ^ c) (tfoLoop g d (2 ^ c) 0 (tfoStart g buf (2 ^ c) 0)) 0 =
      ⟨((∑ j in Finset.range (2 ^ c), buf (2 * j)) +
          ∑ j in Finset.range (2 ^ c), buf (2 * j + 1)) * 2,
        ((∑ j in Finset.range (2 ^ c), buf (2 * j)) -
          ∑ j in Finset.range (2 ^ c), buf (2 * j + 1)) * 2⟩ := by
  obtain ⟨hp, hpos⟩ := permute_pos F g0 h0 g hg c hc1 (by omega)
  have h2M : 2 ≤ 2 ^ c := by
    have : (2:ℕ) ^ 1 ≤ 2 ^ c := Nat.pow_le_pow_right (by norm_num) hc1
    simpa using this
  have hq : 2 ^ c >>> 1 = 2 ^ c / 2 := by rw [Nat.shiftRight_eq_div_pow, pow_one]
  have hM : 2 ^ c ∈ supportedSizes := (supported_iff _).mpr ⟨c, hc1, by omega, rfl⟩
  have hmid : (0 : ℕ) ≠ WDL_fft_permute_tab g (2 ^ c) (max 1 (2 ^ c >>> 1)) := by
    rw [permute_tab_eq g _ _ h2M, hq]
    exact fun h => (hpos _ (le_max_left _ _) (by
      rcases max_cases 1 (2 ^ c / 2) with ⟨h1, _⟩ | ⟨h1, _⟩ <;> rw [h1] <;> omega)).1 h.symm
  unfold tfoMid
  rw [Function.update_noteq hmid]
  unfold tfoLoop
  rw [two_for_one_loop_frame]
  · unfold tfoStart
    rw [if_pos rfl, asCmplx_r2_asReal, Function.update_same]
    obtain ⟨s1, s2, _⟩ := fft_frameDC g (2 ^ c) hM (asCmplx buf)
    rw [s1, s2]
    rfl
  · intro i h1 h2
    rw [hq] at h2
    rw [permute_tab_eq g _ _ h2M, permute_tab_eq g _ _ h2M]
    exact ⟨fun h => (hpos i h1 (by omega)).1 h.symm,
      fun h => (hpos (2 ^ c - i) (by omega) (by omega)).1 h.symm⟩

end DCNyquist
end WDLFFT

namespace WDLFFT
section DCNyquistClaim

variable {T : Type} [Field T]

/-- Claim C5 (DC and Nyquist packing). For every supported size `N` and every real input,
with the permutation table of `WDL_fft_init` and any contents of the twiddle tables, after
`real_fft(buf,N,0)` the entry `buf[0]` is twice the sum of the samples and `buf[1]` is twice
their alternating sum (the Nyquist bin). -/
theorem real_fft_dc_nyquist (F : Trig T) (g0 : Globals T) (h0 : g0.ffttabinit = false)
    (g : Globals T) (hg : g._idxperm = (WDL_fft_init F g0)._idxperm) (N : ℕ)
    (hN : N ∈ supportedSizes) (buf : ℕ → T) :
    real_fft g buf (N : ℤ) 0 0 = 2 * ∑ j in Finset.range N, buf j ∧
    real_fft g buf (N : ℤ) 0 1 = 2 * ∑ j in Finset.range N, (-1) ^ j * buf j := by
  obtain ⟨c, hc1, hc2, rfl⟩ := (supported_iff N).mp hN
  rcases Nat.eq_or_lt_of_le hc1 with e | e
  · subst e
    have e2 : real_fft g buf (((2 : ℕ) ^ 1 : ℕ) : ℤ) 0 = r2 buf := by
      unfold real_fft
      norm_num
    rw [e2]
    simp [r2, Finset.sum_range_succ]
    constructor <;> ring
  · obtain ⟨m, rfl⟩ : ∃ m, c = m + 1 := ⟨c - 1, by omega⟩
    have hm1 : 1 ≤ m := by omega
    have e2 : (2 : ℕ) ^ (m + 1) = 2 * 2 ^ m := by rw [pow_succ]; ring
    have hlt : 2 * 2 ^ m < 4294967296 := by
      have : (2:ℕ) ^ (m + 1) ≤ 2 ^ 15 := Nat.pow_le_pow_right (by norm_num) hc2
      rw [e2] at this
      norm_num at this
      omega
    have hne : (2 : ℕ) ^ (m + 1) ≠ 2 := by
      have : (2:ℕ) ^ 2 ≤ 2 ^ (m + 1) := Nat.pow_le_pow_right (by norm_num) (by omega)
      norm_num at this
      omega
    rw [real_fft_dispatch g _ hN hne]
    have e3 : two_for_one g buf (realTable g (2 ^ (m + 1))) (((2 : ℕ) ^ (m + 1) : ℕ) : ℤ) 0 =
        asReal (tfoMid g (2 ^ m)
          (tfoLoop g (realTable g (2 ^ (m + 1))) (2 ^ m) 0 (tfoStart g buf (2 ^ m) 0))) := by
      rw [e2, two_for_one_eq g buf _ (2 ^ m) hlt 0, if_neg (by simp)]
    rw [e3]
    have a0 := asReal_at (tfoMid g (2 ^ m)
      (tfoLoop g (realTable g (2 ^ (m + 1))) (2 ^ m) 0 (tfoStart g buf (2 ^ m) 0))) 0
    simp only [Nat.mul_zero, Nat.zero_add] at a0
    rw [a0.1, a0.2, two_for_one_first F g0 h0 g hg m hm1 (by omega), e2, sum_range_even_odd,
      sum_range_even_odd, Finset.sum_add_distrib]
    simp only
    constructor
    · ring
    · have : ∀ j : ℕ, ((-1 : T) ^ (2 * j) * buf (2 * j) + (-1) ^ (2 * j + 1) * buf (2 * j + 1)) =
          buf (2 * j) - buf (2 * j + 1) := by
        intro j
        rw [pow_succ, pow_mul]
        norm_num
        ring
      simp only [this, Finset.sum_sub_distrib]
      ring

omit [Field T] in
/-- Replacing `_idxperm` sets `_idxperm`. -/
theorem idxperm_with (g : Globals T) (t : ℕ → ℕ) : ({ g with _idxperm := t })._idxperm = t :=
  rfl

/-- Witness for C5: size 8 on a rational buffer, with zero twiddle tables and the
permutation table of `WDL_fft_init`. -/
theorem real_fft_dc_nyquist_witness :
    real_fft ({ (zeroGlobals (T := ℚ)) with
        _idxperm := (WDL_fft_init ⟨(0 : ℚ), id, id⟩ zeroGlobals)._idxperm })
      (fun (j : ℕ) => (j : ℚ)) ((8 : ℕ) : ℤ) 0 0 =
      2 * ∑ j in Finset.range 8, (fun (j : ℕ) => (j : ℚ)) j ∧
    real_fft ({ (zeroGlobals (T := ℚ)) with
        _idxperm := (WDL_fft_init ⟨(0 : ℚ), id, id⟩ zeroGlobals)._idxperm })
      (fun (j : ℕ) => (j : ℚ)) ((8 : ℕ) : ℤ) 0 1 =
      2 * ∑ j in Finset.range 8, (-1) ^ j * (fun (j : ℕ) => (j : ℚ)) j :=
  real_fft_dc_nyquist ⟨(0 : ℚ), id, id⟩ zeroGlobals rfl _ (idxperm_with _ _) 8 (by decide)
    (fun (j : ℕ) => (j : ℚ))

end DCNyquistClaim
end WDLFFT

namespace WDLFFT
section Constant
open Complex

/-- With exact tables, the forward complex transform of a constant block is zero at every
position of the block but the first. -/
theorem fft_constant_zero (g0 : Globals ℝ) (h0 : g0.ffttabinit = false) (c : ℕ)
    (hc1 : 1 ≤ c) (hc : c ≤ 15) (X : Buf ℝ) (z : cmplxT ℝ) (hX : ∀ j, j < 2 ^ c → X j = z)
    (i : ℕ) (h1 : 1 ≤ i) (hi : i < 2 ^ c) :
    fft (WDL_fft_init ⟨Real.pi, Real.cos, Real.sin⟩ g0) X ((2 ^ c : ℕ) : ℤ) 0 i = ⟨0, 0⟩ := by
  have hw := isTwiddle_exp
  have ht := tablesOK_init hw (fun _ _ => rfl) g0 h0
  have hM : 2 ^ c ∈ supportedSizes := (supported_iff _).mpr ⟨c, hc1, hc, rfl⟩
  have hpos : 1 ≤ 2 ^ c := Nat.one_le_two_pow
  have hf1 := fftfreq_c_pos c (by omega) i hi h1
  have hf2 := fftfreq_c_lt c (by omega) i hi
  have h2 := congrFun (fft_fwd_spec hw _ ht (2 ^ c) hM X) i
  simp only at h2
  apply toC_inj
  rw [h2]
  have e0 : i = 0 + i := by omega
  conv_lhs => rw [e0]
  rw [dftBlock_in _ _ _ _ _ hi]
  have e1 : ∀ j ∈ Finset.range (2 ^ c),
      toC (X (0 + j)) * (fun (N : ℕ) (k : ℤ) => Complex.exp (2 * Real.pi * I * k / N)) (2 ^ c)
        ((j : ℤ) * (fftfreq_c i (2 ^ c) : ℤ)) =
      toC z * (fun (N : ℕ) (k : ℤ) => Complex.exp (2 * Real.pi * I * k / N)) (2 ^ c)
        ((fftfreq_c i (2 ^ c) : ℤ) * (j : ℤ)) := by
    intro j hj
    rw [Nat.zero_add, hX j (Finset.mem_range.mp hj), mul_comm (j : ℤ)]
  rw [Finset.sum_congr rfl e1, ← Finset.mul_sum, hw.ortho (2 ^ c) hpos]
  have hnd : ¬ (((2 ^ c : ℕ) : ℤ) ∣ (fftfreq_c i (2 ^ c) : ℤ)) := by
    intro hd
    have := Int.natCast_dvd_natCast.mp hd
    have := Nat.le_of_dvd (by omega) this
    omega
  rw [if_neg hnd, mul_zero]
  apply Complex.ext <;> simp [toC]

/-- With exact tables the forward real transform of a constant signal has `2·N·c` in
`buf[0]` and `0` in every other entry. -/
theorem real_fft_constant (g0 : Globals ℝ) (h0 : g0.ffttabinit = false) (N : ℕ)
    (hN : N ∈ supportedSizes) (c : ℝ) (buf : ℕ → ℝ) (hbuf : ∀ j, j < N → buf j = c) :
    real_fft (WDL_fft_init ⟨Real.pi, Real.cos, Real.sin⟩ g0) buf (N : ℤ) 0 0 = 2 * N * c ∧
    ∀ j, 1 ≤ j → j < N →
      real_fft (WDL_fft_init ⟨Real.pi, Real.cos, Real.sin⟩ g0) buf (N : ℤ) 0 j = 0 := by
  obtain ⟨k, hk1, hk2, rfl⟩ := (supported_iff N).mp hN
  rcases Nat.eq_or_lt_of_le hk1 with e | e
  · subst e
    have e2 : real_fft (WDL_fft_init ⟨Real.pi, Real.cos, Real.sin⟩ g0) buf
        (((2 : ℕ) ^ 1 : ℕ) : ℤ) 0 = r2 buf := by
      unfold real_fft
      norm_num
    rw [e2]
    have b0 := hbuf 0 (by norm_num)
    have b1 := hbuf 1 (by norm_num)
    refine ⟨by simp [r2, b0, b1]; ring, fun j h1 h2 => ?_⟩
    have : j = 1 := by norm_num at h2; omega
    subst this
    simp [r2, b0, b1]
  · obtain ⟨m, rfl⟩ : ∃ m, k = m + 1 := ⟨k - 1, by omega⟩
    have hm1 : 1 ≤ m := by omega
    have e2 : (2 : ℕ) ^ (m + 1) = 2 * 2 ^ m := by rw [pow_succ]; ring
    have hlt : 2 * 2 ^ m < 4294967296 := by
      have : (2:ℕ) ^ (m + 1) ≤ 2 ^ 15 := Nat.pow_le_pow_right (by norm_num) hk2
      rw [e2] at this
      norm_num at this
      omega
    have hne : (2 : ℕ) ^ (m + 1) ≠ 2 := by
      have : (2:ℕ) ^ 2 ≤ 2 ^ (m + 1) := Nat.pow_le_pow_right (by norm_num) (by omega)
      norm_num at this
      omega
    have h2M : 2 ≤ 2 ^ m := by
      have : (2:ℕ) ^ 1 ≤ 2 ^ m := Nat.pow_le_pow_right (by norm_num) hm1
      simpa using this
    have hq : 2 ^ m >>> 1 = 2 ^ m / 2 := by rw [Nat.shiftRight_eq_div_pow, pow_one]
    obtain ⟨_, hpos⟩ := permute_pos ⟨Real.pi, Real.cos, Real.sin⟩ g0 h0 _ rfl m hm1 (by omega)
    have hM : 2 ^ m ∈ supportedSizes := (supported_iff _).mpr ⟨m, hm1, by omega, rfl⟩
    -- the packed input is constant
    have hA0 : ∀ j, j < 2 ^ m → asCmplx buf j = ⟨c, c⟩ := by
      intro j hj
      simp only [asCmplx]
      rw [hbuf (2 * j) (by omega), hbuf (2 * j + 1) (by omega)]
    -- the buffer after `fft` and `r2`
    have hS : ∀ z, 1 ≤ z → z < 2 ^ m →
        tfoStart (WDL_fft_init ⟨Real.pi, Real.cos, Real.sin⟩ g0) buf (2 ^ m) 0 z = ⟨0, 0⟩ := by
      intro z h1 h2
      unfold tfoStart
      rw [if_pos rfl, asCmplx_r2_asReal, Function.update_noteq (by omega)]
      exact fft_constant_zero g0 h0 m hm1 (by omega) _ ⟨c, c⟩ hA0 z h1 h2
    have hS0 : tfoStart (WDL_fft_init ⟨Real.pi, Real.cos, Real.sin⟩ g0) buf (2 ^ m) 0 0 =
        ⟨2 * ((2 ^ (m + 1) : ℕ) : ℝ) * c, 0⟩ := by
      unfold tfoStart
      rw [if_pos rfl, asCmplx_r2_asReal, Function.update_same]
      obtain ⟨s1, s2, _⟩ := fft_frameDC (WDL_fft_init ⟨Real.pi, Real.cos, Real.sin⟩ g0)
        (2 ^ m) hM (asCmplx buf)
      have t1 : ∑ j in Finset.range (2 ^ m), (asCmplx buf j).re = (2 ^ m : ℕ) * c := by
        rw [Finset.sum_congr rfl (fun j hj => by rw [hA0 j (Finset.mem_range.mp hj)])]
        simp
      have t2 : ∑ j in Finset.range (2 ^ m), (asCmplx buf j).im = (2 ^ m : ℕ) * c := by
        rw [Finset.sum_congr rfl (fun j hj => by rw [hA0 j (Finset.mem_range.mp hj)])]
        simp
      rw [s1, s2, t1, t2, e2]
      apply cmplxT.ext
      · push_cast; ring
      · push_cast; ring
    have hloop : tfoLoop (WDL_fft_init ⟨Real.pi, Real.cos, Real.sin⟩ g0)
        (realTable (WDL_fft_init ⟨Real.pi, Real.cos, Real.sin⟩ g0) (2 ^ (m + 1))) (2 ^ m) 0
        (tfoStart (WDL_fft_init ⟨Real.pi, Real.cos, Real.sin⟩ g0) buf (2 ^ m) 0) =
        tfoStart (WDL_fft_init ⟨Real.pi, Real.cos, Real.sin⟩ g0) buf (2 ^ m) 0 := by
      unfold tfoLoop
      apply two_for_one_loop_zero
      intro i h1 h2
      rw [hq] at h2
      rw [permute_tab_eq _ _ _ h2M, permute_tab_eq _ _ _ h2M]
      exact ⟨hS _ (Nat.pos_of_ne_zero (hpos i h1 (by omega)).1) (hpos i h1 (by omega)).2,
        hS _ (Nat.pos_of_ne_zero (hpos (2 ^ m - i) (by omega) (by omega)).1)
          (hpos (2 ^ m - i) (by omega) (by omega)).2⟩
    have hmid : tfoMid (WDL_fft_init ⟨Real.pi, Real.cos, Real.sin⟩ g0) (2 ^ m)
        (tfoStart (WDL_fft_init ⟨Real.pi, Real.cos, Real.sin⟩ g0) buf (2 ^ m) 0) =
        tfoStart (WDL_fft_init ⟨Real.pi, Real.cos, Real.sin⟩ g0) buf (2 ^ m) 0 := by
      unfold tfoMid
      have hp := hpos (max 1 (2 ^ m / 2)) (le_max_left _ _) (by
        rcases max_cases 1 (2 ^ m / 2) with ⟨h1, _⟩ | ⟨h1, _⟩ <;> rw [h1] <;> omega)
      rw [permute_tab_eq _ _ _ h2M, hq]
      have hz := hS _ (Nat.pos_of_ne_zero hp.1) hp.2
      rw [hz]
      simp only [zero_mul]
      rw [← hz, Function.update_eq_self]
    rw [real_fft_dispatch _ _ hN hne]
    have e3 : two_for_one (WDL_fft_init ⟨Real.pi, Real.cos, Real.sin⟩ g0) buf
        (realTable (WDL_fft_init ⟨Real.pi, Real.cos, Real.sin⟩ g0) (2 ^ (m + 1)))
        (((2 : ℕ) ^ (m + 1) : ℕ) : ℤ) 0 =
        asReal (tfoStart (WDL_fft_init ⟨Real.pi, Real.cos, Real.sin⟩ g0) buf (2 ^ m) 0) := by
      rw [e2, two_for_one_eq _ buf _ (2 ^ m) hlt 0, if_neg (by simp), ← e2, hloop, hmid]
    rw [e3]
    constructor
    · have a0 := (asReal_at (tfoStart (WDL_fft_init ⟨Real.pi, Real.cos, Real.sin⟩ g0) buf
        (2 ^ m) 0) 0).1
      simp only [Nat.mul_zero] at a0
      rw [a0, hS0]
    · intro j h1 h2
      rcases Nat.lt_or_ge j 2 with hj | hj
      · have hj1 : j = 1 := by omega
        subst hj1
        have a0 := (asReal_at (tfoStart (WDL_fft_init ⟨Real.pi, Real.cos, Real.sin⟩ g0) buf
          (2 ^ m) 0) 0).2
        simp only [Nat.mul_zero, Nat.zero_add] at a0
        rw [a0, hS0]
      · have hz := hS (j / 2) (by omega) (by omega)
        have a0 := asReal_at (tfoStart (WDL_fft_init ⟨Real.pi, Real.cos, Real.sin⟩ g0) buf
          (2 ^ m) 0) (j / 2)
        rw [hz] at a0
        rcases Nat.mod_two_eq_zero_or_one j with e5 | e5
        · rw [show j = 2 * (j / 2) by omega]; exact a0.1
        · rw [show j = 2 * (j / 2) + 1 by omega]; exact a0.2

end Constant
end WDLFFT

namespace WDLFFT
section ConstantClaims

/-- Claim C11 (constant real signal). With the tables of `WDL_fft_init` in exact real
arithmetic, for every supported size `N` and every scalar `c`, the forward real transform
of a buffer whose `N` samples all equal `c` leaves `buf[0] = 2·N·c` and `0` in every entry
`buf[1..N-1]`. -/
theorem constant_signal_spectrum (g0 : Globals ℝ) (h0 : g0.ffttabinit = false) (N : ℕ)
    (hN : N ∈ supportedSizes) (c : ℝ) (buf : ℕ → ℝ) (hbuf : ∀ j, j < N → buf j = c) (j : ℕ)
    (hj : j < N) :
    real_fft (WDL_fft_init ⟨Real.pi, Real.cos, Real.sin⟩ g0) buf (N : ℤ) 0 j =
      if j = 0 then 2 * N * c else 0 := by
  obtain ⟨h1, h2⟩ := real_fft_constant g0 h0 N hN c buf hbuf
  rcases Nat.eq_zero_or_pos j with e | e
  · subst e
    rw [if_pos rfl]
    exact h1
  · rw [if_neg (by omega)]
    exact h2 j e hj

/-- Witness for C11: size 16, the constant 3, entry 5. -/
theorem constant_signal_spectrum_witness :
    real_fft (WDL_fft_init ⟨Real.pi, Real.cos, Real.sin⟩ zeroGlobals) (fun _ => 3)
      ((16 : ℕ) : ℤ) 0 5 = if 5 = 0 then 2 * (16 : ℕ) * (3 : ℝ) else 0 :=
  constant_signal_spectrum zeroGlobals rfl 16 (by decide) 3 (fun _ => 3) (fun _ _ => rfl) 5
    (by decide)

/-- Claim C12, amended (the size-4 example). For the buffer `[0.125, 0.125, 0.125, 0.125]`,
that is the input `[1,1,1,1]` scaled by `0.5/4`, `real_fft(buf,4,0)` with the tables of
`WDL_fft_init` leaves `1` in `buf[0]` (the sum 4 of the unscaled input divided by the
length) and `0` in `buf[1]`, `buf[2]`, `buf[3]`. -/
theorem size4_constant_example (g0 : Globals ℝ) (h0 : g0.ffttabinit = false) (buf : ℕ → ℝ)
    (hbuf : ∀ j, j < 4 → buf j = 0.125) :
    real_fft (WDL_fft_init ⟨Real.pi, Real.cos, Real.sin⟩ g0) buf 4 0 0 = 1 ∧
    real_fft (WDL_fft_init ⟨Real.pi, Real.cos, Real.sin⟩ g0) buf 4 0 1 = 0 ∧
    real_fft (WDL_fft_init ⟨Real.pi, Real.cos, Real.sin⟩ g0) buf 4 0 2 = 0 ∧
    real_fft (WDL_fft_init ⟨Real.pi, Real.cos, Real.sin⟩ g0) buf 4 0 3 = 0 := by
  obtain ⟨h1, h2⟩ := real_fft_constant g0 h0 4 (by decide) 0.125 buf hbuf
  simp only [Nat.cast_ofNat] at h1 h2
  refine ⟨?_, h2 1 (by norm_num) (by norm_num), h2 2 (by norm_num) (by norm_num),
    h2 3 (by norm_num) (by norm_num)⟩
  rw [h1]
  norm_num

/-- Witness for C12 (amended): the buffer that is `0.125` everywhere, from the
zero-initialised statics. -/
theorem size4_constant_example_witness :
    real_fft (WDL_fft_init ⟨Real.pi, Real.cos, Real.sin⟩ zeroGlobals) (fun _ => 0.125) 4 0 0 = 1 ∧
    real_fft (WDL_fft_init ⟨Real.pi, Real.cos, Real.sin⟩ zeroGlobals) (fun _ => 0.125) 4 0 1 = 0 ∧
    real_fft (WDL_fft_init ⟨Real.pi, Real.cos, Real.sin⟩ zeroGlobals) (fun _ => 0.125) 4 0 2 = 0 ∧
    real_fft (WDL_fft_init ⟨Real.pi, Real.cos, Real.sin⟩ zeroGlobals) (fun _ => 0.125) 4 0 3 = 0 :=
  size4_constant_example zeroGlobals rfl (fun _ => 0.125) (fun _ _ => rfl)

/-- Counterexample to C12 as stated: on the buffer `[0.125, 0.125, 0.125, 0.125]` the
forward real transform of size 4 does not leave `4` in `buf[0]`. -/
theorem size4_constant_counterexample :
    real_fft (WDL_fft_init ⟨Real.pi, Real.cos, Real.sin⟩ zeroGlobals) (fun _ => 0.125) 4 0 0 ≠
      4 := by
  obtain ⟨h1, _⟩ := real_fft_constant zeroGlobals rfl 4 (by decide) 0.125 (fun _ => 0.125)
    (fun _ _ => rfl)
  simp only [Nat.cast_ofNat] at h1
  rw [h1]
  norm_num

end ConstantClaims
end WDLFFT

namespace WDLFFT
section RealLoopSpec

variable {T : Type} [CommRing T]

/-- An iteration of the loop of `two_for_one`, in terms of the selected twiddle. -/
theorem two_for_one_step_eq (g : Globals T) (d : ℕ → cmplxT T) (permute : ℕ → ℕ)
    (half quart eighth : ℕ) (isInverse : ℤ) (a : Buf T) (i : ℕ) :
    two_for_one_step g d permute half quart eighth isInverse a i =
      Function.update
        (Function.update a (permute i)
          (tfoP (tfoTw g d quart eighth isInverse i) (a (permute i)) (a (permute (half - i)))))
        (permute (half - i))
        (tfoQ (tfoTw g d quart eighth isInverse i) (a (permute i)) (a (permute (half - i)))) :=
  rfl

/-- The loop of `two_for_one`, sample by sample: the samples at `permute[i]` and
`permute[half - i]` are combined pairwise, from their values before the loop. -/
theorem two_for_one_loop_spec (g : Globals T) (d : ℕ → cmplxT T) (permute : ℕ → ℕ)
    (half quart eighth : ℕ) (isInverse : ℤ) (a : Buf T)
    (hinj : ∀ x y, x < half → y < half → permute x = permute y → x = y) :
    ∀ Q, 2 * Q ≤ half → ∀ i, 1 ≤ i → i < Q →
      forLoop 1 Q (two_for_one_step g d permute half quart eighth isInverse) a (permute i) =
        tfoP (tfoTw g d quart eighth isInverse i) (a (permute i)) (a (permute (half - i))) ∧
      forLoop 1 Q (two_for_one_step g d permute half quart eighth isInverse) a
          (permute (half - i)) =
        tfoQ (tfoTw g d quart eighth isInverse i) (a (permute i)) (a (permute (half - i))) := by
  intro Q
  induction Q with
  | zero => intro _ i h1 h2; omega
  | succ Q ih =>
    intro hQ i h1 h2
    have hQ1 : 1 ≤ Q := by omega
    have ne : ∀ x y, x < half → y < half → x ≠ y → permute x ≠ permute y :=
      fun x y hx hy hxy h => hxy (hinj x y hx hy h)
    rw [forLoop_succ 1 Q hQ1]
    rcases Nat.lt_or_ge i Q with hlt | hge
    · obtain ⟨i1, i2⟩ := ih (by omega) i h1 hlt
      rw [two_for_one_step_frame _ _ _ _ _ _ _ _ _ _ (ne _ _ (by omega) (by omega) (by omega))
        (ne _ _ (by omega) (by omega) (by omega)),
        two_for_one_step_frame _ _ _ _ _ _ _ _ _ _ (ne _ _ (by omega) (by omega) (by omega))
        (ne _ _ (by omega) (by omega) (by omega))]
      exact ⟨i1, i2⟩
    · have hiQ : i = Q := by omega
      subst hiQ
      have f1 := two_for_one_loop_frame g d permute half quart eighth isInverse a (permute i) i
        (fun j hj1 hj2 => ⟨ne _ _ (by omega) (by omega) (by omega),
          ne _ _ (by omega) (by omega) (by omega)⟩)
      have f2 := two_for_one_loop_frame g d permute half quart eighth isInverse a
        (permute (half - i)) i
        (fun j hj1 hj2 => ⟨ne _ _ (by omega) (by omega) (by omega),
          ne _ _ (by omega) (by omega) (by omega)⟩)
      rw [two_for_one_step_eq, f1, f2]
      have hpq : permute i ≠ permute (half - i) := ne _ _ (by omega) (by omega) (by omega)
      rw [Function.update_noteq hpq, Function.update_same, Function.update_same]
      exact ⟨rfl, rfl⟩

/-- Going forward and then back, an iteration of the loop of `two_for_one` with a twiddle
of norm one multiplies both samples by four. -/
theorem tfo_pair_round (c s : T) (h : c * c + s * s = 1) (p q : cmplxT T) :
    tfoP ⟨c, s⟩ (tfoP ⟨-c, s⟩ p q) (tfoQ ⟨-c, s⟩ p q) = ⟨4 * p.re, 4 * p.im⟩ ∧
    tfoQ ⟨c, s⟩ (tfoP ⟨-c, s⟩ p q) (tfoQ ⟨-c, s⟩ p q) = ⟨4 * q.re, 4 * q.im⟩ := by
  constructor
  · apply cmplxT.ext
    · simp only [tfoP, tfoQ]
      linear_combination (2 * (p.re - q.re)) * h
    · simp only [tfoP, tfoQ]
      linear_combination (2 * (p.im + q.im)) * h
  · apply cmplxT.ext
    · simp only [tfoP, tfoQ]
      linear_combination (-2 * (p.re - q.re)) * h
    · simp only [tfoP, tfoQ]
      linear_combination (2 * (p.im + q.im)) * h

end RealLoopSpec
end WDLFFT

namespace WDLFFT
section RealLayer

variable {T : Type} [CommRing T]

/-- The loop and the mid-point update of `two_for_one` at `half = M = 2Q`, sample by
sample: sample 0 stays, the samples at `permute[k]` and `permute[M - k]`, `1 ≤ k < Q`, are
combined pairwise, and the sample at `permute[Q]` has its real part doubled and its
imaginary part multiplied by `-2`. -/
theorem tfo_layer (g : Globals T) (d : ℕ → cmplxT T) (M Q : ℕ) (hM : M = 2 * Q) (hQ : 1 ≤ Q)
    (isInverse : ℤ)
    (hinj : ∀ x y, x < M → y < M →
      WDL_fft_permute_tab g M x = WDL_fft_permute_tab g M y → x = y)
    (h0 : WDL_fft_permute_tab g M 0 = 0) (a : Buf T) :
    tfoMid g M (tfoLoop g d M isInverse a) 0 = a 0 ∧
    (∀ k, 1 ≤ k → k < Q →
      tfoMid g M (tfoLoop g d M isInverse a) (WDL_fft_permute_tab g M k) =
        tfoP (tfoTw g d (M >>> 1) (M >>> 1 >>> 1) isInverse k)
          (a (WDL_fft_permute_tab g M k)) (a (WDL_fft_permute_tab g M (M - k))) ∧
      tfoMid g M (tfoLoop g d M isInverse a) (WDL_fft_permute_tab g M (M - k)) =
        tfoQ (tfoTw g d (M >>> 1) (M >>> 1 >>> 1) isInverse k)
          (a (WDL_fft_permute_tab g M k)) (a (WDL_fft_permute_tab g M (M - k)))) ∧
    tfoMid g M (tfoLoop g d M isInverse a) (WDL_fft_permute_tab g M Q) =
      ⟨(a (WDL_fft_permute_tab g M Q)).re * 2, (a (WDL_fft_permute_tab g M Q)).im * (-2)⟩ := by
  have hq : M >>> 1 = Q := by rw [Nat.shiftRight_eq_div_pow, pow_one]; omega
  have hmax : max 1 Q = Q := max_eq_right hQ
  have ne : ∀ x y, x < M → y < M → x ≠ y →
      WDL_fft_permute_tab g M x ≠ WDL_fft_permute_tab g M y :=
    fun x y hx hy hxy h => hxy (hinj x y hx hy h)
  have frame : ∀ z, (∀ i, 1 ≤ i → i < Q →
      z ≠ WDL_fft_permute_tab g M i ∧ z ≠ WDL_fft_permute_tab g M (M - i)) →
      tfoLoop g d M isInverse a z = a z := by
    intro z hz
    unfold tfoLoop
    rw [hq]
    exact two_for_one_loop_frame _ _ _ _ _ _ _ _ _ Q hz
  refine ⟨?_, ?_, ?_⟩
  · unfold tfoMid
    rw [hq, hmax, Function.update_noteq (by rw [← h0]; exact ne _ _ (by omega) (by omega) (by omega))]
    exact frame 0 (fun i h1 h2 => by
      rw [← h0]
      exact ⟨ne _ _ (by omega) (by omega) (by omega), ne _ _ (by omega) (by omega) (by omega)⟩)
  · intro k h1 h2
    have sp := two_for_one_loop_spec g d (WDL_fft_permute_tab g M) M (M >>> 1) (M >>> 1 >>> 1)
      isInverse a hinj Q (by omega) k h1 h2
    unfold tfoMid
    rw [hq, hmax, Function.update_noteq (ne _ _ (by omega) (by omega) (by omega)),
      Function.update_noteq (ne _ _ (by omega) (by omega) (by omega))]
    unfold tfoLoop
    rw [hq] at sp ⊢
    exact sp
  · unfold tfoMid
    rw [hq, hmax, Function.update_same]
    rw [frame _ (fun i h1 h2 => ⟨ne _ _ (by omega) (by omega) (by omega),
      ne _ _ (by omega) (by omega) (by omega)⟩)]

/-- The complex view of `v2` applied to the real view of a complex buffer. -/
theorem asCmplx_v2_asReal (A : Buf T) :
    asCmplx (v2 (asReal A)) =
      Function.update A 0 ⟨(A 0).re + (A 0).im, (A 0).re - (A 0).im⟩ := by
  funext i
  rcases Nat.eq_zero_or_pos i with e | e
  · subst e
    simp [asCmplx, v2, asReal]
  · have h1 : 2 * i ≠ 0 := by omega
    have h2 : 2 * i ≠ 1 := by omega
    have h3 : 2 * i + 1 ≠ 1 := by omega
    have h5 : (2 * i) % 2 = 0 := by omega
    have h6 : ¬ ((2 * i + 1) % 2 = 0) := by omega
    have h7 : (2 * i) / 2 = i := by omega
    have h8 : (2 * i + 1) / 2 = i := by omega
    rw [Function.update_noteq (by omega)]
    simp [asCmplx, v2, asReal, Function.update, h1, h2, h3, h5, h6, h7, h8]

end RealLayer
end WDLFFT

namespace WDLFFT
section RealRound

variable {T : Type} [CommRing T]

/-- The twiddle of the forward direction is the one of the inverse direction with the real
part negated. -/
theorem tfoTw_fwd (g : Globals T) (d : ℕ → cmplxT T) (quart eighth : ℕ) (isInverse : ℤ)
    (hinv : isInverse ≠ 0) (i : ℕ) :
    tfoTw g d quart eighth 0 i =
      ⟨-(tfoTw g d quart eighth isInverse i).re, (tfoTw g d quart eighth isInverse i).im⟩ := by
  unfold tfoTw
  simp only [if_true, if_neg hinv]

/-- The forward correction pass of `two_for_one` followed by the inverse one multiplies
every sample below `M` by four, when the twiddles have norm one. -/
theorem tfo_round (g : Globals T) (d : ℕ → cmplxT T) (M Q : ℕ) (hM : M = 2 * Q) (hQ : 1 ≤ Q)
    (isInverse : ℤ) (hinv : isInverse ≠ 0)
    (hinj : ∀ x y, x < M → y < M →
      WDL_fft_permute_tab g M x = WDL_fft_permute_tab g M y → x = y)
    (h0 : WDL_fft_permute_tab g M 0 = 0)
    (hsurj : ∀ z, z < M → ∃ k, k < M ∧ WDL_fft_permute_tab g M k = z)
    (hnorm : ∀ k, 1 ≤ k → k < Q →
      (tfoTw g d (M >>> 1) (M >>> 1 >>> 1) isInverse k).re *
          (tfoTw g d (M >>> 1) (M >>> 1 >>> 1) isInverse k).re +
        (tfoTw g d (M >>> 1) (M >>> 1 >>> 1) isInverse k).im *
          (tfoTw g d (M >>> 1) (M >>> 1 >>> 1) isInverse k).im = 1)
    (A1 : Buf T) (z : ℕ) (hz : z < M) :
    tfoMid g M (tfoLoop g d M isInverse
      (asCmplx (v2 (asReal (tfoMid g M (tfoLoop g d M 0 (asCmplx (r2 (asReal A1))))))))) z =
      ⟨4 * (A1 z).re, 4 * (A1 z).im⟩ := by
  have ne : ∀ x y, x < M → y < M → x ≠ y →
      WDL_fft_permute_tab g M x ≠ WDL_fft_permute_tab g M y :=
    fun x y hx hy hxy h => hxy (hinj x y hx hy h)
  have nz : ∀ k, 1 ≤ k → k < M → WDL_fft_permute_tab g M k ≠ 0 := by
    intro k h1 h2
    rw [← h0]
    exact ne _ _ h2 (by omega) (by omega)
  rw [asCmplx_r2_asReal, asCmplx_v2_asReal]
  obtain ⟨f0, fp, fm⟩ := tfo_layer g d M Q hM hQ 0 hinj h0
    (Function.update A1 0 ⟨((A1 0).re + (A1 0).im) * 2, ((A1 0).re - (A1 0).im) * 2⟩)
  obtain ⟨i0, ip, im⟩ := tfo_layer g d M Q hM hQ isInverse hinj h0
    (Function.update
      (tfoMid g M (tfoLoop g d M 0
        (Function.update A1 0 ⟨((A1 0).re + (A1 0).im) * 2, ((A1 0).re - (A1 0).im) * 2⟩)))
      0
      ⟨(tfoMid g M (tfoLoop g d M 0
          (Function.update A1 0
            ⟨((A1 0).re + (A1 0).im) * 2, ((A1 0).re - (A1 0).im) * 2⟩)) 0).re +
        (tfoMid g M (tfoLoop g d M 0
          (Function.update A1 0
            ⟨((A1 0).re + (A1 0).im) * 2, ((A1 0).re - (A1 0).im) * 2⟩)) 0).im,
       (tfoMid g M (tfoLoop g d M 0
          (Function.update A1 0
            ⟨((A1 0).re + (A1 0).im) * 2, ((A1 0).re - (A1 0).im) * 2⟩)) 0).re -
        (tfoMid g M (tfoLoop g d M 0
          (Function.update A1 0
            ⟨((A1 0).re + (A1 0).im) * 2, ((A1 0).re - (A1 0).im) * 2⟩)) 0).im⟩)
  obtain ⟨k, hk, rfl⟩ := hsurj z hz
  rcases Nat.eq_zero_or_pos k with e | e
  · subst e
    rw [h0, i0, Function.update_same, f0, Function.update_same]
    apply cmplxT.ext <;> simp only <;> ring
  · rcases Nat.lt_trichotomy k Q with hlt | heq | hgt
    · obtain ⟨a1, _⟩ := ip k e hlt
      obtain ⟨b1, b2⟩ := fp k e hlt
      rw [a1, Function.update_noteq (nz k e hk), Function.update_noteq (nz (M - k) (by omega)
        (by omega)), b1, b2, Function.update_noteq (nz k e hk),
        Function.update_noteq (nz (M - k) (by omega) (by omega)),
        tfoTw_fwd g d _ _ isInverse hinv k]
      exact (tfo_pair_round _ _ (hnorm k e hlt) _ _).1
    · subst heq
      rw [im, Function.update_noteq (nz k e hk), fm, Function.update_noteq (nz k e hk)]
      apply cmplxT.ext <;> simp only <;> ring
    · have hk2 : M - (M - k) = k := by omega
      obtain ⟨_, a2⟩ := ip (M - k) (by omega) (by omega)
      obtain ⟨b1, b2⟩ := fp (M - k) (by omega) (by omega)
      rw [hk2] at a2 b1 b2
      rw [a2, Function.update_noteq (nz k e hk), Function.update_noteq (nz (M - k) (by omega)
        (by omega)), b1, b2, Function.update_noteq (nz k e hk),
        Function.update_noteq (nz (M - k) (by omega) (by omega)),
        tfoTw_fwd g d _ _ isInverse hinv (M - k)]
      exact (tfo_pair_round _ _ (hnorm (M - k) (by omega) (by omega)) _ _).2

end RealRound
end WDLFFT

namespace WDLFFT
section RealTables
open Complex

variable {w : ℕ → ℤ → ℂ}

/-- A sample that is a twiddle factor has norm one. -/
theorem unit_of_twiddle (hw : IsTwiddle w) (z : cmplxT ℝ) (N : ℕ) (a : ℤ)
    (h : toC z = w N a) : z.re * z.re + z.im * z.im = 1 := by
  have h1 := Complex.mul_conj (w N a)
  rw [hw.conj, ← hw.add, add_neg_cancel, hw.zero, ← h] at h1
  have h2 : Complex.normSq (toC z) = 1 := by exact_mod_cast h1.symm
  rw [Complex.normSq_apply] at h2
  exact h2

/-- The table that `real_fft` passes for the length `N = 2^c ≥ 16` holds, at every index
that `two_for_one` reads, the root of unity of that index. -/
theorem realTable_ok (g : Globals ℝ) (ht : TablesOK w g) (c : ℕ) (hc4 : 4 ≤ c) (hc : c ≤ 15)
    (x : ℕ) (hx : x + 2 ≤ 2 ^ c / 8) :
    toC (realTable g (2 ^ c) x) = w (2 ^ c) ((x : ℤ) + 1) := by
  interval_cases c
  · have e : realTable g (2 ^ 4) = g.d16 := by simp [realTable]
    rw [e]; exact ht.d16 x (by norm_num at hx; omega)
  · have e : realTable g (2 ^ 5) = g.d32 := by simp [realTable]
    rw [e]; exact ht.d32 x (by norm_num at hx; omega)
  · have e : realTable g (2 ^ 6) = g.d64 := by simp [realTable]
    rw [e]; exact ht.d64 x (by norm_num at hx; omega)
  · have e : realTable g (2 ^ 7) = g.d128 := by simp [realTable]
    rw [e]; exact ht.d128 x (by norm_num at hx; omega)
  · have e : realTable g (2 ^ 8) = g.d256 := by simp [realTable]
    rw [e]; exact ht.d256 x (by norm_num at hx; omega)
  · have e : realTable g (2 ^ 9) = g.d512 := by simp [realTable]
    rw [e]; exact ht.d512 x (by norm_num at hx; omega)
  · have e : realTable g (2 ^ 10) = g.d1024 := by simp [realTable]
    rw [e]; exact ht.d1024 x (by norm_num at hx; omega)
  · have e : realTable g (2 ^ 11) = g.d2048 := by simp [realTable]
    rw [e]; exact ht.d2048 x (by norm_num at hx; omega)
  · have e : realTable g (2 ^ 12) = g.d4096 := by simp [realTable]
    rw [e]; exact ht.d4096 x (by norm_num at hx; omega)
  · have e : realTable g (2 ^ 13) = g.d8192 := by simp [realTable]
    rw [e]; exact ht.d8192 x (by norm_num at hx; omega)
  · have e : realTable g (2 ^ 14) = g.d16384 := by simp [realTable]
    rw [e]; exact ht.d16384 x (by norm_num at hx; omega)
  · have e : realTable g (2 ^ 15) = g.d32768 := by simp [realTable]
    rw [e]; exact ht.d32768 x (by norm_num at hx; omega)

/-- Every twiddle that `two_for_one` selects at the length `2^(m+1)` has norm one. -/
theorem tfoTw_unit (hw : IsTwiddle w) (g : Globals ℝ) (ht : TablesOK w g) (m : ℕ)
    (hm1 : 1 ≤ m) (hm : m ≤ 14) (isInverse : ℤ) (hinv : isInverse ≠ 0) (k : ℕ) (h1 : 1 ≤ k)
    (hk : k < 2 ^ m / 2) :
    (tfoTw g (realTable g (2 ^ (m + 1))) (2 ^ m >>> 1) (2 ^ m >>> 1 >>> 1) isInverse k).re *
        (tfoTw g (realTable g (2 ^ (m + 1))) (2 ^ m >>> 1) (2 ^ m >>> 1 >>> 1) isInverse k).re +
      (tfoTw g (realTable g (2 ^ (m + 1))) (2 ^ m >>> 1) (2 ^ m >>> 1 >>> 1) isInverse k).im *
        (tfoTw g (realTable g (2 ^ (m + 1))) (2 ^ m >>> 1) (2 ^ m >>> 1 >>> 1) isInverse k).im =
      1 := by
  have hq : 2 ^ m >>> 1 = 2 ^ m / 2 := by rw [Nat.shiftRight_eq_div_pow, pow_one]
  have he : (2 ^ m / 2) >>> 1 = 2 ^ m / 2 / 2 := by
    rw [Nat.shiftRight_eq_div_pow, pow_one]
  have e8 : 2 ^ (m + 1) / 8 = 2 ^ m / 2 / 2 := by rw [pow_succ]; omega
  unfold tfoTw
  simp only [if_neg hinv]
  rw [hq, he]
  by_cases c1 : k < 2 ^ m / 2 / 2
  · rw [if_pos c1]
    have h3 : 3 ≤ m := by
      by_contra hcon
      have : m = 1 ∨ m = 2 := by omega
      rcases this with e | e <;> subst e <;> norm_num at c1 <;> omega
    exact unit_of_twiddle hw _ _ _
      (realTable_ok g ht (m + 1) (by omega) (by omega) (k - 1) (by rw [e8]; omega))
  · rw [if_neg c1]
    by_cases c2 : k > 2 ^ m / 2 / 2
    · rw [if_pos c2]
      have h3 : 3 ≤ m := by
        by_contra hcon
        have : m = 1 ∨ m = 2 := by omega
        rcases this with e | e <;> subst e <;> norm_num at c2 hk <;> omega
      have hdiv : 2 ^ m / 2 = 2 * (2 ^ m / 2 / 2) := by
        obtain ⟨r, rfl⟩ : ∃ r, m = r + 2 := ⟨m - 2, by omega⟩
        rw [pow_succ, pow_succ]
        omega
      exact unit_of_twiddle hw _ _ _
        (realTable_ok g ht (m + 1) (by omega) (by omega) (2 ^ m / 2 - k - 1)
          (by rw [e8]; omega))
    · rw [if_neg c2]
      exact unit_of_twiddle hw _ _ _ ht.half

end RealTables
end WDLFFT

namespace WDLFFT
section RealRoundTrip
open Complex

/-- The inverse complex transform of four times the forward complex transform is `4·M`
times the input, on the block of size `M = 2^m`. -/
theorem fft_inv_of_scaled_fwd (g0 : Globals ℝ) (h0 : g0.ffttabinit = false) (m : ℕ)
    (hm1 : 1 ≤ m) (hm : m ≤ 15) (isInverse : ℤ) (hinv : isInverse ≠ 0) (A0 X : Buf ℝ)
    (hX : ∀ z, z < 2 ^ m →
      X z = ⟨4 * (fft (WDL_fft_init ⟨Real.pi, Real.cos, Real.sin⟩ g0) A0
          ((2 ^ m : ℕ) : ℤ) 0 z).re,
        4 * (fft (WDL_fft_init ⟨Real.pi, Real.cos, Real.sin⟩ g0) A0
          ((2 ^ m : ℕ) : ℤ) 0 z).im⟩)
    (j : ℕ) (hj : j < 2 ^ m) :
    fft (WDL_fft_init ⟨Real.pi, Real.cos, Real.sin⟩ g0) X ((2 ^ m : ℕ) : ℤ) isInverse j =
      ⟨4 * (2 ^ m : ℕ) * (A0 j).re, 4 * (2 ^ m : ℕ) * (A0 j).im⟩ := by
  have hw := isTwiddle_exp
  have ht := tablesOK_init hw (fun _ _ => rfl) g0 h0
  have hM : 2 ^ m ∈ supportedSizes := (supported_iff _).mpr ⟨m, hm1, hm, rfl⟩
  have h1 := congrFun (fft_inv_spec hw _ ht (2 ^ m) hM isInverse hinv X) j
  have h2 := fft_fwd_spec hw _ ht (2 ^ m) hM A0
  have h3 := idft_dft hw m (by omega) (fun i => toC (A0 i)) j hj
  simp only at h1
  apply toC_inj
  rw [h1]
  have e0 : j = 0 + j := by omega
  conv_lhs => rw [e0]
  rw [idftBlock_in _ _ _ _ _ hj]
  rw [← h2] at h3
  conv at h3 => lhs; rw [e0]
  rw [idftBlock_in _ _ _ _ _ hj] at h3
  have e1 : ∀ i ∈ Finset.range (2 ^ m),
      toC (X (0 + i)) * (fun (N : ℕ) (k : ℤ) => Complex.exp (2 * Real.pi * I * k / N)) (2 ^ m)
        (-((j : ℤ) * (fftfreq_c i (2 ^ m) : ℤ))) =
      4 * (toC (fft (WDL_fft_init ⟨Real.pi, Real.cos, Real.sin⟩ g0) A0
          ((2 ^ m : ℕ) : ℤ) 0 (0 + i)) *
        (fun (N : ℕ) (k : ℤ) => Complex.exp (2 * Real.pi * I * k / N)) (2 ^ m)
          (-((j : ℤ) * (fftfreq_c i (2 ^ m) : ℤ)))) := by
    intro i hi
    rw [Nat.zero_add, hX i (Finset.mem_range.mp hi), ← mul_assoc]
    congr 1
    apply Complex.ext <;> simp [toC]
  have key : ∀ (r : ℝ) (x : cmplxT ℝ), toC ⟨r * x.re, r * x.im⟩ = (r : ℂ) * toC x := by
    intro r x
    apply Complex.ext <;> simp [toC]
  rw [Finset.sum_congr rfl e1, ← Finset.mul_sum, h3, key]
  push_cast
  ring

/-- Claim C2 (real round trip). With the tables of `WDL_fft_init` in exact real arithmetic,
for every supported size `N` and every buffer `x`, `real_fft(buf,N,0)` followed by
`real_fft(buf,N,1)` leaves exactly `2·N·x[j]` at every position `j < N`. -/
theorem real_round_trip (g0 : Globals ℝ) (h0 : g0.ffttabinit = false) (N : ℕ)
    (hN : N ∈ supportedSizes) (isInverse : ℤ) (hinv : isInverse ≠ 0) (buf : ℕ → ℝ) (j : ℕ)
    (hj : j < N) :
    real_fft (WDL_fft_init ⟨Real.pi, Real.cos, Real.sin⟩ g0)
      (real_fft (WDL_fft_init ⟨Real.pi, Real.cos, Real.sin⟩ g0) buf (N : ℤ) 0) (N : ℤ)
      isInverse j = 2 * N * buf j := by
  have hw := isTwiddle_exp
  have ht := tablesOK_init hw (fun _ _ => rfl) g0 h0
  obtain ⟨k, hk1, hk2, rfl⟩ := (supported_iff N).mp hN
  rcases Nat.eq_or_lt_of_le hk1 with e | e
  · subst e
    have e2 : ∀ b : ℕ → ℝ, real_fft (WDL_fft_init ⟨Real.pi, Real.cos, Real.sin⟩ g0) b
        (((2 : ℕ) ^ 1 : ℕ) : ℤ) 0 = r2 b := by
      intro b
      unfold real_fft
      norm_num
    have e3 : ∀ b : ℕ → ℝ, real_fft (WDL_fft_init ⟨Real.pi, Real.cos, Real.sin⟩ g0) b
        (((2 : ℕ) ^ 1 : ℕ) : ℤ) isInverse = v2 b := by
      intro b
      unfold real_fft
      norm_num [hinv]
    rw [e2, e3]
    have : j = 0 ∨ j = 1 := by norm_num at hj; omega
    rcases this with e | e <;> subst e <;> simp [r2, v2] <;> ring
  · obtain ⟨m, rfl⟩ : ∃ m, k = m + 1 := ⟨k - 1, by omega⟩
    have hm1 : 1 ≤ m := by omega
    have e2 : (2 : ℕ) ^ (m + 1) = 2 * 2 ^ m := by rw [pow_succ]; ring
    have hlt : 2 * 2 ^ m < 4294967296 := by
      have : (2:ℕ) ^ (m + 1) ≤ 2 ^ 15 := Nat.pow_le_pow_right (by norm_num) hk2
      rw [e2] at this
      norm_num at this
      omega
    have hne : (2 : ℕ) ^ (m + 1) ≠ 2 := by
      have : (2:ℕ) ^ 2 ≤ 2 ^ (m + 1) := Nat.pow_le_pow_right (by norm_num) (by omega)
      norm_num at this
      omega
    have h2M : 2 ≤ 2 ^ m := by
      have : (2:ℕ) ^ 1 ≤ 2 ^ m := Nat.pow_le_pow_right (by norm_num) hm1
      simpa using this
    have hMQ : 2 ^ m = 2 * (2 ^ m / 2) := by
      obtain ⟨r, rfl⟩ : ∃ r, m = r + 1 := ⟨m - 1, by omega⟩
      rw [pow_succ]; omega
    obtain ⟨hperm, hsurj⟩ := init_permOn ⟨Real.pi, Real.cos, Real.sin⟩ g0 h0 m hm1 (by omega)
    have fwd : ∀ b : ℕ → ℝ, real_fft (WDL_fft_init ⟨Real.pi, Real.cos, Real.sin⟩ g0) b
        (((2 : ℕ) ^ (m + 1) : ℕ) : ℤ) 0 =
        asReal (tfoMid (WDL_fft_init ⟨Real.pi, Real.cos, Real.sin⟩ g0) (2 ^ m)
          (tfoLoop (WDL_fft_init ⟨Real.pi, Real.cos, Real.sin⟩ g0)
            (realTable (WDL_fft_init ⟨Real.pi, Real.cos, Real.sin⟩ g0) (2 ^ (m + 1))) (2 ^ m) 0
            (asCmplx (r2 (asReal (fft (WDL_fft_init ⟨Real.pi, Real.cos, Real.sin⟩ g0)
              (asCmplx b) ((2 ^ m : ℕ) : ℤ) 0)))))) := by
      intro b
      rw [real_fft_dispatch _ _ hN hne, e2, two_for_one_eq _ b _ (2 ^ m) hlt 0,
        if_neg (by simp)]
      unfold tfoStart
      rw [if_pos rfl]
    have inv : ∀ b : ℕ → ℝ, real_fft (WDL_fft_init ⟨Real.pi, Real.cos, Real.sin⟩ g0) b
        (((2 : ℕ) ^ (m + 1) : ℕ) : ℤ) isInverse =
        asReal (fft (WDL_fft_init ⟨Real.pi, Real.cos, Real.sin⟩ g0)
          (tfoMid (WDL_fft_init ⟨Real.pi, Real.cos, Real.sin⟩ g0) (2 ^ m)
            (tfoLoop (WDL_fft_init ⟨Real.pi, Real.cos, Real.sin⟩ g0)
              (realTable (WDL_fft_init ⟨Real.pi, Real.cos, Real.sin⟩ g0) (2 ^ (m + 1))) (2 ^ m)
              isInverse (asCmplx (v2 b))))
          ((2 ^ m : ℕ) : ℤ) isInverse) := by
      intro b
      rw [real_fft_dispatch _ _ hN hne, e2, two_for_one_eq _ b _ (2 ^ m) hlt isInverse,
        if_pos hinv]
      unfold tfoStart
      rw [if_neg hinv]
    rw [fwd, inv]
    have hround := tfo_round (WDL_fft_init ⟨Real.pi, Real.cos, Real.sin⟩ g0)
      (realTable (WDL_fft_init ⟨Real.pi, Real.cos, Real.sin⟩ g0) (2 ^ (m + 1))) (2 ^ m)
      (2 ^ m / 2) hMQ (by omega) isInverse hinv
      (fun x y hx hy h => hperm.inj x y hx hy (by
        rw [permute_tab_eq _ _ _ h2M, permute_tab_eq _ _ _ h2M] at h; exact h))
      (by rw [permute_tab_eq _ _ _ h2M]; exact hperm.zero)
      (fun z hz => by
        obtain ⟨k2, hk2', e5⟩ := hsurj z hz
        exact ⟨k2, hk2', by rw [permute_tab_eq _ _ _ h2M]; exact e5⟩)
      (fun k2 h1 h2 => tfoTw_unit hw _ ht m hm1 (by omega) isInverse hinv k2 h1 h2)
      (fft (WDL_fft_init ⟨Real.pi, Real.cos, Real.sin⟩ g0) (asCmplx buf) ((2 ^ m : ℕ) : ℤ) 0)
    have hY := fft_inv_of_scaled_fwd g0 h0 m hm1 (by omega) isInverse hinv (asCmplx buf) _
      hround (j / 2) (by omega)
    have a0 := asReal_at (fft (WDL_fft_init ⟨Real.pi, Real.cos, Real.sin⟩ g0)
      (tfoMid (WDL_fft_init ⟨Real.pi, Real.cos, Real.sin⟩ g0) (2 ^ m)
        (tfoLoop (WDL_fft_init ⟨Real.pi, Real.cos, Real.sin⟩ g0)
          (realTable (WDL_fft_init ⟨Real.pi, Real.cos, Real.sin⟩ g0) (2 ^ (m + 1))) (2 ^ m)
          isInverse (asCmplx (v2 (asReal
            (tfoMid (WDL_fft_init ⟨Real.pi, Real.cos, Real.sin⟩ g0) (2 ^ m)
              (tfoLoop (WDL_fft_init ⟨Real.pi, Real.cos, Real.sin⟩ g0)
                (realTable (WDL_fft_init ⟨Real.pi, Real.cos, Real.sin⟩ g0) (2 ^ (m + 1)))
                (2 ^ m) 0
                (asCmplx (r2 (asReal (fft (WDL_fft_init ⟨Real.pi, Real.cos, Real.sin⟩ g0)
                  (asCmplx buf) ((2 ^ m : ℕ) : ℤ) 0)))))))))))
      ((2 ^ m : ℕ) : ℤ) isInverse) (j / 2)
    rw [hY] at a0
    rcases Nat.mod_two_eq_zero_or_one j with e5 | e5
    · have ej : 2 * (j / 2) = j := by omega
      have := a0.1
      rw [ej] at this
      rw [this]
      simp only [asCmplx, ej]
      push_cast
      ring
    · have ej : 2 * (j / 2) + 1 = j := by omega
      have := a0.2
      rw [ej] at this
      rw [this]
      simp only [asCmplx, ej]
      push_cast
      ring

/-- Witness for C2: size 16 from the zero-initialised statics, position 5. -/
theorem real_round_trip_witness :
    real_fft (WDL_fft_init ⟨Real.pi, Real.cos, Real.sin⟩ zeroGlobals)
      (real_fft (WDL_fft_init ⟨Real.pi, Real.cos, Real.sin⟩ zeroGlobals)
        (fun (i : ℕ) => (i : ℝ)) ((16 : ℕ) : ℤ) 0) ((16 : ℕ) : ℤ) 1 5 =
      2 * ((16 : ℕ) : ℝ) * (fun (i : ℕ) => (i : ℝ)) 5 :=
  real_round_trip zeroGlobals rfl 16 (by decide) 1 (by decide) (fun (i : ℕ) => (i : ℝ)) 5
    (by decide)

end RealRoundTrip
end WDLFFT

namespace WDLFFT
section RealBinDefect
open Complex

/-- The complex view of the real view of a complex buffer is the buffer. -/
theorem asCmplx_asReal {T : Type} (A : Buf T) : asCmplx (asReal A) = A := by
  funext i
  have h5 : (2 * i) % 2 = 0 := by omega
  have h6 : ¬ ((2 * i + 1) % 2 = 0) := by omega
  have h7 : (2 * i) / 2 = i := by omega
  have h8 : (2 * i + 1) / 2 = i := by omega
  simp [asCmplx, asReal, h5, h6, h7, h8]

/-- With exact tables, the forward complex transform of size 8 of the buffer whose only
nonzero sample is `(0, 1)` at index 0 holds `(0, 1)` at every position. -/
theorem fft8_impulse (g0 : Globals ℝ) (h0 : g0.ffttabinit = false) (X : Buf ℝ)
    (hX : ∀ j, X j = if j = 0 then ⟨0, 1⟩ else ⟨0, 0⟩) (z : ℕ) (hz : z < 8) :
    fft (WDL_fft_init ⟨Real.pi, Real.cos, Real.sin⟩ g0) X ((8 : ℕ) : ℤ) 0 z = ⟨0, 1⟩ := by
  have hw := isTwiddle_exp
  have ht := tablesOK_init hw (fun _ _ => rfl) g0 h0
  have h2 := congrFun (fft_fwd_spec hw _ ht 8 (by decide) X) z
  simp only at h2
  apply toC_inj
  rw [h2]
  have e0 : z = 0 + z := by omega
  conv_lhs => rw [e0]
  rw [dftBlock_in _ _ _ _ _ hz, Finset.sum_eq_single 0]
  · simp only [Nat.zero_add, Nat.cast_zero, zero_mul]
    rw [hw.zero, mul_one, hX 0, if_pos rfl]
  · intro j _ hj
    rw [Nat.zero_add, hX j, if_neg hj]
    have : toC (⟨0, 0⟩ : cmplxT ℝ) = 0 := by apply Complex.ext <;> simp [toC]
    rw [this, zero_mul]
  · intro h
    exact absurd (Finset.mem_range.mpr (by norm_num)) h

/-- Entry 0 of `d16` after `WDL_fft_init` is `(cos(π/8), sin(π/8))`. -/
theorem d16_zero (g0 : Globals ℝ) (h0 : g0.ffttabinit = false) :
    (WDL_fft_init ⟨Real.pi, Real.cos, Real.sin⟩ g0).d16 0 =
      ⟨Real.cos (Real.pi / 8), Real.sin (Real.pi / 8)⟩ := by
  have h := fft_gen_computed ⟨Real.pi, Real.cos, Real.sin⟩ g0.d16 none 3 1 0 (by norm_num)
    (Or.inl rfl)
  have e : (WDL_fft_init ⟨Real.pi, Real.cos, Real.sin⟩ g0).d16 0 =
      tierEntry ⟨Real.pi, Real.cos, Real.sin⟩ 3 true 0 := by
    simpa [WDL_fft_init, h0] using h
  rw [e]
  simp only [tierEntry, if_true]
  have e2 : (((0 : ℕ) : ℝ) + 1) * (Real.pi * 0.25 / (((3 : ℕ) : ℝ) + 1) * 2.0) = Real.pi / 8 := by
    norm_num
    ring
  rw [e2]

/-- The forward real transform of length 16 of the unit impulse at index 1, read at the
complex position `WDL_fft_permute(8,3)`: the code leaves `(2·cos(π/8), -2·sin(π/8))`. -/
theorem real_fft_impulse16 (g0 : Globals ℝ) (h0 : g0.ffttabinit = false) (x : ℕ → ℝ)
    (hx : ∀ j, x j = if j = 1 then 1 else 0) :
    asCmplx (real_fft (WDL_fft_init ⟨Real.pi, Real.cos, Real.sin⟩ g0) x ((16 : ℕ) : ℤ) 0)
      (WDL_fft_permute (WDL_fft_init ⟨Real.pi, Real.cos, Real.sin⟩ g0) 8 3) =
      ⟨2 * Real.cos (Real.pi / 8), -(2 * Real.sin (Real.pi / 8))⟩ := by
  obtain ⟨hperm, _⟩ := init_permOn ⟨Real.pi, Real.cos, Real.sin⟩ g0 h0 3 (by norm_num)
    (by norm_num)
  have e8 : (2 : ℕ) ^ 3 = 8 := by norm_num
  rw [e8] at hperm
  have hA0 : ∀ j, asCmplx x j = if j = 0 then ⟨0, 1⟩ else ⟨0, 0⟩ := by
    intro j
    simp only [asCmplx, hx]
    rcases Nat.eq_zero_or_pos j with e | e
    · subst e; simp
    · have a1 : 2 * j ≠ 1 := by omega
      have a2 : 2 * j + 1 ≠ 1 := by omega
      have a3 : j ≠ 0 := by omega
      simp [a1, a2, a3]
  have ptab : ∀ i, WDL_fft_permute_tab (WDL_fft_init ⟨Real.pi, Real.cos, Real.sin⟩ g0) 8 i =
      WDL_fft_permute (WDL_fft_init ⟨Real.pi, Real.cos, Real.sin⟩ g0) 8 i :=
    fun i => permute_tab_eq _ 8 i (by norm_num)
  have hne : ∀ k, 1 ≤ k → k < 8 →
      WDL_fft_permute (WDL_fft_init ⟨Real.pi, Real.cos, Real.sin⟩ g0) 8 k ≠ 0 ∧
      WDL_fft_permute (WDL_fft_init ⟨Real.pi, Real.cos, Real.sin⟩ g0) 8 k < 8 := by
    intro k h1 h2
    refine ⟨fun h => ?_, hperm.maps k h2⟩
    have := hperm.inj k 0 h2 (by norm_num) (by
      show WDL_fft_permute _ 8 k = WDL_fft_permute _ 8 0
      rw [h]; exact hperm.zero.symm)
    omega
  have hS : ∀ k, 1 ≤ k → k < 8 →
      tfoStart (WDL_fft_init ⟨Real.pi, Real.cos, Real.sin⟩ g0) x 8 0
        (WDL_fft_permute (WDL_fft_init ⟨Real.pi, Real.cos, Real.sin⟩ g0) 8 k) = ⟨0, 1⟩ := by
    intro k h1 h2
    unfold tfoStart
    rw [if_pos rfl, asCmplx_r2_asReal, Function.update_noteq (hne k h1 h2).1]
    exact fft8_impulse g0 h0 _ hA0 _ (hne k h1 h2).2
  have e16 : real_fft (WDL_fft_init ⟨Real.pi, Real.cos, Real.sin⟩ g0) x ((16 : ℕ) : ℤ) 0 =
      asReal (tfoMid (WDL_fft_init ⟨Real.pi, Real.cos, Real.sin⟩ g0) 8
        (tfoLoop (WDL_fft_init ⟨Real.pi, Real.cos, Real.sin⟩ g0)
          (realTable (WDL_fft_init ⟨Real.pi, Real.cos, Real.sin⟩ g0) 16) 8 0
          (tfoStart (WDL_fft_init ⟨Real.pi, Real.cos, Real.sin⟩ g0) x 8 0))) := by
    rw [real_fft_at_16]
    have := two_for_one_eq (WDL_fft_init ⟨Real.pi, Real.cos, Real.sin⟩ g0) x
      (realTable (WDL_fft_init ⟨Real.pi, Real.cos, Real.sin⟩ g0) 16) 8 (by norm_num) 0
    rw [if_neg (by simp)] at this
    exact this
  rw [e16, asCmplx_asReal]
  obtain ⟨_, fp, _⟩ := tfo_layer (WDL_fft_init ⟨Real.pi, Real.cos, Real.sin⟩ g0)
    (realTable (WDL_fft_init ⟨Real.pi, Real.cos, Real.sin⟩ g0) 16) 8 4 (by norm_num)
    (by norm_num) 0
    (fun a b ha hb h => hperm.inj a b ha hb (by rw [ptab, ptab] at h; exact h))
    (by rw [ptab]; exact hperm.zero)
    (tfoStart (WDL_fft_init ⟨Real.pi, Real.cos, Real.sin⟩ g0) x 8 0)
  have f3 := (fp 3 (by norm_num) (by norm_num)).1
  rw [ptab, ptab] at f3
  rw [f3, hS 3 (by norm_num) (by norm_num), hS (8 - 3) (by norm_num) (by norm_num)]
  have etab : realTable (WDL_fft_init ⟨Real.pi, Real.cos, Real.sin⟩ g0) 16 =
      (WDL_fft_init ⟨Real.pi, Real.cos, Real.sin⟩ g0).d16 := by simp [realTable]
  have etw : tfoTw (WDL_fft_init ⟨Real.pi, Real.cos, Real.sin⟩ g0)
      (realTable (WDL_fft_init ⟨Real.pi, Real.cos, Real.sin⟩ g0) 16) (8 >>> 1) (8 >>> 1 >>> 1)
      0 3 = ⟨-Real.cos (Real.pi / 8), Real.sin (Real.pi / 8)⟩ := by
    unfold tfoTw
    have s1 : 8 >>> 1 = 4 := by decide
    have s2 : 4 >>> 1 = 2 := by decide
    have c1 : ¬ ((3 : ℕ) < 2) := by norm_num
    have c2 : (3 : ℕ) > 2 := by norm_num
    have c3 : 4 - 3 - 1 = 0 := by norm_num
    simp only [s1, s2, c1, c2, c3, if_true, if_false, etab]
    rw [d16_zero g0 h0]
  rw [etw]
  apply cmplxT.ext <;> simp only [tfoP] <;> ring

/-- The code at the failing input of claim C4: for the length 16 and the unit impulse at
index 1, the complex pair that `real_fft(buf,16,0)` leaves at the position
`WDL_fft_permute(8,3)` is not twice the DFT bin of frequency 3 (the loop of `two_for_one`
uses the twiddle `(cos(π/8), sin(π/8))` where `(cos(3π/8), sin(3π/8))` is due). -/
theorem real_fft_bin_defect :
    toC (asCmplx (real_fft (WDL_fft_init ⟨Real.pi, Real.cos, Real.sin⟩ zeroGlobals)
        (fun j => if j = 1 then 1 else 0) ((16 : ℕ) : ℤ) 0)
      (WDL_fft_permute (WDL_fft_init ⟨Real.pi, Real.cos, Real.sin⟩ (zeroGlobals (T := ℝ))) 8 3)) ≠
    2 * ∑ j in Finset.range 16,
      (((fun (j : ℕ) => if j = 1 then (1 : ℝ) else 0) j : ℝ) : ℂ) *
        Complex.exp (-2 * Real.pi * I * (j : ℂ) * 3 / 16) := by
  rw [real_fft_impulse16 zeroGlobals rfl _ (fun _ => rfl), Finset.sum_eq_single 1]
  · intro h
    have e1 : (-2 * (Real.pi : ℂ) * I * ((1 : ℕ) : ℂ) * 3 / 16) =
        ((-(3 * Real.pi / 8) : ℝ) : ℂ) * I := by
      push_cast; ring
    have hx1 : ((fun (j : ℕ) => if j = 1 then (1 : ℝ) else 0) 1) = 1 := if_pos rfl
    rw [e1, hx1, Complex.ofReal_one, one_mul] at h
    have h2 := congrArg Complex.re h
    have hl : (toC ⟨2 * Real.cos (Real.pi / 8), -(2 * Real.sin (Real.pi / 8))⟩).re =
        2 * Real.cos (Real.pi / 8) := rfl
    have hr : (2 * Complex.exp (((-(3 * Real.pi / 8) : ℝ) : ℂ) * I)).re =
        2 * Real.cos (3 * Real.pi / 8) := by
      have e2 : (2 : ℂ) = ((2 : ℝ) : ℂ) := by norm_cast
      rw [e2, Complex.re_ofReal_mul, Complex.exp_ofReal_mul_I_re, Real.cos_neg]
    rw [hl, hr] at h2
    have h3 : Real.cos (Real.pi / 8) = Real.cos (3 * Real.pi / 8) := by linarith
    have hpi := Real.pi_pos
    have h4 := Real.injOn_cos
      (show Real.pi / 8 ∈ Set.Icc 0 Real.pi from ⟨by linarith, by linarith⟩)
      (show 3 * Real.pi / 8 ∈ Set.Icc 0 Real.pi from ⟨by linarith, by linarith⟩) h3
    linarith
  · intro j _ hj
    simp [hj]
  · intro h
    exact absurd (Finset.mem_range.mpr (by norm_num)) h

end RealBinDefect
end WDLFFT

namespace WDLFFT
section Butterflies
variable {T : Type} [CommRing T]

/-- The zero-rotation forward butterfly is the general one with the twiddle `(1, 0)`. -/
theorem TRANSFORMZERO_eq (a0 a1 a2 a3 : cmplxT T) :
    TRANSFORMZERO a0 a1 a2 a3 = TRANSFORM a0 a1 a2 a3 1 0 := by
  simp only [TRANSFORMZERO, TRANSFORM, Prod.mk.injEq, cmplxT.mk.injEq]
  repeat' apply And.intro
  all_goals first | trivial | ring

/-- The half-rotation forward butterfly is the general one with the twiddle `(s, s)`. -/
theorem TRANSFORMHALF_eq (a0 a1 a2 a3 : cmplxT T) (s : T) :
    TRANSFORMHALF a0 a1 a2 a3 s = TRANSFORM a0 a1 a2 a3 s s := by
  simp only [TRANSFORMHALF, TRANSFORM, Prod.mk.injEq, cmplxT.mk.injEq]
  repeat' apply And.intro
  all_goals first | trivial | ring

/-- The zero-rotation inverse butterfly is the general one with the twiddle `(1, 0)`. -/
theorem UNTRANSFORMZERO_eq (a0 a1 a2 a3 : cmplxT T) :
    UNTRANSFORMZERO a0 a1 a2 a3 = UNTRANSFORM a0 a1 a2 a3 1 0 := by
  simp only [UNTRANSFORMZERO, UNTRANSFORM, Prod.mk.injEq, cmplxT.mk.injEq]
  repeat' apply And.intro
  all_goals first | trivial | ring

/-- The half-rotation inverse butterfly is the general one with the twiddle `(s, s)`. -/
theorem UNTRANSFORMHALF_eq (a0 a1 a2 a3 : cmplxT T) (s : T) :
    UNTRANSFORMHALF a0 a1 a2 a3 s = UNTRANSFORM a0 a1 a2 a3 s s := by
  simp only [UNTRANSFORMHALF, UNTRANSFORM, Prod.mk.injEq, cmplxT.mk.injEq]
  repeat' apply And.intro
  all_goals first | trivial | ring

/-- Claim C24: the three butterfly variants are one butterfly. Over any commutative ring,
`TRANSFORMZERO` is `TRANSFORM` with the twiddle `(1, 0)` and `TRANSFORMHALF` is `TRANSFORM`
with the twiddle `(s, s)`, for every value `s` of `sqrthalf`; likewise `UNTRANSFORMZERO` is
`UNTRANSFORM` with `(1, 0)` and `UNTRANSFORMHALF` is `UNTRANSFORM` with `(s, s)`. -/
theorem butterfly_variants_agree (a0 a1 a2 a3 : cmplxT T) (s : T) :
    TRANSFORMZERO a0 a1 a2 a3 = TRANSFORM a0 a1 a2 a3 1 0 ∧
    TRANSFORMHALF a0 a1 a2 a3 s = TRANSFORM a0 a1 a2 a3 s s ∧
    UNTRANSFORMZERO a0 a1 a2 a3 = UNTRANSFORM a0 a1 a2 a3 1 0 ∧
    UNTRANSFORMHALF a0 a1 a2 a3 s = UNTRANSFORM a0 a1 a2 a3 s s :=
  ⟨TRANSFORMZERO_eq a0 a1 a2 a3, TRANSFORMHALF_eq a0 a1 a2 a3 s,
    UNTRANSFORMZERO_eq a0 a1 a2 a3, UNTRANSFORMHALF_eq a0 a1 a2 a3 s⟩

end Butterflies
end WDLFFT

namespace WDLFFT
section FloorlogTotal

/-- On `x <= 0` the recursion of `floorlog2` never reaches its base case, whatever the
number of unfoldings. -/
theorem floorlog2_rec_nonpos : ∀ (fuel : ℕ) (x : ℤ), x ≤ 0 → floorlog2_rec fuel x = none := by
  intro fuel
  induction fuel with
  | zero => intro x _; rfl
  | succ fuel ih =>
    intro x hx
    rw [floorlog2_rec]
    have hne : ¬ (x = 1) := by omega
    have hs : x >>> 1 ≤ 0 := by
      cases x with
      | ofNat n =>
        have hn : n = 0 := by
          have : (n : ℤ) ≤ 0 := hx
          omega
        subst hn
        exact le_refl _
      | negSucc n =>
        have e : Int.negSucc n >>> 1 = Int.negSucc (n >>> 1) := rfl
        rw [e]
        exact (Int.negSucc_lt_zero _).le
    rw [if_neg hne, ih _ hs]
    rfl

/-- Claim C26: `floorlog2` is the floor binary logarithm on positive inputs. For every
integer `x >= 1` the recursion returns, as soon as it may unfold more than `r` times, the
unique `r` with `2^r <= x < 2^(r+1)` (so `floorlog2 x = r` for every positive 32-bit `x`);
and the precondition is needed: for `x <= 0` the recursion never reaches its base case. -/
theorem floorlog2_floor_log (x : ℤ) :
    (1 ≤ x → ∃ r : ℕ, (∀ fuel, r < fuel → floorlog2_rec fuel x = some r) ∧
      (2 : ℤ) ^ r ≤ x ∧ x < 2 ^ (r + 1) ∧
      (∀ r2 : ℕ, (2 : ℤ) ^ r2 ≤ x → x < 2 ^ (r2 + 1) → r2 = r) ∧
      (x < 2 ^ 32 → floorlog2 x = some r)) ∧
    (x ≤ 0 → ∀ fuel, floorlog2_rec fuel x = none) := by
  refine ⟨fun h1 => ?_, fun h0 fuel => floorlog2_rec_nonpos fuel x h0⟩
  obtain ⟨n, rfl⟩ := Int.eq_ofNat_of_zero_le (by omega : 0 ≤ x)
  have hn : 1 ≤ n := by exact_mod_cast h1
  have hlo : 2 ^ Nat.log 2 n ≤ n := Nat.pow_log_le_self 2 (by omega)
  have hhi : n < 2 ^ (Nat.log 2 n + 1) := Nat.lt_pow_succ_log_self (by norm_num) n
  refine ⟨Nat.log 2 n, fun fuel hf => ?_, by exact_mod_cast hlo, by exact_mod_cast hhi,
    fun r2 a b => ?_, fun h32 => ?_⟩
  · exact floorlog2_rec_spec fuel n hn
      (lt_of_lt_of_le hhi (Nat.pow_le_pow_right (by norm_num) hf))
  · have a2 : 2 ^ r2 ≤ n := by exact_mod_cast a
    have b2 : n < 2 ^ (r2 + 1) := by exact_mod_cast b
    exact ((Nat.log_eq_iff (Or.inr ⟨by norm_num, by omega⟩)).2 ⟨a2, b2⟩).symm
  · exact floorlog2_spec n hn (by exact_mod_cast h32)

/-- Witness for C26: `floorlog2(24) = 4` (a non-power-of-two is rounded down), and the
recursion on `0` never returns. -/
theorem floorlog2_floor_log_witness :
    floorlog2 24 = some 4 ∧ ∀ fuel, floorlog2_rec fuel 0 = none := by
  refine ⟨?_, (floorlog2_floor_log 0).2 (le_refl _)⟩
  obtain ⟨r, _, _, _, hu, hf⟩ := (floorlog2_floor_log 24).1 (by norm_num)
  have h4 : 4 = r := hu 4 (by norm_num) (by norm_num)
  rw [hf (by norm_num), ← h4]

end FloorlogTotal
end WDLFFT

namespace WDLFFT
section InitTables
open Complex

/-- An odd index of a table generated from a parent table holds the parent's entry at half
the index. -/
theorem fft_gen_parent {T : Type} [Field T] (F : Trig T) (buf b2 : ℕ → cmplxT T) (sz : ℕ)
    (isfull : ℤ) (x : ℕ) (hx : x < sz) (hodd : x % 2 = 1) :
    __fft_gen F buf (some b2) sz isfull x = b2 (x >>> 1) := by
  rw [fft_gen_apply F buf (some b2) sz isfull x hx]
  have hand : ¬ (x &&& 1 = 0) := by rw [Nat.and_one_is_mod]; omega
  simp only [if_neg hand]

/-- A sample that is the root of unity `exp(2·π·i·k/N)` is the pair of the cosine and the
sine of `2·π·k/N`. -/
theorem entry_of_toC (z : cmplxT ℝ) (N : ℕ) (k : ℕ)
    (h : toC z = Complex.exp (2 * Real.pi * I * ((k : ℤ) + 1 : ℤ) / N)) :
    z = ⟨Real.cos (2 * Real.pi * ((k : ℝ) + 1) / (N : ℝ)),
      Real.sin (2 * Real.pi * ((k : ℝ) + 1) / (N : ℝ))⟩ := by
  apply toC_inj
  rw [h, toC_cos_sin]
  congr 1
  push_cast
  ring

theorem init_d16 {T : Type} [Field T] (F : Trig T) (g0 : Globals T)
    (h0 : g0.ffttabinit = false) :
    (WDL_fft_init F g0).d16 = __fft_gen F g0.d16 none 3 1 := by
  simp [WDL_fft_init, h0]

theorem init_d32 {T : Type} [Field T] (F : Trig T) (g0 : Globals T)
    (h0 : g0.ffttabinit = false) :
    (WDL_fft_init F g0).d32 = __fft_gen F g0.d32 (some (WDL_fft_init F g0).d16) 7 1 := by
  simp [WDL_fft_init, h0]

theorem init_d64 {T : Type} [Field T] (F : Trig T) (g0 : Globals T)
    (h0 : g0.ffttabinit = false) :
    (WDL_fft_init F g0).d64 = __fft_gen F g0.d64 (some (WDL_fft_init F g0).d32) 15 1 := by
  simp [WDL_fft_init, h0]

theorem init_d128 {T : Type} [Field T] (F : Trig T) (g0 : Globals T)
    (h0 : g0.ffttabinit = false) :
    (WDL_fft_init F g0).d128 = __fft_gen F g0.d128 (some (WDL_fft_init F g0).d64) 31 1 := by
  simp [WDL_fft_init, h0]

theorem init_d256 {T : Type} [Field T] (F : Trig T) (g0 : Globals T)
    (h0 : g0.ffttabinit = false) :
    (WDL_fft_init F g0).d256 = __fft_gen F g0.d256 (some (WDL_fft_init F g0).d128) 63 1 := by
  simp [WDL_fft_init, h0]

theorem init_d512 {T : Type} [Field T] (F : Trig T) (g0 : Globals T)
    (h0 : g0.ffttabinit = false) :
    (WDL_fft_init F g0).d512 = __fft_gen F g0.d512 (some (WDL_fft_init F g0).d256) 127 1 := by
  simp [WDL_fft_init, h0]

theorem init_d1024 {T : Type} [Field T] (F : Trig T) (g0 : Globals T)
    (h0 : g0.ffttabinit = false) :
    (WDL_fft_init F g0).d1024 = __fft_gen F g0.d1024 (some (WDL_fft_init F g0).d512) 127 0 := by
  simp [WDL_fft_init, h0]

theorem init_d2048 {T : Type} [Field T] (F : Trig T) (g0 : Globals T)
    (h0 : g0.ffttabinit = false) :
    (WDL_fft_init F g0).d2048 = __fft_gen F g0.d2048 (some (WDL_fft_init F g0).d1024) 255 0 := by
  simp [WDL_fft_init, h0]

theorem init_d4096 {T : Type} [Field T] (F : Trig T) (g0 : Globals T)
    (h0 : g0.ffttabinit = false) :
    (WDL_fft_init F g0).d4096 = __fft_gen F g0.d4096 (some (WDL_fft_init F g0).d2048) 511 0 := by
  simp [WDL_fft_init, h0]

theorem init_d8192 {T : Type} [Field T] (F : Trig T) (g0 : Globals T)
    (h0 : g0.ffttabinit = false) :
    (WDL_fft_init F g0).d8192 = __fft_gen F g0.d8192 (some (WDL_fft_init F g0).d4096) 1023 0 := by
  simp [WDL_fft_init, h0]

theorem init_d16384 {T : Type} [Field T] (F : Trig T) (g0 : Globals T)
    (h0 : g0.ffttabinit = false) :
    (WDL_fft_init F g0).d16384 = __fft_gen F g0.d16384 (some (WDL_fft_init F g0).d8192) 2047 0 := by
  simp [WDL_fft_init, h0]

theorem init_d32768 {T : Type} [Field T] (F : Trig T) (g0 : Globals T)
    (h0 : g0.ffttabinit = false) :
    (WDL_fft_init F g0).d32768 = __fft_gen F g0.d32768 (some (WDL_fft_init F g0).d16384) 4095 0 := by
  simp [WDL_fft_init, h0]

theorem realTable_pow {T : Type} [Zero T] (g : Globals T) :
    realTable g (2 ^ 4) = g.d16 ∧ realTable g (2 ^ 5) = g.d32 ∧ realTable g (2 ^ 6) = g.d64 ∧
    realTable g (2 ^ 7) = g.d128 ∧ realTable g (2 ^ 8) = g.d256 ∧
    realTable g (2 ^ 9) = g.d512 ∧ realTable g (2 ^ 10) = g.d1024 ∧
    realTable g (2 ^ 11) = g.d2048 ∧ realTable g (2 ^ 12) = g.d4096 ∧
    realTable g (2 ^ 13) = g.d8192 ∧ realTable g (2 ^ 14) = g.d16384 ∧
    realTable g (2 ^ 15) = g.d32768 := by
  refine ⟨?_, ?_, ?_, ?_, ?_, ?_, ?_, ?_, ?_, ?_, ?_, ?_⟩ <;> simp [realTable]

theorem twiddleLen_pow :
    twiddleLen (2 ^ 4) = 3 ∧ twiddleLen (2 ^ 5) = 7 ∧ twiddleLen (2 ^ 6) = 15 ∧
    twiddleLen (2 ^ 7) = 31 ∧ twiddleLen (2 ^ 8) = 63 ∧ twiddleLen (2 ^ 9) = 127 ∧
    twiddleLen (2 ^ 10) = 127 ∧ twiddleLen (2 ^ 11) = 255 ∧ twiddleLen (2 ^ 12) = 511 ∧
    twiddleLen (2 ^ 13) = 1023 ∧ twiddleLen (2 ^ 14) = 2047 ∧ twiddleLen (2 ^ 15) = 4095 := by
  refine ⟨?_, ?_, ?_, ?_, ?_, ?_, ?_, ?_, ?_, ?_, ?_, ?_⟩ <;> simp [twiddleLen]

/-- After `WDL_fft_init` over the reals, entry `x` of the table of the size `2^c` is the
pair of the cosine and the sine of `2·π·(x+1)/2^c`. -/
theorem realTable_init_entry (g0 : Globals ℝ) (h0 : g0.ffttabinit = false) (c : ℕ)
    (hc4 : 4 ≤ c) (hc : c ≤ 15) (x : ℕ) (hx : x < twiddleLen (2 ^ c)) :
    realTable (WDL_fft_init ⟨Real.pi, Real.cos, Real.sin⟩ g0) (2 ^ c) x =
      ⟨Real.cos (2 * Real.pi * ((x : ℝ) + 1) / ((2 ^ c : ℕ) : ℝ)),
        Real.sin (2 * Real.pi * ((x : ℝ) + 1) / ((2 ^ c : ℕ) : ℝ))⟩ := by
  have ht := tablesOK_init isTwiddle_exp (fun _ _ => rfl) g0 h0
  obtain ⟨r4, r5, r6, r7, r8, r9, r10, r11, r12, r13, r14, r15⟩ :=
    realTable_pow (WDL_fft_init ⟨Real.pi, Real.cos, Real.sin⟩ g0)
  obtain ⟨l4, l5, l6, l7, l8, l9, l10, l11, l12, l13, l14, l15⟩ := twiddleLen_pow
  interval_cases c
  · rw [l4] at hx
    rw [r4]
    exact entry_of_toC _ _ x (ht.d16 x hx)
  · rw [l5] at hx
    rw [r5]
    exact entry_of_toC _ _ x (ht.d32 x hx)
  · rw [l6] at hx
    rw [r6]
    exact entry_of_toC _ _ x (ht.d64 x hx)
  · rw [l7] at hx
    rw [r7]
    exact entry_of_toC _ _ x (ht.d128 x hx)
  · rw [l8] at hx
    rw [r8]
    exact entry_of_toC _ _ x (ht.d256 x hx)
  · rw [l9] at hx
    rw [r9]
    exact entry_of_toC _ _ x (ht.d512 x hx)
  · rw [l10] at hx
    rw [r10]
    exact entry_of_toC _ _ x (ht.d1024 x hx)
  · rw [l11] at hx
    rw [r11]
    exact entry_of_toC _ _ x (ht.d2048 x hx)
  · rw [l12] at hx
    rw [r12]
    exact entry_of_toC _ _ x (ht.d4096 x hx)
  · rw [l13] at hx
    rw [r13]
    exact entry_of_toC _ _ x (ht.d8192 x hx)
  · rw [l14] at hx
    rw [r14]
    exact entry_of_toC _ _ x (ht.d16384 x hx)
  · rw [l15] at hx
    rw [r15]
    exact entry_of_toC _ _ x (ht.d32768 x hx)

end InitTables
end WDLFFT

namespace WDLFFT
section RootsOfUnity
open Complex

/-- The declared lengths of the twiddle arrays are `N/4 - 1` up to the size 512 and
`N/8 - 1` from the size 1024 on. -/
theorem twiddleLen_formula (c : ℕ) (hc4 : 4 ≤ c) (hc : c ≤ 15) :
    twiddleLen (2 ^ c) = if 2 ^ c ≤ 512 then 2 ^ c / 4 - 1 else 2 ^ c / 8 - 1 := by
  interval_cases c <;> simp [twiddleLen]

/-- An odd index of the table of the size `2^c`, `c ≥ 5`, halves to an index of the parent
table, and after `WDL_fft_init` the entry is the parent's entry at that index. -/
theorem init_parent_copy {T : Type} [Field T] (F : Trig T) (g0 : Globals T)
    (h0 : g0.ffttabinit = false) (c : ℕ) (hc5 : 5 ≤ c) (hc : c ≤ 15) (x : ℕ)
    (hx : x < twiddleLen (2 ^ c)) (hodd : x % 2 = 1) :
    x >>> 1 < twiddleLen (2 ^ (c - 1)) ∧
    realTable (WDL_fft_init F g0) (2 ^ c) x =
      realTable (WDL_fft_init F g0) (2 ^ (c - 1)) (x >>> 1) := by
  obtain ⟨r4, r5, r6, r7, r8, r9, r10, r11, r12, r13, r14, r15⟩ :=
    realTable_pow (WDL_fft_init F g0)
  obtain ⟨l4, l5, l6, l7, l8, l9, l10, l11, l12, l13, l14, l15⟩ := twiddleLen_pow
  have hs : x >>> 1 = x / 2 := by rw [Nat.shiftRight_eq_div_pow, pow_one]
  interval_cases c
  · rw [l5] at hx
    refine ⟨?_, ?_⟩
    · show x >>> 1 < twiddleLen (2 ^ 4)
      rw [l4, hs]; omega
    · show realTable (WDL_fft_init F g0) (2 ^ 5) x =
        realTable (WDL_fft_init F g0) (2 ^ 4) (x >>> 1)
      rw [r5, r4, init_d32 F g0 h0]
      exact fft_gen_parent F _ _ _ _ x hx hodd
  · rw [l6] at hx
    refine ⟨?_, ?_⟩
    · show x >>> 1 < twiddleLen (2 ^ 5)
      rw [l5, hs]; omega
    · show realTable (WDL_fft_init F g0) (2 ^ 6) x =
        realTable (WDL_fft_init F g0) (2 ^ 5) (x >>> 1)
      rw [r6, r5, init_d64 F g0 h0]
      exact fft_gen_parent F _ _ _ _ x hx hodd
  · rw [l7] at hx
    refine ⟨?_, ?_⟩
    · show x >>> 1 < twiddleLen (2 ^ 6)
      rw [l6, hs]; omega
    · show realTable (WDL_fft_init F g0) (2 ^ 7) x =
        realTable (WDL_fft_init F g0) (2 ^ 6) (x >>> 1)
      rw [r7, r6, init_d128 F g0 h0]
      exact fft_gen_parent F _ _ _ _ x hx hodd
  · rw [l8] at hx
    refine ⟨?_, ?_⟩
    · show x >>> 1 < twiddleLen (2 ^ 7)
      rw [l7, hs]; omega
    · show realTable (WDL_fft_init F g0) (2 ^ 8) x =
        realTable (WDL_fft_init F g0) (2 ^ 7) (x >>> 1)
      rw [r8, r7, init_d256 F g0 h0]
      exact fft_gen_parent F _ _ _ _ x hx hodd
  · rw [l9] at hx
    refine ⟨?_, ?_⟩
    · show x >>> 1 < twiddleLen (2 ^ 8)
      rw [l8, hs]; omega
    · show realTable (WDL_fft_init F g0) (2 ^ 9) x =
        realTable (WDL_fft_init F g0) (2 ^ 8) (x >>> 1)
      rw [r9, r8, init_d512 F g0 h0]
      exact fft_gen_parent F _ _ _ _ x hx hodd
  · rw [l10] at hx
    refine ⟨?_, ?_⟩
    · show x >>> 1 < twiddleLen (2 ^ 9)
      rw [l9, hs]; omega
    · show realTable (WDL_fft_init F g0) (2 ^ 10) x =
        realTable (WDL_fft_init F g0) (2 ^ 9) (x >>> 1)
      rw [r10, r9, init_d1024 F g0 h0]
      exact fft_gen_parent F _ _ _ _ x hx hodd
  · rw [l11] at hx
    refine ⟨?_, ?_⟩
    · show x >>> 1 < twiddleLen (2 ^ 10)
      rw [l10, hs]; omega
    · show realTable (WDL_fft_init F g0) (2 ^ 11) x =
        realTable (WDL_fft_init F g0) (2 ^ 10) (x >>> 1)
      rw [r11, r10, init_d2048 F g0 h0]
      exact fft_gen_parent F _ _ _ _ x hx hodd
  · rw [l12] at hx
    refine ⟨?_, ?_⟩
    · show x >>> 1 < twiddleLen (2 ^ 11)
      rw [l11, hs]; omega
    · show realTable (WDL_fft_init F g0) (2 ^ 12) x =
        realTable (WDL_fft_init F g0) (2 ^ 11) (x >>> 1)
      rw [r12, r11, init_d4096 F g0 h0]
      exact fft_gen_parent F _ _ _ _ x hx hodd
  · rw [l13] at hx
    refine ⟨?_, ?_⟩
    · show x >>> 1 < twiddleLen (2 ^ 12)
      rw [l12, hs]; omega
    · show realTable (WDL_fft_init F g0) (2 ^ 13) x =
        realTable (WDL_fft_init F g0) (2 ^ 12) (x >>> 1)
      rw [r13, r12, init_d8192 F g0 h0]
      exact fft_gen_parent F _ _ _ _ x hx hodd
  · rw [l14] at hx
    refine ⟨?_, ?_⟩
    · show x >>> 1 < twiddleLen (2 ^ 13)
      rw [l13, hs]; omega
    · show realTable (WDL_fft_init F g0) (2 ^ 14) x =
        realTable (WDL_fft_init F g0) (2 ^ 13) (x >>> 1)
      rw [r14, r13, init_d16384 F g0 h0]
      exact fft_gen_parent F _ _ _ _ x hx hodd
  · rw [l15] at hx
    refine ⟨?_, ?_⟩
    · show x >>> 1 < twiddleLen (2 ^ 14)
      rw [l14, hs]; omega
    · show realTable (WDL_fft_init F g0) (2 ^ 15) x =
        realTable (WDL_fft_init F g0) (2 ^ 14) (x >>> 1)
      rw [r15, r14, init_d32768 F g0 h0]
      exact fft_gen_parent F _ _ _ _ x hx hodd

/-- Claim C21: twiddle tables are roots of unity and parent reuse is exact. After
`WDL_fft_init` over the reals, for every size `N = 2^c` in `16 .. 32768` and every index `x`
of the table `dN` (declared length `N/4 - 1` for `N ≤ 512`, `N/8 - 1` for `N ≥ 1024`),
`dN[x] = (cos(2π(x+1)/N), sin(2π(x+1)/N))` and `re² + im² = 1`; and an odd index `x` of a
table with a parent halves to an index within the parent's bounds, the entry being the
parent's entry there. -/
theorem twiddle_tables_roots_of_unity (g0 : Globals ℝ) (h0 : g0.ffttabinit = false) (c : ℕ)
    (hc4 : 4 ≤ c) (hc : c ≤ 15) (x : ℕ) (hx : x < twiddleLen (2 ^ c)) :
    twiddleLen (2 ^ c) = (if 2 ^ c ≤ 512 then 2 ^ c / 4 - 1 else 2 ^ c / 8 - 1) ∧
    realTable (WDL_fft_init ⟨Real.pi, Real.cos, Real.sin⟩ g0) (2 ^ c) x =
      ⟨Real.cos (2 * Real.pi * ((x : ℝ) + 1) / ((2 ^ c : ℕ) : ℝ)),
        Real.sin (2 * Real.pi * ((x : ℝ) + 1) / ((2 ^ c : ℕ) : ℝ))⟩ ∧
    (realTable (WDL_fft_init ⟨Real.pi, Real.cos, Real.sin⟩ g0) (2 ^ c) x).re ^ 2 +
      (realTable (WDL_fft_init ⟨Real.pi, Real.cos, Real.sin⟩ g0) (2 ^ c) x).im ^ 2 = 1 ∧
    (5 ≤ c → x % 2 = 1 →
      x >>> 1 < twiddleLen (2 ^ (c - 1)) ∧
      realTable (WDL_fft_init ⟨Real.pi, Real.cos, Real.sin⟩ g0) (2 ^ c) x =
        realTable (WDL_fft_init ⟨Real.pi, Real.cos, Real.sin⟩ g0) (2 ^ (c - 1)) (x >>> 1)) := by
  have he := realTable_init_entry g0 h0 c hc4 hc x hx
  refine ⟨twiddleLen_formula c hc4 hc, he, ?_, fun h5 hodd =>
    init_parent_copy _ g0 h0 c h5 hc x hx hodd⟩
  rw [he]
  exact Real.cos_sq_add_sin_sq _

/-- Witness for C21: entry 1 of `d32`, an odd index copied from entry 0 of `d16`, from the
zero-initialised statics. -/
theorem twiddle_tables_roots_of_unity_witness :
    realTable (WDL_fft_init ⟨Real.pi, Real.cos, Real.sin⟩ zeroGlobals) (2 ^ 5) 1 =
      ⟨Real.cos (2 * Real.pi * (((1 : ℕ) : ℝ) + 1) / ((2 ^ 5 : ℕ) : ℝ)),
        Real.sin (2 * Real.pi * (((1 : ℕ) : ℝ) + 1) / ((2 ^ 5 : ℕ) : ℝ))⟩ ∧
    realTable (WDL_fft_init ⟨Real.pi, Real.cos, Real.sin⟩ zeroGlobals) (2 ^ 5) 1 =
      realTable (WDL_fft_init ⟨Real.pi, Real.cos, Real.sin⟩ zeroGlobals) (2 ^ (5 - 1)) (1 >>> 1) :=
  ⟨(twiddle_tables_roots_of_unity zeroGlobals rfl 5 (by norm_num) (by norm_num) 1
      (by rw [twiddleLen_pow.2.1]; norm_num)).2.1,
    ((twiddle_tables_roots_of_unity zeroGlobals rfl 5 (by norm_num) (by norm_num) 1
      (by rw [twiddleLen_pow.2.1]; norm_num)).2.2.2 (le_refl _) rfl).2⟩

end RootsOfUnity
end WDLFFT

namespace WDLFFT
section HalfPoint
open Complex

theorem sqrt_half_eq : Real.sqrt (1 / 2) = Real.cos (Real.pi / 4) := by
  rw [Real.cos_pi_div_four]
  have h2 : (0 : ℝ) ≤ Real.sqrt 2 / 2 := by positivity
  rw [Real.sqrt_eq_iff_mul_self_eq (by norm_num) h2]
  have := Real.mul_self_sqrt (by norm_num : (0 : ℝ) ≤ 2)
  nlinarith

/-- After `WDL_fft_init` over the reals, entry 1 of `d16` is the pair of the cosine and the
sine of `π/4`. -/
theorem init_d16_one (g0 : Globals ℝ) (h0 : g0.ffttabinit = false) :
    (WDL_fft_init ⟨Real.pi, Real.cos, Real.sin⟩ g0).d16 1 =
      ⟨Real.cos (Real.pi / 4), Real.sin (Real.pi / 4)⟩ := by
  have h := realTable_init_entry g0 h0 4 (le_refl _) (by norm_num) 1
    (by rw [twiddleLen_pow.1]; norm_num)
  rw [(realTable_pow _).1] at h
  rw [h]
  have e : 2 * Real.pi * (((1 : ℕ) : ℝ) + 1) / ((2 ^ 4 : ℕ) : ℝ) = Real.pi / 4 := by
    push_cast
    ring
  rw [e]

/-- After `WDL_fft_init` over the reals, entry 0 of the table of the size `2^c` has the
real part `cos(2π/2^c)`, which is larger than `√½`. -/
theorem init_entry_zero (g0 : Globals ℝ) (h0 : g0.ffttabinit = false) (c : ℕ)
    (hc4 : 4 ≤ c) (hc : c ≤ 15) :
    (realTable (WDL_fft_init ⟨Real.pi, Real.cos, Real.sin⟩ g0) (2 ^ c) 0).re =
      Real.cos (2 * Real.pi / (2 : ℝ) ^ c) ∧
    Real.sqrt (1 / 2) <
      (realTable (WDL_fft_init ⟨Real.pi, Real.cos, Real.sin⟩ g0) (2 ^ c) 0).re := by
  have hl : 0 < twiddleLen (2 ^ c) := by
    rw [twiddleLen_formula c hc4 hc]
    have h16 : 2 ^ 4 ≤ 2 ^ c := Nat.pow_le_pow_right (by norm_num) hc4
    have h10 : ¬ (c ≤ 9) → 2 ^ 10 ≤ 2 ^ c := fun h =>
      Nat.pow_le_pow_right (by norm_num) (by omega)
    split_ifs with h
    · omega
    · have : 2 ^ 10 ≤ 2 ^ c := by
        apply h10
        intro hc9
        have : 2 ^ c ≤ 2 ^ 9 := Nat.pow_le_pow_right (by norm_num) hc9
        omega
      omega
  have h := realTable_init_entry g0 h0 c hc4 hc 0 hl
  have e : 2 * Real.pi * (((0 : ℕ) : ℝ) + 1) / ((2 ^ c : ℕ) : ℝ) =
      2 * Real.pi / (2 : ℝ) ^ c := by
    push_cast
    ring
  rw [e] at h
  rw [h]
  refine ⟨rfl, ?_⟩
  show Real.sqrt (1 / 2) < Real.cos (2 * Real.pi / (2 : ℝ) ^ c)
  rw [sqrt_half_eq]
  have hπ := Real.pi_pos
  have h16 : (2 : ℝ) ^ 4 ≤ (2 : ℝ) ^ c := pow_le_pow_right₀ (by norm_num) hc4
  have hpos : (0 : ℝ) < (2 : ℝ) ^ c := by positivity
  have hlt : 2 * Real.pi / (2 : ℝ) ^ c < Real.pi / 4 := by
    rw [div_lt_div_iff hpos (by norm_num)]
    nlinarith
  exact Real.cos_lt_cos_of_nonneg_of_le_pi (by positivity) (by linarith) hlt

/-- Claim C22, as the code has it: after `WDL_fft_init` over the reals the constant
`sqrthalf` is the real part of entry 1 of `d16` (not of entry 0 of every table), and it is
`cos(45°) = sin(45°) = √½`, the imaginary part of that entry being the same; entry 0 of
the table of every size `N = 2^c` in `16 .. 32768` has the real part `cos(2π/N)`, which is
larger than `√½`. -/
theorem sqrthalf_is_d16_entry_one (g0 : Globals ℝ) (h0 : g0.ffttabinit = false) :
    sqrthalf (WDL_fft_init ⟨Real.pi, Real.cos, Real.sin⟩ g0) =
      ((WDL_fft_init ⟨Real.pi, Real.cos, Real.sin⟩ g0).d16 1).re ∧
    sqrthalf (WDL_fft_init ⟨Real.pi, Real.cos, Real.sin⟩ g0) = Real.sqrt (1 / 2) ∧
    sqrthalf (WDL_fft_init ⟨Real.pi, Real.cos, Real.sin⟩ g0) = Real.cos (Real.pi / 4) ∧
    sqrthalf (WDL_fft_init ⟨Real.pi, Real.cos, Real.sin⟩ g0) = Real.sin (Real.pi / 4) ∧
    ((WDL_fft_init ⟨Real.pi, Real.cos, Real.sin⟩ g0).d16 1).im = Real.sqrt (1 / 2) ∧
    ∀ c, 4 ≤ c → c ≤ 15 →
      (realTable (WDL_fft_init ⟨Real.pi, Real.cos, Real.sin⟩ g0) (2 ^ c) 0).re =
        Real.cos (2 * Real.pi / (2 : ℝ) ^ c) ∧
      Real.sqrt (1 / 2) <
        (realTable (WDL_fft_init ⟨Real.pi, Real.cos, Real.sin⟩ g0) (2 ^ c) 0).re := by
  have h1 := init_d16_one g0 h0
  have hs : sqrthalf (WDL_fft_init ⟨Real.pi, Real.cos, Real.sin⟩ g0) =
      Real.cos (Real.pi / 4) := by
    unfold sqrthalf
    rw [h1]
  refine ⟨rfl, ?_, hs, ?_, ?_, fun c hc4 hc => init_entry_zero g0 h0 c hc4 hc⟩
  · rw [hs, sqrt_half_eq]
  · rw [hs, Real.cos_pi_div_four, Real.sin_pi_div_four]
  · rw [h1, sqrt_half_eq, Real.cos_pi_div_four, Real.sin_pi_div_four]

/-- Witness for C22: the constant `sqrthalf` built from the zero-initialised statics. -/
theorem sqrthalf_is_d16_entry_one_witness :
    sqrthalf (WDL_fft_init ⟨Real.pi, Real.cos, Real.sin⟩ zeroGlobals) = Real.sqrt (1 / 2) :=
  (sqrthalf_is_d16_entry_one zeroGlobals rfl).2.1

/-- Counterexample to C22 as stated (entry 0 of every table has the real part `√½`, the
value of `sqrthalf`): after `WDL_fft_init` from the zero-initialised statics, the real part
of entry 0 of `d16` is neither `√½` nor `sqrthalf`. -/
theorem half_point_entry_zero_counterexample :
    ((WDL_fft_init ⟨Real.pi, Real.cos, Real.sin⟩ zeroGlobals).d16 0).re ≠ Real.sqrt (1 / 2) ∧
    ((WDL_fft_init ⟨Real.pi, Real.cos, Real.sin⟩ zeroGlobals).d16 0).re ≠
      sqrthalf (WDL_fft_init ⟨Real.pi, Real.cos, Real.sin⟩ zeroGlobals) := by
  have h := (init_entry_zero zeroGlobals rfl 4 (le_refl _) (by norm_num)).2
  rw [(realTable_pow _).1] at h
  have hs : sqrthalf (WDL_fft_init ⟨Real.pi, Real.cos, Real.sin⟩ zeroGlobals) =
      Real.sqrt (1 / 2) := by
    unfold sqrthalf
    rw [init_d16_one zeroGlobals rfl, sqrt_half_eq]
  exact ⟨ne_of_gt h, by rw [hs]; exact ne_of_gt h⟩

end HalfPoint
end WDLFFT

namespace WDLFFT
section TwiddleSelection
open Complex

/-- The twiddle that `two_for_one` selects in the inverse direction (no negation), by
branch. -/
theorem tfoTw_branches {T : Type} [CommRing T] (g : Globals T) (d : ℕ → cmplxT T)
    (quart eighth : ℕ) (isInverse : ℤ) (hinv : isInverse ≠ 0) (i : ℕ) :
    (i < eighth → tfoTw g d quart eighth isInverse i = d (i - 1)) ∧
    (i = eighth → tfoTw g d quart eighth isInverse i = ⟨sqrthalf g, sqrthalf g⟩) ∧
    (eighth < i → tfoTw g d quart eighth isInverse i = d (quart - i - 1)) := by
  unfold tfoTw
  simp only [if_neg hinv]
  refine ⟨fun h => ?_, fun h => ?_, fun h => ?_⟩
  · rw [if_pos h]
  · have h1 : ¬ (i < eighth) := by omega
    have h2 : ¬ (i > eighth) := by omega
    rw [if_neg h1, if_neg h2]
  · have h1 : ¬ (i < eighth) := by omega
    have h2 : i > eighth := h
    rw [if_neg h1, if_pos h2]

/-- The code at claim C23: for every supported length `len = 2^c ≥ 8`, tables built by
`WDL_fft_init` over the reals, and every `i` with `1 ≤ i < len/4`, the twiddle that
`two_for_one` selects for bin `i` (before the negation of the forward direction) is
`(cos(2πi/len), sin(2πi/len))` in the branches `i < len/8` and `i = len/8`, but in the
branch `i > len/8` it is the exchanged pair `(sin(2πi/len), cos(2πi/len))`, which differs
from the pair of the code's comment; every table index read is within the declared length
of the table for `len`. -/
theorem real_twiddle_selection_defect (g0 : Globals ℝ) (h0 : g0.ffttabinit = false) (c : ℕ)
    (hc3 : 3 ≤ c) (hc : c ≤ 15) (isInverse : ℤ) (hinv : isInverse ≠ 0) (i : ℕ) (h1 : 1 ≤ i)
    (hi : i < 2 ^ c / 4) :
    (i < 2 ^ c / 8 → i - 1 < twiddleLen (2 ^ c) ∧
      tfoTw (WDL_fft_init ⟨Real.pi, Real.cos, Real.sin⟩ g0)
          (realTable (WDL_fft_init ⟨Real.pi, Real.cos, Real.sin⟩ g0) (2 ^ c))
          (2 ^ c >>> 1 >>> 1) (2 ^ c >>> 1 >>> 1 >>> 1) isInverse i =
        ⟨Real.cos (2 * Real.pi * (i : ℝ) / ((2 ^ c : ℕ) : ℝ)),
          Real.sin (2 * Real.pi * (i : ℝ) / ((2 ^ c : ℕ) : ℝ))⟩) ∧
    (i = 2 ^ c / 8 →
      tfoTw (WDL_fft_init ⟨Real.pi, Real.cos, Real.sin⟩ g0)
          (realTable (WDL_fft_init ⟨Real.pi, Real.cos, Real.sin⟩ g0) (2 ^ c))
          (2 ^ c >>> 1 >>> 1) (2 ^ c >>> 1 >>> 1 >>> 1) isInverse i =
        ⟨Real.cos (2 * Real.pi * (i : ℝ) / ((2 ^ c : ℕ) : ℝ)),
          Real.sin (2 * Real.pi * (i : ℝ) / ((2 ^ c : ℕ) : ℝ))⟩) ∧
    (2 ^ c / 8 < i → 2 ^ c / 4 - i - 1 < twiddleLen (2 ^ c) ∧
      tfoTw (WDL_fft_init ⟨Real.pi, Real.cos, Real.sin⟩ g0)
          (realTable (WDL_fft_init ⟨Real.pi, Real.cos, Real.sin⟩ g0) (2 ^ c))
          (2 ^ c >>> 1 >>> 1) (2 ^ c >>> 1 >>> 1 >>> 1) isInverse i =
        ⟨Real.sin (2 * Real.pi * (i : ℝ) / ((2 ^ c : ℕ) : ℝ)),
          Real.cos (2 * Real.pi * (i : ℝ) / ((2 ^ c : ℕ) : ℝ))⟩ ∧
      tfoTw (WDL_fft_init ⟨Real.pi, Real.cos, Real.sin⟩ g0)
          (realTable (WDL_fft_init ⟨Real.pi, Real.cos, Real.sin⟩ g0) (2 ^ c))
          (2 ^ c >>> 1 >>> 1) (2 ^ c >>> 1 >>> 1 >>> 1) isInverse i ≠
        ⟨Real.cos (2 * Real.pi * (i : ℝ) / ((2 ^ c : ℕ) : ℝ)),
          Real.sin (2 * Real.pi * (i : ℝ) / ((2 ^ c : ℕ) : ℝ))⟩) := by
  obtain ⟨m, hm⟩ : ∃ m, 2 ^ c = 8 * m := ⟨2 ^ (c - 3), by
    have : c = 3 + (c - 3) := by omega
    conv_lhs => rw [this, pow_add]
    norm_num⟩
  have hQ : 2 ^ c >>> 1 >>> 1 = 2 * m := by
    simp only [Nat.shiftRight_eq_div_pow, pow_one]; omega
  have hE : 2 ^ c >>> 1 >>> 1 >>> 1 = m := by
    simp only [Nat.shiftRight_eq_div_pow, pow_one]; omega
  have h4 : 2 ^ c / 4 = 2 * m := by omega
  have h8 : 2 ^ c / 8 = m := by omega
  have hM : ((2 ^ c : ℕ) : ℝ) = 8 * (m : ℝ) := by rw [hm]; push_cast; ring
  have hmpos : 0 < m := by omega
  have hmR : (0 : ℝ) < (m : ℝ) := by exact_mod_cast hmpos
  have hπ := Real.pi_pos
  obtain ⟨b1, b2, b3⟩ := tfoTw_branches (WDL_fft_init ⟨Real.pi, Real.cos, Real.sin⟩ g0)
    (realTable (WDL_fft_init ⟨Real.pi, Real.cos, Real.sin⟩ g0) (2 ^ c))
    (2 ^ c >>> 1 >>> 1) (2 ^ c >>> 1 >>> 1 >>> 1) isInverse hinv i
  rw [h4] at hi
  rw [h8, h4]
  have hlen : 4 ≤ c → m - 1 ≤ twiddleLen (2 ^ c) := by
    intro hc4
    rw [twiddleLen_formula c hc4 hc]
    split_ifs <;> omega
  have hc4 : 2 ≤ m → 4 ≤ c := by
    intro h2
    by_contra hcon
    have : c = 3 := by omega
    subst this
    norm_num at hm
    omega
  refine ⟨fun hlt => ?_, fun heq => ?_, fun hgt => ?_⟩
  · have c4 := hc4 (by omega)
    have hx : i - 1 < twiddleLen (2 ^ c) := by have := hlen c4; omega
    refine ⟨hx, ?_⟩
    rw [b1 (by rw [hE]; exact hlt), realTable_init_entry g0 h0 c c4 hc (i - 1) hx]
    have e : ((i - 1 : ℕ) : ℝ) + 1 = (i : ℝ) := by
      rw [Nat.cast_sub h1]; push_cast; ring
    rw [e]
  · rw [b2 (by rw [hE]; exact heq)]
    have hs : sqrthalf (WDL_fft_init ⟨Real.pi, Real.cos, Real.sin⟩ g0) =
        Real.cos (Real.pi / 4) := by
      unfold sqrthalf
      rw [init_d16_one g0 h0]
    have e : 2 * Real.pi * (i : ℝ) / ((2 ^ c : ℕ) : ℝ) = Real.pi / 4 := by
      rw [hM, heq]
      field_simp
      ring
    rw [hs, e]
    apply cmplxT.ext
    · rfl
    · show Real.cos (Real.pi / 4) = Real.sin (Real.pi / 4)
      rw [Real.cos_pi_div_four, Real.sin_pi_div_four]
  · have c4 := hc4 (by omega)
    have hx : 2 * m - i - 1 < twiddleLen (2 ^ c) := by have := hlen c4; omega
    have hval : tfoTw (WDL_fft_init ⟨Real.pi, Real.cos, Real.sin⟩ g0)
          (realTable (WDL_fft_init ⟨Real.pi, Real.cos, Real.sin⟩ g0) (2 ^ c))
          (2 ^ c >>> 1 >>> 1) (2 ^ c >>> 1 >>> 1 >>> 1) isInverse i =
        ⟨Real.sin (2 * Real.pi * (i : ℝ) / ((2 ^ c : ℕ) : ℝ)),
          Real.cos (2 * Real.pi * (i : ℝ) / ((2 ^ c : ℕ) : ℝ))⟩ := by
      rw [b3 (by rw [hE]; exact hgt), hQ, realTable_init_entry g0 h0 c c4 hc (2 * m - i - 1) hx]
      have e : 2 * Real.pi * (((2 * m - i - 1 : ℕ) : ℝ) + 1) / ((2 ^ c : ℕ) : ℝ) =
          Real.pi / 2 - 2 * Real.pi * (i : ℝ) / ((2 ^ c : ℕ) : ℝ) := by
        have e1 : ((2 * m - i - 1 : ℕ) : ℝ) + 1 = 2 * (m : ℝ) - (i : ℝ) := by
          have : 2 * m - i - 1 + 1 = 2 * m - i := by omega
          have e2 : ((2 * m - i - 1 + 1 : ℕ) : ℝ) = ((2 * m - i : ℕ) : ℝ) := by rw [this]
          rw [Nat.cast_sub (by omega : i ≤ 2 * m)] at e2
          push_cast at e2
          linarith
        rw [e1, hM]
        field_simp
        ring
      rw [e, Real.cos_pi_div_two_sub, Real.sin_pi_div_two_sub]
    refine ⟨hx, hval, ?_⟩
    rw [hval]
    intro hcon
    have hre : Real.sin (2 * Real.pi * (i : ℝ) / ((2 ^ c : ℕ) : ℝ)) =
        Real.cos (2 * Real.pi * (i : ℝ) / ((2 ^ c : ℕ) : ℝ)) := congrArg cmplxT.re hcon
    have hiR : (m : ℝ) < (i : ℝ) := by exact_mod_cast hgt
    have hiR2 : (i : ℝ) < 2 * (m : ℝ) := by exact_mod_cast hi
    have hθ1 : Real.pi / 4 < 2 * Real.pi * (i : ℝ) / ((2 ^ c : ℕ) : ℝ) := by
      rw [hM, div_lt_div_iff (by norm_num) (by positivity)]
      nlinarith
    have hθ2 : 2 * Real.pi * (i : ℝ) / ((2 ^ c : ℕ) : ℝ) < Real.pi / 2 := by
      rw [hM, div_lt_div_iff (by positivity) (by norm_num)]
      nlinarith
    have hcos : Real.cos (2 * Real.pi * (i : ℝ) / ((2 ^ c : ℕ) : ℝ)) <
        Real.cos (Real.pi / 4) :=
      Real.cos_lt_cos_of_nonneg_of_le_pi (by positivity) (by linarith) hθ1
    have hsin : Real.sin (Real.pi / 4) <
        Real.sin (2 * Real.pi * (i : ℝ) / ((2 ^ c : ℕ) : ℝ)) :=
      Real.sin_lt_sin_of_lt_of_le_pi_div_two (by linarith) (by linarith) hθ1
    rw [Real.cos_pi_div_four] at hcos
    rw [Real.sin_pi_div_four] at hsin
    linarith

/-- The failing input of claim C23: for the length 16 and bin `i = 3`, the branch
`i > eighth` selects the exchanged pair, not `(cos(2π·3/16), sin(2π·3/16))`. -/
theorem real_twiddle_selection_defect_witness :
    tfoTw (WDL_fft_init ⟨Real.pi, Real.cos, Real.sin⟩ zeroGlobals)
        (realTable (WDL_fft_init ⟨Real.pi, Real.cos, Real.sin⟩ zeroGlobals) (2 ^ 4))
        (2 ^ 4 >>> 1 >>> 1) (2 ^ 4 >>> 1 >>> 1 >>> 1) 1 3 ≠
      ⟨Real.cos (2 * Real.pi * ((3 : ℕ) : ℝ) / ((2 ^ 4 : ℕ) : ℝ)),
        Real.sin (2 * Real.pi * ((3 : ℕ) : ℝ) / ((2 ^ 4 : ℕ) : ℝ))⟩ :=
  ((real_twiddle_selection_defect zeroGlobals rfl 4 (by norm_num) (by norm_num) 1
    (by norm_num) 3 (by norm_num) (by norm_num)).2.2 (by norm_num)).2.2

end TwiddleSelection
end WDLFFT

namespace WDLFFT
section SplitPass
variable {T : Type} [CommRing T]

omit [CommRing T] in
/-- A pass depends on its butterflies only below the number of butterflies run. -/
theorem passSeq_congr (bf bf2 : ℕ → cmplxT T → cmplxT T → cmplxT T → cmplxT T →
    cmplxT T × cmplxT T × cmplxT T × cmplxT T) (o M : ℕ) (a : Buf T) :
    ∀ K, (∀ k, k < K → bf k = bf2 k) → passSeq bf o M K a = passSeq bf2 o M K a := by
  intro K
  induction K with
  | zero => intro _; rfl
  | succ K ih =>
    intro h
    show on4 (bf K) (passSeq bf o M K a) _ _ _ _ = on4 (bf2 K) (passSeq bf2 o M K a) _ _ _ _
    rw [ih (fun k hk => h k (by omega)), h K (by omega)]

/-- The butterflies of the single-loop forward pass over the full table agree with those of
the split pass over the half table. -/
theorem bfC_full_eq_big (s : T) (h f : ℕ → cmplxT T) (n : ℕ) (hn : 2 ≤ n)
    (hlo : ∀ k, k ≤ n - 2 → f k = h k) (hmid : f (n - 1) = ⟨s, s⟩)
    (hhi : ∀ m, 1 ≤ m → m ≤ n - 1 →
      f (n - 1 + m) = ⟨(h (n - 1 - m)).im, (h (n - 1 - m)).re⟩)
    (k : ℕ) (hk : k < 2 * n) : bfCbig s h n k = bfC f k := by
  cases k with
  | zero => simp only [bfCbig, bfC, if_true]
  | succ j =>
    have c1 : ¬ (j + 1 = 0) := by omega
    by_cases c2 : j + 1 < n
    · simp only [bfCbig, bfC, c1, c2, if_false, if_true, Nat.add_sub_cancel]
      rw [hlo j (by omega)]
    · by_cases c3 : j + 1 = n
      · subst c3
        have hm : f j = ⟨s, s⟩ := by simpa using hmid
        simp only [bfCbig, bfC, c1, lt_irrefl, if_false, if_true]
        rw [hm]
        funext a0 a1 a2 a3
        exact TRANSFORMHALF_eq a0 a1 a2 a3 s
      · simp only [bfCbig, bfC, c1, c2, c3, if_false]
        have e : j = n - 1 + (j + 1 - n) := by omega
        have e2 : 2 * n - (j + 1) - 1 = n - 1 - (j + 1 - n) := by omega
        rw [e2]
        conv_rhs => rw [e]
        rw [hhi (j + 1 - n) (by omega) (by omega)]

/-- The butterflies of the single-loop inverse pass over the full table agree with those of
the split pass over the half table. -/
theorem bfU_full_eq_big (s : T) (h f : ℕ → cmplxT T) (n : ℕ) (hn : 2 ≤ n)
    (hlo : ∀ k, k ≤ n - 2 → f k = h k) (hmid : f (n - 1) = ⟨s, s⟩)
    (hhi : ∀ m, 1 ≤ m → m ≤ n - 1 →
      f (n - 1 + m) = ⟨(h (n - 1 - m)).im, (h (n - 1 - m)).re⟩)
    (k : ℕ) (hk : k < 2 * n) : bfUbig s h n k = bfU f k := by
  cases k with
  | zero => simp only [bfUbig, bfU, if_true]
  | succ j =>
    have c1 : ¬ (j + 1 = 0) := by omega
    by_cases c2 : j + 1 < n
    · simp only [bfUbig, bfU, c1, c2, if_false, if_true, Nat.add_sub_cancel]
      rw [hlo j (by omega)]
    · by_cases c3 : j + 1 = n
      · subst c3
        have hm : f j = ⟨s, s⟩ := by simpa using hmid
        simp only [bfUbig, bfU, c1, lt_irrefl, if_false, if_true]
        rw [hm]
        funext a0 a1 a2 a3
        exact UNTRANSFORMHALF_eq a0 a1 a2 a3 s
      · simp only [bfUbig, bfU, c1, c2, c3, if_false]
        have e : j = n - 1 + (j + 1 - n) := by omega
        have e2 : 2 * n - (j + 1) - 1 = n - 1 - (j + 1 - n) := by omega
        rw [e2]
        conv_rhs => rw [e]
        rw [hhi (j + 1 - n) (by omega) (by omega)]

/-- The split passes read the half table only below `n - 1`: their butterflies agree for
two tables that agree there. -/
theorem bfbig_congr (s : T) (h h2 : ℕ → cmplxT T) (n : ℕ) (hn : 2 ≤ n)
    (hag : ∀ k, k ≤ n - 2 → h2 k = h k) (k : ℕ) (hk : k < 2 * n) :
    bfCbig s h2 n k = bfCbig s h n k ∧ bfUbig s h2 n k = bfUbig s h n k := by
  by_cases c1 : k = 0
  · simp only [bfCbig, bfUbig, c1, if_true, and_self]
  · by_cases c2 : k < n
    · simp only [bfCbig, bfUbig, c1, c2, if_false, if_true]
      rw [hag (k - 1) (by omega)]
      exact ⟨rfl, rfl⟩
    · by_cases c3 : k = n
      · subst c3
        simp only [bfCbig, bfUbig, c1, lt_irrefl, if_false, if_true, and_self]
      · simp only [bfCbig, bfUbig, c1, c2, c3, if_false]
        rw [hag (2 * n - k - 1) (by omega)]
        exact ⟨rfl, rfl⟩

/-- A loop `do { ... } while (k -= 2)` entered with an even counter `k ≥ 2` runs `k / 2`
times. -/
theorem doWhileCount_even : ∀ (fuel k : ℕ), 2 ≤ k → k % 2 = 0 → k < 2 ^ 32 → k / 2 ≤ fuel →
    doWhileCount fuel k = some (k / 2) := by
  intro fuel
  induction fuel with
  | zero => intro k h2 _ _ hf; omega
  | succ fuel ih =>
    intro k h2 he h32 hf
    have e : (k + 2 ^ 32 - 2) % 2 ^ 32 = k - 2 := by
      have : k + 2 ^ 32 - 2 = (k - 2) + 2 ^ 32 := by omega
      rw [this, Nat.add_mod_right, Nat.mod_eq_of_lt (by omega)]
    rw [doWhileCount]
    simp only [e]
    by_cases hk : k - 2 ≠ 0
    · rw [if_pos hk, ih (k - 2) (by omega) (by omega) (by omega) (by omega)]
      simp only [Option.map_some', Option.some.injEq]
      omega
    · rw [if_neg hk]
      have e1 : k / 2 = 1 := by omega
      rw [e1]

/-- The loop `for (;;) { ...; if (!--n) break; ... }` entered with a counter `n ≥ 1` runs
`n` times. -/
theorem forBreakCount_pos : ∀ (fuel n : ℕ), 1 ≤ n → n < 2 ^ 32 → n ≤ fuel →
    forBreakCount fuel n = some n := by
  intro fuel
  induction fuel with
  | zero => intro n h1 _ hf; omega
  | succ fuel ih =>
    intro n h1 h32 hf
    have e : (n + 2 ^ 32 - 1) % 2 ^ 32 = n - 1 := by
      have : n + 2 ^ 32 - 1 = (n - 1) + 2 ^ 32 := by omega
      rw [this, Nat.add_mod_right, Nat.mod_eq_of_lt (by omega)]
    rw [forBreakCount]
    simp only [e]
    by_cases hk : n - 1 = 0
    · rw [if_pos hk]
      have e1 : n = 1 := by omega
      rw [e1]
    · rw [if_neg hk, ih (n - 1) (by omega) (by omega) (by omega)]
      simp only [Option.map_some', Option.some.injEq]
      omega

/-- Claim C25: the split pass equals the single-loop pass. For every even `n ≥ 4`, every
buffer, every half table `h` and every full table `f` with `f[k] = h[k]` for `k ≤ n-2`,
`f[n-1] = (s, s)` and `f[n-1+m] = (h[n-1-m].im, h[n-1-m].re)` for `1 ≤ m ≤ n-1`,
`cpassbig(a,h,n)` produces the buffer of `cpass(a,f,n)` and `upassbig(a,h,n)` that of
`upass(a,f,n)`; the split passes read `h` only at the indices `0 .. n-2`; and the loops
terminate: each `do ... while (k -= 2)` loop, entered with `k = n - 2`, runs `(n-2)/2`
times, and the `for (;;)` loop of the single-loop pass, entered with the counter `n - 1`,
runs `n - 1` times. -/
theorem split_pass_eq_single_pass (s : T) (a : Buf T) (o : ℕ) (h f : ℕ → cmplxT T) (n : ℕ)
    (hn : 4 ≤ n) (he : n % 2 = 0) (hn32 : n < 2 ^ 32)
    (hlo : ∀ k, k ≤ n - 2 → f k = h k) (hmid : f (n - 1) = ⟨s, s⟩)
    (hhi : ∀ m, 1 ≤ m → m ≤ n - 1 →
      f (n - 1 + m) = ⟨(h (n - 1 - m)).im, (h (n - 1 - m)).re⟩) :
    cpassbig s a o h n = cpass a o f n ∧
    upassbig s a o h n = upass a o f n ∧
    (∀ h2 : ℕ → cmplxT T, (∀ k, k ≤ n - 2 → h2 k = h k) →
      cpassbig s a o h2 n = cpassbig s a o h n ∧ upassbig s a o h2 n = upassbig s a o h n) ∧
    doWhileCount (n / 2) (n - 2) = some ((n - 2) / 2) ∧
    forBreakCount n (n - 1) = some (n - 1) := by
  refine ⟨?_, ?_, fun h2 hag => ⟨?_, ?_⟩, ?_, ?_⟩
  · rw [cpassbig_eq s a o h n hn he, cpass_eq a o f n (by omega)]
    exact passSeq_congr _ _ _ _ _ _
      (fun k hk => bfC_full_eq_big s h f n (by omega) hlo hmid hhi k hk)
  · rw [upassbig_eq s a o h n hn he, upass_eq a o f n (by omega)]
    exact passSeq_congr _ _ _ _ _ _
      (fun k hk => bfU_full_eq_big s h f n (by omega) hlo hmid hhi k hk)
  · rw [cpassbig_eq s a o h2 n hn he, cpassbig_eq s a o h n hn he]
    exact passSeq_congr _ _ _ _ _ _
      (fun k hk => (bfbig_congr s h h2 n (by omega) hag k hk).1)
  · rw [upassbig_eq s a o h2 n hn he, upassbig_eq s a o h n hn he]
    exact passSeq_congr _ _ _ _ _ _
      (fun k hk => (bfbig_congr s h h2 n (by omega) hag k hk).2)
  · exact doWhileCount_even (n / 2) (n - 2) (by omega) (by omega) (by omega) (by omega)
  · exact forBreakCount_pos n (n - 1) (by omega) (by omega) (by omega)

/-- Witness for C25: `n = 4` over the integers, with the half table `h[k] = (k+1, k+2)`,
`s = 5` and the full table built from them. -/
theorem split_pass_eq_single_pass_witness :
    cpassbig (5 : ℤ) (fun i => ⟨(i : ℤ), 1⟩) 0 (fun k => ⟨(k : ℤ) + 1, (k : ℤ) + 2⟩) 4 =
      cpass (fun i => ⟨(i : ℤ), 1⟩) 0
        (fun k => if k ≤ 2 then ⟨(k : ℤ) + 1, (k : ℤ) + 2⟩ else if k = 3 then ⟨5, 5⟩
          else ⟨((6 - k : ℕ) : ℤ) + 2, ((6 - k : ℕ) : ℤ) + 1⟩) 4 :=
  (split_pass_eq_single_pass (5 : ℤ) (fun i => ⟨(i : ℤ), 1⟩) 0
    (fun k => ⟨(k : ℤ) + 1, (k : ℤ) + 2⟩)
    (fun k => if k ≤ 2 then ⟨(k : ℤ) + 1, (k : ℤ) + 2⟩ else if k = 3 then ⟨5, 5⟩
      else ⟨((6 - k : ℕ) : ℤ) + 2, ((6 - k : ℕ) : ℤ) + 1⟩) 4
    (by norm_num) (by norm_num) (by norm_num)
    (fun k hk => by
      have : k ≤ 2 := hk
      simp only [this, if_true])
    (by simp)
    (fun m h1 h2 => by
      have c1 : ¬ (4 - 1 + m ≤ 2) := by omega
      have c2 : ¬ (4 - 1 + m = 3) := by omega
      have c3 : 6 - (4 - 1 + m) = 4 - 1 - m := by omega
      simp only [c1, c2, c3, if_false])).1

end SplitPass
end WDLFFT

namespace WDLFFT
section CycleCert
variable {σ τ : ℕ → ℕ} {N : ℕ}

/-- What the check `walkOK` establishes. -/
theorem walkOK_spec (τ : ℕ → ℕ) (s : ℕ) : ∀ n x, walkOK τ s n x = true →
    τ^[n] x = s ∧ ∀ j, j < n → s < τ^[j] x := by
  intro n
  induction n with
  | zero =>
    intro x h
    exact ⟨Nat.eq_of_beq_eq_true h, fun j hj => by omega⟩
  | succ n ih =>
    intro x h
    have h' : (Nat.blt s x && walkOK τ s n (τ x)) = true := h
    rw [Bool.and_eq_true] at h'
    obtain ⟨h1, h2⟩ := h'
    have hlt : s < x := by rw [Nat.blt_eq] at h1; exact h1
    obtain ⟨e, hj⟩ := ih (τ x) h2
    refine ⟨by rw [Function.iterate_succ_apply]; exact e, ?_⟩
    intro j hjn
    cases j with
    | zero => exact hlt
    | succ j => rw [Function.iterate_succ_apply]; exact hj j (by omega)

/-- What the check `orbitsOK` establishes. -/
theorem orbitsOK_spec (τ : ℕ → ℕ) (N : ℕ) : ∀ orbs : List (ℕ × ℕ), orbitsOK τ N orbs = true →
    ∀ p ∈ orbs, p.1 < N ∧ 2 ≤ p.2 ∧ walkOK τ p.1 (p.2 - 1) (τ p.1) = true := by
  intro orbs
  induction orbs with
  | nil => intro _ p hp; cases hp
  | cons q rest ih =>
    intro h p hp
    have h' : ((Nat.blt q.1 N && (Nat.ble 2 q.2 && walkOK τ q.1 (q.2 - 1) (τ q.1))) &&
        orbitsOK τ N rest) = true := h
    simp only [Bool.and_eq_true] at h'
    obtain ⟨⟨h1, h2, h3⟩, h4⟩ := h'
    rcases List.mem_cons.mp hp with e | e
    · subst e
      exact ⟨by rw [Nat.blt_eq] at h1; exact h1, Nat.le_of_ble_eq_true h2, h3⟩
    · exact ih h4 p e

/-- What the check `fixedOK` establishes. -/
theorem fixedOK_spec (τ : ℕ → ℕ) (N : ℕ) : ∀ fixed : List ℕ, fixedOK τ N fixed = true →
    ∀ f ∈ fixed, f < N ∧ τ f = f := by
  intro fixed
  induction fixed with
  | nil => intro _ f hf; cases hf
  | cons q rest ih =>
    intro h f hf
    have h' : ((Nat.blt q N && Nat.beq (τ q) q) && fixedOK τ N rest) = true := h
    simp only [Bool.and_eq_true] at h'
    obtain ⟨⟨h1, h2⟩, h3⟩ := h'
    rcases List.mem_cons.mp hf with e | e
    · subst e
      exact ⟨by rw [Nat.blt_eq] at h1; exact h1, Nat.eq_of_beq_eq_true h2⟩
    · exact ih h3 f e

theorem iterate_maps (hτ : ∀ i, i < N → τ i < N) (s : ℕ) (hs : s < N) : ∀ k, τ^[k] s < N := by
  intro k
  induction k with
  | zero => exact hs
  | succ k ih =>
    rw [Function.iterate_succ_apply']
    exact hτ _ ih

/-- A left inverse undoes the iterates. -/
theorem iterate_left_inverse (hτ : ∀ i, i < N → τ i < N) (hστ : ∀ i, i < N → σ (τ i) = i)
    (s : ℕ) (hs : s < N) : ∀ j m, σ^[j] (τ^[j + m] s) = τ^[m] s := by
  intro j
  induction j with
  | zero => intro m; simp
  | succ j ih =>
    intro m
    have e : j + 1 + m = (j + m) + 1 := by omega
    rw [Function.iterate_succ_apply, e, Function.iterate_succ_apply',
      hστ _ (iterate_maps hτ s hs _)]
    exact ih m

/-- A cycle of the inverse `τ` checked by `walkOK` is a cycle of `σ`, with the same least
index. -/
theorem isLeastOfCycle_of_walk (hτ : ∀ i, i < N → τ i < N) (hστ : ∀ i, i < N → σ (τ i) = i)
    (s l : ℕ) (hs : s < N) (hl : 2 ≤ l) (hw : walkOK τ s (l - 1) (τ s) = true) :
    IsLeastOfCycle σ N s l := by
  obtain ⟨e, hj⟩ := walkOK_spec τ s (l - 1) (τ s) hw
  have eτ : τ^[l] s = s := by
    have : l = (l - 1) + 1 := by omega
    rw [this, Function.iterate_succ_apply]
    exact e
  have key : ∀ j, j ≤ l → σ^[j] s = τ^[l - j] s := by
    intro j hjl
    have h := iterate_left_inverse hτ hστ s hs j (l - j)
    rw [show j + (l - j) = l by omega, eτ] at h
    exact h
  refine ⟨hs, hl, ?_, ?_⟩
  · rw [key l le_rfl, Nat.sub_self]
    rfl
  · intro j h1 h2
    rw [key j (by omega)]
    have : l - j = (l - j - 1) + 1 := by omega
    rw [this, Function.iterate_succ_apply]
    exact hj (l - j - 1) (by omega)

theorem IsLeastOfCycle.minimalPeriod_eq {s l : ℕ} (h : IsLeastOfCycle σ N s l) :
    Function.minimalPeriod σ s = l := by
  obtain ⟨_, hl, hper, hmin⟩ := h
  have hp : Function.IsPeriodicPt σ l s := hper
  have hle := hp.minimalPeriod_le (by omega)
  have hpos := hp.minimalPeriod_pos (by omega)
  by_contra hne
  have hlt : Function.minimalPeriod σ s < l := lt_of_le_of_ne hle hne
  have h2 := hmin _ hpos hlt
  rw [Function.iterate_minimalPeriod] at h2
  omega

theorem IsLeastOfCycle.mem_iff {s l : ℕ} (hσ : PermOn σ N) (h : IsLeastOfCycle σ N s l)
    (y : ℕ) : y ∈ List.iterate σ s l ↔ ∃ j, σ^[j] s = y := by
  have := hσ.mem_orbit_list s h.1 y
  rw [h.minimalPeriod_eq] at this
  exact this

theorem IsLeastOfCycle.nodup {s l : ℕ} (h : IsLeastOfCycle σ N s l) :
    (List.iterate σ s l).Nodup := by
  have := orbit_list_nodup σ s
  rw [h.minimalPeriod_eq] at this
  exact this

theorem IsLeastOfCycle.le_mem {s l : ℕ} (h : IsLeastOfCycle σ N s l) (y : ℕ)
    (hy : y ∈ List.iterate σ s l) : s ≤ y := by
  obtain ⟨j, hj, e⟩ := List.mem_iterate.mp hy
  rcases Nat.eq_zero_or_pos j with h0 | h0
  · subst h0
    exact le_of_eq e.symm
  · have := h.2.2.2 j h0 hj
    rw [e]
    exact this.le

theorem IsLeastOfCycle.moved {s l : ℕ} (hσ : PermOn σ N) (h : IsLeastOfCycle σ N s l) (y : ℕ)
    (hy : y ∈ List.iterate σ s l) : y < N ∧ σ y ≠ y := by
  obtain ⟨j, e⟩ := (h.mem_iff hσ y).mp hy
  refine ⟨by rw [← e]; exact hσ.iterate_lt s h.1 j, fun hfix => ?_⟩
  obtain ⟨i, hi⟩ := hσ.orbit_symm s h.1 j
  rw [e, iterate_fixed σ y hfix i] at hi
  have h1 := h.2.2.2 1 (le_refl _) h.2.1
  rw [Function.iterate_one, ← hi, hfix] at h1
  omega

theorem IsLeastOfCycle.le_of_common {s l s2 l2 : ℕ} (hσ : PermOn σ N)
    (h : IsLeastOfCycle σ N s l) (h2 : IsLeastOfCycle σ N s2 l2) (y : ℕ)
    (hy : y ∈ List.iterate σ s l) (hy2 : y ∈ List.iterate σ s2 l2) : s ≤ s2 := by
  obtain ⟨j, e⟩ := (h.mem_iff hσ y).mp hy
  obtain ⟨j2, e2⟩ := (h2.mem_iff hσ y).mp hy2
  obtain ⟨i, hi⟩ := hσ.orbit_symm s2 h2.1 j2
  have : σ^[i + j] s = s2 := by rw [Function.iterate_add_apply, e, ← e2, hi]
  exact h.le_mem s2 ((h.mem_iff hσ s2).mpr ⟨_, this⟩)

/-- The indices on the cycles of a list of cycles with distinct least indices, as a finite
set: its cardinality is the sum of the lengths. -/
theorem orbits_finset (hσ : PermOn σ N) : ∀ orbs : List (ℕ × ℕ),
    (∀ p ∈ orbs, IsLeastOfCycle σ N p.1 p.2) → (orbs.map Prod.fst).Nodup →
    ∃ U : Finset ℕ, U.card = (orbs.map Prod.snd).sum ∧
      ∀ y, y ∈ U ↔ ∃ p ∈ orbs, y ∈ List.iterate σ p.1 p.2 := by
  intro orbs
  induction orbs with
  | nil => intro _ _; exact ⟨∅, by simp, by simp⟩
  | cons q rest ih =>
    intro horb hon
    rw [List.map_cons, List.nodup_cons] at hon
    obtain ⟨U, hU, hmem⟩ := ih (fun p hp => horb p (List.mem_cons_of_mem _ hp)) hon.2
    have hq := horb q (List.mem_cons_self _ _)
    have hdis : Disjoint (List.iterate σ q.1 q.2).toFinset U := by
      rw [Finset.disjoint_left]
      intro y hy hyU
      rw [List.mem_toFinset] at hy
      obtain ⟨p, hp, hyp⟩ := (hmem y).mp hyU
      have hp2 := horb p (List.mem_cons_of_mem _ hp)
      have e : q.1 = p.1 := le_antisymm (hq.le_of_common hσ hp2 y hy hyp)
        (hp2.le_of_common hσ hq y hyp hy)
      exact hon.1 (by rw [e]; exact List.mem_map_of_mem _ hp)
    refine ⟨(List.iterate σ q.1 q.2).toFinset ∪ U, ?_, ?_⟩
    · rw [Finset.card_union_of_disjoint hdis, List.toFinset_card_of_nodup hq.nodup,
        List.length_iterate, hU, List.map_cons, List.sum_cons]
    · intro y
      rw [Finset.mem_union, List.mem_toFinset, hmem]
      constructor
      · rintro (h | ⟨p, hp, h⟩)
        · exact ⟨q, List.mem_cons_self _ _, h⟩
        · exact ⟨p, List.mem_cons_of_mem _ hp, h⟩
      · rintro ⟨p, hp, h⟩
        rcases List.mem_cons.mp hp with e | e
        · subst e; exact Or.inl h
        · exact Or.inr ⟨p, e, h⟩

/-- A list of fixed points and a list of cycles that count `N` indices in all leave no index
below `N` out: every index that `σ` moves lies on one of the cycles. -/
theorem orbits_cover (hσ : PermOn σ N) (fixed : List ℕ) (orbs : List (ℕ × ℕ))
    (hfix : ∀ f ∈ fixed, f < N ∧ σ f = f) (hfn : fixed.Nodup)
    (horb : ∀ p ∈ orbs, IsLeastOfCycle σ N p.1 p.2) (hon : (orbs.map Prod.fst).Nodup)
    (hsum : fixed.length + (orbs.map Prod.snd).sum = N) (x : ℕ) (hx : x < N)
    (hm : σ x ≠ x) : ∃ p ∈ orbs, x ∈ List.iterate σ p.1 p.2 := by
  obtain ⟨U, hU, hmem⟩ := orbits_finset hσ orbs horb hon
  have hdis : Disjoint fixed.toFinset U := by
    rw [Finset.disjoint_left]
    intro y hy hyU
    rw [List.mem_toFinset] at hy
    obtain ⟨p, hp, hyp⟩ := (hmem y).mp hyU
    exact ((horb p hp).moved hσ y hyp).2 (hfix y hy).2
  have hsub : fixed.toFinset ∪ U ⊆ Finset.range N := by
    intro y hy
    rw [Finset.mem_union] at hy
    rw [Finset.mem_range]
    rcases hy with h | h
    · exact (hfix y (List.mem_toFinset.mp h)).1
    · obtain ⟨p, hp, hyp⟩ := (hmem y).mp h
      exact ((horb p hp).moved hσ y hyp).1
  have hcard : (fixed.toFinset ∪ U).card = N := by
    rw [Finset.card_union_of_disjoint hdis, List.toFinset_card_of_nodup hfn, hU, hsum]
  have heq : fixed.toFinset ∪ U = Finset.range N :=
    Finset.eq_of_subset_of_card_le hsub (by rw [hcard, Finset.card_range])
  have hxm : x ∈ fixed.toFinset ∪ U := by rw [heq]; exact Finset.mem_range.mpr hx
  rw [Finset.mem_union] at hxm
  rcases hxm with h | h
  · exact absurd (hfix x (List.mem_toFinset.mp h)).2 hm
  · exact (hmem x).mp h

end CycleCert
end WDLFFT

namespace WDLFFT
section RunCount
variable {σ τ : ℕ → ℕ} {N : ℕ}

/-- Two runs of a table without repeated indices that share an index are the same run. -/
theorem runs_eq_of_common : ∀ R : List (List ℕ), (runMembers R).Nodup →
    ∀ r ∈ R, ∀ r2 ∈ R, ∀ y, y ∈ r → y ∈ r2 → r = r2 := by
  intro R
  induction R with
  | nil => intro _ r hr; cases hr
  | cons q R ih =>
    intro hnd r hr r2 hr2 y hy hy2
    have hnd2 : (q ++ runMembers R).Nodup := hnd
    rw [List.nodup_append] at hnd2
    obtain ⟨_, hR, hdis⟩ := hnd2
    rcases List.mem_cons.mp hr with e | e <;> rcases List.mem_cons.mp hr2 with e2 | e2
    · rw [e, e2]
    · subst e
      exact absurd ((mem_runMembers R y).mpr ⟨r2, e2, hy2⟩) (fun h => hdis hy h)
    · subst e2
      exact absurd ((mem_runMembers R y).mpr ⟨r, e, hy⟩) (fun h => hdis hy2 h)
    · exact ih hR r e r2 e2 y hy hy2

/-- A table without repeated indices and without empty runs has no repeated run. -/
theorem runs_nodup : ∀ R : List (List ℕ), (runMembers R).Nodup → (∀ r ∈ R, r ≠ []) →
    R.Nodup := by
  intro R
  induction R with
  | nil => intro _ _; exact List.nodup_nil
  | cons q R ih =>
    intro hnd hne
    have hnd2 : (q ++ runMembers R).Nodup := hnd
    rw [List.nodup_append] at hnd2
    obtain ⟨_, hR, hdis⟩ := hnd2
    rw [List.nodup_cons]
    refine ⟨fun hq => ?_, ih hR (fun r hr => hne r (List.mem_cons_of_mem _ hr))⟩
    obtain ⟨y, hy⟩ := List.exists_mem_of_ne_nil q (hne q (List.mem_cons_self _ _))
    exact hdis hy ((mem_runMembers R y).mpr ⟨q, hq, hy⟩)

/-- A run that is an orbit holds every iterate of each of its indices. -/
theorem IsOrbitRun.iterate_mem {r : List ℕ} (hr : IsOrbitRun σ r) (y : ℕ) (hy : y ∈ r) :
    ∀ m, σ^[m] y ∈ r := by
  intro m
  induction m with
  | zero => exact hy
  | succ m ih =>
    rw [Function.iterate_succ_apply']
    exact hr.closed _ ih

theorem IsOrbitRun.ne_nil {r : List ℕ} (hr : IsOrbitRun σ r) : r ≠ [] := by
  obtain ⟨x, k, rfl, hk, _, _⟩ := hr
  intro h
  have := congrArg List.length h
  rw [List.length_iterate] at this
  simp at this
  omega

/-- A table whose runs are orbits, without repeated indices, has no more runs than a list of
cycles that holds every moved index. -/
theorem runs_le_orbits (hσ : PermOn σ N) (orbs : List (ℕ × ℕ))
    (horb : ∀ p ∈ orbs, IsLeastOfCycle σ N p.1 p.2)
    (hcov : ∀ x, x < N → σ x ≠ x → ∃ p ∈ orbs, x ∈ List.iterate σ p.1 p.2)
    (R : List (List ℕ)) (hruns : ∀ r ∈ R, IsOrbitRun σ r) (hnd : (runMembers R).Nodup)
    (hmem : ∀ y, y ∈ runMembers R → y < N ∧ σ y ≠ y) : R.length ≤ orbs.length := by
  classical
  have hex : ∀ r ∈ R, ∃ p, p ∈ orbs ∧ ∃ y, y ∈ r ∧ y ∈ List.iterate σ p.1 p.2 := by
    intro r hr
    obtain ⟨y, hy⟩ := List.exists_mem_of_ne_nil r (hruns r hr).ne_nil
    obtain ⟨hyN, hym⟩ := hmem y ((mem_runMembers R y).mpr ⟨r, hr, hy⟩)
    obtain ⟨p, hp, hyp⟩ := hcov y hyN hym
    exact ⟨p, hp, y, hy, hyp⟩
  have hRn := runs_nodup R hnd (fun r hr => (hruns r hr).ne_nil)
  have key : R.toFinset.card ≤ orbs.toFinset.card := by
    apply Finset.card_le_card_of_injOn
      (fun r => if h : ∃ p, p ∈ orbs ∧ ∃ y, y ∈ r ∧ y ∈ List.iterate σ p.1 p.2
        then Classical.choose h else (0, 0))
    · intro r hr
      have hr2 : r ∈ R := List.mem_toFinset.mp hr
      simp only [dif_pos (hex r hr2)]
      exact List.mem_toFinset.mpr (Classical.choose_spec (hex r hr2)).1
    · intro r hr r2 hr2 e
      have hrR : r ∈ R := List.mem_toFinset.mp hr
      have hrR2 : r2 ∈ R := List.mem_toFinset.mp hr2
      simp only [dif_pos (hex r hrR), dif_pos (hex r2 hrR2)] at e
      obtain ⟨hp, y, hy, hyp⟩ := Classical.choose_spec (hex r hrR)
      obtain ⟨hp2, y2, hy2, hyp2⟩ := Classical.choose_spec (hex r2 hrR2)
      rw [← e] at hyp2
      have hc := horb _ hp
      obtain ⟨j, ej⟩ := (hc.mem_iff hσ y).mp hyp
      obtain ⟨j2, ej2⟩ := (hc.mem_iff hσ y2).mp hyp2
      obtain ⟨i, hi⟩ := hσ.orbit_symm _ hc.1 j
      have hy2r : y2 ∈ r := by
        have h1 : σ^[j2 + i] y = y2 := by
          rw [Function.iterate_add_apply, ← ej, hi, ej2]
        rw [← h1]
        exact (hruns r hrR).iterate_mem y hy _
      exact runs_eq_of_common R hnd r hrR r2 hrR2 y2 hy2r hy2
  calc R.length = R.toFinset.card := (List.toFinset_card_of_nodup hRn).symm
    _ ≤ orbs.toFinset.card := key
    _ ≤ orbs.length := List.toFinset_card_le orbs

/-- The number of entries of the runs of a table, each with its terminating `0`. -/
theorem flatRuns_length : ∀ R : List (List ℕ),
    (flatRuns R).length = (runMembers R).length + R.length := by
  intro R
  induction R with
  | nil => rfl
  | cons q R ih =>
    simp only [flatRuns, runMembers, List.length_append, List.length_cons, ih]
    omega

/-- The moved indices are fewer than `N`, since `0` is fixed. -/
theorem members_length_lt (hσ : PermOn σ N) (hN : 0 < N) (L : List ℕ) (hnd : L.Nodup)
    (hmem : ∀ y, y ∈ L → y < N ∧ σ y ≠ y) : L.length + 1 ≤ N := by
  have h0 : 0 ∉ L := fun h => (hmem 0 h).2 hσ.zero
  have := nodup_length_le (0 :: L) N (List.nodup_cons.mpr ⟨h0, hnd⟩) (by
    intro y hy
    rcases List.mem_cons.mp hy with e | e
    · rw [e]; exact hN
    · exact (hmem y e).1)
  simpa using this

/-- The length of a cycle table whose permutation has a checked cycle certificate: the
moved indices, one `0` per run and the final `0`, at most `N` plus the number of cycles of
the certificate. -/
theorem table_length_le (hσ : PermOn σ N) (hN : 0 < N) (hτ : ∀ i, i < N → τ i < N)
    (hστ : ∀ i, i < N → σ (τ i) = i) (fixed : List ℕ) (orbs : List (ℕ × ℕ))
    (hc : certOK τ N fixed orbs = true) (hfn : fixed.Nodup)
    (hon : (orbs.map Prod.fst).Nodup)
    (hsum : fixed.length + (orbs.map Prod.snd).sum = N)
    (tab0 t : ℕ → ℕ) (t0 : ℕ) (R : List (List ℕ)) (ht : IsCycleTable σ N tab0 t t0 R) :
    (flatRuns R ++ [0]).length = (runMembers R).length + R.length + 1 ∧
    (flatRuns R ++ [0]).length ≤ N + orbs.length := by
  have hc2 : (fixedOK τ N fixed && orbitsOK τ N orbs) = true := hc
  rw [Bool.and_eq_true] at hc2
  have hfix : ∀ f ∈ fixed, f < N ∧ σ f = f := by
    intro f hf
    obtain ⟨h1, h2⟩ := fixedOK_spec τ N fixed hc2.1 f hf
    refine ⟨h1, ?_⟩
    have := hστ f h1
    rw [h2] at this
    exact this
  have horb : ∀ p ∈ orbs, IsLeastOfCycle σ N p.1 p.2 := by
    intro p hp
    obtain ⟨h1, h2, h3⟩ := orbitsOK_spec τ N orbs hc2.2 p hp
    exact isLeastOfCycle_of_walk hτ hστ p.1 p.2 h1 h2 h3
  have hmem : ∀ y, y ∈ runMembers R → y < N ∧ σ y ≠ y := fun y hy => (ht.mem y).mp hy
  have hR := runs_le_orbits hσ orbs horb
    (fun x hx hm => orbits_cover hσ fixed orbs hfix hfn horb hon hsum x hx hm)
    R ht.runs ht.nodup hmem
  have hM := members_length_lt hσ hN (runMembers R) ht.nodup hmem
  have hlen : (flatRuns R ++ [0]).length = (runMembers R).length + R.length + 1 := by
    rw [List.length_append, flatRuns_length]
    rfl
  exact ⟨hlen, by omega⟩

end RunCount
end WDLFFT

namespace WDLFFT
section FreqAt

theorem nat_mod_def (a b : ℕ) : Nat.mod a b = a % b := rfl

theorem nat_mul_def (a b : ℕ) : Nat.mul a b = a * b := rfl

theorem nat_add_def (a b : ℕ) : Nat.add a b = a + b := rfl

theorem nat_sub_def (a b : ℕ) : Nat.sub a b = a - b := rfl

theorem nat_land_def (a b : ℕ) : Nat.land a b = a &&& b := rfl

/-- One step of the recursion of `fftfreq_c`, in the form of the definitions `freqAt`. -/
theorem freq_step (fH fQ : ℕ → ℕ) (M M2 M4 L : ℕ) (hM : 1 ≤ M) (h2 : M2 = 2 * M)
    (h4 : M4 = 4 * M) (hL : L = 4 * M - 1)
    (hH : ∀ i, fH i = fftfreq_c i M2) (hQ : ∀ i, fQ i = fftfreq_c i M) (i : ℕ) :
    cond (Nat.blt i M2) (Nat.mod (Nat.mul (fH i) 2) 4294967296)
      (cond (Nat.blt (Nat.sub i M2) M)
        (Nat.mod (Nat.add (Nat.mod (Nat.mul (fQ (Nat.sub i M2)) 4) 4294967296) 1)
          4294967296)
        (Nat.land
          (Nat.mod (Nat.add (Nat.mod (Nat.mul (fQ (Nat.sub (Nat.sub i M2) M)) 4)
            4294967296) 4294967295) 4294967296)
          L)) = fftfreq_c i M4 := by
  subst h2 h4 hL
  rw [fftfreq_c_unfold i M hM, hH, hQ, hQ]
  simp only [nat_mod_def, nat_mul_def, nat_add_def, nat_sub_def, nat_land_def]
  by_cases c1 : i < 2 * M
  · have b1 : Nat.blt i (2 * M) = true := by rw [Nat.blt_eq]; exact c1
    rw [if_pos c1, b1, cond_true]
  · have b1 : Nat.blt i (2 * M) = false := by
      rw [← Bool.not_eq_true, Nat.blt_eq]; exact c1
    rw [if_neg c1, b1, cond_false]
    by_cases c2 : i - 2 * M < M
    · have b2 : Nat.blt (i - 2 * M) M = true := by rw [Nat.blt_eq]; exact c2
      rw [if_pos c2, b2, cond_true]
    · have b2 : Nat.blt (i - 2 * M) M = false := by
        rw [← Bool.not_eq_true, Nat.blt_eq]; exact c2
      rw [if_neg c2, b2, cond_false]

theorem freqAt0_eq (i : ℕ) : freqAt0 i = fftfreq_c i 1 :=
  (fftfreq_c_small i 1 (by norm_num)).symm

theorem freqAt1_eq (i : ℕ) : freqAt1 i = fftfreq_c i 2 :=
  (fftfreq_c_small i 2 (by norm_num)).symm

theorem freqAt2_eq (i : ℕ) : freqAt2 i = fftfreq_c i 4 :=
  freq_step freqAt1 freqAt0 1 2 4 3 (by norm_num) (by norm_num)
    (by norm_num) (by norm_num) freqAt1_eq freqAt0_eq i

theorem freqAt3_eq (i : ℕ) : freqAt3 i = fftfreq_c i 8 :=
  freq_step freqAt2 freqAt1 2 4 8 7 (by norm_num) (by norm_num)
    (by norm_num) (by norm_num) freqAt2_eq freqAt1_eq i

theorem freqAt4_eq (i : ℕ) : freqAt4 i = fftfreq_c i 16 :=
  freq_step freqAt3 freqAt2 4 8 16 15 (by norm_num) (by norm_num)
    (by norm_num) (by norm_num) freqAt3_eq freqAt2_eq i

theorem freqAt5_eq (i : ℕ) : freqAt5 i = fftfreq_c i 32 :=
  freq_step freqAt4 freqAt3 8 16 32 31 (by norm_num) (by norm_num)
    (by norm_num) (by norm_num) freqAt4_eq freqAt3_eq i

theorem freqAt6_eq (i : ℕ) : freqAt6 i = fftfreq_c i 64 :=
  freq_step freqAt5 freqAt4 16 32 64 63 (by norm_num) (by norm_num)
    (by norm_num) (by norm_num) freqAt5_eq freqAt4_eq i

theorem freqAt7_eq (i : ℕ) : freqAt7 i = fftfreq_c i 128 :=
  freq_step freqAt6 freqAt5 32 64 128 127 (by norm_num) (by norm_num)
    (by norm_num) (by norm_num) freqAt6_eq freqAt5_eq i

theorem freqAt8_eq (i : ℕ) : freqAt8 i = fftfreq_c i 256 :=
  freq_step freqAt7 freqAt6 64 128 256 255 (by norm_num) (by norm_num)
    (by norm_num) (by norm_num) freqAt7_eq freqAt6_eq i

theorem freqAt9_eq (i : ℕ) : freqAt9 i = fftfreq_c i 512 :=
  freq_step freqAt8 freqAt7 128 256 512 511 (by norm_num) (by norm_num)
    (by norm_num) (by norm_num) freqAt8_eq freqAt7_eq i

theorem freqAt10_eq (i : ℕ) : freqAt10 i = fftfreq_c i 1024 :=
  freq_step freqAt9 freqAt8 256 512 1024 1023 (by norm_num) (by norm_num)
    (by norm_num) (by norm_num) freqAt9_eq freqAt8_eq i

theorem freqAt11_eq (i : ℕ) : freqAt11 i = fftfreq_c i 2048 :=
  freq_step freqAt10 freqAt9 512 1024 2048 2047 (by norm_num) (by norm_num)
    (by norm_num) (by norm_num) freqAt10_eq freqAt9_eq i

theorem freqAt12_eq (i : ℕ) : freqAt12 i = fftfreq_c i 4096 :=
  freq_step freqAt11 freqAt10 1024 2048 4096 4095 (by norm_num) (by norm_num)
    (by norm_num) (by norm_num) freqAt11_eq freqAt10_eq i

theorem freqAt13_eq (i : ℕ) : freqAt13 i = fftfreq_c i 8192 :=
  freq_step freqAt12 freqAt11 2048 4096 8192 8191 (by norm_num) (by norm_num)
    (by norm_num) (by norm_num) freqAt12_eq freqAt11_eq i

theorem freqAt14_eq (i : ℕ) : freqAt14 i = fftfreq_c i 16384 :=
  freq_step freqAt13 freqAt12 4096 8192 16384 16383 (by norm_num) (by norm_num)
    (by norm_num) (by norm_num) freqAt13_eq freqAt12_eq i

theorem freqAt15_eq (i : ℕ) : freqAt15 i = fftfreq_c i 32768 :=
  freq_step freqAt14 freqAt13 8192 16384 32768 32767 (by norm_num) (by norm_num)
    (by norm_num) (by norm_num) freqAt14_eq freqAt13_eq i

/-- The inverse `tauOf` stays below `N`. -/
theorem tauOf_lt (f : ℕ → ℕ) (N : ℕ) (hN : 0 < N) (i : ℕ) : tauOf f N i < N :=
  Nat.mod_lt _ hN

/-- After `WDL_fft_init`, `tauOf` of `fftfreq_c` at the size `2^c` is a right inverse of
`WDL_fft_permute(2^c, ·)`. -/
theorem permute_tauOf {T : Type} [Field T] (F : Trig T) (g0 : Globals T)
    (h0 : g0.ffttabinit = false) (c : ℕ) (hc1 : 1 ≤ c) (hc : c ≤ 15) (f : ℕ → ℕ)
    (hf : ∀ i, f i = fftfreq_c i (2 ^ c)) (i : ℕ) (hi : i < 2 ^ c) :
    WDL_fft_permute (WDL_fft_init F g0) (2 ^ c) (tauOf f (2 ^ c) i) = i := by
  have h := permute_init F g0 h0 c hc1 hc i hi
  have e : tauOf f (2 ^ c) i = (2 ^ c - fftfreq_c i (2 ^ c)) % 2 ^ c := by
    rw [← hf]
    unfold tauOf
    rw [nat_mod_def, nat_sub_def]
  rw [e]
  exact h

end FreqAt
end WDLFFT

namespace WDLFFT
section Certificates

/-- With a checked cycle certificate for the inverse permutation at the size `N = 2^c`, the
table builder returns and what it writes is a cycle table of at most `N + K` entries, `K`
bounding the number of cycles of the certificate. -/
theorem table_fits_of_cert {T : Type} [Field T] (F : Trig T) (g0 : Globals T)
    (h0 : g0.ffttabinit = false) (c : ℕ) (hc1 : 1 ≤ c) (hc : c ≤ 15) (N : ℕ) (hN : N = 2 ^ c)
    (f : ℕ → ℕ) (hf : ∀ i, f i = fftfreq_c i N) (fixed : List ℕ) (orbs : List (ℕ × ℕ))
    (hcert : certOK (tauOf f N) N fixed orbs = true) (hfn : fixed.Nodup)
    (hon : (orbs.map Prod.fst).Nodup)
    (hsum : fixed.length + (orbs.map Prod.snd).sum = N) (K : ℕ) (hK : orbs.length ≤ K)
    (tab : ℕ) :
    ∃ t R, fft_make_reorder_table (WDL_fft_init F g0) c tab = some t ∧
      IsCycleTable (fun x => WDL_fft_permute (WDL_fft_init F g0) (2 ^ c) x) (2 ^ c)
        (WDL_fft_init F g0).s_tab t tab R ∧
      (flatRuns R ++ [0]).length = (runMembers R).length + R.length + 1 ∧
      (flatRuns R ++ [0]).length ≤ 2 ^ c + K := by
  subst hN
  have hpos : 0 < 2 ^ c := Nat.pos_pow_of_pos c (by norm_num)
  have hperm := (init_permOn F g0 h0 c hc1 hc).1
  obtain ⟨t, R, e, ht⟩ := make_table_spec (WDL_fft_init F g0) c hc tab hperm
  obtain ⟨h1, h2⟩ := table_length_le hperm hpos (fun i _ => tauOf_lt f (2 ^ c) hpos i)
    (fun i hi => permute_tauOf F g0 h0 c hc1 hc f hf i hi) fixed orbs hcert hfn hon hsum
    _ t tab R ht
  exact ⟨t, R, e, ht, h1, by omega⟩

/-- The cycles of the inverse of `WDL_fft_permute(2, ·)`: fixed points, and the least index
and the length of every other cycle. -/
theorem cycleCert1 :
    certOK (tauOf freqAt1 2) 2 [0, 1]
      [] = true := by
  decide!

/-- The cycles of the inverse of `WDL_fft_permute(4, ·)`: fixed points, and the least index
and the length of every other cycle. -/
theorem cycleCert2 :
    certOK (tauOf freqAt2 4) 4 [0]
      [(1, 3)] = true := by
  decide!

/-- The cycles of the inverse of `WDL_fft_permute(8, ·)`: fixed points, and the least index
and the length of every other cycle. -/
theorem cycleCert3 :
    certOK (tauOf freqAt3 8) 8 [0]
      [(1, 7)] = true := by
  decide!

/-- The cycles of the inverse of `WDL_fft_permute(16, ·)`: fixed points, and the least index
and the length of every other cycle. -/
theorem cycleCert4 :
    certOK (tauOf freqAt4 16) 16 [0]
      [(1, 7), (3, 8)] = true := by
  decide!

/-- The cycles of the inverse of `WDL_fft_permute(32, ·)`: fixed points, and the least index
and the length of every other cycle. -/
theorem cycleCert5 :
    certOK (tauOf freqAt5 32) 32 [0]
      [(1, 31)] = true := by
  decide!

/-- The cycles of the inverse of `WDL_fft_permute(64, ·)`: fixed points, and the least index
and the length of every other cycle. -/
theorem cycleCert6 :
    certOK (tauOf freqAt6 64) 64 [0, 39]
      [(1, 12), (3, 42), (9, 8)] = true := by
  decide!

/-- The cycles of the inverse of `WDL_fft_permute(128, ·)`: fixed points, and the least index
and the length of every other cycle. -/
theorem cycleCert7 :
    certOK (tauOf freqAt7 128) 128 [0]
      [(1, 13), (3, 44), (4, 13), (9, 51), (14, 6)] = true := by
  decide!

/-- The cycles of the inverse of `WDL_fft_permute(256, ·)`: fixed points, and the least index
and the length of every other cycle. -/
theorem cycleCert8 :
    certOK (tauOf freqAt8 256) 256 [0, 151]
      [(1, 13), (3, 192), (6, 5), (12, 14), (13, 9), (14, 13), (19, 8)] = true := by
  decide!

/-- The cycles of the inverse of `WDL_fft_permute(512, ·)`: fixed points, and the least index
and the length of every other cycle. -/
theorem cycleCert9 :
    certOK (tauOf freqAt9 512) 512 [0]
      [(1, 128), (4, 12), (7, 52), (9, 181), (18, 32), (50, 98), (115, 8)] = true := by
  decide!

/-- The cycles of the inverse of `WDL_fft_permute(1024, ·)`: fixed points, and the least index
and the length of every other cycle. -/
theorem cycleCert10 :
    certOK (tauOf freqAt10 1024) 1024 [0, 599]
      [(1, 25), (3, 180), (4, 701), (25, 30), (26, 67), (77, 8), (79, 11)] = true := by
  decide!

/-- The cycles of the inverse of `WDL_fft_permute(2048, ·)`: fixed points, and the least index
and the length of every other cycle. -/
theorem cycleCert11 :
    certOK (tauOf freqAt11 2048) 2048 [0, 1255]
      [(1, 1919), (58, 8), (59, 8), (106, 33), (135, 31), (206, 7), (210, 8), (212, 32)] = true := by
  decide!

/-- The cycles of the inverse of `WDL_fft_permute(4096, ·)`: fixed points, and the least index
and the length of every other cycle. -/
theorem cycleCert12 :
    certOK (tauOf freqAt12 4096) 4096 [0, 2391]
      [(1, 33), (3, 3109), (12, 341), (25, 499), (54, 38), (221, 40), (313, 25), (431, 6), (453, 3)] = true := by
  decide!

/-- The cycles of the inverse of `WDL_fft_permute(8192, ·)`: fixed points, and the least index
and the length of every other cycle. -/
theorem cycleCert13 :
    certOK (tauOf freqAt13 8192) 8192 [0]
      [(1, 6713), (12, 21), (18, 24), (26, 40), (30, 666), (100, 142), (101, 80), (106, 33), (113,
      262), (144, 37), (150, 5), (237, 8), (244, 22), (247, 36), (386, 14), (468, 66), (513, 7),
      (1210, 13), (4839, 2)] = true := by
  decide!

/-- The cycles of the inverse of `WDL_fft_permute(16384, ·)`: fixed points, and the least index
and the length of every other cycle. -/
theorem cycleCert14 :
    certOK (tauOf freqAt14 16384) 16384 [0, 9559]
      [(1, 22), (3, 16314), (6, 13), (24, 7), (1219, 26)] = true := by
  decide!

/-- The cycles of the inverse of `WDL_fft_permute(32768, ·)`: fixed points, and the least index
and the length of every other cycle. -/
theorem cycleCert15 :
    certOK (tauOf freqAt15 32768) 32768 [0, 19351]
      [(1, 23), (3, 10231), (4, 14885), (7, 2300), (13, 28), (18, 16), (31, 1647), (64, 23), (113,
      451), (145, 2771), (203, 61), (246, 104), (594, 172), (956, 8), (1871, 11), (2439, 13), (4959,
      20), (19175, 2)] = true := by
  decide!

/-- For every bit size, the table builder returns and writes a cycle table of at most
`2^b + 19` entries: the moved indices, one `0` per run and the final `0`. -/
theorem reorder_table_length {T : Type} [Field T] (F : Trig T) (g0 : Globals T)
    (h0 : g0.ffttabinit = false) (b : ℕ) (hb1 : 1 ≤ b) (hb : b ≤ 15) (tab : ℕ) :
    ∃ t R, fft_make_reorder_table (WDL_fft_init F g0) b tab = some t ∧
      IsCycleTable (fun x => WDL_fft_permute (WDL_fft_init F g0) (2 ^ b) x) (2 ^ b)
        (WDL_fft_init F g0).s_tab t tab R ∧
      (flatRuns R ++ [0]).length = (runMembers R).length + R.length + 1 ∧
      (flatRuns R ++ [0]).length ≤ 2 ^ b + 19 := by
  interval_cases b
  · exact table_fits_of_cert F g0 h0 1 (by norm_num) (by norm_num) 2 (by norm_num)
      freqAt1 freqAt1_eq _ _ cycleCert1 (by decide) (by decide) (by decide) 19
      (by decide) tab
  · exact table_fits_of_cert F g0 h0 2 (by norm_num) (by norm_num) 4 (by norm_num)
      freqAt2 freqAt2_eq _ _ cycleCert2 (by decide) (by decide) (by decide) 19
      (by decide) tab
  · exact table_fits_of_cert F g0 h0 3 (by norm_num) (by norm_num) 8 (by norm_num)
      freqAt3 freqAt3_eq _ _ cycleCert3 (by decide) (by decide) (by decide) 19
      (by decide) tab
  · exact table_fits_of_cert F g0 h0 4 (by norm_num) (by norm_num) 16 (by norm_num)
      freqAt4 freqAt4_eq _ _ cycleCert4 (by decide) (by decide) (by decide) 19
      (by decide) tab
  · exact table_fits_of_cert F g0 h0 5 (by norm_num) (by norm_num) 32 (by norm_num)
      freqAt5 freqAt5_eq _ _ cycleCert5 (by decide) (by decide) (by decide) 19
      (by decide) tab
  · exact table_fits_of_cert F g0 h0 6 (by norm_num) (by norm_num) 64 (by norm_num)
      freqAt6 freqAt6_eq _ _ cycleCert6 (by decide) (by decide) (by decide) 19
      (by decide) tab
  · exact table_fits_of_cert F g0 h0 7 (by norm_num) (by norm_num) 128 (by norm_num)
      freqAt7 freqAt7_eq _ _ cycleCert7 (by decide) (by decide) (by decide) 19
      (by decide) tab
  · exact table_fits_of_cert F g0 h0 8 (by norm_num) (by norm_num) 256 (by norm_num)
      freqAt8 freqAt8_eq _ _ cycleCert8 (by decide) (by decide) (by decide) 19
      (by decide) tab
  · exact table_fits_of_cert F g0 h0 9 (by norm_num) (by norm_num) 512 (by norm_num)
      freqAt9 freqAt9_eq _ _ cycleCert9 (by decide) (by decide) (by decide) 19
      (by decide) tab
  · exact table_fits_of_cert F g0 h0 10 (by norm_num) (by norm_num) 1024 (by norm_num)
      freqAt10 freqAt10_eq _ _ cycleCert10 (by decide) (by decide) (by decide) 19
      (by decide) tab
  · exact table_fits_of_cert F g0 h0 11 (by norm_num) (by norm_num) 2048 (by norm_num)
      freqAt11 freqAt11_eq _ _ cycleCert11 (by decide) (by decide) (by decide) 19
      (by decide) tab
  · exact table_fits_of_cert F g0 h0 12 (by norm_num) (by norm_num) 4096 (by norm_num)
      freqAt12 freqAt12_eq _ _ cycleCert12 (by decide) (by decide) (by decide) 19
      (by decide) tab
  · exact table_fits_of_cert F g0 h0 13 (by norm_num) (by norm_num) 8192 (by norm_num)
      freqAt13 freqAt13_eq _ _ cycleCert13 (by decide) (by decide) (by decide) 19
      (by decide) tab
  · exact table_fits_of_cert F g0 h0 14 (by norm_num) (by norm_num) 16384 (by norm_num)
      freqAt14 freqAt14_eq _ _ cycleCert14 (by decide) (by decide) (by decide) 19
      (by decide) tab
  · exact table_fits_of_cert F g0 h0 15 (by norm_num) (by norm_num) 32768 (by norm_num)
      freqAt15 freqAt15_eq _ _ cycleCert15 (by decide) (by decide) (by decide) 19
      (by decide) tab

end Certificates
end WDLFFT

namespace WDLFFT
section TablesFit

/-- The start offsets of the reorder tables in `s_tab`: `2^b + 24·(b-3)` from the bit size
4 on, each followed by room for `2^b + 24` entries before the next start offset, the last
room ending at `S_TAB_SIZE`. -/
theorem reorder_offsets (b : ℕ) (hb4 : 4 ≤ b) (hb : b ≤ 15) :
    fft_reorder_table_for_bitsize b = 2 ^ b + 24 * (b - 3) ∧
    2 ^ b + 24 * (b - 3) + (2 ^ b + 24) = 2 ^ (b + 1) + 24 * (b - 2) ∧
    2 ^ (b + 1) + 24 * (b - 2) ≤ S_TAB_SIZE ∧
    (b < 15 → fft_reorder_table_for_bitsize (b + 1) = 2 ^ (b + 1) + 24 * (b - 2)) := by
  interval_cases b <;>
    simp [fft_reorder_table_for_bitsize, S_TAB_SIZE, Nat.shiftLeft_eq]

theorem reorder_offsets_small :
    (∀ b, b ≤ 3 → fft_reorder_table_for_bitsize b = 0) ∧
    fft_reorder_table_for_bitsize 4 = 40 ∧ S_TAB_SIZE = 65848 := by
  refine ⟨fun b hb => ?_, ?_, ?_⟩
  · simp [fft_reorder_table_for_bitsize, hb]
  · simp [fft_reorder_table_for_bitsize, Nat.shiftLeft_eq]
  · simp [S_TAB_SIZE, Nat.shiftLeft_eq]

/-- Claim C27: the reorder tables fit their reserved storage. For every bit size `b` in
`1..15`, `fft_make_reorder_table(b, fft_reorder_table_for_bitsize(b))` after `WDL_fft_init`
returns; it writes, from its start offset on, the runs of the moved indices (each index
once), one `0` per run and one final `0`, and nothing else of `s_tab`; for `b` in `4..15`
these are at most `2^b + 24` entries, so the table, which starts at the offset
`2^b + 24·(b-3)`, ends before the next start offset `2^(b+1) + 24·(b-2)` and before
`S_TAB_SIZE = 65848`; and for `b` in `1..3`, which start at the offset 0, they are fewer
than 40 entries, the start offset of the bit size 4. -/
theorem reorder_tables_fit {T : Type} [Field T] (F : Trig T) (g0 : Globals T)
    (h0 : g0.ffttabinit = false) (b : ℕ) (hb1 : 1 ≤ b) (hb : b ≤ 15) :
    ∃ t R, fft_make_reorder_table (WDL_fft_init F g0) b (fft_reorder_table_for_bitsize b) =
        some t ∧
      TabHolds t (fft_reorder_table_for_bitsize b) (flatRuns R ++ [0]) ∧
      (∀ p, (p < fft_reorder_table_for_bitsize b ∨
          fft_reorder_table_for_bitsize b + (flatRuns R ++ [0]).length ≤ p) →
        t p = (WDL_fft_init F g0).s_tab p) ∧
      (runMembers R).Nodup ∧
      (∀ x, x ∈ runMembers R ↔
        (x < 2 ^ b ∧ WDL_fft_permute (WDL_fft_init F g0) (2 ^ b) x ≠ x)) ∧
      (flatRuns R ++ [0]).length = (runMembers R).length + R.length + 1 ∧
      (4 ≤ b →
        fft_reorder_table_for_bitsize b = 2 ^ b + 24 * (b - 3) ∧
        (flatRuns R ++ [0]).length ≤ 2 ^ b + 24 ∧
        fft_reorder_table_for_bitsize b + (flatRuns R ++ [0]).length ≤
          2 ^ (b + 1) + 24 * (b - 2) ∧
        2 ^ (b + 1) + 24 * (b - 2) ≤ S_TAB_SIZE ∧
        (b < 15 → fft_reorder_table_for_bitsize (b + 1) = 2 ^ (b + 1) + 24 * (b - 2))) ∧
      (b ≤ 3 →
        fft_reorder_table_for_bitsize b = 0 ∧ (flatRuns R ++ [0]).length < 40 ∧
        fft_reorder_table_for_bitsize 4 = 40) ∧
      S_TAB_SIZE = 65848 := by
  obtain ⟨t, R, e, ht, hlen, hle⟩ :=
    reorder_table_length F g0 h0 b hb1 hb (fft_reorder_table_for_bitsize b)
  obtain ⟨s1, s2, s3⟩ := reorder_offsets_small
  refine ⟨t, R, e, ht.holds, ?_, ht.nodup, ht.mem, hlen, fun hb4 => ?_, fun hb3 => ?_, s3⟩
  · intro p hp
    apply ht.frame p
    rw [List.length_append] at hp
    exact hp
  · obtain ⟨o1, o2, o3, o4⟩ := reorder_offsets b hb4 hb
    refine ⟨o1, by omega, ?_, o3, o4⟩
    rw [o1]
    omega
  · refine ⟨s1 b hb3, ?_, s2⟩
    have h8 : 2 ^ b ≤ 2 ^ 3 := Nat.pow_le_pow_right (by norm_num) hb3
    norm_num at h8
    omega

/-- Witness for C27: bit size 4 (the table of size 16), from the zero-initialised
statics. -/
theorem reorder_tables_fit_witness :
    ∃ t R, fft_make_reorder_table (WDL_fft_init ⟨(0 : ℚ), id, id⟩ zeroGlobals) 4
        (fft_reorder_table_for_bitsize 4) = some t ∧
      TabHolds t (fft_reorder_table_for_bitsize 4) (flatRuns R ++ [0]) ∧
      (flatRuns R ++ [0]).length ≤ 2 ^ 4 + 24 := by
  obtain ⟨t, R, e, h1, _, _, _, _, h4, _⟩ :=
    reorder_tables_fit ⟨(0 : ℚ), id, id⟩ zeroGlobals rfl 4 (by decide) (by decide)
  exact ⟨t, R, e, h1, (h4 (le_refl _)).2.1⟩

end TablesFit
end WDLFFT
